import Mathlib

/-!
# UFRaw `dcraw_indi.c`: a shallow embedding and its verified properties

The C functions of `src/dcraw_indi.c`, and `MaxMidMin` of
`src/ufraw_developer.c`, are translated into executable Lean definitions.
Conventions of the embedding:

* a C `int` is an `Int` (loop counters that only count upwards from a
  non-negative start are `Nat`); where the code applies a bit operation to a
  possibly negative `int`, the operand is first turned into its 32-bit two's
  complement bit pattern (`toU32`), which is what the machine does;
* an `unsigned` or `ushort` value is a `Nat`; a store into a `ushort` slot
  reduces modulo `65536`;
* a pixel buffer `ushort (*image)[4]` is the flat list of its `ushort` slots,
  slot `c` of pixel `i` living at index `4*i + c`; the buffer of 64-bit words
  that `flip_image_INDI` permutes is a list of words;
* a loop whose number of iterations is not bounded by its header takes a
  `fuel` argument and returns `none` when the fuel runs out;
* code that can divide an integer by zero, or convert a floating-point value
  to an `int` that cannot hold it, returns an `Option`, `none` marking the
  step that C leaves undefined;
* a `float` or a `double` is a value of `Fp`: a finite number, the negative
  zero, an infinity or a NaN (IEEE 754 binary32 and binary64); every operation
  delivers its exact result rounded to nearest, ties to even, in the format of
  its C type, an infinity on overflow and a subnormal number or a zero on
  underflow.
-/

set_option maxRecDepth 100000

namespace DcrawIndi

/-! ## Definitions -/

/-- Bit pattern of a C `int` read as a 32-bit unsigned word. -/
def toU32 (x : Int) : Nat := (x % 4294967296).toNat

/-- The macro `FC(row,col)`:
`(int)(filters >> ((((row) << 1 & 14) + ((col) & 1)) << 1) & 3)`.
By C precedence this is `(filters >> ((((row << 1) & 14) + (col & 1)) << 1)) & 3`. -/
def FC (filters : Nat) (row col : Int) : Nat :=
  (filters >>> (((toU32 (row * 2) &&& 14) + (toU32 col &&& 1)) <<< 1)) &&& 3

/-- The table `filter[16][16]` of `fc_INDI`. -/
def filter : List (List Nat) :=
  [ [2,1,1,3,2,3,2,0,3,2,3,0,1,2,1,0],
    [0,3,0,2,0,1,3,1,0,1,1,2,0,3,3,2],
    [2,3,3,2,3,1,1,3,3,1,2,1,2,0,0,3],
    [0,1,0,1,0,2,0,2,2,0,3,0,1,3,2,1],
    [3,1,1,2,0,1,0,2,1,3,1,3,0,1,3,0],
    [2,0,0,3,3,2,3,1,2,0,2,0,3,2,2,1],
    [2,3,3,1,2,1,2,1,2,1,1,2,3,0,0,1],
    [1,0,0,2,3,0,0,3,0,3,0,3,2,1,2,3],
    [2,3,3,1,1,2,1,0,3,2,3,0,2,3,1,3],
    [1,0,2,0,3,0,3,2,0,1,1,2,0,1,0,2],
    [0,1,1,3,3,2,2,1,1,3,3,0,2,1,3,2],
    [2,3,2,0,0,1,3,0,2,0,1,2,3,0,1,0],
    [1,3,1,2,3,2,3,2,0,2,0,1,1,0,3,0],
    [0,2,0,3,1,0,0,1,1,3,3,2,3,2,2,1],
    [2,1,3,2,3,1,2,1,0,3,0,2,0,2,0,2],
    [0,3,1,0,0,2,0,3,2,1,3,1,1,3,1,3] ]

/-- Entry `filter[i][j]` of the table. -/
def filterAt (i j : Nat) : Nat := (filter.getD i []).getD j 0

/-- The function `fc_INDI`:
`if (filters != 1) return FC(row,col);`
`return filter[(row+10) & 8][(col+18) & 15];`. -/
def fc_INDI (filters : Nat) (row col : Int) : Nat :=
  if filters ≠ 1 then FC filters row col
  else filterAt (toU32 (row + 10) &&& 8) (toU32 (col + 18) &&& 15)

/-- The test `flag[i >> 5] & (1 << (i & 31))` on the visited bitmap. -/
def flagTest (flag : List Nat) (i : Nat) : Bool :=
  (flag.getD (i >>> 5) 0) &&& (1 <<< (i &&& 31)) != 0

/-- The update `flag[i >> 5] |= 1 << (i & 31)` of the visited bitmap. -/
def flagSet (flag : List Nat) (i : Nat) : List Nat :=
  flag.set (i >>> 5) ((flag.getD (i >>> 5) 0) ||| (1 <<< (i &&& 31)))

/-- The index `next` computed in the body of the `while (1)` loop of
`flip_image_INDI` from `dest`:
`if (flip & 4) { row = dest % height; col = dest / height; }`
`else { row = dest / width; col = dest % width; }`
`if (flip & 2) row = height - 1 - row; if (flip & 1) col = width - 1 - col;`
`next = row * width + col`.
For `dest < height*width` one has `row < height` and `col < width`, so the
subtractions stay non-negative and are taken in `Nat`. -/
def flipNext (height width flip dest : Nat) : Nat :=
  let row := if flip &&& 4 ≠ 0 then dest % height else dest / width
  let col := if flip &&& 4 ≠ 0 then dest / height else dest % width
  let row := if flip &&& 2 ≠ 0 then height - 1 - row else row
  let col := if flip &&& 1 ≠ 0 then width - 1 - col else col
  row * width + col

/-- The `while (1)` loop of `flip_image_INDI` following the cycle of `base`;
`fuel` bounds the number of iterations, `none` means the bound was reached.
Returns the buffer, the bitmap and the last `dest`. -/
def flipCycle {α : Type} [Inhabited α] (height width flip base : Nat) :
    Nat → List α → List Nat → Nat → Option (List α × List Nat × Nat)
  | 0, _, _, _ => none
  | fuel + 1, img, flag, dest =>
    let next := flipNext height width flip dest
    if next = base then some (img, flag, dest)
    else flipCycle height width flip base fuel
      (img.set dest (img.getD next default)) (flagSet flag next) next

/-- The loop `for (base = 0; base < size; base++)` of `flip_image_INDI`, run
for `cnt` iterations starting at `base`. -/
def flipLoop {α : Type} [Inhabited α] (height width flip fuel : Nat) :
    Nat → Nat → List α → List Nat → Option (List α × List Nat)
  | 0, _, img, flag => some (img, flag)
  | cnt + 1, base, img, flag =>
    if flagTest flag base then flipLoop height width flip fuel cnt (base + 1) img flag
    else
      match flipCycle height width flip base fuel img flag base with
      | none => none
      | some (img1, flag1, dest) =>
        flipLoop height width flip fuel cnt (base + 1)
          (img1.set dest (img.getD base default)) flag1

/-- The function `flip_image_INDI` on a buffer of 64-bit words: returns the
permuted buffer with the new height and width.  `fuel` bounds every run of the
inner loop. -/
def flip_image_INDI {α : Type} [Inhabited α] (img : List α) (height width flip fuel : Nat) :
    Option (List α × Nat × Nat) :=
  let size := height * width
  let flag := List.replicate ((size + 31) >>> 5) 0
  match flipLoop height width flip fuel size 0 img flag with
  | none => none
  | some (img1, _) =>
    if flip &&& 4 ≠ 0 then some (img1, width, height) else some (img1, height, width)

/-- Read of the `ushort` at flat index `i` of a pixel buffer (`0` outside). -/
def rd (img : List Nat) (i : Int) : Nat := if i < 0 then 0 else img.getD i.toNat 0

/-- Store of the `int` value `v` into the `ushort` at flat index `i`. -/
def wr (img : List Nat) (i : Int) (v : Int) : List Nat :=
  if i < 0 then img else img.set i.toNat (v % 65536).toNat

/-- Read of entry `i` of an `int` scratch array. -/
def sget (s : List Int) (i : Nat) : Int := s.getD i 0

/-- The update `s[i] += v` of an `int` scratch array. -/
def sadd (s : List Int) (i : Nat) (v : Int) : List Int := s.set i (s.getD i 0 + v)

/-- The loop `for (i = start; i < start + n; i++) s = f i s`. -/
def loop {σ : Type} (f : Nat → σ → σ) : Nat → Nat → σ → σ
  | 0, _, s => s
  | n + 1, i, s => loop f n (i + 1) (f i s)

/-- The loop `for (i = start; i < start + n; i++)` with a body that may fail
to return. -/
def loopOpt {σ : Type} (f : Nat → σ → Option σ) : Nat → Nat → σ → Option σ
  | 0, _, s => some s
  | n + 1, i, s =>
    match f i s with
    | none => none
    | some s1 => loopOpt f n (i + 1) s1

/-- The array `sum[8]` that `border_interpolate_INDI` computes for the pixel
`(row, col)`: for every in-bounds pixel `(y, x)` of the 3 × 3 neighbourhood,
`f = fc_INDI(filters, y, x); sum[f] += image[y*width + x][f]; sum[f+4]++`. -/
def borderSum (height width filters : Nat) (img : List Nat) (row col : Int) : List Int :=
  ([row - 1, row, row + 1] : List Int).foldl (fun (s : List Int) (y : Int) =>
    ([col - 1, col, col + 1] : List Int).foldl (fun (s : List Int) (x : Int) =>
      if 0 ≤ y ∧ y < height ∧ 0 ≤ x ∧ x < width then
        sadd (sadd s (fc_INDI filters y x)
          (rd img ((y * width + x) * 4 + fc_INDI filters y x))) (fc_INDI filters y x + 4) 1
      else s) s) (List.replicate 8 0)

/-- Body of the loops of `border_interpolate_INDI` for the pixel `(row, col)`:
the sums over the neighbourhood, then the stores
`FORCC if (c != f && sum[c+4]) image[row*width+col][c] = sum[c] / sum[c+4]`. -/
def borderPixel (height width filters colors : Nat) (img : List Nat) (row col : Int) :
    List Nat :=
  loop (fun c im =>
    if c ≠ fc_INDI filters row col ∧ sget (borderSum height width filters img row col) (c + 4) ≠ 0
    then
      wr im ((row * width + col) * 4 + c)
        (Int.tdiv (sget (borderSum height width filters img row col) c)
          (sget (borderSum height width filters img row col) (c + 4)))
    else im) colors 0 img

/-- The loop `for (col=0; col < width; col++)` of `border_interpolate_INDI` for
one row, whose body may move `col` forward or backward:
`if (col==border && row >= border && row < height-border) col = width-border;`.
`fuel` bounds the number of iterations, `none` means the bound was reached. -/
def borderCols (height width filters colors : Nat) (border row : Int) :
    Nat → Int → List Nat → Option (List Nat)
  | 0, _, _ => none
  | fuel + 1, col, img =>
    if col < width then
      let col1 := if col = border ∧ row ≥ border ∧ row < height - border
        then width - border else col
      borderCols height width filters colors border row fuel (col1 + 1)
        (borderPixel height width filters colors img row col1)
    else some img

/-- The function `border_interpolate_INDI`; `fuel` bounds the iterations of the
column loop of each row. -/
def border_interpolate_INDI (height width : Nat) (img : List Nat) (filters colors : Nat)
    (border : Int) (fuel : Nat) : Option (List Nat) :=
  loopOpt (fun row im => borderCols height width filters colors border row fuel 0 im)
    height 0 img

/-- The entry `code[row][col]` built by `lin_interpolate_INDI`: for each of the
8 neighbours the triple `(width*y + x)*4 + color, shift, color`, then for each
colour `c` other than the native one the pair `c, sum[c]`. -/
def linCode (filters width colors : Nat) (row col : Nat) : List Int :=
  let acc : List Int × List Int :=
    [(-1 : Int), 0, 1].foldl (fun a y =>
      [(-1 : Int), 0, 1].foldl (fun a x =>
        let shift : Nat := (if y = 0 then 1 else 0) + (if x = 0 then 1 else 0)
        if shift = 2 then a
        else
          let color := fc_INDI filters (row + y) (col + x)
          (a.1 ++ [(width * y + x) * 4 + color, (shift : Int), (color : Int)],
            sadd a.2 color (1 <<< shift : Nat))) a) ([], List.replicate 4 0)
  loop (fun c ip =>
    if c ≠ fc_INDI filters row col then ip ++ [(c : Int), sget acc.2 c] else ip)
    colors 0 acc.1

/-- What the body of the main loop of `lin_interpolate_INDI` leaves for the
pixel `(row, col)` with table entry `ip` when no divisor `ip[1]` of its stores
is 0:
`for (i=8; i--; ip+=3) sum[ip[2]] += pix[ip[0]] << ip[1];`
`for (i=colors; --i; ip+=2) pix[ip[0]] = sum[ip[0]] / ip[1];`. -/
def linPixelVal (width colors : Nat) (ip : List Int) (img : List Nat) (row col : Nat) :
    List Nat :=
  let pix : Int := ((row : Int) * width + col) * 4
  let sum : List Int :=
    loop (fun i s =>
      sadd s (ip.getD (3 * i + 2) 0).toNat
        ((rd img (pix + ip.getD (3 * i) 0) : Int) * 2 ^ (ip.getD (3 * i + 1) 0).toNat))
      8 0 (List.replicate 4 0)
  loop (fun i im =>
    wr im (pix + ip.getD (24 + 2 * i) 0)
      (Int.tdiv (sget sum (ip.getD (24 + 2 * i) 0).toNat) (ip.getD (24 + 2 * i + 1) 0)))
    (colors - 1) 0 img

/-- None of the `colors - 1` divisors `ip[1]` of the stores of a table entry
is 0. -/
def linSafe (colors : Nat) (ip : List Int) : Bool :=
  (List.range (colors - 1)).all fun i => decide (ip.getD (24 + 2 * i + 1) 0 ≠ 0)

/-- Body of the main loop of `lin_interpolate_INDI` for the pixel `(row, col)`
with table entry `ip`:
`for (i=8; i--; ip+=3) sum[ip[2]] += pix[ip[0]] << ip[1];`
`for (i=colors; --i; ip+=2) pix[ip[0]] = sum[ip[0]] / ip[1];`.
The integer division by a divisor `ip[1]` that is 0 traps and ends the
program: `none`. -/
def linPixel (width colors : Nat) (ip : List Int) (img : List Nat) (row col : Nat) :
    Option (List Nat) :=
  let pix : Int := ((row : Int) * width + col) * 4
  let sum : List Int :=
    loop (fun i s =>
      sadd s (ip.getD (3 * i + 2) 0).toNat
        ((rd img (pix + ip.getD (3 * i) 0) : Int) * 2 ^ (ip.getD (3 * i + 1) 0).toNat))
      8 0 (List.replicate 4 0)
  loopOpt (fun i im =>
    if ip.getD (24 + 2 * i + 1) 0 = 0 then none
    else
      some (wr im (pix + ip.getD (24 + 2 * i) 0)
        (Int.tdiv (sget sum (ip.getD (24 + 2 * i) 0).toNat) (ip.getD (24 + 2 * i + 1) 0))))
    (colors - 1) 0 img

/-- The function `lin_interpolate_INDI`: the border pass of width 1, then the
table-driven pass over the pixels with `1 ≤ row < height-1`,
`1 ≤ col < width-1`.  The result is `none` if the border pass runs out of
fuel or a pixel body divides by 0. -/
def lin_interpolate_INDI (img : List Nat) (filters width height colors fuel : Nat) :
    Option (List Nat) :=
  match border_interpolate_INDI height width img filters colors 1 fuel with
  | none => none
  | some img1 =>
    loopOpt (fun row im =>
      loopOpt (fun col im =>
        linPixel width colors (linCode filters width colors (row &&& 15) (col &&& 15))
          im row col) (width - 1 - 1) 1 im) (height - 1 - 1) 1 img1

/-- At every pixel of the main loop of `lin_interpolate_INDI` no divisor of
the stores is 0: every plane that the stores visit has a neighbour of that
native colour. -/
def LinSafe (filters width height colors : Nat) : Prop :=
  ∀ row col : Nat, 1 ≤ row → row + 1 < height → 1 ≤ col → col + 1 < width →
    linSafe colors (linCode filters width colors (row &&& 15) (col &&& 15)) = true

/-- The table-driven pass of `lin_interpolate_INDI` when no pixel body divides
by 0. -/
def linPass (filters width height colors : Nat) (img1 : List Nat) : List Nat :=
  loop (fun row im =>
    loop (fun col im =>
      linPixelVal width colors (linCode filters width colors (row &&& 15) (col &&& 15))
        im row col) (width - 1 - 1) 1 im) (height - 1 - 1) 1 img1

/-- The mosaic of a uniform image: pixel `(row, col)` holds the value of its
native colour in the native slot and `0` in the other three. -/
def mosaic (filters height width : Nat) (colour : Nat → Nat) : List Nat :=
  (List.range (height * width * 4)).map (fun i =>
    if i % 4 = fc_INDI filters ((i / 4 / width : Nat) : Int) ((i / 4 % width : Nat) : Int)
    then colour (i % 4) else 0)

/-- The table `terms[]` of `vng_interpolate_INDI`, six entries per term:
`y1, x1, y2, x2, weight, grads`.  The last entry is a bit mask of which only
bits 0..7 are tested, so it is kept as the unsigned value written in the
source. -/
def terms : List Int := [
  -2,-2,0,-1,0,0x01, -2,-2,0,0,1,0x01, -2,-1,-1,0,0,0x01,
  -2,-1,0,-1,0,0x02, -2,-1,0,0,0,0x03, -2,-1,0,1,1,0x01,
  -2,0,0,-1,0,0x06, -2,0,0,0,1,0x02, -2,0,0,1,0,0x03,
  -2,1,-1,0,0,0x04, -2,1,0,-1,1,0x04, -2,1,0,0,0,0x06,
  -2,1,0,1,0,0x02, -2,2,0,0,1,0x04, -2,2,0,1,0,0x04,
  -1,-2,-1,0,0,0x80, -1,-2,0,-1,0,0x01, -1,-2,1,-1,0,0x01,
  -1,-2,1,0,1,0x01, -1,-1,-1,1,0,0x88, -1,-1,1,-2,0,0x40,
  -1,-1,1,-1,0,0x22, -1,-1,1,0,0,0x33, -1,-1,1,1,1,0x11,
  -1,0,-1,2,0,0x08, -1,0,0,-1,0,0x44, -1,0,0,1,0,0x11,
  -1,0,1,-2,1,0x40, -1,0,1,-1,0,0x66, -1,0,1,0,1,0x22,
  -1,0,1,1,0,0x33, -1,0,1,2,1,0x10, -1,1,1,-1,1,0x44,
  -1,1,1,0,0,0x66, -1,1,1,1,0,0x22, -1,1,1,2,0,0x10,
  -1,2,0,1,0,0x04, -1,2,1,0,1,0x04, -1,2,1,1,0,0x04,
  0,-2,0,0,1,0x80, 0,-1,0,1,1,0x88, 0,-1,1,-2,0,0x40,
  0,-1,1,0,0,0x11, 0,-1,2,-2,0,0x40, 0,-1,2,-1,0,0x20,
  0,-1,2,0,0,0x30, 0,-1,2,1,1,0x10, 0,0,0,2,1,0x08,
  0,0,2,-2,1,0x40, 0,0,2,-1,0,0x60, 0,0,2,0,1,0x20,
  0,0,2,1,0,0x30, 0,0,2,2,1,0x10, 0,1,1,0,0,0x44,
  0,1,1,2,0,0x10, 0,1,2,-1,1,0x40, 0,1,2,0,0,0x60,
  0,1,2,1,0,0x20, 0,1,2,2,0,0x10, 1,-2,1,0,0,0x80,
  1,-1,1,1,0,0x88, 1,0,1,2,0,0x08, 1,0,2,-1,0,0x40,
  1,0,2,1,0,0x10 ]

/-- The table `chood[]` of `vng_interpolate_INDI`: the eight compass
neighbours `y, x`, clockwise from NW. -/
def chood : List Int := [-1,-1, -1,0, -1,1, 0,1, 1,1, 1,0, 1,-1, 0,-1]

/-- The constant `INT_MAX`. -/
def INT_MAX : Int := 2147483647

/-- The part of `code[row][col]` that one term contributes: nothing if the two
samples differ in colour or lie on the excluded diagonal, else the two offsets,
the weight, the gradient numbers of the mask and `-1`. -/
def vngTerm (filters width : Nat) (row col : Nat) (t : Nat) : List Int :=
  let y1 := terms.getD (6 * t) 0
  let x1 := terms.getD (6 * t + 1) 0
  let y2 := terms.getD (6 * t + 2) 0
  let x2 := terms.getD (6 * t + 3) 0
  let weight := terms.getD (6 * t + 4) 0
  let grads := terms.getD (6 * t + 5) 0
  let color := fc_INDI filters (row + y1) (col + x1)
  if fc_INDI filters (row + y2) (col + x2) ≠ color then []
  else
    let diag : Int :=
      if fc_INDI filters row ((col : Int) + 1) = color ∧ fc_INDI filters ((row : Int) + 1) col = color
      then 2 else 1
    if ((y1 - y2).natAbs : Int) = diag ∧ ((x1 - x2).natAbs : Int) = diag then []
    else
      [(y1 * width + x1) * 4 + color, (y2 * width + x2) * 4 + color, weight]
        ++ ((List.range 8).filter (fun g => grads.toNat &&& (1 <<< g) ≠ 0)).map
            (fun g => (g : Int))
        ++ [-1]

/-- The part of `code[row][col]` for compass direction `g`: the offset of the
neighbour and, when the neighbour has another colour and the pixel beyond it
the pixel's own, the offset of that pixel's sample, else `0`. -/
def vngHood (filters width : Nat) (row col : Nat) (g : Nat) : List Int :=
  let y := chood.getD (2 * g) 0
  let x := chood.getD (2 * g + 1) 0
  let color := fc_INDI filters row col
  [(y * width + x) * 4,
    if fc_INDI filters (row + y) (col + x) ≠ color ∧
        fc_INDI filters (row + y * 2) (col + x * 2) = color
    then (y * width + x) * 8 + color else 0]

/-- The entry `code[row][col]` precalculated by `vng_interpolate_INDI`: the
terms, `INT_MAX`, the eight neighbour descriptors. -/
def vngCode (filters width : Nat) (row col : Nat) : List Int :=
  loop (fun t ip => ip ++ vngTerm filters width row col t) 64 0 []
    ++ [INT_MAX]
    ++ loop (fun g ip => ip ++ vngHood filters width row col g) 8 0 []

/-- The loop `while ((g = *ip++) != -1) gval[g] += diff;` on the table `code`
from position `ip`; returns the gradients and the position after the `-1`. -/
def vngMore (code : List Int) (diff : Int) :
    Nat → Nat → List Int → Option (List Int × Nat)
  | 0, _, _ => none
  | fuel + 1, ip, gval =>
    let g := code.getD ip 0
    if g = -1 then some (gval, ip + 1)
    else vngMore code diff fuel (ip + 1) (sadd gval g.toNat diff)

/-- The loop `while ((g = ip[0]) != INT_MAX)` that accumulates the gradients
of the pixel at flat index `pix`; returns the gradients and the position of the
`INT_MAX` entry. -/
def vngGrads (img : List Nat) (pix : Int) (code : List Int) :
    Nat → Nat → List Int → Option (List Int × Nat)
  | 0, _, _ => none
  | fuel + 1, ip, gval =>
    let g := code.getD ip 0
    if g = INT_MAX then some (gval, ip)
    else
      let diff : Int :=
        (((rd img (pix + g) : Int) - rd img (pix + code.getD (ip + 1) 0)).natAbs : Int)
          * 2 ^ (code.getD (ip + 2) 0).toNat
      let gval1 := sadd gval (code.getD (ip + 3) 0).toNat diff
      let g1 := code.getD (ip + 4) 0
      if g1 = -1 then vngGrads img pix code fuel (ip + 5) gval1
      else
        match vngMore code diff fuel (ip + 5) (sadd gval1 g1.toNat diff) with
        | none => none
        | some (gval2, ip2) => vngGrads img pix code fuel ip2 gval2

/-- The macro `CLIP(x)`, that is `LIM(x,0,65535) = MAX(0, MIN(x, 65535))`. -/
def CLIP (x : Int) : Int := max 0 (min x 65535)

/-- The four slots of the pixel at flat index `pix`. -/
def rdPixel (img : List Nat) (pix : Int) : List Nat :=
  [rd img pix, rd img (pix + 1), rd img (pix + 2), rd img (pix + 3)]

/-- The copy `memcpy (dst, src, n * sizeof *image)` of `n` whole pixels from
flat index `s` of `src` to flat index `d` of `dst`. -/
def copyPixels (dst : List Nat) (d : Int) (src : List Nat) (s : Int) (n : Nat) : List Nat :=
  loop (fun i out => wr out (d + i) (rd src (s + i))) (4 * n) 0 dst

/-- Body of the column loop of `vng_interpolate_INDI` for the pixel
`(row, col)`: the gradients, the threshold, the average over the directions
below the threshold, and the store into `brow[2][col]` (the row buffer `b2`).
`fuel` bounds the walk over the table entry `code`. -/
def vngPixel (filters width colors : Nat) (code : List Int) (fuel : Nat) (img : List Nat)
    (row col : Nat) (b2 : List Nat) : Option (List Nat) :=
  let pix : Int := ((row : Int) * width + col) * 4
  match vngGrads img pix code fuel 0 (List.replicate 8 0) with
  | none => none
  | some (gval, ipEnd) =>
    let ip := ipEnd + 1
    let gmin := loop (fun g m => if m > sget gval g then sget gval g else m) 7 1 (sget gval 0)
    let gmax := loop (fun g m => if m < sget gval g then sget gval g else m) 7 1 (sget gval 0)
    if gmax = 0 then
      some (copyPixels b2 ((col : Int) * 4) img pix 1)
    else
      let thold := gmin + gmax / 2
      let color := fc_INDI filters row col
      let acc : List Int × Int :=
        loop (fun g (a : List Int × Int) =>
          if sget gval g ≤ thold then
            (loop (fun c s =>
                if c = color ∧ code.getD (ip + 2 * g + 1) 0 ≠ 0 then
                  sadd s c (((rd img (pix + c) : Int)
                    + rd img (pix + code.getD (ip + 2 * g + 1) 0)) / 2)
                else sadd s c (rd img (pix + (code.getD (ip + 2 * g) 0 + c))))
              colors 0 a.1, a.2 + 1)
          else a) 8 0 (List.replicate 4 0, 0)
      some (loop (fun c b =>
          let t : Int := rd img (pix + color)
          let t1 : Int :=
            if c ≠ color then t + Int.tdiv (sget acc.1 c - sget acc.1 color) acc.2 else t
          wr b ((col : Int) * 4 + c) (CLIP t1)) colors 0 b2)

/-- State of the row loop of `vng_interpolate_INDI`: the image and the row
buffers `brow[0]`, `brow[1]`, `brow[2]`. -/
structure VngState where
  img : List Nat
  b0 : List Nat
  b1 : List Nat
  b2 : List Nat

/-- Body of the row loop of `vng_interpolate_INDI`: the column loop into
`brow[2]`, the write-back of `brow[0]` into row `row-2` when `row > 3`, and
the rotation `brow[3] = brow[0]; brow[0] = brow[1]; brow[1] = brow[2];
brow[2] = brow[3]`. -/
def vngRow (filters width colors fuel : Nat) (row : Nat) (s : VngState) : Option VngState :=
  let prow := if filters = 1 then 15 else 7
  let pcol := if filters = 1 then 15 else 1
  match loopOpt (fun col b =>
      vngPixel filters width colors
        (vngCode filters width (row &&& prow) (col &&& pcol)) fuel s.img row col b)
      (width - 2 - 2) 2 s.b2 with
  | none => none
  | some b2 =>
    let img1 :=
      if row > 3 then
        copyPixels s.img ((((row : Int) - 2) * width + 2) * 4) s.b0 (2 * 4) (width - 4)
      else s.img
    some { img := img1, b0 := s.b1, b1 := b2, b2 := s.b0 }

/-- The function `vng_interpolate_INDI`: bilinear interpolation, then the row
loop over `2 ≤ row < height-2` with the three rolling row buffers (zeroed by
`calloc`), then the two final write-backs with the value `row` has on leaving
the loop.  `fuel` bounds the border pass and the walks over the tables. -/
def vng_interpolate_INDI (img : List Nat) (filters width height colors fuel : Nat) :
    Option (List Nat) :=
  match lin_interpolate_INDI img filters width height colors fuel with
  | none => none
  | some img1 =>
    let zero := List.replicate (width * 4) 0
    match loopOpt (vngRow filters width colors fuel) (height - 2 - 2) 2
        { img := img1, b0 := zero, b1 := zero, b2 := zero } with
    | none => none
    | some s =>
      let row : Int := 2 + ((height - 2 - 2 : Nat) : Int)
      let img2 := copyPixels s.img (((row - 2) * width + 2) * 4) s.b0 (2 * 4) (width - 4)
      some (copyPixels img2 (((row - 1) * width + 2) * 4) s.b1 (2 * 4) (width - 4))

/-- A scratch buffer of `ahd_interpolate_INDI` (`rgb`, `lab`, `homo`), as the
map from the flat index of an element to its value. -/
structure Buf where
  get : Int → Int

/-- Store of `v` at index `i` of a scratch buffer. -/
def bset (b : Buf) (i v : Int) : Buf := ⟨fun j => if j = i then v else b.get j⟩

/-- A scratch buffer cleared by `memset (…, 0, …)`. -/
def bzero : Buf := ⟨fun _ => 0⟩

/-- The tile size `TS`. -/
def TS : Int := 256

/-- Flat index of `rgb[d][tr][tc][c]` (and of `lab[d][tr][tc][c]`). -/
def rgbIdx (d tr tc c : Int) : Int := ((d * TS + tr) * TS + tc) * 3 + c

/-- Flat index of `homo[d][tr][tc]`. -/
def homoIdx (d tr tc : Int) : Int := (d * TS + tr) * TS + tc

/-- The macro `LIM(x,min,max)`, that is `MAX(min, MIN(x, max))`. -/
def LIM (x mn mx : Int) : Int := max mn (min x mx)

/-- The macro `ULIM(x,y,z)`. -/
def ULIM (x y z : Int) : Int := if y < z then LIM x y z else LIM x z y

/-- The sample `pix[k][c]` for `pix = image + row*width + col`. -/
def pixAt (img : List Nat) (width : Nat) (row col : Nat) (k c : Int) : Int :=
  rd img ((((row : Int) * width + col) + k) * 4 + c)

/-- The green pass of one tile of `ahd_interpolate_INDI`: at every second
pixel of the rows `max(top,2) ≤ row < min(top+TS, height-2)` the horizontal and
the vertical green candidate, each clamped by `ULIM`. -/
def ahdGreen (img : List Nat) (filters width height top left : Nat) (rgb : Buf) : Buf :=
  let r0 := if top < 2 then 2 else top
  let r1 := min (top + 256) (height - 2)
  loop (fun row rgb =>
    let cola := left + (if FC filters row left = 1 then 1 else 0)
    let col0 := if cola < 2 then cola + 2 else cola
    let fc : Int := FC filters row col0
    let c1 := min (left + 256) (width - 2)
    loop (fun i rgb =>
      let col := col0 + 2 * i
      let p := pixAt img width row col
      let valh := ((p (-1) 1 + p 0 fc + p 1 1) * 2 - p (-2) fc - p 2 fc) / 4
      let rgb1 := bset rgb (rgbIdx 0 ((row : Int) - top) ((col : Int) - left) 1)
        (ULIM valh (p (-1) 1) (p 1 1))
      let w : Int := width
      let valv := ((p (-w) 1 + p 0 fc + p w 1) * 2 - p (-2 * w) fc - p (2 * w) fc) / 4
      bset rgb1 (rgbIdx 1 ((row : Int) - top) ((col : Int) - left) 1)
        (ULIM valv (p (-w) 1) (p w 1)))
      ((c1 - col0 + 1) / 2) 0 rgb)
    (r1 - r0) r0 rgb

/-- Body of the red/blue pass of `ahd_interpolate_INDI` for direction `d` and
pixel `(row, col)`: the remaining two colours of the candidate `rix[0]`, the
native sample, and the stores `lab[d][row-top][col-left][c] = 64*flab[c]` of
the values that `labOf` returns for `rix[0]`. -/
def ahdRBPixel (img : List Nat) (filters width top left : Nat)
    (labOf : List Int → List Int) (d row col : Nat) (s : Buf × Buf) : Buf × Buf :=
  let p := pixAt img width row col
  let w : Int := width
  let base := rgbIdx d ((row : Int) - top) ((col : Int) - left) 0
  let rix := fun (rgb : Buf) (k c : Int) => rgb.get (base + k * 3 + c)
  let rgb := s.1
  let c0 : Int := 2 - (FC filters row col : Int)
  let rgb2 : Buf × Int × Int :=
    if c0 = 1 then
      let c : Int := FC filters ((row : Int) + 1) col
      let val := p 0 1 + ((p (-1) (2 - c) + p 1 (2 - c) - rix rgb (-1) 1 - rix rgb 1 1) / 2)
      let rgb1 := bset rgb (base + (2 - c)) (CLIP val)
      (rgb1, c,
        p 0 1 + ((p (-w) c + p w c - rix rgb1 (-TS) 1 - rix rgb1 TS 1) / 2))
    else
      (rgb, c0,
        rix rgb 0 1 + ((p (-w - 1) c0 + p (-w + 1) c0 + p (w - 1) c0 + p (w + 1) c0
            - rix rgb (-TS - 1) 1 - rix rgb (-TS + 1) 1
            - rix rgb (TS - 1) 1 - rix rgb (TS + 1) 1 + 1) / 4))
  let rgb3 := bset rgb2.1 (base + rgb2.2.1) (CLIP rgb2.2.2)
  let cn : Int := FC filters row col
  let rgb4 := bset rgb3 (base + cn) (p 0 cn)
  let flab := labOf [rgb4.get base, rgb4.get (base + 1), rgb4.get (base + 2), rgb4.get (base + 3)]
  (rgb4, loop (fun c lab => bset lab (base + c) (flab.getD c 0)) 3 0 s.2)

/-- The red/blue pass of one tile: both directions, the rows
`top+1 ≤ row < min(top+TS-1, height-1)` and the columns
`left+1 ≤ col < min(left+TS-1, width-1)`. -/
def ahdRB (img : List Nat) (filters width height top left : Nat)
    (labOf : List Int → List Int) (s : Buf × Buf) : Buf × Buf :=
  loop (fun d s =>
    loop (fun row s =>
      loop (fun col s => ahdRBPixel img filters width top left labOf d row col s)
        (min (left + 255) (width - 1) - (left + 1)) (left + 1) s)
      (min (top + 255) (height - 1) - (top + 1)) (top + 1) s) 2 0 s

/-- The offsets `dir[4] = { -1, 1, -TS, TS }`. -/
def dir : List Int := [-1, 1, -TS, TS]

/-- The value `ldiff[d][i]` of the homogeneity pass at tile position
`(tr, tc)`. -/
def ahdLdiff (lab : Buf) (tr tc : Int) (d i : Nat) : Int :=
  ((lab.get (rgbIdx d tr tc 0) - lab.get (rgbIdx d tr (tc + dir.getD i 0) 0)).natAbs : Int)

/-- The value stored into `abdiff[d][i]` when it is computed at tile position
`(tr, tc)`. -/
def ahdAbdiff (lab : Buf) (tr tc : Int) (d i : Nat) : Int :=
  (lab.get (rgbIdx d tr tc 1) - lab.get (rgbIdx d tr (tc + dir.getD i 0) 1)) ^ 2
    + (lab.get (rgbIdx d tr tc 2) - lab.get (rgbIdx d tr (tc + dir.getD i 0) 2)) ^ 2

/-- Body of the homogeneity pass of `ahd_interpolate_INDI` at tile position
`(tr, tc)`; the state is `homo` and the array `abdiff[2][4]`, which keeps the
entries of earlier pixels where the guard `i >> 1 == d || ldiff[d][i] <= leps`
fails. -/
def ahdHomoPixel (lab : Buf) (tr tc : Int) (s : Buf × List Int) : Buf × List Int :=
  let ld := ahdLdiff lab tr tc
  let leps := min (max (ld 0 0) (ld 0 1)) (max (ld 1 2) (ld 1 3))
  let abdiff : List Int :=
    loop (fun d ab =>
      loop (fun i ab =>
        if i >>> 1 = d ∨ ld d i ≤ leps then ab.set (4 * d + i) (ahdAbdiff lab tr tc d i)
        else ab) 4 0 ab) 2 0 s.2
  let ab := fun (d i : Nat) => abdiff.getD (4 * d + i) 0
  let abeps := min (max (ab 0 0) (ab 0 1)) (max (ab 1 2) (ab 1 3))
  (loop (fun d homo =>
      loop (fun i homo =>
        if ld d i ≤ leps ∧ ab d i ≤ abeps then
          bset homo (homoIdx d tr tc) (homo.get (homoIdx d tr tc) + 1)
        else homo) 4 0 homo) 2 0 s.1, abdiff)

/-- The homogeneity pass of one tile, over the rows
`top+2 ≤ row < min(top+TS-2, height)` and the columns
`left+2 ≤ col < min(left+TS-2, width)`, from `homo` cleared by `memset`. -/
def ahdHomo (lab : Buf) (width height top left : Nat) (abdiff : List Int) : Buf × List Int :=
  loop (fun row s =>
    loop (fun col s => ahdHomoPixel lab ((row : Int) - top) ((col : Int) - left) s)
      (min (left + 254) width - (left + 2)) (left + 2) s)
    (min (top + 254) height - (top + 2)) (top + 2) (bzero, abdiff)

/-- The sum `hm[d]` of the counters `homo[d][i][j]` over
`tr-1 ≤ i ≤ tr+1`, `tc-1 ≤ j ≤ tc+1`. -/
def ahdHm (homo : Buf) (d : Nat) (tr tc : Int) : Int :=
  loop (fun i hm =>
    loop (fun j hm => hm + homo.get (homoIdx d (tr - 1 + i) (tc - 1 + j))) 3 0 hm) 3 0 0

/-- Body of the combination pass of `ahd_interpolate_INDI` for the pixel
`(row, col)`:
`if (hm[0] != hm[1]) FORC3 image[row*width+col][c] = rgb[hm[1] > hm[0]][tr][tc][c];`
`else FORC3 image[row*width+col][c] = (rgb[0][tr][tc][c] + rgb[1][tr][tc][c]) >> 1;`. -/
def ahdCombinePixel (rgb homo : Buf) (width top left : Nat) (row col : Nat)
    (img : List Nat) : List Nat :=
  let tr : Int := (row : Int) - top
  let tc : Int := (col : Int) - left
  let hm0 := ahdHm homo 0 tr tc
  let hm1 := ahdHm homo 1 tr tc
  if hm0 ≠ hm1 then
    loop (fun c im =>
      wr im (((row : Int) * width + col) * 4 + c)
        (rgb.get (rgbIdx (if hm1 > hm0 then 1 else 0) tr tc c))) 3 0 img
  else
    loop (fun c im =>
      wr im (((row : Int) * width + col) * 4 + c)
        ((rgb.get (rgbIdx 0 tr tc c) + rgb.get (rgbIdx 1 tr tc c)) / 2)) 3 0 img

/-- The combination pass of one tile, over the rows
`top+3 ≤ row < min(top+TS-3, height-3)` and the columns
`left+3 ≤ col < min(left+TS-3, width-3)`. -/
def ahdCombine (rgb homo : Buf) (width height top left : Nat) (img : List Nat) : List Nat :=
  loop (fun row im =>
    loop (fun col im => ahdCombinePixel rgb homo width top left row col im)
      (min (left + 253) (width - 3) - (left + 3)) (left + 3) im)
    (min (top + 253) (height - 3) - (top + 3)) (top + 3) img

/-- State of `ahd_interpolate_INDI` between tiles: the image, the buffer
`lab` (never cleared) and the array `abdiff`. -/
structure AhdState where
  img : List Nat
  lab : Buf
  abdiff : List Int

/-- Body of the tile loops of `ahd_interpolate_INDI` for the tile at
`(top, left)`: `rgb` cleared, the green pass, the red/blue pass, the
homogeneity pass, the combination pass. -/
def ahdTile (filters width height : Nat) (labOf : List Int → List Int) (top left : Nat)
    (s : AhdState) : AhdState :=
  let rgb0 := ahdGreen s.img filters width height top left bzero
  let rl := ahdRB s.img filters width height top left labOf (rgb0, s.lab)
  let ha := ahdHomo rl.2 width height top left s.abdiff
  { img := ahdCombine rl.1 ha.1 width height top left s.img, lab := rl.2, abdiff := ha.2 }

/-- The function `ahd_interpolate_INDI`: the border pass of width 3, then the
tiles at `top = 0, 250, ... < height`, `left = 0, 250, ... < width`.  `labOf`
stands for `cam_to_cielab_INDI` followed by the conversion of `64*flab[c]` to
`short`; `lab0` and `abdiff0` are the contents of the uninitialised `lab` and
`abdiff` on entry; `fuel` bounds the column loop of the border pass. -/
def ahd_interpolate_INDI (img : List Nat) (filters width height colors : Nat)
    (labOf : List Int → List Int) (lab0 : Buf) (abdiff0 : List Int) (fuel : Nat) :
    Option (List Nat) :=
  match border_interpolate_INDI height width img filters colors 3 fuel with
  | none => none
  | some img1 =>
    some (loop (fun i s =>
        loop (fun j s => ahdTile filters width height labOf (250 * i) (250 * j) s)
          ((width + 249) / 250) 0 s)
      ((height + 249) / 250) 0 { img := img1, lab := lab0, abdiff := abdiff0 }).img

/-- Bit `i` of the bitmap, read arithmetically. -/
def flagBit (flag : List Nat) (i : Nat) : Bool :=
  (flag.getD (i / 32) 0).testBit (i % 32)

/-- The map `p` sends `[0, n)` into itself and is injective there. -/
def PermOn (n : Nat) (p : Nat → Nat) : Prop :=
  (∀ i, i < n → p i < n) ∧ (∀ i j, i < n → j < n → p i = p j → i = j)

/-- State of the inner loop after `j` steps along the orbit of `b`, relative to
the buffer `img1` and bitmap `flag1` at loop entry. -/
structure CycleInv {α : Type} [Inhabited α] (n : Nat) (p : Nat → Nat) (img1 : List α)
    (flag1 : List Nat) (b j : Nat) (img : List α) (flag : List Nat) (dest : Nat) : Prop where
  dest_eq : dest = p^[j] b
  len : img.length = n
  flen : flag.length = flag1.length
  moved : ∀ t, t < j → img.getD (p^[t] b) default = img1.getD (p^[t + 1] b) default
  kept : ∀ i, (∀ t, t < j → i ≠ p^[t] b) → img.getD i default = img1.getD i default
  flags : ∀ i, flagBit flag i = true ↔
    (flagBit flag1 i = true ∨ ∃ t, 1 ≤ t ∧ t ≤ j ∧ i = p^[t] b)

/-- State of the outer loop before iteration `b`: the slots in `D` (a union of
whole cycles) already hold their final word, the others their original word. -/
structure LoopInv {α : Type} [Inhabited α] (n : Nat) (p : Nat → Nat) (img0 : List α)
    (D : Nat → Prop) (b : Nat) (img : List α) (flag : List Nat) : Prop where
  len : img.length = n
  flen : flag.length = (n + 31) >>> 5
  closed : ∀ i, i < n → (D i ↔ D (p i))
  done : ∀ i, i < n → D i → img.getD i default = img0.getD (p i) default
  todo : ∀ i, i < n → ¬ D i → img.getD i default = img0.getD i default
  flagged : ∀ i, i < n → flagBit flag i = true → D i
  low : ∀ i, i < n → D i → flagBit flag i = false → i < b
  cov : ∀ i, i < b → i < n → D i

/-- Source row of the output position `(r, c)` under flip code `F`. -/
def flipRow (height F r c : Nat) : Nat :=
  if F.testBit 1 then height - 1 - (if F.testBit 2 then c else r)
  else (if F.testBit 2 then c else r)

/-- Source column of the output position `(r, c)` under flip code `F`. -/
def flipCol (width F r c : Nat) : Nat :=
  if F.testBit 0 then width - 1 - (if F.testBit 2 then r else c)
  else (if F.testBit 2 then r else c)

/-- Height of the buffer after a flip with code `F`. -/
def flipHeight (height width F : Nat) : Nat := if F.testBit 2 then width else height

/-- Width of the buffer after a flip with code `F`. -/
def flipWidth (height width F : Nat) : Nat := if F.testBit 2 then height else width

/-- The code that undoes flip code `F`: the quarter turns 5 and 6 undo each
other, every other code undoes itself. -/
def flipInv (F : Nat) : Nat := if F = 5 then 6 else if F = 6 then 5 else F

/-- The buffer `out` has the size of `img` and the same native sample at
every pixel of the `height × width` image. -/
def SameNative (filters height width : Nat) (img out : List Nat) : Prop :=
  out.length = img.length ∧
  ∀ y x : Nat, y < height → x < width →
    rd out (((y : Int) * width + x) * 4 + fc_INDI filters y x)
      = rd img (((y : Int) * width + x) * 4 + fc_INDI filters y x)

/-- Every native sample of the `h × w` RGGB image `img` is the value `colour`
gives to its colour. -/
def Uniform (h w : Nat) (colour : Nat → Nat) (img : List Nat) : Prop :=
  ∀ y x : Nat, y < h → x < w →
    rd img (((y : Int) * w + x) * 4 + fc_INDI 0x94949494 y x) = colour (fc_INDI 0x94949494 y x)

/-- The buffer `out` differs from `img` only in slots 0..2 of the pixel
`(row, col)`, which hold the three values of `colour`. -/
def PixelDone (w : Nat) (colour : Nat → Nat) (row col : Nat) (img out : List Nat) : Prop :=
  out.length = img.length ∧
  (∀ j : Int, (j < ((row : Int) * w + col) * 4 ∨ ((row : Int) * w + col) * 4 + 3 ≤ j) →
    rd out j = rd img j) ∧
  (∀ c : Nat, c < 3 → rd out (((row : Int) * w + col) * 4 + c) = colour c)

/-- State of the bilinear pass: the mosaic is still uniform and the pixels in
`P` hold the three values of `colour`. -/
def LinInv (h w : Nat) (colour : Nat → Nat) (P : Nat → Nat → Prop) (img : List Nat) : Prop :=
  img.length = h * w * 4 ∧ Uniform h w colour img ∧
  ∀ y x : Nat, P y x → y < h → x < w → ∀ c : Nat, c < 3 →
    rd img (((y : Int) * w + x) * 4 + c) = colour c

/-- The pixels in `P` hold in slots 0..2 the values `val` assigns to them. -/
def PixelsHold (w : Nat) (val : Nat → Nat → Nat → Nat) (P : Nat → Nat → Prop)
    (img : List Nat) : Prop :=
  ∀ y x : Nat, P y x → x < w → ∀ c : Nat, c < 3 →
    rd img (((y : Int) * w + x) * 4 + c) = val y x c

/-- The value the combination pass stores in plane `c` of a pixel at tile
position `(tr, tc)`, before the conversion to `ushort`. -/
def ahdChoice (rgb homo : Buf) (tr tc : Int) (c : Nat) : Int :=
  if ahdHm homo 0 tr tc ≠ ahdHm homo 1 tr tc then
    rgb.get (rgbIdx (if ahdHm homo 1 tr tc > ahdHm homo 0 tr tc then 1 else 0) tr tc c)
  else (rgb.get (rgbIdx 0 tr tc c) + rgb.get (rgbIdx 1 tr tc c)) / 2

/-- The pixel `(row, col)` lies within `border` of an edge of the
`height × width` image: `row < border`, `row ≥ height - border`,
`col < border` or `col ≥ width - border`. -/
def inBorder (height width border row col : Nat) : Bool :=
  decide (row < border ∨ height ≤ row + border ∨ col < border ∨ width ≤ col + border)

/-- The pass that the claims on `border_interpolate_INDI` describe: the rows
top to bottom, in each row the columns left to right, the body of the source
loop applied once to each pixel within `border` of an edge and to no other. -/
def borderPass (height width filters colors border : Nat) (img : List Nat) : List Nat :=
  loop (fun row im =>
    loop (fun col im =>
      if inBorder height width border row col = true then
        borderPixel height width filters colors im row col
      else im) width 0 im) height 0 img

/-- The 8 positions that surround the pixel `(row, col)`. -/
def neighbours (row col : Int) : List (Int × Int) :=
  [(row - 1, col - 1), (row - 1, col), (row - 1, col + 1), (row, col - 1), (row, col + 1),
    (row + 1, col - 1), (row + 1, col), (row + 1, col + 1)]

/-- The position `p` is inside the image and has native colour `c`. -/
def isNative (height width filters : Nat) (c : Nat) (p : Int × Int) : Bool :=
  decide (0 ≤ p.1 ∧ p.1 < height ∧ 0 ≤ p.2 ∧ p.2 < width ∧ fc_INDI filters p.1 p.2 = c)

/-- The native samples of colour `c` among the in-bounds neighbours of the
pixel `(row, col)` in the image `img`. -/
def neighbourSamples (height width filters : Nat) (img : List Nat) (row col : Int) (c : Nat) :
    List Nat :=
  ((neighbours row col).filter (isNative height width filters c)).map
    (fun p => rd img ((p.1 * width + p.2) * 4 + c))

/-- One step of the scan of `border_interpolate_INDI` over the 3 × 3
neighbourhood, at the position `p = (y, x)`:
`if (y >= 0 && y < height && x >= 0 && x < width) { f = fc_INDI(filters, y, x);`
`sum[f] += image[y*width + x][f]; sum[f+4]++; }`. -/
def borderStep (height width filters : Nat) (img : List Nat) (s : List Int) (p : Int × Int) :
    List Int :=
  if 0 ≤ p.1 ∧ p.1 < height ∧ 0 ≤ p.2 ∧ p.2 < width then
    sadd (sadd s (fc_INDI filters p.1 p.2)
      (rd img ((p.1 * width + p.2) * 4 + fc_INDI filters p.1 p.2))) (fc_INDI filters p.1 p.2 + 4) 1
  else s

/-- Invariant of the pass over the border pixels, `done` being the set of
pixels already processed: the native samples are those of the input `img`, a
processed pixel holds what the pixel body makes of it on the input, every
other pixel is as in the input. -/
def BorderInv (height width filters colors : Nat) (img : List Nat) (done : Nat → Nat → Prop)
    (im : List Nat) : Prop :=
  SameNative filters height width img im ∧
  ∀ y x k : Nat, y < height → x < width → k < 4 →
    (done y x → rd im (((y : Int) * width + x) * 4 + k)
      = rd (borderPixel height width filters colors img y x) (((y : Int) * width + x) * 4 + k)) ∧
    (¬ done y x → rd im (((y : Int) * width + x) * 4 + k)
      = rd img (((y : Int) * width + x) * 4 + k))

/-- The first column of a row in the green pass of `ahd_interpolate_INDI`:
`col = left + (FC(row,left) == 1); if (col < 2) col += 2;`. -/
def ahdCol0 (filters left row : Nat) : Nat :=
  if left + (if FC filters row left = 1 then 1 else 0) < 2
  then left + (if FC filters row left = 1 then 1 else 0) + 2
  else left + (if FC filters row left = 1 then 1 else 0)

/-- The green candidates of the pixel `(row, col)` of a tile lie between the
green samples of its horizontal, and of its vertical, neighbours. -/
def GreenClamped (img : List Nat) (width top left : Nat) (rgb : Buf) (row col : Nat) : Prop :=
  (min (pixAt img width row col (-1) 1) (pixAt img width row col 1 1)
      ≤ rgb.get (rgbIdx 0 ((row : Int) - top) ((col : Int) - left) 1) ∧
    rgb.get (rgbIdx 0 ((row : Int) - top) ((col : Int) - left) 1)
      ≤ max (pixAt img width row col (-1) 1) (pixAt img width row col 1 1)) ∧
  (min (pixAt img width row col (-(width : Int)) 1) (pixAt img width row col (width : Int) 1)
      ≤ rgb.get (rgbIdx 1 ((row : Int) - top) ((col : Int) - left) 1) ∧
    rgb.get (rgbIdx 1 ((row : Int) - top) ((col : Int) - left) 1)
      ≤ max (pixAt img width row col (-(width : Int)) 1)
          (pixAt img width row col (width : Int) 1))

/-- The `while (1)` loop of `flip_image_INDI`, as `flipCycle`, with a record
`tr` of the stores: each `img[dest] = img[next]` appends `dest`. -/
def flipCycleW {α : Type} [Inhabited α] (height width flip base : Nat) :
    Nat → List α → List Nat → Nat → List Nat → Option (List α × List Nat × Nat × List Nat)
  | 0, _, _, _, _ => none
  | fuel + 1, img, flag, dest, tr =>
    let next := flipNext height width flip dest
    if next = base then some (img, flag, dest, tr)
    else flipCycleW height width flip base fuel
      (img.set dest (img.getD next default)) (flagSet flag next) next (tr ++ [dest])

/-- The loop `for (base = 0; base < size; base++)` of `flip_image_INDI`, as
`flipLoop`, with the record of the stores: the closing `img[dest] = hold`
appends `dest`. -/
def flipLoopW {α : Type} [Inhabited α] (height width flip fuel : Nat) :
    Nat → Nat → List α → List Nat → List Nat → Option (List α × List Nat × List Nat)
  | 0, _, img, flag, tr => some (img, flag, tr)
  | cnt + 1, base, img, flag, tr =>
    if flagTest flag base then flipLoopW height width flip fuel cnt (base + 1) img flag tr
    else
      match flipCycleW height width flip base fuel img flag base tr with
      | none => none
      | some (img1, flag1, dest, tr1) =>
        flipLoopW height width flip fuel cnt (base + 1)
          (img1.set dest (img.getD base default)) flag1 (tr1 ++ [dest])

/-- The slots that `flip_image_INDI` stores to, in the order of the stores. -/
def flipWrites {α : Type} [Inhabited α] (img : List α) (height width flip fuel : Nat) :
    Option (List Nat) :=
  (flipLoopW height width flip fuel (height * width) 0 img
    (List.replicate ((height * width + 31) >>> 5) 0) []).map (fun r => r.2.2)

/-- State of the outer loop of `flip_image_INDI` before iteration `b`, as to
the bitmap and the record of the stores: the slots stored to are distinct, form
whole cycles, include every flagged slot and every slot below `b`. -/
structure TraceInv (n : Nat) (p : Nat → Nat) (b : Nat) (flag : List Nat) (tr : List Nat) :
    Prop where
  flen : flag.length = (n + 31) >>> 5
  nodup : tr.Nodup
  bound : ∀ i, i ∈ tr → i < n
  closed : ∀ i, i < n → (i ∈ tr ↔ p i ∈ tr)
  flagged : ∀ i, i < n → flagBit flag i = true → i ∈ tr
  low : ∀ i, i < n → i ∈ tr → flagBit flag i = false → i < b
  cov : ∀ i, i < b → i < n → i ∈ tr

/-- The gradient numbers that term `t` of `terms[]` writes into the table: the
bits of its mask, in increasing order. -/
def termGrads (t : Nat) : List Int :=
  ((List.range 8).filter (fun g => (terms.getD (6 * t + 5) 0).toNat &&& (1 <<< g) ≠ 0)).map
    (fun g => (g : Int))

/-- The blocks that the 64 terms contribute to `code[row][col]`. -/
def vngTerms (filters width : Nat) (row col : Nat) : List (List Int) :=
  (List.range 64).map (vngTerm filters width row col)

/-- A block of the table is empty, or holds two offsets of samples of one
colour at most 2 rows and 2 columns away, a weight, between 1 and 8 gradient
numbers and the terminator `-1`. -/
def GoodBlock (width : Nat) (b : List Int) : Prop :=
  b = [] ∨ ∃ (y1 x1 y2 x2 : Int) (c : Nat) (w : Int) (gs : List Int),
    b = ((y1 * width + x1) * 4 + c) :: ((y2 * width + x2) * 4 + c) :: w :: (gs ++ [-1]) ∧
    (-2 ≤ y1 ∧ y1 ≤ 2) ∧ (-2 ≤ x1 ∧ x1 ≤ 2) ∧ (-2 ≤ y2 ∧ y2 ≤ 2) ∧ (-2 ≤ x2 ∧ x2 ≤ 2) ∧
    c < 4 ∧ gs ≠ [] ∧ gs.length ≤ 8 ∧ ∀ g ∈ gs, g ≠ -1

/-- What the gradient loop of `vng_interpolate_INDI` does with one block: the
absolute difference of the two samples, shifted by the weight, is added to
every gradient the block names. -/
def blockGrad (img : List Nat) (pix : Int) (gval : List Int) (b : List Int) : List Int :=
  match b with
  | o1 :: o2 :: w :: gs =>
    gs.dropLast.foldl (fun gv g =>
      sadd gv g.toNat
        ((((rd img (pix + o1) : Int) - rd img (pix + o2)).natAbs : Int) * 2 ^ w.toNat)) gval
  | _ => gval

/-- The eight neighbour descriptors that close `code[row][col]`. -/
def vngHoods (filters width : Nat) (row col : Nat) : List Int :=
  loop (fun g ip => ip ++ vngHood filters width row col g) 8 0 []

/-- The minimum chosen by `vng_interpolate_INDI`:
`gmin = gval[0]; for (g=1; g < 8; g++) if (gmin > gval[g]) gmin = gval[g];`. -/
def vngGmin (gval : List Int) : Int :=
  loop (fun g m => if m > sget gval g then sget gval g else m) 7 1 (sget gval 0)

/-- The maximum chosen by `vng_interpolate_INDI`:
`gmax = gval[0]; for (g=1; g < 8; g++) if (gmax < gval[g]) gmax = gval[g];`. -/
def vngGmax (gval : List Int) : Int :=
  loop (fun g m => if m < sget gval g then sget gval g else m) 7 1 (sget gval 0)

/-- The threshold `thold = gmin + (gmax >> 1)`. -/
def vngThold (gval : List Int) : Int := vngGmin gval + vngGmax gval / 2

/-- What compass direction `g` adds to `sum[]`: the loop
`FORCC if (c == color && ip[1]) sum[c] += (pix[c] + pix[ip[1]]) >> 1;
else sum[c] += pix[ip[0] + c];` with `ip` at the descriptor of direction `g`. -/
def vngDir (colors color : Nat) (code : List Int) (ip : Nat) (img : List Nat) (pix : Int)
    (g : Nat) (s : List Int) : List Int :=
  loop (fun c s =>
    if c = color ∧ code.getD (ip + 2 * g + 1) 0 ≠ 0 then
      sadd s c (((rd img (pix + c) : Int) + rd img (pix + code.getD (ip + 2 * g + 1) 0)) / 2)
    else sadd s c (rd img (pix + (code.getD (ip + 2 * g) 0 + c))))
    colors 0 s

/-- The loop `for (num=g=0; g < 8; g++,ip+=2) if (gval[g] <= thold) { ...; num++; }`
of `vng_interpolate_INDI`: the array `sum[]` and the count `num`. -/
def vngSums (colors color : Nat) (code : List Int) (ip : Nat) (img : List Nat) (pix : Int)
    (gval : List Int) (thold : Int) : List Int × Int :=
  loop (fun g (a : List Int × Int) =>
    if sget gval g ≤ thold then (vngDir colors color code ip img pix g a.1, a.2 + 1) else a)
    8 0 (List.replicate 4 0, 0)

/-- The loop `FORCC { t = pix[color]; if (c != color) t += (sum[c] - sum[color]) / num;
brow[2][col][c] = CLIP(t); }` of `vng_interpolate_INDI`. -/
def vngStore (colors color : Nat) (img : List Nat) (pix : Int) (col : Nat)
    (acc : List Int × Int) (b2 : List Nat) : List Nat :=
  loop (fun c b =>
    let t : Int := rd img (pix + color)
    let t1 : Int :=
      if c ≠ color then t + Int.tdiv (sget acc.1 c - sget acc.1 color) acc.2 else t
    wr b ((col : Int) * 4 + c) (CLIP t1)) colors 0 b2

/-- The gradients of the pixel at flat index `pix`, accumulated block by block
over the table entry of `(row, col)`. -/
def vngGval (filters width : Nat) (row col : Nat) (img : List Nat) (pix : Int) : List Int :=
  (vngTerms filters width row col).foldl (blockGrad img pix) (List.replicate 8 0)

/-- The position in the table entry of `(row, col)` of the first neighbour
descriptor. -/
def vngHoodAt (filters width : Nat) (row col : Nat) : Nat :=
  (vngTerms filters width row col).flatten.length + 1

/-- Two buffers agree on the flat indices of the rows `row-2 .. row+2`. -/
def AgreeWin (width row : Nat) (a b : List Nat) : Prop :=
  ∀ j : Int, ((row : Int) - 2) * width * 4 ≤ j → j < ((row : Int) + 3) * width * 4 →
    rd a j = rd b j

/-- Every entry of the buffer is a `ushort`. -/
def Ushort (b : List Nat) : Prop := ∀ j : Int, rd b j < 65536

/-- The value that the VNG pixel body computes for plane `k` of the pixel
`(row, col)` from the image `L` with the table entry of `(r0, c0)`. -/
def vngOut (filters width colors r0 c0 : Nat) (L : List Nat) (row col k : Nat) : Nat :=
  if vngGmax (vngGval filters width r0 c0 L (((row : Int) * width + col) * 4)) = 0
  then ((rd L (((row : Int) * width + col) * 4 + k) : Int) % 65536).toNat
  else (CLIP (if k ≠ fc_INDI filters row col
      then (rd L (((row : Int) * width + col) * 4 + fc_INDI filters row col) : Int)
        + Int.tdiv
          (sget (vngSums colors (fc_INDI filters row col) (vngCode filters width r0 c0)
              (vngHoodAt filters width r0 c0) L (((row : Int) * width + col) * 4)
              (vngGval filters width r0 c0 L (((row : Int) * width + col) * 4))
              (vngThold (vngGval filters width r0 c0 L (((row : Int) * width + col) * 4)))).1 k
            - sget (vngSums colors (fc_INDI filters row col) (vngCode filters width r0 c0)
              (vngHoodAt filters width r0 c0) L (((row : Int) * width + col) * 4)
              (vngGval filters width r0 c0 L (((row : Int) * width + col) * 4))
              (vngThold (vngGval filters width r0 c0 L (((row : Int) * width + col) * 4)))).1
              (fc_INDI filters row col))
          (vngSums colors (fc_INDI filters row col) (vngCode filters width r0 c0)
              (vngHoodAt filters width r0 c0) L (((row : Int) * width + col) * 4)
              (vngGval filters width r0 c0 L (((row : Int) * width + col) * 4))
              (vngThold (vngGval filters width r0 c0 L (((row : Int) * width + col) * 4)))).2
      else (rd L (((row : Int) * width + col) * 4 + fc_INDI filters row col) : Int))
    % 65536).toNat

/-- The value VNG computes from the image `L` for plane `k` of the pixel
`(row, col)`, with the table entry that the row loop selects for the pixel. -/
def vngVal (filters width colors : Nat) (L : List Nat) (row col k : Nat) : Nat :=
  vngOut filters width colors (row &&& (if filters = 1 then 15 else 7))
    (col &&& (if filters = 1 then 15 else 1)) L row col k

/-- The plane `k` of the pixel `(row, col)` is one that the pixel body stores:
a plane below `colors`, or any plane when the greatest gradient of the pixel
in the image `L` is zero. -/
def Stored (filters width colors : Nat) (L : List Nat) (row col k : Nat) : Prop :=
  k < colors ∨
    vngGmax (vngGval filters width (row &&& (if filters = 1 then 15 else 7))
      (col &&& (if filters = 1 then 15 else 1)) L (((row : Int) * width + col) * 4)) = 0

/-- The row buffer `B` holds the results of row `r`. -/
def RowHolds (filters width colors : Nat) (L : List Nat) (r : Nat) (B : List Nat) : Prop :=
  ∀ col k : Nat, 2 ≤ col → col + 2 < width → k < 4 → Stored filters width colors L r col k →
    rd B ((col : Int) * 4 + k) = vngVal filters width colors L r col k

/-- State of the row loop of `vng_interpolate_INDI` on entering the iteration
`row`: the image still agrees with the bilinear image `L` from the row `row-2`
on, the rows `2 .. row-3` hold their results, and the row buffers `brow[0]`
and `brow[1]` hold the results of the rows `row-2` and `row-1`. -/
structure VngInv (filters width colors : Nat) (L : List Nat) (row : Nat) (s : VngState) :
    Prop where
  len : s.img.length = L.length
  l0 : s.b0.length = width * 4
  l1 : s.b1.length = width * 4
  l2 : s.b2.length = width * 4
  u0 : Ushort s.b0
  u1 : Ushort s.b1
  u2 : Ushort s.b2
  agree : ∀ j : Int, ((row : Int) - 2) * width * 4 ≤ j → rd s.img j = rd L j
  done : ∀ r col k : Nat, 2 ≤ r → r + 3 ≤ row → 2 ≤ col → col + 2 < width → k < 4 →
    Stored filters width colors L r col k →
    rd s.img (((r : Int) * width + col) * 4 + k) = vngVal filters width colors L r col k
  h0 : 4 ≤ row → RowHolds filters width colors L (row - 2) s.b0
  h1 : 3 ≤ row → RowHolds filters width colors L (row - 1) s.b1

/-- The function `MaxMidMin` of `ufraw_developer.c`: for the three components
`p[0..2]` (of type `gint64`, only compared), the triple `(maxc, midc, minc)`
stored through the three pointers. -/
def MaxMidMin (p : List Int) : Nat × Nat × Nat :=
  if p.getD 0 0 > p.getD 1 0 ∧ p.getD 0 0 > p.getD 2 0 then
    if p.getD 1 0 > p.getD 2 0 then (0, 1, 2) else (0, 2, 1)
  else if p.getD 1 0 > p.getD 2 0 then
    if p.getD 0 0 > p.getD 2 0 then (1, 0, 2) else (1, 2, 0)
  else
    if p.getD 0 0 > p.getD 1 0 then (2, 0, 1) else (2, 1, 0)

/-- State of the homogeneity pass of a tile, `V` being the set of pixels
already visited: every counter is between 0 and 4, and the counters of the
positions not yet visited are still 0. -/
def HomoOk (top left : Nat) (V : Nat → Nat → Prop) (homo : Buf) : Prop :=
  (∀ j, 0 ≤ homo.get j ∧ homo.get j ≤ 4) ∧
  ∀ d row col : Nat, d < 2 → top + 2 ≤ row → row < top + 254 → left + 2 ≤ col →
    col < left + 254 → ¬ V row col →
    homo.get (homoIdx d ((row : Int) - top) ((col : Int) - left)) = 0

/-- The value `leps = MIN(MAX(ldiff[0][0],ldiff[0][1]), MAX(ldiff[1][2],ldiff[1][3]))`
at tile position `(tr, tc)`. -/
def ahdLeps (lab : Buf) (tr tc : Int) : Int :=
  min (max (ahdLdiff lab tr tc 0 0) (ahdLdiff lab tr tc 0 1))
    (max (ahdLdiff lab tr tc 1 2) (ahdLdiff lab tr tc 1 3))

/-- The loops `if (i >> 1 == d || ldiff[d][i] <= leps) abdiff[d][i] = ...` of the
homogeneity body: the array `abdiff[2][4]` after them. -/
def ahdAbdiffs (lab : Buf) (tr tc : Int) (ab : List Int) : List Int :=
  loop (fun d ab =>
    loop (fun i ab =>
      if i >>> 1 = d ∨ ahdLdiff lab tr tc d i ≤ ahdLeps lab tr tc
      then ab.set (4 * d + i) (ahdAbdiff lab tr tc d i) else ab) 4 0 ab) 2 0 ab

/-- The value `abeps = MIN(MAX(abdiff[0][0],abdiff[0][1]), MAX(abdiff[1][2],abdiff[1][3]))`. -/
def ahdAbeps (abdiff : List Int) : Int :=
  min (max (abdiff.getD (4 * 0 + 0) 0) (abdiff.getD (4 * 0 + 1) 0))
    (max (abdiff.getD (4 * 1 + 2) 0) (abdiff.getD (4 * 1 + 3) 0))

/-- The loops `if (ldiff[d][i] <= leps && abdiff[d][i] <= abeps) homo[d][tr][tc]++`
of the homogeneity body. -/
def ahdCount (lab : Buf) (tr tc : Int) (abdiff : List Int) (homo : Buf) : Buf :=
  loop (fun d homo =>
    loop (fun i homo =>
      if ahdLdiff lab tr tc d i ≤ ahdLeps lab tr tc
          ∧ abdiff.getD (4 * d + i) 0 ≤ ahdAbeps abdiff then
        bset homo (homoIdx d tr tc) (homo.get (homoIdx d tr tc) + 1)
      else homo) 4 0 homo) 2 0 homo

/-- The test of the counting loops with every chroma difference computed
afresh for the pixel. -/
def ahdHomoTest (lab : Buf) (tr tc : Int) (d i : Nat) : Bool :=
  decide (ahdLdiff lab tr tc d i ≤ ahdLeps lab tr tc
    ∧ ahdAbdiff lab tr tc d i
      ≤ min (max (ahdAbdiff lab tr tc 0 0) (ahdAbdiff lab tr tc 0 1))
          (max (ahdAbdiff lab tr tc 1 2) (ahdAbdiff lab tr tc 1 3)))

/-- The counters after the homogeneity body when every chroma difference is
computed afresh: no entry of `abdiff` left by an earlier pixel is used. -/
def ahdCountFresh (lab : Buf) (tr tc : Int) (homo : Buf) : Buf :=
  loop (fun d homo =>
    loop (fun i homo =>
      if ahdHomoTest lab tr tc d i = true then
        bset homo (homoIdx d tr tc) (homo.get (homoIdx d tr tc) + 1)
      else homo) 4 0 homo) 2 0 homo

/-- The values `(top, left)` of the tile loops
`for (top=0; top < height; top += TS-6) for (left=0; left < width; left += TS-6)`
of `ahd_interpolate_INDI`, in the order of the loops. -/
def ahdTiles (height width : Nat) : List (Nat × Nat) :=
  (List.range' 0 ((height + 249) / 250)).flatMap fun i =>
    (List.range' 0 ((width + 249) / 250)).map fun j => (250 * i, 250 * j)

/-- The values `(row, col)` of the loops
`for (row=top+3; row < top+TS-3 && row < height-3; row++)`
`for (col=left+3; col < left+TS-3 && col < width-3; col++)` of the combination
pass of the tile at `(top, left)`, in the order of the loops. -/
def ahdCombinePixels (width height top left : Nat) : List (Nat × Nat) :=
  (List.range' (top + 3) (min (top + 253) (height - 3) - (top + 3))).flatMap fun row =>
    (List.range' (left + 3) (min (left + 253) (width - 3) - (left + 3))).map fun col =>
      (row, col)

/-- A 3-colour Bayer descriptor: every `FC(row,col)` is 0, 1 or 2, the pixels
of colour 1 (green) form a checkerboard, and the two pixels on a diagonal of a
2 × 2 block are both green or one red and one blue. -/
def IsBayer (filters : Nat) : Prop :=
  ∀ row col : Nat,
    FC filters row col ≤ 2 ∧
    (FC filters row col = 1 ↔ FC filters row ((col : Int) + 1) ≠ 1) ∧
    (FC filters row col = 1 ↔ FC filters ((row : Int) + 1) col ≠ 1) ∧
    FC filters ((row : Int) + 1) ((col : Int) + 1) + FC filters row col = 2

/-- The test of `IsBayer` on the 8 × 2 positions that `FC` distinguishes. -/
def isBayerCheck (filters : Nat) : Bool :=
  (List.range 8).all fun row => (List.range 2).all fun col =>
    decide (FC filters row col ≤ 2 ∧
      (FC filters row col = 1 ↔ FC filters row ((col : Int) + 1) ≠ 1) ∧
      (FC filters row col = 1 ↔ FC filters ((row : Int) + 1) col ≠ 1) ∧
      FC filters ((row : Int) + 1) ((col : Int) + 1) + FC filters row col = 2)

/-- Two images of `height × width` pixels with the same native samples. -/
def NatEq (filters width height : Nat) (a b : List Nat) : Prop :=
  a.length = height * width * 4 ∧ b.length = height * width * 4 ∧
  ∀ row col : Nat, row < height → col < width →
    rd a (((row : Int) * width + col) * 4 + FC filters row col)
      = rd b (((row : Int) * width + col) * 4 + FC filters row col)

/-- The pairs of values `(i, j)` of the variables of two nested counted loops
`for (i = a; i < a + n; i++) for (j = b; j < b + m; j++)`, in the order of the
loops. -/
def loopPairs (a n b m : Nat) : List (Nat × Nat) :=
  (List.range' a n).flatMap fun i => (List.range' b m).map fun j => (i, j)

/-- Body of the green pass of `ahd_interpolate_INDI` for the pixel
`(row, col)` of colour `fc`: the horizontal and the vertical green candidate,
each clamped by `ULIM`. -/
def ahdGreenPixel (img : List Nat) (width top left row col : Nat) (fc : Int) (rgb : Buf) : Buf :=
  let p := pixAt img width row col
  let valh := ((p (-1) 1 + p 0 fc + p 1 1) * 2 - p (-2) fc - p 2 fc) / 4
  let rgb1 := bset rgb (rgbIdx 0 ((row : Int) - top) ((col : Int) - left) 1)
    (ULIM valh (p (-1) 1) (p 1 1))
  let w : Int := width
  let valv := ((p (-w) 1 + p 0 fc + p w 1) * 2 - p (-2 * w) fc - p (2 * w) fc) / 4
  bset rgb1 (rgbIdx 1 ((row : Int) - top) ((col : Int) - left) 1)
    (ULIM valv (p (-w) 1) (p w 1))

/-- The stores into `rgb` of the body of the red/blue pass of
`ahd_interpolate_INDI` for direction `d` and pixel `(row, col)`: the remaining
two colours of the candidate `rix[0]` and the native sample. -/
def ahdRBrgb (img : List Nat) (filters width top left : Nat) (d row col : Nat) (rgb : Buf) :
    Buf :=
  let p := pixAt img width row col
  let w : Int := width
  let base := rgbIdx d ((row : Int) - top) ((col : Int) - left) 0
  let rix := fun (rgb : Buf) (k c : Int) => rgb.get (base + k * 3 + c)
  let c0 : Int := 2 - (FC filters row col : Int)
  let rgb2 : Buf × Int × Int :=
    if c0 = 1 then
      let c : Int := FC filters ((row : Int) + 1) col
      let val := p 0 1 + ((p (-1) (2 - c) + p 1 (2 - c) - rix rgb (-1) 1 - rix rgb 1 1) / 2)
      let rgb1 := bset rgb (base + (2 - c)) (CLIP val)
      (rgb1, c,
        p 0 1 + ((p (-w) c + p w c - rix rgb1 (-TS) 1 - rix rgb1 TS 1) / 2))
    else
      (rgb, c0,
        rix rgb 0 1 + ((p (-w - 1) c0 + p (-w + 1) c0 + p (w - 1) c0 + p (w + 1) c0
            - rix rgb (-TS - 1) 1 - rix rgb (-TS + 1) 1
            - rix rgb (TS - 1) 1 - rix rgb (TS + 1) 1 + 1) / 4))
  let rgb3 := bset rgb2.1 (base + rgb2.2.1) (CLIP rgb2.2.2)
  let cn : Int := FC filters row col
  bset rgb3 (base + cn) (p 0 cn)

/-- The red/blue pass of one tile for the direction `d`. -/
def ahdRBPass (img : List Nat) (filters width height top left : Nat)
    (labOf : List Int → List Int) (d : Nat) (s : Buf × Buf) : Buf × Buf :=
  loop (fun row s =>
    loop (fun col s => ahdRBPixel img filters width top left labOf d row col s)
      (min (left + 255) (width - 1) - (left + 1)) (left + 1) s)
    (min (top + 255) (height - 1) - (top + 1)) (top + 1) s

/-- The pixels of the red/blue pass of the tile at `(top, left)`. -/
def ahdRBPixels (width height top left : Nat) : List (Nat × Nat) :=
  loopPairs (top + 1) (min (top + 255) (height - 1) - (top + 1))
    (left + 1) (min (left + 255) (width - 1) - (left + 1))

/-- Two buffers `lab` with the same entries for the pixels of the red/blue
pass of the tile at `(top, left)`. -/
def LabAgree (width height top left : Nat) (lab1 lab2 : Buf) : Prop :=
  ∀ (d row col : Nat) (c : Int), d < 2 → (row, col) ∈ ahdRBPixels width height top left →
    0 ≤ c → c ≤ 2 →
    lab1.get (rgbIdx d ((row : Int) - top) ((col : Int) - left) 0 + c)
      = lab2.get (rgbIdx d ((row : Int) - top) ((col : Int) - left) 0 + c)

/-- The tile whose combination pass holds the pixel `(row, col)`. -/
def ahdTileOf (row col : Nat) : Nat × Nat := (250 * ((row - 3) / 250), 250 * ((col - 3) / 250))

/-- State of `ahd_interpolate_INDI` after the tiles of the list `pre`, in any
order, from the image `img1` left by the border pass: the native samples are
those of `img1`, `abdiff` has its 8 entries, a pixel combined by a tile of
`pre` holds in the planes 0..2 what that tile alone writes on `img1` (from a
cleared `lab` and a cleared `abdiff`), and every other sample is that of
`img1`. -/
def AhdInv (filters width height : Nat) (labOf : List Int → List Int) (img1 : List Nat)
    (pre : List (Nat × Nat)) (s : AhdState) : Prop :=
  NatEq filters width height img1 s.img ∧ s.abdiff.length = 8 ∧
  ∀ row col k : Nat, row < height → col < width → k < 4 →
    ((k < 3 ∧ (3 ≤ row ∧ row + 3 < height ∧ 3 ≤ col ∧ col + 3 < width)
        ∧ ahdTileOf row col ∈ pre) →
      rd s.img (((row : Int) * width + col) * 4 + k)
        = rd (ahdTile filters width height labOf (ahdTileOf row col).1 (ahdTileOf row col).2
            { img := img1, lab := bzero, abdiff := List.replicate 8 0 }).img
          (((row : Int) * width + col) * 4 + k)) ∧
    (¬ (k < 3 ∧ (3 ≤ row ∧ row + 3 < height ∧ 3 ≤ col ∧ col + 3 < width)
        ∧ ahdTileOf row col ∈ pre) →
      rd s.img (((row : Int) * width + col) * 4 + k)
        = rd img1 (((row : Int) * width + col) * 4 + k))

/-- A value of the C types `float` and `double` (IEEE 754 binary32 and
binary64): a finite number (`fin 0` is `+0`), the negative zero, an infinity
with its sign, or a NaN.  A `float` converts to `double` without change, so the
two types share this one; they differ in the rounding applied after each
operation. -/
inductive Fp where
  | fin (q : ℚ)
  | negZero
  | inf (neg : Bool)
  | nan
  deriving DecidableEq, Repr

/-- The number held by a finite value; 0 for the other values. -/
def Fp.val : Fp → ℚ
  | Fp.fin q => q
  | _ => 0

/-- The sign bit of a value that is not a NaN. -/
def Fp.isNeg : Fp → Bool
  | Fp.fin q => decide (q < 0)
  | Fp.negZero => true
  | Fp.inf s => s
  | Fp.nan => false

/-- The value is neither an infinity nor a NaN. -/
def Fp.isFinite : Fp → Bool
  | Fp.fin _ => true
  | Fp.negZero => true
  | _ => false

/-- The C test `x == 0`, true of both zeros. -/
def Fp.isZero : Fp → Bool
  | Fp.fin q => decide (q = 0)
  | Fp.negZero => true
  | _ => false

/-- The zero of the given sign. -/
def Fp.zero (neg : Bool) : Fp := if neg then Fp.negZero else Fp.fin 0

/-- Conversion of a number to `int`: truncation toward zero. -/
def truncInt (q : ℚ) : Int := if 0 ≤ q then Int.floor q else Int.ceil q

/-- Rounding of a number to the nearest integer, a tie to the even one. -/
def rne (x : ℚ) : Int :=
  if x - Int.floor x < 1 / 2 then Int.floor x
  else if 1 / 2 < x - Int.floor x then Int.floor x + 1
  else if Int.floor x % 2 = 0 then Int.floor x
  else Int.floor x + 1

/-- The magnitude `q ≥ 0` rounded to nearest, ties to even, in the binary
format of precision `p` and least exponent `emin`, the exponent not bounded
above: with `e` the exponent of the binade of `q`, at least `emin` (below it
the values are subnormal), the nearest multiple of `2 ^ (e - (p - 1))`. -/
def Fp.mag (p : Nat) (emin : Int) (q : ℚ) : ℚ :=
  (rne (q / 2 ^ (max (Int.log 2 q) emin - ((p : Int) - 1))) : ℚ)
    * 2 ^ (max (Int.log 2 q) emin - ((p : Int) - 1))

/-- The value that an operation of exact result `q` delivers in the binary
format of precision `p` and exponent range `emin .. emax`, in the rounding mode
to nearest, ties to even: an infinity on overflow, a zero of the sign of `q`
on underflow to zero. -/
def Fp.round (p : Nat) (emin emax : Int) (q : ℚ) : Fp :=
  if (2 : ℚ) ^ (emax + 1) ≤ Fp.mag p emin |q| then Fp.inf (decide (q < 0))
  else if Fp.mag p emin |q| = 0 then Fp.zero (decide (q < 0))
  else Fp.fin (if q < 0 then - Fp.mag p emin |q| else Fp.mag p emin |q|)

/-- Rounding to `float`. -/
def f32 (q : ℚ) : Fp := Fp.round 24 (-126) 127 q

/-- Rounding to `double`. -/
def f64 (q : ℚ) : Fp := Fp.round 53 (-1022) 1023 q

/-- The negation `-a`. -/
def Fp.neg : Fp → Fp
  | Fp.fin q => if q = 0 then Fp.negZero else Fp.fin (-q)
  | Fp.negZero => Fp.fin 0
  | Fp.inf s => Fp.inf (!s)
  | Fp.nan => Fp.nan

/-- The sum `a + b`, rounded by `rnd`. -/
def Fp.add (rnd : ℚ → Fp) (a b : Fp) : Fp :=
  if a = Fp.nan ∨ b = Fp.nan then Fp.nan
  else if a.isFinite = true then
    if b.isFinite = true then
      if a.val + b.val = 0 then Fp.zero (a.isNeg && b.isNeg) else rnd (a.val + b.val)
    else b
  else if b.isFinite = true then a
  else if a = b then a
  else Fp.nan

/-- The difference `a - b`, rounded by `rnd`. -/
def Fp.sub (rnd : ℚ → Fp) (a b : Fp) : Fp := Fp.add rnd a (Fp.neg b)

/-- The product `a * b`, rounded by `rnd`. -/
def Fp.mul (rnd : ℚ → Fp) (a b : Fp) : Fp :=
  if a = Fp.nan ∨ b = Fp.nan then Fp.nan
  else if a.isFinite = true ∧ b.isFinite = true then
    if a.val * b.val = 0 then Fp.zero (xor a.isNeg b.isNeg) else rnd (a.val * b.val)
  else if a.isZero = true ∨ b.isZero = true then Fp.nan
  else Fp.inf (xor a.isNeg b.isNeg)

/-- The quotient `a / b`, rounded by `rnd`: a NaN for `0 / 0` and
`inf / inf`, an infinity for a non-zero value over a zero. -/
def Fp.div (rnd : ℚ → Fp) (a b : Fp) : Fp :=
  if a = Fp.nan ∨ b = Fp.nan then Fp.nan
  else if a.isFinite = true then
    if b.isFinite = true then
      if b.val = 0 then (if a.val = 0 then Fp.nan else Fp.inf (xor a.isNeg b.isNeg))
      else if a.val = 0 then Fp.zero (xor a.isNeg b.isNeg)
      else rnd (a.val / b.val)
    else Fp.zero (xor a.isNeg b.isNeg)
  else if b.isFinite = true then Fp.inf (xor a.isNeg b.isNeg)
  else Fp.nan

/-- The C comparison `a < b`, false when an operand is a NaN. -/
def Fp.lt (a b : Fp) : Bool :=
  if a = Fp.nan ∨ b = Fp.nan then false
  else if a = Fp.inf false ∨ b = Fp.inf true then false
  else if a = Fp.inf true ∨ b = Fp.inf false then true
  else decide (a.val < b.val)

/-- The C comparison `a <= b`, false when an operand is a NaN. -/
def Fp.le (a b : Fp) : Bool :=
  if a = Fp.nan ∨ b = Fp.nan then false
  else if a = Fp.inf true ∨ b = Fp.inf false then true
  else if a = Fp.inf false ∨ b = Fp.inf true then false
  else decide (a.val ≤ b.val)

/-- Conversion of an `int` to the format rounded by `rnd`. -/
def Fp.ofInt (rnd : ℚ → Fp) (n : Int) : Fp := rnd (n : ℚ)

/-- Conversion of a `double` to the narrower format rounded by `rnd`. -/
def Fp.cast (rnd : ℚ → Fp) : Fp → Fp
  | Fp.fin q => rnd q
  | a => a

/-- Conversion to `int` by truncation toward zero; undefined (`none`) for an
infinity, for a NaN, and for a value whose integer part is outside the range
of `int`. -/
def Fp.toInt : Fp → Option Int
  | Fp.fin q => if -2 ^ 31 ≤ truncInt q ∧ truncInt q < 2 ^ 31 then some (truncInt q) else none
  | Fp.negZero => some 0
  | _ => none

/-- Conversion for a store into a `ushort`, of which the store `wr` keeps the
low 16 bits: truncation toward zero; undefined (`none`) for an infinity and a
NaN. -/
def Fp.trunc : Fp → Option Int
  | Fp.fin q => some (truncInt q)
  | Fp.negZero => some 0
  | _ => none

/-- The constant `DBL_MAX`. -/
def DBL_MAX : Fp := Fp.fin (2 ^ 1024 - 2 ^ 971)

/-- Read of entry `c` of a `float` array of multipliers. -/
def mget (m : List Fp) (c : Nat) : Fp := m.getD c (Fp.fin 0)

/-- Body of the innermost loop `FORC4` of the auto mode of
`scale_colors_INDI` for the sample `image[y*width+x][c]`; the state is the
array `sum[8]` of the block, or `none` once `goto skip_block` was taken.
(The arrays `min[]` and `max[]` that the source also updates here are never
read and are left out.) -/
def blockSample (img : List Nat) (width : Nat) (black maximum : Int) (y x c : Nat)
    (s : Option (List Int)) : Option (List Int) :=
  match s with
  | none => none
  | some sum =>
    let val : Int := rd img ((((y : Int) * width + x)) * 4 + c)
    if val = 0 then some sum
    else
      let val1 := val - black
      if val1 > maximum - 25 then none
      else
        let val2 := if val1 < 0 then 0 else val1
        some (sadd (sadd sum c val2) (c + 4) 1)

/-- The array `sum[8]` of the 7 × 7 block at `(row, col)` in the auto mode of
`scale_colors_INDI`, or `none` if the block is skipped; `maximum` is the
ceiling with `black` already subtracted. -/
def blockSum (img : List Nat) (width : Nat) (black maximum : Int) (row col : Nat) :
    Option (List Int) :=
  loop (fun y s =>
    loop (fun x s =>
      loop (fun c s => blockSample img width black maximum y x c s) 4 0 s)
      7 col s) 7 row (some (List.replicate 8 0))

/-- The sums that the auto mode of `scale_colors_INDI` accumulates over the
blocks at `row < height-7`, `col < width-7`, as integers: the values that the
array `dsum[8]` holds when every addition into it is exact. -/
def autoSums (img : List Nat) (width height : Nat) (black maximum : Int) : List Int :=
  loop (fun row dsum =>
    loop (fun col dsum =>
      match blockSum img width black maximum row col with
      | none => dsum
      | some sum => loop (fun c d => sadd d c (sget sum c)) 8 0 dsum)
      (width - 7) 0 dsum) (height - 7) 0 (List.replicate 8 0)

/-- The array `sum[8]` of the camera mode of `scale_colors_INDI` over the
8 × 8 patch `white` (given row by row). -/
def whiteSums (white : List Nat) (filters : Nat) (black : Int) : List Int :=
  loop (fun row sum =>
    loop (fun col sum =>
      let c := FC filters row col
      let val : Int := (white.getD (row * 8 + col) 0 : Int) - black
      sadd (if val > 0 then sadd sum c val else sum) (c + 4) 1)
      8 0 sum) 8 0 (List.replicate 8 0)

/-- What `scale_colors_INDI` leaves behind: the multipliers `pre_mul[4]` and
whether `DCRAW_NO_CAMERA_WB` was reported. -/
structure ScaleOut where
  pre_mul : List Fp
  noCameraWb : Bool

/-- The update `dsum[c] += v` of an array of `double`s by an `int`. -/
def dadd (d : List Fp) (c : Nat) (v : Int) : List Fp :=
  d.set c (Fp.add f64 (mget d c) (Fp.ofInt f64 v))

/-- The array `dsum[8]` of `double`s accumulated by the auto mode of
`scale_colors_INDI` over the blocks at `row < height-7`, `col < width-7`:
`memset (dsum, 0, sizeof dsum)`, then for every block that is not skipped
`for (c=0; c < 8; c++) dsum[c] += sum[c]`. -/
def autoDsum (img : List Nat) (width height : Nat) (black maximum : Int) : List Fp :=
  loop (fun row dsum =>
    loop (fun col dsum =>
      match blockSum img width black maximum row col with
      | none => dsum
      | some sum => loop (fun c d => dadd d c (sget sum c)) 8 0 dsum)
      (width - 7) 0 dsum) (height - 7) 0 (List.replicate 8 (Fp.fin 0))

/-- The stores `FORC4 if (dsum[c]) pre_mul[c] = dsum[c+4] / dsum[c]` that end
the auto mode of `scale_colors_INDI`: a division of two `double`s, its result
converted to `float`. -/
def autoMul (dsum : List Fp) (pre_mul : List Fp) : List Fp :=
  loop (fun c pm =>
    if (mget dsum c).isZero = false then
      pm.set c (Fp.cast f32 (Fp.div f64 (mget dsum (c + 4)) (mget dsum c)))
    else pm)
    4 0 pre_mul

/-- The auto mode of `scale_colors_INDI`, entered
`if (use_auto_wb || (use_camera_wb && cam_mul[0] == -1))`; `maximum` is the
ceiling with `black` already subtracted. -/
def scaleAuto (img : List Nat) (maximum black : Int) (use_auto_wb use_camera_wb : Bool)
    (cam_mul : List Fp) (height width : Nat) (pre_mul : List Fp) : List Fp :=
  if use_auto_wb = true ∨ (use_camera_wb = true ∧ mget cam_mul 0 = Fp.fin (-1)) then
    autoMul (autoDsum img width height black maximum) pre_mul
  else pre_mul

/-- The camera mode of `scale_colors_INDI`, entered
`if (use_camera_wb && cam_mul[0] != -1)`: the multipliers of the patch,
`pre_mul[c] = (float) sum[c+4] / sum[c]` (a division of two `float`s), if
`sum[0] && sum[1] && sum[2] && sum[3]`, else `cam_mul` if
`cam_mul[0] && cam_mul[2]`, else the report `DCRAW_NO_CAMERA_WB`. -/
def scaleCamera (black : Int) (use_camera_wb : Bool) (cam_mul : List Fp) (filters : Nat)
    (white : List Nat) (pm : List Fp) : ScaleOut :=
  if use_camera_wb = true ∧ mget cam_mul 0 ≠ Fp.fin (-1) then
    if sget (whiteSums white filters black) 0 ≠ 0 ∧ sget (whiteSums white filters black) 1 ≠ 0 ∧
        sget (whiteSums white filters black) 2 ≠ 0 ∧ sget (whiteSums white filters black) 3 ≠ 0
    then
      { pre_mul := loop (fun c pm =>
          pm.set c (Fp.div f32 (Fp.ofInt f32 (sget (whiteSums white filters black) (c + 4)))
            (Fp.ofInt f32 (sget (whiteSums white filters black) c)))) 4 0 pm,
        noCameraWb := false }
    else if (mget cam_mul 0).isZero = false ∧ (mget cam_mul 2).isZero = false then
      { pre_mul := loop (fun c pm => pm.set c (mget cam_mul c)) 4 0 pm,
        noCameraWb := false }
    else { pre_mul := pm, noCameraWb := true }
  else { pre_mul := pm, noCameraWb := false }

/-- The default of the fourth multiplier in `scale_colors_INDI`:
`if (pre_mul[3] == 0) pre_mul[3] = colors < 4 ? pre_mul[1] : 1`. -/
def scaleFourth (colors : Nat) (pm : List Fp) : List Fp :=
  if (mget pm 3).isZero = true then pm.set 3 (if colors < 4 then mget pm 1 else Fp.fin 1)
  else pm

/-- The part of `scale_colors_INDI` before the normalisation:
`maximum -= black`, the auto mode, the camera mode, the default of the fourth
multiplier. -/
def scalePre (img : List Nat) (maximum black : Int) (use_auto_wb use_camera_wb : Bool)
    (cam_mul : List Fp) (height width colors : Nat) (pre_mul : List Fp) (filters : Nat)
    (white : List Nat) : ScaleOut :=
  { pre_mul := scaleFourth colors
      (scaleCamera black use_camera_wb cam_mul filters white
        (scaleAuto img (maximum - black) black use_auto_wb use_camera_wb cam_mul height width
          pre_mul)).pre_mul,
    noCameraWb :=
      (scaleCamera black use_camera_wb cam_mul filters white
        (scaleAuto img (maximum - black) black use_auto_wb use_camera_wb cam_mul height width
          pre_mul)).noCameraWb }

/-- The value `dmin` of `scale_colors_INDI`:
`dmin = DBL_MAX; FORC4 if (dmin > pre_mul[c]) dmin = pre_mul[c];`. -/
def scaleDmin (pm : List Fp) : Fp :=
  loop (fun c dmin => if Fp.lt (mget pm c) dmin = true then mget pm c else dmin) 4 0 DBL_MAX

/-- The store `pre_mul[c] /= dmin` of `scale_colors_INDI`: the division of
the `float` by the `double` is done in `double` and its result converted to
`float`. -/
def scaleNorm (dmin x : Fp) : Fp := Fp.cast f32 (Fp.div f64 x dmin)

/-- The function `scale_colors_INDI`: `scalePre`, then
`FORC4 pre_mul[c] /= dmin`. -/
def scale_colors_INDI (img : List Nat) (maximum black : Int) (use_auto_wb use_camera_wb : Bool)
    (cam_mul : List Fp) (height width colors : Nat) (pre_mul : List Fp) (filters : Nat)
    (white : List Nat) : ScaleOut :=
  let r := scalePre img maximum black use_auto_wb use_camera_wb cam_mul height width colors
    pre_mul filters white
  { pre_mul := loop (fun c pm => pm.set c (scaleNorm (scaleDmin r.pre_mul) (mget pm c))) 4 0
      r.pre_mul,
    noCameraWb := r.noCameraWb }

/-- The sample `image[y*width+x][c]`. -/
def sample (img : List Nat) (width y x c : Nat) : Int :=
  rd img ((((y : Int) * width + x)) * 4 + c)

/-- The 7 × 7 block at `(row, col)` has a non-zero sample above
`maximum - 25`, `maximum` being the saturation ceiling. -/
def blockSaturated (img : List Nat) (width : Nat) (maximum : Int) (row col : Nat) : Bool :=
  (List.range 7).any (fun dy => (List.range 7).any (fun dx => (List.range 4).any (fun c =>
    decide (sample img width (row + dy) (col + dx) c ≠ 0 ∧
      sample img width (row + dy) (col + dx) c > maximum - 25))))

/-- Entry `k` of what one pixel adds to the array `sum[8]` of its block: for
`k < 4` the sample of plane `k` minus `black`, clamped below at 0, if the
sample is non-zero; for `k ≥ 4` the number (0 or 1) of non-zero samples of
plane `k - 4`. -/
def pixelTerm (img : List Nat) (width : Nat) (black : Int) (y x k : Nat) : Int :=
  if k < 4 then
    (if sample img width y x k ≠ 0 then max 0 (sample img width y x k - black) else 0)
  else (if sample img width y x (k - 4) ≠ 0 then 1 else 0)

/-- Entry `k` of the sums over the 7 × 7 block at `(row, col)`: for `k < 4` the
sum of the black-subtracted, clamped values of the non-zero samples of plane
`k`, for `k ≥ 4` the number of non-zero samples of plane `k - 4`. -/
def blockTerm (img : List Nat) (width : Nat) (black : Int) (row col k : Nat) : Int :=
  Finset.sum (Finset.range 7) (fun dy =>
    Finset.sum (Finset.range 7) (fun dx => pixelTerm img width black (row + dy) (col + dx) k))

/-- Entry `k` of the sums aggregated over the surviving blocks, those that
start at `row < height-7`, `col < width-7` and are not saturated: `S_k` for
`k < 4`, `N_(k-4)` for `k ≥ 4`. -/
def autoTerm (img : List Nat) (width height : Nat) (black maximum : Int) (k : Nat) : Int :=
  Finset.sum (Finset.range (height - 7)) (fun row =>
    Finset.sum (Finset.range (width - 7)) (fun col =>
      if blockSaturated img width maximum row col = true then 0
      else blockTerm img width black row col k))

/-- Entry `k` of what the patch sample `white[row][col]` adds to the array
`sum[8]` of the camera mode: for `k < 4` its value minus `black` if that is
positive and its colour `FC(row,col)` is `k`; for `k ≥ 4` the number (0 or 1)
of samples of colour `k - 4`. -/
def patchTerm (white : List Nat) (filters : Nat) (black : Int) (row col k : Nat) : Int :=
  if k < 4 then
    (if FC filters row col = k ∧ (white.getD (row * 8 + col) 0 : Int) - black > 0
      then (white.getD (row * 8 + col) 0 : Int) - black else 0)
  else (if FC filters row col = k - 4 then 1 else 0)

/-- Entry `k` of the sums over the 8 × 8 patch: `sum_k` for `k < 4`,
`count_(k-4)` for `k ≥ 4`. -/
def patchTotal (white : List Nat) (filters : Nat) (black : Int) (k : Nat) : Int :=
  Finset.sum (Finset.range 8) (fun row =>
    Finset.sum (Finset.range 8) (fun col => patchTerm white filters black row col k))

/-- Entry `k` of what the sample of plane `c` of one pixel adds to the array
`sum[8]` of its block. -/
def sampleTerm (img : List Nat) (width : Nat) (black : Int) (y x c k : Nat) : Int :=
  if sample img width y x c ≠ 0 then
    (if k = c then max 0 (sample img width y x c - black) else if k = c + 4 then 1 else 0)
  else 0

/-- An 8 × 8 calibration patch of a four-colour sensor whose fourth plane
(odd rows, odd columns under the descriptor `0xe4e4e4e4`) is at the black
level 10 while every other sample is 100. -/
def patchDark : List Nat :=
  [100, 100, 100, 100, 100, 100, 100, 100,
   100, 10, 100, 10, 100, 10, 100, 10,
   100, 100, 100, 100, 100, 100, 100, 100,
   100, 10, 100, 10, 100, 10, 100, 10,
   100, 100, 100, 100, 100, 100, 100, 100,
   100, 10, 100, 10, 100, 10, 100, 10,
   100, 100, 100, 100, 100, 100, 100, 100,
   100, 10, 100, 10, 100, 10, 100, 10]

/-- A scratch array of 8 entries holds the values `S`. -/
def Tot (S : Nat → Int) (l : List Int) : Prop :=
  l.length = 8 ∧ ∀ k : Nat, k < 8 → sget l k = S k

/-- The state of a block scan: dropped (`none`) if `bad` holds, else the
array of 8 entries with the values `S`. -/
def Acc (bad : Prop) (S : Nat → Int) (s : Option (List Int)) : Prop :=
  (bad → s = none) ∧ (¬ bad → ∃ l, s = some l ∧ Tot S l)

/-- The number `c` is a multiple of the unit in the last place of its own
binade, in the format of precision `p` and least exponent `emin`. -/
def OnGrid (p : Nat) (emin : Int) (c : ℚ) : Prop :=
  ∃ n : Int, c = (n : ℚ) * 2 ^ (max (Int.log 2 c) emin - ((p : Int) - 1))

/-- A positive finite value not above `DBL_MAX`. -/
def Fp.IsPos (x : Fp) : Prop := ∃ v : ℚ, x = Fp.fin v ∧ 0 < v ∧ v ≤ 2 ^ 1024 - 2 ^ 971

/-- The array `sum[8]` (or `dsum[8]`) has non-negative sums, counts between 0
and `n`, and a positive count wherever the sum is positive. -/
def SumsOk (n : Int) (s : List Int) : Prop :=
  s.length = 8 ∧
  ∀ c : Nat, c < 4 → 0 ≤ sget s c ∧ 0 ≤ sget s (c + 4) ∧ sget s (c + 4) ≤ n ∧
    (0 < sget s c → 0 < sget s (c + 4))

/-- State of the scan of a block: skipped, or sums in order with counts at
most `n`. -/
def BlockOk (n : Int) (s : Option (List Int)) : Prop :=
  ∀ sum, s = some sum → SumsOk n sum

/-- The array of `double`s that holds the integers `d`. -/
def dbl (d : List Int) : List Fp := d.map (fun (n : Int) => Fp.fin (n : ℚ))

/-- Every entry of the array of 8 sums lies in `0 .. b`. -/
def DsumOk (b : Int) (d : List Int) : Prop :=
  d.length = 8 ∧ ∀ k : Nat, k < 8 → 0 ≤ sget d k ∧ sget d k ≤ b

/-- What `fuji_rotate_INDI` reads and writes through its pointer arguments:
`*image_p`, `*height_p`, `*width_p`, `*fuji_width_p`. -/
structure FujiState where
  image : List Nat
  height : Int
  width : Int
  fuji_width : Int

/-- The `float` local `r = fuji_width + (row-col)*step` of `fuji_rotate_INDI`:
the product and the sum are taken in `double` (`step` is a `double`) and the
result is converted to `float`. -/
def fujiR (fuji_width : Int) (step : Fp) (row col : Nat) : Fp :=
  Fp.cast f32 (Fp.add f64 (Fp.ofInt f64 fuji_width)
    (Fp.mul f64 (Fp.ofInt f64 ((row : Int) - (col : Int))) step))

/-- The `float` local `c = (row+col)*step` of `fuji_rotate_INDI`. -/
def fujiC (step : Fp) (row col : Nat) : Fp :=
  Fp.cast f32 (Fp.mul f64 (Fp.ofInt f64 ((row : Int) + (col : Int))) step)

/-- The integer source row `ur = r` of the output pixel `(row, col)` of
`fuji_rotate_INDI`. -/
def fujiUr (fuji_width : Int) (step : Fp) (row col : Nat) : Option Int :=
  (fujiR fuji_width step row col).toInt

/-- The integer source column `uc = c` of the output pixel `(row, col)` of
`fuji_rotate_INDI`. -/
def fujiUc (step : Fp) (row col : Nat) : Option Int :=
  (fujiC step row col).toInt

/-- The bilinear mix
`(pix[0][i]*(1-fc) + pix[1][i]*fc) * (1-fr) + (pix[width][i]*(1-fc) + pix[width+1][i]*fc) * fr`
of `fuji_rotate_INDI`, every operation in `float`; `pix` is the flat index of
the source pixel `(ur, uc)`. -/
def fujiMix (image : List Nat) (width pix : Int) (fr fc : Fp) (i : Nat) : Fp :=
  Fp.add f32
    (Fp.mul f32
      (Fp.add f32
        (Fp.mul f32 (Fp.ofInt f32 (rd image (pix + i))) (Fp.sub f32 (Fp.ofInt f32 1) fc))
        (Fp.mul f32 (Fp.ofInt f32 (rd image (pix + 4 + i))) fc))
      (Fp.sub f32 (Fp.ofInt f32 1) fr))
    (Fp.mul f32
      (Fp.add f32
        (Fp.mul f32 (Fp.ofInt f32 (rd image (pix + width * 4 + i)))
          (Fp.sub f32 (Fp.ofInt f32 1) fc))
        (Fp.mul f32 (Fp.ofInt f32 (rd image (pix + (width + 1) * 4 + i))) fc))
      fr)

/-- Body of the loops of `fuji_rotate_INDI` for the output pixel `(row, col)`:
`ur = r = fuji_width + (row-col)*step; uc = c = (row+col)*step;`
`if (ur > height-2 || uc > width-2) continue;`, `fr = r - ur; fc = c - uc;`,
then for `i < colors` the bilinear mix of the four input pixels around
`(r, c)`, converted to `ushort`.  A conversion to `int` of an infinity, of a
NaN or of a value outside the range of `int`, and a store of an infinity or
of a NaN, is undefined (`none`). -/
def fujiPixel (image : List Nat) (height width fuji_width : Int) (colors : Nat) (step : Fp)
    (wide : Int) (row col : Nat) (img : List Nat) : Option (List Nat) :=
  match fujiUr fuji_width step row col, fujiUc step row col with
  | some ur, some uc =>
    if ur > height - 2 ∨ uc > width - 2 then some img
    else
      loopOpt (fun i im =>
        match (fujiMix image width ((ur * width + uc) * 4)
            (Fp.sub f32 (fujiR fuji_width step row col) (Fp.ofInt f32 ur))
            (Fp.sub f32 (fujiC step row col) (Fp.ofInt f32 uc)) i).trunc with
        | some v => some (wr im (((row : Int) * wide + col) * 4 + i) v)
        | none => none) colors 0 img
  | _, _ => none

/-- The value `wide = fuji_width / step` of `fuji_rotate_INDI`: a division in
`double` converted to `int`. -/
def fujiWide (fuji_width : Int) (step : Fp) : Option Int :=
  (Fp.div f64 (Fp.ofInt f64 fuji_width) step).toInt

/-- The value `high = (height - fuji_width) / step` of `fuji_rotate_INDI`. -/
def fujiHigh (height fuji_width : Int) (step : Fp) : Option Int :=
  (Fp.div f64 (Fp.ofInt f64 (height - fuji_width)) step).toInt

/-- The function `fuji_rotate_INDI`: nothing if `fuji_width` is 0, else the
new buffer of `wide*high` pixels cleared by `calloc`, the loops over its
pixels, and the stores `*height_p = high`, `*width_p = wide`,
`*fuji_width_p = 0`, `*image_p = img`.  The result is `none` where the
program does not return normally: an undefined conversion to an integer, or
a negative `wide*high`, for which `calloc` fails and `merror` stops the
program (an allocation of no pixels succeeds). -/
def fuji_rotate_INDI (s : FujiState) (colors : Nat) (step : Fp) : Option FujiState :=
  if s.fuji_width = 0 then some s
  else
    match fujiWide s.fuji_width step, fujiHigh s.height s.fuji_width step with
    | some wide, some high =>
      if wide * high < 0 then none
      else
        match loopOpt (fun row im =>
            loopOpt (fun col im =>
              fujiPixel s.image s.height s.width s.fuji_width colors step wide row col im)
              wide.toNat 0 im) high.toNat 0 (List.replicate ((wide * high).toNat * 4) 0) with
        | some img => some { image := img, height := high, width := wide, fuji_width := 0 }
        | none => none
    | _, _ => none

theorem toU32_and_15 (x : Int) : toU32 x &&& 15 = (x % 16).toNat := by
  have h : toU32 x &&& 15 = toU32 x % 16 := Nat.and_pow_two_sub_one_eq_mod (toU32 x) 4
  rw [h]
  unfold toU32
  omega

theorem toU32_and_14 (x : Int) : toU32 x &&& 14 = (x % 16).toNat &&& 14 := by
  have h : (14 : Nat) = 15 &&& 14 := by decide
  rw [h, ← Nat.and_assoc, toU32_and_15, ← h]

theorem toU32_and_1 (x : Int) : toU32 x &&& 1 = (x % 2).toNat := by
  have h : toU32 x &&& 1 = toU32 x % 2 := Nat.and_pow_two_sub_one_eq_mod (toU32 x) 1
  rw [h]
  unfold toU32
  omega

theorem toU32_and_7 (x : Int) : toU32 x &&& 7 = (x % 8).toNat := by
  have h : toU32 x &&& 7 = toU32 x % 8 := Nat.and_pow_two_sub_one_eq_mod (toU32 x) 3
  rw [h]
  unfold toU32
  omega

/-- The row part of the `FC` shift count is twice the row modulo 8. -/
theorem row_bits (row : Int) : toU32 (row * 2) &&& 14 = 2 * (row % 8).toNat := by
  rw [toU32_and_14]
  have h1 : (row * 2) % 16 = 2 * (row % 8) := by omega
  rw [h1]
  have h2 : 0 ≤ row % 8 := Int.emod_nonneg _ (by norm_num)
  have h3 : row % 8 < 8 := Int.emod_lt_of_pos _ (by norm_num)
  obtain ⟨k, hk⟩ := Int.eq_ofNat_of_zero_le h2
  rw [hk] at h3 ⊢
  have h4 : k < 8 := by omega
  have h5 : (2 * (k : Int)).toNat = 2 * k := by omega
  rw [h5, Int.toNat_ofNat]
  interval_cases k <;> decide

/-- The shift count of `FC` in terms of the residues of `row` and `col`. -/
theorem FC_eq_mod (filters : Nat) (row col : Int) :
    FC filters row col
      = (filters >>> ((2 * (row % 8).toNat + (col % 2).toNat) <<< 1)) &&& 3 := by
  unfold FC
  rw [row_bits, toU32_and_1]

theorem FC_lt (filters : Nat) (row col : Int) : FC filters row col < 4 := by
  unfold FC
  have h : ∀ n : Nat, n &&& 3 = n % 4 := fun n => Nat.and_pow_two_sub_one_eq_mod n 2
  rw [h]
  omega

/-! ### Claims on the CFA resolver -/

/-- C3: under a periodic descriptor (`filters ≠ 1`) the colour returned by
`fc_INDI` is periodic with period 8 in the row and period 2 in the column, for
all integers `row`, `col`, negative ones included. -/
theorem fc_INDI_periodic (filters : Nat) (row col : Int) (hf : filters ≠ 1) :
    fc_INDI filters row col = fc_INDI filters (row + 8) col ∧
    fc_INDI filters row col = fc_INDI filters row (col + 2) := by
  unfold fc_INDI
  simp only [hf, ne_eq, not_false_eq_true, if_true]
  rw [FC_eq_mod, FC_eq_mod, FC_eq_mod]
  have h1 : (row + 8) % 8 = row % 8 := by omega
  have h2 : (col + 2) % 2 = col % 2 := by omega
  rw [h1, h2]
  exact ⟨rfl, rfl⟩

theorem fc_INDI_periodic_witness :
    (0x94949494 : Nat) ≠ 1 ∧
    (fc_INDI 0x94949494 (-1) (-1) = fc_INDI 0x94949494 (-1 + 8) (-1) ∧
     fc_INDI 0x94949494 (-1) (-1) = fc_INDI 0x94949494 (-1) (-1 + 2)) :=
  ⟨by decide, fc_INDI_periodic 0x94949494 (-1) (-1) (by decide)⟩

/-- C4: under a periodic descriptor `fc_INDI` returns
`(filters >> ((((row & 7) << 1) | (col & 1)) << 1)) & 3`, a value in `0..3`. -/
theorem fc_INDI_formula (filters : Nat) (row col : Int) (hf : filters ≠ 1) :
    fc_INDI filters row col
      = (filters >>> ((((toU32 row &&& 7) <<< 1) ||| (toU32 col &&& 1)) <<< 1)) &&& 3
    ∧ fc_INDI filters row col < 4 := by
  have key : fc_INDI filters row col
      = (filters >>> ((((toU32 row &&& 7) <<< 1) ||| (toU32 col &&& 1)) <<< 1)) &&& 3 := by
    unfold fc_INDI
    simp only [hf, ne_eq, not_false_eq_true, if_true]
    rw [FC_eq_mod, toU32_and_7, toU32_and_1]
    have h2 : 0 ≤ row % 8 := Int.emod_nonneg _ (by norm_num)
    have h3 : row % 8 < 8 := Int.emod_lt_of_pos _ (by norm_num)
    have c2 : 0 ≤ col % 2 := Int.emod_nonneg _ (by norm_num)
    have c3 : col % 2 < 2 := Int.emod_lt_of_pos _ (by norm_num)
    obtain ⟨k, hk⟩ := Int.eq_ofNat_of_zero_le h2
    obtain ⟨j, hj⟩ := Int.eq_ofNat_of_zero_le c2
    rw [hk] at h3 ⊢
    rw [hj] at c3 ⊢
    have h4 : k < 8 := by omega
    have h5 : j < 2 := by omega
    simp only [Int.toNat_ofNat]
    have h6 : 2 * k + j = (k <<< 1) ||| j := by
      interval_cases k <;> interval_cases j <;> decide
    rw [h6]
  refine ⟨key, ?_⟩
  rw [key]
  have h : ∀ n : Nat, n &&& 3 = n % 4 := fun n => Nat.and_pow_two_sub_one_eq_mod n 2
  rw [h]
  omega

theorem fc_INDI_formula_witness :
    (0x94949494 : Nat) ≠ 1 ∧
    (fc_INDI 0x94949494 (-3) 5
      = ((0x94949494 : Nat) >>> ((((toU32 (-3) &&& 7) <<< 1) ||| (toU32 5 &&& 1)) <<< 1)) &&& 3
     ∧ fc_INDI 0x94949494 (-3) 5 < 4) :=
  ⟨by decide, fc_INDI_formula 0x94949494 (-3) 5 (by decide)⟩

/-- C5 (the code at the failing input): for the sentinel descriptor the row
index is masked with `8`, not `15`, so at `row = 1`, `col = 0` the code reads
`filter[8][2] = 3` whereas the table entry at `((1+10) & 15, (0+18) & 15)` is
`filter[11][2] = 2`. -/
theorem fc_INDI_sentinel_row_mask :
    fc_INDI 1 1 0 = filterAt 8 2 ∧ fc_INDI 1 1 0 = 3 ∧
    filterAt (toU32 (1 + 10) &&& 15) (toU32 (0 + 18) &&& 15) = 2 := by
  decide

/-! ## Flip: the visited bitmap -/

theorem and_one_shiftLeft_ne_zero (w k : Nat) :
    (w &&& (1 <<< k) != 0) = w.testBit k := by
  rw [Nat.one_shiftLeft, Nat.and_two_pow]
  cases h : w.testBit k
  · simp
  · simp

theorem shiftRight_5 (i : Nat) : i >>> 5 = i / 32 := by
  rw [Nat.shiftRight_eq_div_pow]

theorem and_31 (i : Nat) : i &&& 31 = i % 32 :=
  Nat.and_pow_two_sub_one_eq_mod i 5

theorem flagTest_eq_flagBit (flag : List Nat) (i : Nat) :
    flagTest flag i = flagBit flag i := by
  unfold flagTest flagBit
  rw [and_one_shiftLeft_ne_zero, shiftRight_5, and_31]

theorem flagSet_length (flag : List Nat) (i : Nat) :
    (flagSet flag i).length = flag.length := by
  unfold flagSet
  rw [List.length_set]

theorem flagBit_flagSet (flag : List Nat) (i j : Nat) (hi : i / 32 < flag.length) :
    flagBit (flagSet flag i) j = (flagBit flag j || decide (j = i)) := by
  unfold flagBit flagSet
  rw [shiftRight_5, and_31, List.getD_eq_getElem?_getD, List.getElem?_set]
  by_cases hw : i / 32 = j / 32
  · rw [if_pos hw, if_pos hi]
    simp only [Option.getD_some]
    rw [Nat.testBit_or, Nat.one_shiftLeft, Nat.testBit_two_pow, hw]
    congr 1
    by_cases hb : i % 32 = j % 32
    · have : j = i := by omega
      simp [hb, this]
    · have : j ≠ i := fun h => hb (by rw [h])
      simp [hb, this]
  · rw [if_neg hw, ← List.getD_eq_getElem?_getD]
    have : j ≠ i := fun h => hw (by rw [h])
    simp [this]

theorem flagBit_replicate (m i : Nat) : flagBit (List.replicate m 0) i = false := by
  unfold flagBit
  have : (List.replicate m 0).getD (i / 32) 0 = 0 := by
    rw [List.getD_eq_getElem?_getD]
    by_cases h : i / 32 < m
    · simp [List.getElem?_replicate, h]
    · simp [List.getElem?_replicate, h]
  rw [this]
  simp

theorem word_index_lt (n i : Nat) (h : i < n) : i / 32 < (n + 31) >>> 5 := by
  rw [shiftRight_5]
  omega

/-! ## Flip: orbits of a map that permutes `[0, n)` -/

theorem iterate_lt {n : Nat} {p : Nat → Nat} (hp : PermOn n p) {x : Nat} (hx : x < n)
    (k : Nat) : p^[k] x < n := by
  induction k with
  | zero => simpa using hx
  | succ k ih =>
    rw [Function.iterate_succ_apply']
    exact hp.1 _ ih

theorem iterate_cancel {n : Nat} {p : Nat → Nat} (hp : PermOn n p) {x : Nat} (hx : x < n) :
    ∀ (a c : Nat), a ≤ c → p^[a] x = p^[c] x → p^[c - a] x = x := by
  intro a
  induction a with
  | zero =>
    intro c _ h
    simpa using h.symm
  | succ a ih =>
    intro c hac h
    obtain ⟨c', rfl⟩ : ∃ c', c = c' + 1 := ⟨c - 1, by omega⟩
    rw [Function.iterate_succ_apply', Function.iterate_succ_apply'] at h
    have h' := hp.2 _ _ (iterate_lt hp hx a) (iterate_lt hp hx c') h
    have := ih c' (by omega) h'
    rwa [Nat.add_sub_add_right]

theorem exists_period {n : Nat} {p : Nat → Nat} (hp : PermOn n p) {x : Nat} (hx : x < n) :
    ∃ k, 0 < k ∧ k ≤ n ∧ p^[k] x = x := by
  have hcard : (Finset.range n).card < (Finset.range (n + 1)).card := by simp
  obtain ⟨a, ha, c, hc, hne, heq⟩ :=
    Finset.exists_ne_map_eq_of_card_lt_of_maps_to hcard
      (f := fun t => p^[t] x) (fun t _ => Finset.mem_range.2 (iterate_lt hp hx t))
  simp only [Finset.mem_range] at ha hc
  rcases Nat.lt_or_gt_of_ne hne with h | h
  · exact ⟨c - a, by omega, by omega, iterate_cancel hp hx a c (by omega) heq⟩
  · exact ⟨a - c, by omega, by omega, iterate_cancel hp hx c a (by omega) heq.symm⟩

/-- The least positive period of `x` under `p`, with its minimality. -/
theorem exists_min_period {n : Nat} {p : Nat → Nat} (hp : PermOn n p) {x : Nat} (hx : x < n) :
    ∃ k, 0 < k ∧ k ≤ n ∧ p^[k] x = x ∧ ∀ t, 0 < t → t < k → p^[t] x ≠ x := by
  have hex : ∃ k, 0 < k ∧ p^[k] x = x := by
    obtain ⟨k, h1, _, h3⟩ := exists_period hp hx
    exact ⟨k, h1, h3⟩
  obtain ⟨k0, _, hk0, _⟩ := exists_period hp hx
  refine ⟨Nat.find hex, (Nat.find_spec hex).1, ?_, (Nat.find_spec hex).2, ?_⟩
  · exact le_trans (Nat.find_min' hex ⟨by assumption, by assumption⟩) hk0
  · intro t ht htk h
    exact Nat.find_min hex htk ⟨ht, h⟩

/-- Below the least period the points of the orbit are pairwise distinct. -/
theorem orbit_distinct {n : Nat} {p : Nat → Nat} (hp : PermOn n p) {x : Nat} (hx : x < n)
    {k : Nat} (hmin : ∀ t, 0 < t → t < k → p^[t] x ≠ x) {s t : Nat} (hst : s < t) (ht : t < k) :
    p^[s] x ≠ p^[t] x := by
  intro h
  exact hmin (t - s) (by omega) (by omega) (iterate_cancel hp hx s t (by omega) h)

/-! ## Flip: the cycle-following loops -/

theorem getD_set_eq {α : Type} (l : List α) (i : Nat) (v d : α) (h : i < l.length) :
    (l.set i v).getD i d = v := by
  rw [List.getD_eq_getElem?_getD, List.getElem?_set]
  simp [h]

theorem getD_set_ne {α : Type} (l : List α) (i j : Nat) (v d : α) (h : i ≠ j) :
    (l.set i v).getD j d = l.getD j d := by
  rw [List.getD_eq_getElem?_getD, List.getElem?_set, if_neg h, ← List.getD_eq_getElem?_getD]

theorem flipCycle_spec {α : Type} [Inhabited α] (height width flip : Nat)
    (hp : PermOn (height * width) (flipNext height width flip))
    (img1 : List α) (flag1 : List Nat) (b k : Nat) (hb : b < height * width)
    (hflen : flag1.length = (height * width + 31) >>> 5)
    (hk : (flipNext height width flip)^[k] b = b)
    (hmin : ∀ t, 0 < t → t < k → (flipNext height width flip)^[t] b ≠ b) :
    ∀ (m j fuel : Nat) (img : List α) (flag : List Nat) (dest : Nat),
      j + m + 1 = k → m < fuel →
      CycleInv (height * width) (flipNext height width flip) img1 flag1 b j img flag dest →
      ∃ img2 flag2 dest2,
        flipCycle height width flip b fuel img flag dest = some (img2, flag2, dest2) ∧
        CycleInv (height * width) (flipNext height width flip) img1 flag1 b (k - 1)
          img2 flag2 dest2 := by
  intro m
  induction m with
  | zero =>
    intro j fuel img flag dest hj hfuel inv
    obtain ⟨f, rfl⟩ : ∃ f, fuel = f + 1 := ⟨fuel - 1, by omega⟩
    refine ⟨img, flag, dest, ?_, ?_⟩
    · unfold flipCycle
      have : flipNext height width flip dest = b := by
        rw [inv.dest_eq]
        have h1 := Function.iterate_succ_apply' (flipNext height width flip) j b
        have h2 : k = j.succ := by omega
        rw [← h1, ← h2, hk]
      simp [this]
    · have : k - 1 = j := by omega
      rw [this]
      exact inv
  | succ m ih =>
    intro j fuel img flag dest hj hfuel inv
    obtain ⟨f, rfl⟩ : ∃ f, fuel = f + 1 := ⟨fuel - 1, by omega⟩
    have hnext : flipNext height width flip dest = (flipNext height width flip)^[j + 1] b := by
      rw [inv.dest_eq]
      exact (Function.iterate_succ_apply' (flipNext height width flip) j b).symm
    have hne : flipNext height width flip dest ≠ b := by
      rw [hnext]
      exact hmin (j + 1) (by omega) (by omega)
    have hdest_lt : dest < img.length := by
      rw [inv.len, inv.dest_eq]
      exact iterate_lt hp hb j
    have hnext_lt : flipNext height width flip dest < height * width := by
      rw [hnext]
      exact iterate_lt hp hb (j + 1)
    have step : CycleInv (height * width) (flipNext height width flip) img1 flag1 b (j + 1)
        (img.set dest (img.getD (flipNext height width flip dest) default))
        (flagSet flag (flipNext height width flip dest))
        (flipNext height width flip dest) := by
      refine ⟨hnext, ?_, ?_, ?_, ?_, ?_⟩
      · rw [List.length_set]
        exact inv.len
      · rw [flagSet_length]
        exact inv.flen
      · intro t ht
        by_cases htj : t = j
        · subst htj
          rw [← inv.dest_eq, getD_set_eq _ _ _ _ hdest_lt, hnext]
          apply inv.kept
          intro s hs
          exact (orbit_distinct hp hb hmin (s := s) (t := t + 1) (by omega) (by omega)).symm
        · have hlt : t < j := by omega
          have hd : dest ≠ (flipNext height width flip)^[t] b := by
            rw [inv.dest_eq]
            exact (orbit_distinct hp hb hmin hlt (by omega)).symm
          rw [getD_set_ne _ _ _ _ _ hd]
          exact inv.moved t hlt
      · intro i hi
        have hd : dest ≠ i := by
          rw [inv.dest_eq]
          exact (hi j (by omega)).symm
        rw [getD_set_ne _ _ _ _ _ hd]
        exact inv.kept i (fun t ht => hi t (by omega))
      · intro i
        rw [flagBit_flagSet _ _ _ (by
          rw [inv.flen, hflen]
          exact word_index_lt _ _ hnext_lt)]
        simp only [Bool.or_eq_true, decide_eq_true_eq]
        rw [inv.flags i]
        constructor
        · rintro (h | h)
          · rcases h with h | ⟨t, h1, h2, h3⟩
            · exact Or.inl h
            · exact Or.inr ⟨t, h1, by omega, h3⟩
          · exact Or.inr ⟨j + 1, by omega, le_refl _, by rw [h, hnext]⟩
        · rintro (h | ⟨t, h1, h2, h3⟩)
          · exact Or.inl (Or.inl h)
          · by_cases htj : t = j + 1
            · right
              rw [h3, htj, hnext]
            · left
              exact Or.inr ⟨t, h1, by omega, h3⟩
    obtain ⟨img2, flag2, dest2, hrun, inv2⟩ :=
      ih (j + 1) f _ _ _ (by omega) (by omega) step
    refine ⟨img2, flag2, dest2, ?_, inv2⟩
    rw [← hrun]
    conv_lhs => unfold flipCycle
    simp [hne]

theorem orbit_not_done {n : Nat} {p : Nat → Nat} (hp : PermOn n p) {D : Nat → Prop}
    (closed : ∀ i, i < n → (D i ↔ D (p i))) {b : Nat} (hb : b < n) (hD : ¬ D b) (t : Nat) :
    ¬ D (p^[t] b) := by
  induction t with
  | zero => simpa using hD
  | succ t ih =>
    rw [Function.iterate_succ_apply']
    rw [← closed _ (iterate_lt hp hb t)]
    exact ih

theorem flipLoop_step {α : Type} [Inhabited α] (height width flip fuel : Nat)
    (hp : PermOn (height * width) (flipNext height width flip))
    (hfuel : height * width ≤ fuel) (img0 : List α)
    (b : Nat) (hb : b < height * width) (img : List α) (flag : List Nat) (D : Nat → Prop)
    (inv : LoopInv (height * width) (flipNext height width flip) img0 D b img flag)
    (hflag : flagBit flag b = false) :
    ∃ img1 flag1 dest,
      flipCycle height width flip b fuel img flag b = some (img1, flag1, dest) ∧
      ∃ D1, LoopInv (height * width) (flipNext height width flip) img0 D1 (b + 1)
        (img1.set dest (img.getD b default)) flag1 := by
  have hDb : ¬ D b := fun h => absurd (inv.low b hb h hflag) (lt_irrefl b)
  obtain ⟨k, hk0, hkn, hk, hmin⟩ := exists_min_period hp hb
  have start : CycleInv (height * width) (flipNext height width flip) img flag b 0
      img flag b := by
    refine ⟨rfl, inv.len, rfl, ?_, ?_, ?_⟩
    · intro t ht
      omega
    · intro i _
      rfl
    · intro i
      constructor
      · exact fun h => Or.inl h
      · rintro (h | ⟨t, h1, h2, _⟩)
        · exact h
        · omega
  obtain ⟨img1, flag1, dest, hrun, ci⟩ :=
    flipCycle_spec height width flip hp img flag b k hb inv.flen hk hmin
      (k - 1) 0 fuel img flag b (by omega) (by omega) start
  refine ⟨img1, flag1, dest, hrun, fun i => D i ∨ ∃ t, t < k ∧ i = (flipNext height width flip)^[t] b, ?_⟩
  have hnd := orbit_not_done hp inv.closed hb hDb
  have hdest_lt : dest < img1.length := by
    rw [ci.len, ci.dest_eq]
    exact iterate_lt hp hb _
  have hlast : flipNext height width flip ((flipNext height width flip)^[k - 1] b) = b := by
    have h1 := Function.iterate_succ_apply' (flipNext height width flip) (k - 1) b
    have h2 : k = (k - 1).succ := by omega
    rw [← h1, ← h2, hk]
  refine ⟨?_, ?_, ?_, ?_, ?_, ?_, ?_, ?_⟩
  · rw [List.length_set]
    exact ci.len
  · rw [ci.flen]
    exact inv.flen
  · intro i hi
    constructor
    · rintro (h | ⟨t, ht, rfl⟩)
      · exact Or.inl ((inv.closed i hi).1 h)
      · right
        by_cases hlt : t + 1 < k
        · exact ⟨t + 1, hlt, (Function.iterate_succ_apply' _ t b).symm⟩
        · refine ⟨0, hk0, ?_⟩
          have h2 : t = k - 1 := by omega
          rw [h2, hlast]
          rfl
    · rintro (h | ⟨t, ht, h⟩)
      · exact Or.inl ((inv.closed i hi).2 h)
      · right
        cases t with
        | zero =>
          refine ⟨k - 1, by omega, ?_⟩
          apply hp.2 _ _ hi (iterate_lt hp hb _)
          rw [h, hlast]
          rfl
        | succ t =>
          refine ⟨t, by omega, ?_⟩
          apply hp.2 _ _ hi (iterate_lt hp hb _)
          rw [h]
          exact Function.iterate_succ_apply' _ t b
  · intro i hi hD1
    rcases hD1 with h | ⟨t, ht, rfl⟩
    · have hnot : ∀ s, s < k - 1 → i ≠ (flipNext height width flip)^[s] b := by
        intro s _ hs
        exact hnd s (hs ▸ h)
      have hd : dest ≠ i := by
        rw [ci.dest_eq]
        intro hs
        exact hnd (k - 1) (hs ▸ h)
      rw [getD_set_ne _ _ _ _ _ hd, ci.kept i hnot]
      exact inv.done i hi h
    · by_cases hlt : t = k - 1
      · subst hlt
        rw [← ci.dest_eq, getD_set_eq _ _ _ _ hdest_lt, ci.dest_eq, hlast]
        exact inv.todo b hb hDb
      · have hd : dest ≠ (flipNext height width flip)^[t] b := by
          rw [ci.dest_eq]
          exact (orbit_distinct hp hb hmin (s := t) (t := k - 1) (by omega) (by omega)).symm
        rw [getD_set_ne _ _ _ _ _ hd, ci.moved t (by omega),
          inv.todo _ (iterate_lt hp hb _) (hnd _)]
        rw [Function.iterate_succ_apply']
  · intro i hi hD1
    have h1 : ¬ D i := fun h => hD1 (Or.inl h)
    have hnot : ∀ s, s < k → i ≠ (flipNext height width flip)^[s] b :=
      fun s hs h => hD1 (Or.inr ⟨s, hs, h⟩)
    have hd : dest ≠ i := by
      rw [ci.dest_eq]
      exact (hnot (k - 1) (by omega)).symm
    rw [getD_set_ne _ _ _ _ _ hd, ci.kept i (fun s hs => hnot s (by omega))]
    exact inv.todo i hi h1
  · intro i hi hf
    rcases (ci.flags i).1 hf with h | ⟨t, _, h2, h3⟩
    · exact Or.inl (inv.flagged i hi h)
    · exact Or.inr ⟨t, by omega, h3⟩
  · intro i hi hD1 hf
    rcases hD1 with h | ⟨t, ht, rfl⟩
    · have : flagBit flag i = false := by
        cases hfi : flagBit flag i
        · rfl
        · have := (ci.flags i).2 (Or.inl hfi)
          rw [hf] at this
          cases this
      have := inv.low i hi h this
      omega
    · cases t with
      | zero =>
        simp
      | succ t =>
        have := (ci.flags _).2 (Or.inr ⟨t + 1, by omega, by omega, rfl⟩)
        rw [hf] at this
        cases this
  · intro i hi hin
    by_cases hib : i = b
    · exact Or.inr ⟨0, hk0, by rw [hib]; rfl⟩
    · exact Or.inl (inv.cov i (by omega) hin)

theorem flipLoop_spec {α : Type} [Inhabited α] (height width flip fuel : Nat)
    (hp : PermOn (height * width) (flipNext height width flip))
    (hfuel : height * width ≤ fuel) (img0 : List α) :
    ∀ (cnt b : Nat) (img : List α) (flag : List Nat), b + cnt = height * width →
      (∃ D, LoopInv (height * width) (flipNext height width flip) img0 D b img flag) →
      ∃ img1 flag1, flipLoop height width flip fuel cnt b img flag = some (img1, flag1) ∧
        ∃ D, LoopInv (height * width) (flipNext height width flip) img0 D (height * width)
          img1 flag1 := by
  intro cnt
  induction cnt with
  | zero =>
    intro b img flag hb hinv
    have : b = height * width := by omega
    subst this
    exact ⟨img, flag, rfl, hinv⟩
  | succ cnt ih =>
    intro b img flag hb ⟨D, inv⟩
    have hbn : b < height * width := by omega
    unfold flipLoop
    rw [flagTest_eq_flagBit]
    cases hflag : flagBit flag b
    · obtain ⟨img1, flag1, dest, hrun, hinv1⟩ :=
        flipLoop_step height width flip fuel hp hfuel img0 b hbn img flag D inv hflag
      simp only [hrun, Bool.false_eq_true, if_false]
      exact ih (b + 1) _ _ (by omega) hinv1
    · simp only [if_true]
      apply ih (b + 1) img flag (by omega)
      refine ⟨D, inv.len, inv.flen, inv.closed, inv.done, inv.todo, inv.flagged, ?_, ?_⟩
      · intro i hi hD hf
        have := inv.low i hi hD hf
        omega
      · intro i hi hin
        by_cases hib : i = b
        · rw [hib]
          exact inv.flagged b hbn hflag
        · exact inv.cov i (by omega) hin

/-- The buffer that `flip_image_INDI` produces: slot `i` receives the word of
slot `flipNext i` of the input. -/
theorem flipLoop_result {α : Type} [Inhabited α] (height width flip fuel : Nat)
    (hp : PermOn (height * width) (flipNext height width flip))
    (hfuel : height * width ≤ fuel) (img : List α) (hlen : img.length = height * width) :
    ∃ flag1, flipLoop height width flip fuel (height * width) 0 img
        (List.replicate ((height * width + 31) >>> 5) 0)
      = some ((List.range (height * width)).map
          (fun i => img.getD (flipNext height width flip i) default), flag1) := by
  have init : LoopInv (height * width) (flipNext height width flip) img (fun _ => False) 0 img
      (List.replicate ((height * width + 31) >>> 5) 0) := by
    refine ⟨hlen, by simp, fun _ _ => Iff.rfl, fun _ _ h => h.elim, fun _ _ _ => rfl, ?_,
      fun _ _ h => h.elim, fun i hi => absurd hi (Nat.not_lt_zero i)⟩
    intro i _ h
    rw [flagBit_replicate] at h
    cases h
  obtain ⟨img1, flag1, hrun, D, inv⟩ :=
    flipLoop_spec height width flip fuel hp hfuel img (height * width) 0 img _ (by omega)
      ⟨_, init⟩
  refine ⟨flag1, ?_⟩
  rw [hrun]
  congr 2
  apply List.ext_getElem
  · simp [inv.len]
  · intro i h1 h2
    have hi : i < height * width := by rw [← inv.len]; exact h1
    rw [List.getElem_map, List.getElem_range, ← List.getD_eq_getElem _ default h1]
    exact inv.done i hi (inv.cov i hi hi)

/-! ## Flip: the index map in coordinates -/

theorem enc_div (a b m : Nat) (hb : b < m) : (a * m + b) / m = a := by
  have hm : 0 < m := by omega
  rw [Nat.add_comm, Nat.add_mul_div_right _ _ hm, Nat.div_eq_of_lt hb, Nat.zero_add]

theorem enc_mod (a b m : Nat) (hb : b < m) : (a * m + b) % m = b := by
  rw [Nat.add_comm, Nat.add_mul_mod_self_right, Nat.mod_eq_of_lt hb]

theorem flipNext_coord (height width F r c : Nat) (hF : F < 8)
    (hr : r < flipHeight height width F) (hc : c < flipWidth height width F) :
    flipNext height width F (r * flipWidth height width F + c)
      = flipRow height F r c * width + flipCol width F r c := by
  unfold flipHeight at hr
  unfold flipWidth at hc
  unfold flipNext flipRow flipCol flipWidth
  interval_cases F <;> simp +decide only [if_true, if_false] at hr hc ⊢ <;>
    simp only [enc_div _ _ _ hc, enc_mod _ _ _ hc]

theorem flipRow_lt (height width F r c : Nat) (hF : F < 8)
    (hr : r < flipHeight height width F) (hc : c < flipWidth height width F) :
    flipRow height F r c < height := by
  unfold flipHeight at hr
  unfold flipWidth at hc
  unfold flipRow
  interval_cases F <;> simp +decide only [if_true, if_false] at hr hc ⊢ <;> omega

theorem flipCol_lt (height width F r c : Nat) (hF : F < 8)
    (hr : r < flipHeight height width F) (hc : c < flipWidth height width F) :
    flipCol width F r c < width := by
  unfold flipHeight at hr
  unfold flipWidth at hc
  unfold flipCol
  interval_cases F <;> simp +decide only [if_true, if_false] at hr hc ⊢ <;> omega

theorem flip_size (height width F : Nat) :
    flipHeight height width F * flipWidth height width F = height * width := by
  unfold flipHeight flipWidth
  by_cases h : F.testBit 2 <;> simp [h, Nat.mul_comm]

theorem index_split (i h w : Nat) (hi : i < h * w) :
    i / w < h ∧ i % w < w ∧ i = i / w * w + i % w := by
  have hw : 0 < w := by
    rcases Nat.eq_zero_or_pos w with h0 | h0
    · subst h0; simp at hi
    · exact h0
  refine ⟨?_, Nat.mod_lt _ hw, ?_⟩
  · rw [Nat.div_lt_iff_lt_mul hw]
    exact hi
  · rw [Nat.mul_comm]
    exact (Nat.div_add_mod i w).symm

theorem lt_size_of_coord (r c h w : Nat) (hr : r < h) (hc : c < w) : r * w + c < h * w := by
  have : (r + 1) * w ≤ h * w := Nat.mul_le_mul_right w hr
  rw [Nat.add_mul] at this
  omega

theorem flipNext_lt (height width F i : Nat) (hF : F < 8) (hi : i < height * width) :
    flipNext height width F i < height * width := by
  rw [← flip_size height width F] at hi
  obtain ⟨h1, h2, h3⟩ := index_split i _ _ hi
  rw [h3, flipNext_coord height width F _ _ hF h1 h2]
  exact lt_size_of_coord _ _ _ _ (flipRow_lt height width F _ _ hF h1 h2)
    (flipCol_lt height width F _ _ hF h1 h2)

theorem flipInv_lt (F : Nat) (hF : F < 8) : flipInv F < 8 := by
  unfold flipInv
  split_ifs <;> omega

theorem flipHeight_inv (height width F : Nat) (hF : F < 8) :
    flipHeight (flipHeight height width F) (flipWidth height width F) (flipInv F) = height := by
  unfold flipHeight flipWidth flipInv
  interval_cases F <;> simp +decide

theorem flipWidth_inv (height width F : Nat) (hF : F < 8) :
    flipWidth (flipHeight height width F) (flipWidth height width F) (flipInv F) = width := by
  unfold flipHeight flipWidth flipInv
  interval_cases F <;> simp +decide

theorem flipRow_inv (height width F r c : Nat) (hF : F < 8) (hr : r < height) (_hc : c < width) :
    flipRow height F (flipRow (flipHeight height width F) (flipInv F) r c)
      (flipCol (flipWidth height width F) (flipInv F) r c) = r := by
  unfold flipRow flipCol flipHeight flipWidth flipInv
  interval_cases F <;> simp +decide only [if_true, if_false] <;> omega

theorem flipCol_inv (height width F r c : Nat) (hF : F < 8) (_hr : r < height) (hc : c < width) :
    flipCol width F (flipRow (flipHeight height width F) (flipInv F) r c)
      (flipCol (flipWidth height width F) (flipInv F) r c) = c := by
  unfold flipRow flipCol flipHeight flipWidth flipInv
  interval_cases F <;> simp +decide only [if_true, if_false] <;> omega

/-- Flipping back: the index map of code `F` on an `h × w` buffer composed with
the index map of the undoing code on the flipped dimensions is the identity. -/
theorem flipNext_flipInv (height width F i : Nat) (hF : F < 8) (hi : i < height * width) :
    flipNext height width F
      (flipNext (flipHeight height width F) (flipWidth height width F) (flipInv F) i) = i := by
  have hG := flipInv_lt F hF
  have hdimH := flipHeight_inv height width F hF
  have hdimW := flipWidth_inv height width F hF
  obtain ⟨h1, h2, h3⟩ := index_split i _ _ hi
  have h1' : i / width
      < flipHeight (flipHeight height width F) (flipWidth height width F) (flipInv F) := by
    rw [hdimH]; exact h1
  have h2' : i % width
      < flipWidth (flipHeight height width F) (flipWidth height width F) (flipInv F) := by
    rw [hdimW]; exact h2
  have e1 := flipNext_coord (flipHeight height width F) (flipWidth height width F) (flipInv F)
    (i / width) (i % width) hG h1' h2'
  rw [hdimW, ← h3] at e1
  rw [e1]
  have r1 := flipRow_lt (flipHeight height width F) (flipWidth height width F) (flipInv F)
    (i / width) (i % width) hG h1' h2'
  have c1 := flipCol_lt (flipHeight height width F) (flipWidth height width F) (flipInv F)
    (i / width) (i % width) hG h1' h2'
  rw [flipNext_coord height width F _ _ hF r1 c1,
    flipRow_inv height width F _ _ hF h1 h2, flipCol_inv height width F _ _ hF h1 h2]
  exact h3.symm

theorem flipInv_flipInv (F : Nat) : flipInv (flipInv F) = F := by
  unfold flipInv
  split_ifs <;> omega

theorem flipNext_permOn (height width F : Nat) (hF : F < 8) :
    PermOn (height * width) (flipNext height width F) := by
  refine ⟨fun i hi => flipNext_lt height width F i hF hi, ?_⟩
  intro i j hi hj h
  have hG := flipInv_lt F hF
  have hdimH := flipHeight_inv height width F hF
  have hdimW := flipWidth_inv height width F hF
  have key : ∀ x, x < height * width →
      flipNext (flipHeight height width F) (flipWidth height width F) (flipInv F)
        (flipNext height width F x) = x := by
    intro x hx
    have hx' : x < flipHeight height width F * flipWidth height width F := by
      rw [flip_size]; exact hx
    have := flipNext_flipInv (flipHeight height width F) (flipWidth height width F)
      (flipInv F) x hG hx'
    rw [hdimH, hdimW, flipInv_flipInv] at this
    exact this
  rw [← key i hi, ← key j hj, h]

/-! ## Flip: the function as a whole -/

theorem flip_and_4 (F : Nat) (hF : F < 8) : (F &&& 4 ≠ 0) ↔ F.testBit 2 = true := by
  interval_cases F <;> decide

/-- With enough fuel `flip_image_INDI` returns, and slot `i` of its result is
slot `flipNext i` of its input. -/
theorem flip_image_INDI_eq {α : Type} [Inhabited α] (img : List α) (height width F fuel : Nat)
    (hF : F < 8) (hlen : img.length = height * width) (hfuel : height * width ≤ fuel) :
    flip_image_INDI img height width F fuel
      = some ((List.range (height * width)).map
          (fun i => img.getD (flipNext height width F i) default),
        flipHeight height width F, flipWidth height width F) := by
  obtain ⟨flag1, h⟩ :=
    flipLoop_result height width F fuel (flipNext_permOn height width F hF) hfuel img hlen
  unfold flip_image_INDI
  simp only [h]
  unfold flipHeight flipWidth
  by_cases hb : F.testBit 2 = true
  · have := (flip_and_4 F hF).2 hb
    simp [hb, this]
  · have : ¬ (F &&& 4 ≠ 0) := fun h' => hb ((flip_and_4 F hF).1 h')
    simp only [this, if_false]
    simp [hb]

theorem getD_range_map {α : Type} (n i : Nat) (f : Nat → α) (d : α) (hi : i < n) :
    ((List.range n).map f).getD i d = f i := by
  rw [List.getD_eq_getElem _ _ (by simpa using hi)]
  simp

theorem range_map_getD {α : Type} (l : List α) (d : α) :
    (List.range l.length).map (fun i => l.getD i d) = l := by
  apply List.ext_getElem
  · simp
  · intro i h1 h2
    rw [List.getElem_map, List.getElem_range]
    exact List.getD_eq_getElem _ _ h2

/-! ## Claims on flip / transpose -/

/-- C1 (as stated, refuted): on the 1 × 2 buffer `[1, 2]` the quarter turn
`F = 5` applied twice yields `[2, 1]` with the original dimensions, not the
original buffer. -/
theorem flip_twice_code5_not_identity :
    flip_image_INDI ([1, 2] : List Nat) 1 2 5 2 = some ([2, 1], 2, 1) ∧
    flip_image_INDI ([2, 1] : List Nat) 2 1 5 2 = some ([2, 1], 1, 2) ∧
    flip_image_INDI ([2, 1] : List Nat) 2 1 5 2 ≠ some ([1, 2], 1, 2) := by
  decide

/-- C1 (amended): for every flip code `F` in `0..7`, every height, width and
buffer of `height * width` words, `flip_image_INDI` with code `F` followed by
`flip_image_INDI` on the produced dimensions with the undoing code (the same
code `F` for `F` in `{0,1,2,3,4,7}`; `6` after `5` and `5` after `6`) returns
the original buffer, height and width; both calls return once the fuel covers
the buffer size. -/
theorem flip_round_trip {α : Type} [Inhabited α] (img : List α) (height width F fuel : Nat)
    (hF : F < 8) (hlen : img.length = height * width) (hfuel : height * width ≤ fuel) :
    ∃ out h1 w1, flip_image_INDI img height width F fuel = some (out, h1, w1) ∧
      flip_image_INDI out h1 w1 (if F = 5 then 6 else if F = 6 then 5 else F) fuel
        = some (img, height, width) := by
  refine ⟨_, _, _, flip_image_INDI_eq img height width F fuel hF hlen hfuel, ?_⟩
  have hsz := flip_size height width F
  have e2 := flip_image_INDI_eq
    ((List.range (height * width)).map (fun i => img.getD (flipNext height width F i) default))
    (flipHeight height width F) (flipWidth height width F) (flipInv F) fuel
    (flipInv_lt F hF) (by simp [hsz]) (by rw [hsz]; exact hfuel)
  rw [flipHeight_inv height width F hF, flipWidth_inv height width F hF, hsz] at e2
  show flip_image_INDI _ _ _ (flipInv F) fuel = _
  rw [e2]
  congr 2
  rw [← hlen]
  conv_rhs => rw [← range_map_getD img default]
  apply List.map_congr_left
  intro i hi
  have hi' : i < height * width := by
    rw [← hlen]; exact List.mem_range.1 hi
  have hlt : flipNext (flipHeight height width F) (flipWidth height width F) (flipInv F) i
      < height * width := by
    have := flipNext_lt (flipHeight height width F) (flipWidth height width F) (flipInv F) i
      (flipInv_lt F hF) (by rw [hsz]; exact hi')
    rw [hsz] at this
    exact this
  rw [hlen, getD_range_map _ _ _ _ hlt, flipNext_flipInv height width F i hF hi']

theorem flip_round_trip_witness :
    ((5 : Nat) < 8 ∧ ([1, 2, 3, 4, 5, 6] : List Nat).length = 2 * 3 ∧ 2 * 3 ≤ 6) ∧
    ∃ out h1 w1, flip_image_INDI ([1, 2, 3, 4, 5, 6] : List Nat) 2 3 5 6 = some (out, h1, w1) ∧
      flip_image_INDI out h1 w1 (if (5 : Nat) = 5 then 6 else if (5 : Nat) = 6 then 5 else 5) 6
        = some ([1, 2, 3, 4, 5, 6], 2, 3) :=
  ⟨by decide, flip_round_trip [1, 2, 3, 4, 5, 6] 2 3 5 6 (by decide) (by decide) (by decide)⟩

/-- C2: for every flip code `F` in `0..7` and every `height × width` buffer,
`flip_image_INDI` returns (given fuel covering the buffer size) a buffer of
dimensions `(width, height)` if bit 2 of `F` is set and `(height, width)`
otherwise, whose word at position `(r, c)` is the input word at the position
obtained from `(c, r)` if bit 2 is set, else `(r, c)`, by replacing the row by
`height - 1 - row` if bit 1 is set and the column by `width - 1 - col` if bit 0
is set.  For `F = 0` the buffer is unchanged. -/
theorem flip_image_INDI_semantics {α : Type} [Inhabited α] (img : List α)
    (height width F fuel : Nat)
    (hF : F < 8) (hlen : img.length = height * width) (hfuel : height * width ≤ fuel) :
    ∃ out, flip_image_INDI img height width F fuel
        = some (out, if F.testBit 2 then width else height,
                     if F.testBit 2 then height else width) ∧
      out.length = height * width ∧
      (∀ r c, r < (if F.testBit 2 then width else height) →
        c < (if F.testBit 2 then height else width) →
        out.getD (r * (if F.testBit 2 then height else width) + c) default
          = img.getD
              ((if F.testBit 1 then height - 1 - (if F.testBit 2 then c else r)
                  else (if F.testBit 2 then c else r)) * width
                + (if F.testBit 0 then width - 1 - (if F.testBit 2 then r else c)
                  else (if F.testBit 2 then r else c))) default) ∧
      (F = 0 → out = img) := by
  refine ⟨_, flip_image_INDI_eq img height width F fuel hF hlen hfuel, by simp, ?_, ?_⟩
  · intro r c hr hc
    have hlt : r * flipWidth height width F + c < height * width := by
      rw [← flip_size height width F]
      exact lt_size_of_coord _ _ _ _ hr hc
    have := flipNext_coord height width F r c hF hr hc
    unfold flipWidth at hlt this
    rw [getD_range_map _ _ _ _ hlt, this]
    rfl
  · intro h0
    subst h0
    rw [← hlen]
    conv_rhs => rw [← range_map_getD img default]
    apply List.map_congr_left
    intro i hi
    have hi' : i < height * width := by
      rw [← hlen]; exact List.mem_range.1 hi
    obtain ⟨h1, h2, h3⟩ := index_split i _ _ hi'
    have := flipNext_coord height width 0 (i / width) (i % width) (by omega) h1 h2
    unfold flipWidth flipRow flipCol at this
    simp only [Nat.zero_testBit, Bool.false_eq_true, if_false] at this
    rw [hlen, ← h3] at *
    rw [this]

theorem flip_image_INDI_semantics_witness :
    ((6 : Nat) < 8 ∧ ([10, 20, 30, 40, 50, 60] : List Nat).length = 2 * 3 ∧ 2 * 3 ≤ 6) ∧
    ∃ out, flip_image_INDI ([10, 20, 30, 40, 50, 60] : List Nat) 2 3 6 6
        = some (out, if (6 : Nat).testBit 2 then 3 else 2,
                     if (6 : Nat).testBit 2 then 2 else 3) ∧
      out.length = 2 * 3 ∧
      (∀ r c, r < (if (6 : Nat).testBit 2 then 3 else 2) →
        c < (if (6 : Nat).testBit 2 then 2 else 3) →
        out.getD (r * (if (6 : Nat).testBit 2 then 2 else 3) + c) default
          = ([10, 20, 30, 40, 50, 60] : List Nat).getD
              ((if (6 : Nat).testBit 1 then 2 - 1 - (if (6 : Nat).testBit 2 then c else r)
                  else (if (6 : Nat).testBit 2 then c else r)) * 3
                + (if (6 : Nat).testBit 0 then 3 - 1 - (if (6 : Nat).testBit 2 then r else c)
                  else (if (6 : Nat).testBit 2 then r else c))) default) ∧
      ((6 : Nat) = 0 → out = [10, 20, 30, 40, 50, 60]) :=
  ⟨by decide,
   flip_image_INDI_semantics [10, 20, 30, 40, 50, 60] 2 3 6 6 (by decide) (by decide)
     (by decide)⟩

/-! ## Lemmas on buffers and loops -/

theorem wr_length (img : List Nat) (i v : Int) : (wr img i v).length = img.length := by
  unfold wr
  split_ifs
  · rfl
  · rw [List.length_set]

theorem rd_wr_ne (img : List Nat) (i j v : Int) (h : i ≠ j) : rd (wr img i v) j = rd img j := by
  unfold rd wr
  by_cases hj : j < 0
  · simp [hj]
  · by_cases hi : i < 0
    · simp [hi]
    · simp only [hi, hj, if_false]
      apply getD_set_ne
      omega

theorem rd_wr_eq (img : List Nat) (i v : Int) (h0 : 0 ≤ i) (h1 : i < img.length) :
    rd (wr img i v) i = (v % 65536).toNat := by
  unfold rd wr
  have hi : ¬ i < 0 := by omega
  simp only [hi, if_false]
  apply getD_set_eq
  omega

theorem loop_inv {σ : Type} (P : Nat → σ → Prop) (f : Nat → σ → σ) :
    ∀ (n start : Nat) (s : σ), P start s →
      (∀ i s, start ≤ i → i < start + n → P i s → P (i + 1) (f i s)) →
      P (start + n) (loop f n start s) := by
  intro n
  induction n with
  | zero =>
    intro start s h _
    exact h
  | succ n ih =>
    intro start s h step
    unfold loop
    have := ih (start + 1) (f start s) (step start s (le_refl _) (by omega) h)
      (fun i s hi1 hi2 hP => step i s (by omega) (by omega) hP)
    rw [show start + (n + 1) = start + 1 + n by omega]
    exact this

theorem loopOpt_inv {σ : Type} (P : Nat → σ → Prop) (f : Nat → σ → Option σ) :
    ∀ (n start : Nat) (s : σ), P start s →
      (∀ i s, start ≤ i → i < start + n → P i s → ∃ s1, f i s = some s1 ∧ P (i + 1) s1) →
      ∃ s1, loopOpt f n start s = some s1 ∧ P (start + n) s1 := by
  intro n
  induction n with
  | zero =>
    intro start s h _
    exact ⟨s, rfl, h⟩
  | succ n ih =>
    intro start s h step
    obtain ⟨s1, h1, h2⟩ := step start s (le_refl _) (by omega) h
    obtain ⟨s2, h3, h4⟩ := ih (start + 1) s1 h2
      (fun i s hi1 hi2 hP => step i s (by omega) (by omega) hP)
    refine ⟨s2, ?_, ?_⟩
    · unfold loopOpt
      simp only [h1]
      exact h3
    · rw [show start + (n + 1) = start + 1 + n by omega]
      exact h4

theorem filterAt_lt (i j : Nat) : filterAt i j < 4 := by
  unfold filterAt
  by_cases hi : i < 16
  · by_cases hj : j < 16
    · interval_cases i <;> interval_cases j <;> decide
    · have : ∀ l ∈ filter, l.length = 16 := by decide
      have hl : ((filter.getD i []).length = 16) := by
        interval_cases i <;> decide
      rw [List.getD_eq_default _ _ (by omega)]
      omega
  · have : filter.getD i [] = [] := List.getD_eq_default _ _ (by
      have : filter.length = 16 := by decide
      omega)
    rw [this]
    simp

theorem fc_INDI_lt (filters : Nat) (row col : Int) : fc_INDI filters row col < 4 := by
  by_cases hf : filters = 1
  · unfold fc_INDI
    simp only [hf, ne_eq, not_true_eq_false, if_false]
    exact filterAt_lt _ _
  · unfold fc_INDI
    simp only [hf, ne_eq, not_false_eq_true, if_true]
    exact FC_lt _ _ _

/-! ## Counted loops -/

theorem loop_succ {σ : Type} (f : Nat → σ → σ) (n i : Nat) (s : σ) :
    loop f (n + 1) i s = loop f n (i + 1) (f i s) := rfl

/-- Iterations that leave the state alone can be skipped. -/
theorem loop_skip {σ : Type} (f : Nat → σ → σ) (n : Nat) :
    ∀ (k i : Nat) (s : σ), (∀ j t, i ≤ j → j < i + k → f j t = t) →
      loop f (k + n) i s = loop f n (i + k) s := by
  intro k
  induction k with
  | zero =>
    intro i s _
    simp
  | succ k ih =>
    intro i s h
    rw [show k + 1 + n = (k + n) + 1 by omega, loop_succ, h i s (le_refl _) (by omega),
      ih (i + 1) s (fun j t h1 h2 => h j t (by omega) (by omega))]
    congr 1
    omega

theorem loopOpt_eq_loop {σ : Type} (f : Nat → σ → Option σ) (g : Nat → σ → σ) :
    ∀ (n start : Nat) (s : σ), (∀ i t, start ≤ i → i < start + n → f i t = some (g i t)) →
      loopOpt f n start s = some (loop g n start s) := by
  intro n
  induction n with
  | zero =>
    intro start s _
    rfl
  | succ n ih =>
    intro start s h
    unfold loopOpt
    rw [h start s (le_refl _) (by omega)]
    exact ih (start + 1) (g start s) (fun i t h1 h2 => h i t (by omega) (by omega))

theorem loopOpt_none {σ : Type} (f : Nat → σ → Option σ) (k : Nat) (hk : ∀ s, f k s = none) :
    ∀ (n start : Nat) (s : σ), start ≤ k → k < start + n → loopOpt f n start s = none := by
  intro n
  induction n with
  | zero =>
    intro start s h1 h2
    omega
  | succ n ih =>
    intro start s h1 h2
    unfold loopOpt
    by_cases he : start = k
    · rw [he, hk]
    · cases hf : f start s with
      | none => rfl
      | some s1 => exact ih (start + 1) s1 (by omega) (by omega)

/-- A property kept by every iteration of a loop with a body that may fail
holds of the result, if there is one. -/
theorem loopOpt_some_inv {σ : Type} (P : σ → Prop) (f : Nat → σ → Option σ) :
    ∀ (n start : Nat) (s out : σ), P s →
      (∀ i s s1, P s → f i s = some s1 → P s1) →
      loopOpt f n start s = some out → P out := by
  intro n
  induction n with
  | zero =>
    intro start s out h _ ho
    unfold loopOpt at ho
    rw [← Option.some.inj ho]
    exact h
  | succ n ih =>
    intro start s out h step ho
    unfold loopOpt at ho
    cases hf : f start s with
    | none =>
      rw [hf] at ho
      exact absurd ho (by simp)
    | some s1 =>
      rw [hf] at ho
      exact ih (start + 1) s1 out (step start s s1 h hf) step ho

theorem sadd_length (s : List Int) (i : Nat) (v : Int) : (sadd s i v).length = s.length := by
  unfold sadd
  rw [List.length_set]

theorem sget_sadd (s : List Int) (i j : Nat) (v : Int) :
    sget (sadd s i v) j = if i = j ∧ i < s.length then sget s j + v else sget s j := by
  unfold sget sadd
  by_cases h : i = j
  · subst h
    by_cases hl : i < s.length
    · rw [getD_set_eq _ _ _ _ hl]
      simp [hl]
    · simp only [hl, and_false, if_false]
      rw [List.set_eq_of_length_le (by omega)]
  · simp only [h, false_and, if_false]
    exact getD_set_ne _ _ _ _ _ h

/-! ## The division of the bilinear pass -/

/-- With no zero divisor the body of the main loop returns. -/
theorem linPixel_safe (width colors : Nat) (ip : List Int) (img : List Nat) (row col : Nat)
    (h : linSafe colors ip = true) :
    linPixel width colors ip img row col = some (linPixelVal width colors ip img row col) := by
  unfold linSafe at h
  rw [List.all_eq_true] at h
  unfold linPixel linPixelVal
  apply loopOpt_eq_loop
  intro i t _ hi
  have := h i (List.mem_range.2 (by omega))
  rw [decide_eq_true_eq] at this
  rw [if_neg this]

/-- With a zero divisor the body of the main loop traps, whatever the
image. -/
theorem linPixel_trap (width colors : Nat) (ip : List Int) (img : List Nat) (row col : Nat)
    (h : linSafe colors ip = false) : linPixel width colors ip img row col = none := by
  unfold linSafe at h
  rw [List.all_eq_false] at h
  obtain ⟨i, hi, hz⟩ := h
  rw [List.mem_range] at hi
  rw [decide_eq_true_eq, not_not] at hz
  unfold linPixel
  exact loopOpt_none _ i (fun s => if_pos hz) _ 0 img (Nat.zero_le _) (by omega)

/-- When no pixel body divides by 0, `lin_interpolate_INDI` is the border pass
followed by the table-driven pass. -/
theorem lin_interpolate_INDI_safe (img : List Nat) (filters width height colors fuel : Nat)
    (hs : LinSafe filters width height colors) :
    lin_interpolate_INDI img filters width height colors fuel
      = (border_interpolate_INDI height width img filters colors 1 fuel).map
          (linPass filters width height colors) := by
  unfold lin_interpolate_INDI
  cases border_interpolate_INDI height width img filters colors 1 fuel with
  | none => rfl
  | some img1 =>
    simp only [Option.map_some']
    unfold linPass
    apply loopOpt_eq_loop
    intro row im hr0 hr1
    apply loopOpt_eq_loop
    intro col im1 hc0 hc1
    exact linPixel_safe width colors _ im1 row col (hs row col (by omega) (by omega) (by omega)
      (by omega))

/-- When the body of some pixel of the main loop divides by 0,
`lin_interpolate_INDI` does not return, whatever the image and the fuel. -/
theorem lin_interpolate_INDI_trap (img : List Nat) (filters width height colors fuel : Nat)
    (row col : Nat) (hr : 1 ≤ row) (hr1 : row + 1 < height) (hc : 1 ≤ col)
    (hc1 : col + 1 < width)
    (h : linSafe colors (linCode filters width colors (row &&& 15) (col &&& 15)) = false) :
    lin_interpolate_INDI img filters width height colors fuel = none := by
  unfold lin_interpolate_INDI
  cases border_interpolate_INDI height width img filters colors 1 fuel with
  | none => rfl
  | some img1 =>
    simp only []
    refine loopOpt_none _ row (fun s => ?_) _ 1 img1 hr (by omega)
    exact loopOpt_none _ col (fun t => linPixel_trap width colors _ t row col h) _ 1 s hc
      (by omega)

/-- If `lin_interpolate_INDI` returns, no pixel body divides by 0. -/
theorem lin_interpolate_INDI_some (img out : List Nat) (filters width height colors fuel : Nat)
    (h : lin_interpolate_INDI img filters width height colors fuel = some out) :
    LinSafe filters width height colors := by
  intro row col hr hr1 hc hc1
  cases hsafe : linSafe colors (linCode filters width colors (row &&& 15) (col &&& 15)) with
  | true => rfl
  | false =>
    rw [lin_interpolate_INDI_trap img filters width height colors fuel row col hr hr1 hc hc1
      hsafe] at h
    exact Option.noConfusion h

/-! ## Border interpolation keeps the native samples -/

theorem SameNative.refl (filters height width : Nat) (img : List Nat) :
    SameNative filters height width img img := ⟨rfl, fun _ _ _ _ => rfl⟩

theorem SameNative.trans {filters height width : Nat} {a b c : List Nat}
    (h1 : SameNative filters height width a b) (h2 : SameNative filters height width b c) :
    SameNative filters height width a c :=
  ⟨h2.1.trans h1.1, fun y x hy hx => (h2.2 y x hy hx).trans (h1.2 y x hy hx)⟩

theorem pixel_index_inj (w r c y x : Nat) (hc : c < w) (hx : x < w)
    (h : r * w + c = y * w + x) : r = y ∧ c = x := by
  have h1 : (r * w + c) / w = r := enc_div r c w hc
  have h2 : (y * w + x) / w = y := enc_div y x w hx
  have h3 : (r * w + c) % w = c := enc_mod r c w hc
  have h4 : (y * w + x) % w = x := enc_mod y x w hx
  rw [h] at h1 h3
  exact ⟨h1.symm.trans h2, h3.symm.trans h4⟩

/-- A non-native slot of one pixel is not the native slot of any pixel. -/
theorem slot_ne_native (filters width r c y x k : Nat) (hc : c < width) (hx : x < width)
    (hk : k < 4) (hne : k ≠ fc_INDI filters r c) :
    (((r : Int) * width + c) * 4 + k) ≠ (((y : Int) * width + x) * 4 + fc_INDI filters y x) := by
  intro h
  have hf := fc_INDI_lt filters y x
  have h' : (r * width + c) * 4 + k = (y * width + x) * 4 + fc_INDI filters y x := by
    exact_mod_cast h
  have h1 : r * width + c = y * width + x := by omega
  have h2 : k = fc_INDI filters y x := by omega
  obtain ⟨e1, e2⟩ := pixel_index_inj width r c y x hc hx h1
  rw [e1, e2] at hne
  exact hne h2

theorem borderPixel_frame (height width filters colors : Nat) (img : List Nat) (row col : Int)
    (j : Int)
    (hj : ∀ c : Nat, c < colors → c ≠ fc_INDI filters row col →
      j ≠ (row * width + col) * 4 + c) :
    rd (borderPixel height width filters colors img row col) j = rd img j := by
  unfold borderPixel
  refine loop_inv (fun _ (im : List Nat) => rd im j = rd img j) _ colors 0 img rfl ?_
  intro i s _ hi hP
  simp only [Nat.zero_add] at hi
  show rd (if _ then _ else _) j = _
  split_ifs with hc
  · rw [rd_wr_ne _ _ _ _ (hj i hi hc.1).symm]
    exact hP
  · exact hP

theorem borderPixel_length (height width filters colors : Nat) (img : List Nat) (row col : Int) :
    (borderPixel height width filters colors img row col).length = img.length := by
  unfold borderPixel
  refine loop_inv (fun _ (im : List Nat) => im.length = img.length) _ colors 0 img rfl ?_
  intro i s _ _ hP
  show (if _ then _ else _ : List Nat).length = _
  split_ifs
  · rw [wr_length]
    exact hP
  · exact hP

theorem borderPixel_sameNative (height width filters colors : Nat) (img : List Nat)
    (r c : Nat) (hc : c < width) (hcolors : colors ≤ 4) :
    SameNative filters height width img
      (borderPixel height width filters colors img r c) := by
  refine ⟨borderPixel_length _ _ _ _ _ _ _, ?_⟩
  intro y x _ hx
  apply borderPixel_frame
  intro k hk hne
  exact (slot_ne_native filters width r c y x k hc hx (by omega) hne).symm

theorem borderCols_spec (height width filters colors : Nat) (border : Int) (r : Nat)
    (hcolors : colors ≤ 4) (hb : 0 < border)
    (hw : (width : Int) ≤ border ∨ 2 * border ≤ width) :
    ∀ (fuel : Nat) (col : Int) (img : List Nat), 0 ≤ col → (width - col).toNat < fuel →
      ∃ out, borderCols height width filters colors border r fuel col img = some out ∧
        SameNative filters height width img out := by
  intro fuel
  induction fuel with
  | zero =>
    intro col img _ h
    omega
  | succ fuel ih =>
    intro col img h0 hfuel
    unfold borderCols
    by_cases hlt : col < width
    · simp only [hlt, if_true]
      by_cases hjump : col = border ∧ (r : Int) ≥ border ∧ (r : Int) < height - border
      · simp only [hjump, and_self, if_true]
        have hj := hjump.1
        have h2 : 2 * col ≤ width := by omega
        obtain ⟨c1, hc1⟩ := Int.eq_ofNat_of_zero_le (show 0 ≤ (width : Int) - border by omega)
        obtain ⟨out, ho, hs⟩ := ih ((width : Int) - border + 1)
          (borderPixel height width filters colors img r ((width : Int) - border))
          (by omega) (by omega)
        refine ⟨out, ho, SameNative.trans ?_ hs⟩
        rw [hc1]
        exact borderPixel_sameNative height width filters colors img r c1 (by omega) hcolors
      · simp only [hjump, if_false]
        obtain ⟨c1, hc1⟩ := Int.eq_ofNat_of_zero_le h0
        obtain ⟨out, ho, hs⟩ := ih (col + 1)
          (borderPixel height width filters colors img r col) (by omega) (by omega)
        refine ⟨out, ho, SameNative.trans ?_ hs⟩
        rw [hc1]
        exact borderPixel_sameNative height width filters colors img r c1 (by omega) hcolors
    · simp only [hlt, if_false]
      exact ⟨img, rfl, SameNative.refl _ _ _ _⟩

/-- With a positive border that fits (`2*border ≤ width`, or `width ≤ border`)
and fuel beyond the width, `border_interpolate_INDI` returns a buffer with the
native samples of its input. -/
theorem border_interpolate_INDI_sameNative (height width : Nat) (img : List Nat)
    (filters colors : Nat) (border : Int) (fuel : Nat)
    (hcolors : colors ≤ 4) (hb : 0 < border)
    (hw : (width : Int) ≤ border ∨ 2 * border ≤ width) (hfuel : width < fuel) :
    ∃ out, border_interpolate_INDI height width img filters colors border fuel = some out ∧
      SameNative filters height width img out := by
  unfold border_interpolate_INDI
  have := loopOpt_inv (fun _ (im : List Nat) => SameNative filters height width img im)
    (fun row im => borderCols height width filters colors border row fuel 0 im)
    height 0 img (SameNative.refl _ _ _ _) (by
      intro i s _ _ hP
      obtain ⟨out, ho, hs⟩ := borderCols_spec height width filters colors border i hcolors hb hw
        fuel 0 s (le_refl _) (by omega)
      exact ⟨out, ho, SameNative.trans hP hs⟩)
  exact this

/-! ## The bilinear table and the colours it records -/

theorem toU32_and_8 (x : Int) : toU32 x &&& 8 = (x % 16).toNat &&& 8 := by
  have h : (8 : Nat) = 15 &&& 8 := by decide
  rw [h, ← Nat.and_assoc, toU32_and_15, ← h]

/-- The colour at a position depends on the row and column modulo 16 only,
for the periodic descriptors and for the sentinel alike. -/
theorem fc_INDI_congr16 (filters : Nat) (r r1 c c1 : Int) (hr : r % 16 = r1 % 16)
    (hc : c % 16 = c1 % 16) : fc_INDI filters r c = fc_INDI filters r1 c1 := by
  unfold fc_INDI
  by_cases hf : filters = 1
  · simp only [hf, ne_eq, not_true_eq_false, if_false]
    rw [toU32_and_8, toU32_and_8, toU32_and_15, toU32_and_15]
    have h1 : (r + 10) % 16 = (r1 + 10) % 16 := by omega
    have h2 : (c + 18) % 16 = (c1 + 18) % 16 := by omega
    rw [h1, h2]
  · simp only [hf, ne_eq, not_false_eq_true, if_true]
    rw [FC_eq_mod, FC_eq_mod]
    have h1 : r % 8 = r1 % 8 := by omega
    have h2 : c % 2 = c1 % 2 := by omega
    rw [h1, h2]

theorem and_15 (i : Nat) : i &&& 15 = i % 16 :=
  Nat.and_pow_two_sub_one_eq_mod i 4

theorem fc_INDI_mask16 (filters r c : Nat) (y x : Int) :
    fc_INDI filters (((r &&& 15 : Nat) : Int) + y) (((c &&& 15 : Nat) : Int) + x)
      = fc_INDI filters ((r : Int) + y) ((c : Int) + x) := by
  apply fc_INDI_congr16
  · rw [and_15]; omega
  · rw [and_15]; omega

theorem fc_INDI_mask16_self (filters r c : Nat) :
    fc_INDI filters ((r &&& 15 : Nat) : Int) ((c &&& 15 : Nat) : Int)
      = fc_INDI filters (r : Int) (c : Int) := by
  apply fc_INDI_congr16
  · rw [and_15]; omega
  · rw [and_15]; omega

/-- The table entry selected by `(row & 15, col & 15)` is the entry that the
construction yields for `(row, col)` itself. -/
theorem linCode_mask16 (filters width colors row col : Nat) :
    linCode filters width colors (row &&& 15) (col &&& 15)
      = linCode filters width colors row col := by
  unfold linCode
  simp only [fc_INDI_mask16, fc_INDI_mask16_self]

/-- The descriptor `0x94949494` is the RGGB Bayer pattern. -/
theorem fc_INDI_rggb (r c : Int) :
    fc_INDI 0x94949494 r c
      = if r % 2 = 0 then (if c % 2 = 0 then 0 else 1) else (if c % 2 = 0 then 1 else 2) := by
  unfold fc_INDI
  simp only [show (0x94949494 : Nat) ≠ 1 by decide, ne_eq, not_false_eq_true, if_true]
  rw [FC_eq_mod]
  have h2 : 0 ≤ r % 8 := Int.emod_nonneg _ (by norm_num)
  have h3 : r % 8 < 8 := Int.emod_lt_of_pos _ (by norm_num)
  have c2 : 0 ≤ c % 2 := Int.emod_nonneg _ (by norm_num)
  have c3 : c % 2 < 2 := Int.emod_lt_of_pos _ (by norm_num)
  obtain ⟨k, hk⟩ := Int.eq_ofNat_of_zero_le h2
  obtain ⟨j, hj⟩ := Int.eq_ofNat_of_zero_le c2
  have hr2 : r % 2 = (k : Int) % 2 := by omega
  rw [hr2, hk, hj]
  rw [hk] at h3
  rw [hj] at c3
  have h4 : k < 8 := by omega
  have h5 : j < 2 := by omega
  simp only [Int.toNat_ofNat]
  interval_cases k <;> interval_cases j <;> decide

/-! ## Bilinear interpolation on the RGGB mosaic -/

theorem loop_three {σ : Type} (f : Nat → σ → σ) (i : Nat) (s : σ) :
    loop f 3 i s = f (i + 2) (f (i + 1) (f i s)) := rfl

/-- `linPixelVal` on an explicit table entry for three colours. -/
theorem linPixel_three (width : Nat) (img : List Nat) (row col : Nat)
    (o1 s1 k1 o2 s2 k2 o3 s3 k3 o4 s4 k4 o5 s5 k5 o6 s6 k6 o7 s7 k7 o8 s8 k8 c1 w1 c2 w2 : Int) :
    linPixelVal width 3
      [o1, s1, k1, o2, s2, k2, o3, s3, k3, o4, s4, k4, o5, s5, k5, o6, s6, k6, o7, s7, k7,
        o8, s8, k8, c1, w1, c2, w2] img row col
    = wr (wr img (((row : Int) * width + col) * 4 + c1)
        (Int.tdiv (sget
          (sadd (sadd (sadd (sadd (sadd (sadd (sadd (sadd [0, 0, 0, 0]
            k1.toNat ((rd img (((row : Int) * width + col) * 4 + o1) : Int) * 2 ^ s1.toNat))
            k2.toNat ((rd img (((row : Int) * width + col) * 4 + o2) : Int) * 2 ^ s2.toNat))
            k3.toNat ((rd img (((row : Int) * width + col) * 4 + o3) : Int) * 2 ^ s3.toNat))
            k4.toNat ((rd img (((row : Int) * width + col) * 4 + o4) : Int) * 2 ^ s4.toNat))
            k5.toNat ((rd img (((row : Int) * width + col) * 4 + o5) : Int) * 2 ^ s5.toNat))
            k6.toNat ((rd img (((row : Int) * width + col) * 4 + o6) : Int) * 2 ^ s6.toNat))
            k7.toNat ((rd img (((row : Int) * width + col) * 4 + o7) : Int) * 2 ^ s7.toNat))
            k8.toNat ((rd img (((row : Int) * width + col) * 4 + o8) : Int) * 2 ^ s8.toNat))
          c1.toNat) w1))
      (((row : Int) * width + col) * 4 + c2)
        (Int.tdiv (sget
          (sadd (sadd (sadd (sadd (sadd (sadd (sadd (sadd [0, 0, 0, 0]
            k1.toNat ((rd img (((row : Int) * width + col) * 4 + o1) : Int) * 2 ^ s1.toNat))
            k2.toNat ((rd img (((row : Int) * width + col) * 4 + o2) : Int) * 2 ^ s2.toNat))
            k3.toNat ((rd img (((row : Int) * width + col) * 4 + o3) : Int) * 2 ^ s3.toNat))
            k4.toNat ((rd img (((row : Int) * width + col) * 4 + o4) : Int) * 2 ^ s4.toNat))
            k5.toNat ((rd img (((row : Int) * width + col) * 4 + o5) : Int) * 2 ^ s5.toNat))
            k6.toNat ((rd img (((row : Int) * width + col) * 4 + o6) : Int) * 2 ^ s6.toNat))
            k7.toNat ((rd img (((row : Int) * width + col) * 4 + o7) : Int) * 2 ^ s7.toNat))
            k8.toNat ((rd img (((row : Int) * width + col) * 4 + o8) : Int) * 2 ^ s8.toNat))
          c2.toNat) w2) := rfl

theorem linCode_rggb_ee (w row col : Nat) (hr : row % 2 = 0) (hc : col % 2 = 0) :
    linCode 0x94949494 w 3 row col =
      [((w : Int) * -1 + -1) * 4 + 2, 0, 2,
       ((w : Int) * -1 + 0) * 4 + 1, 1, 1,
       ((w : Int) * -1 + 1) * 4 + 2, 0, 2,
       ((w : Int) * 0 + -1) * 4 + 1, 1, 1,
       ((w : Int) * 0 + 1) * 4 + 1, 1, 1,
       ((w : Int) * 1 + -1) * 4 + 2, 0, 2,
       ((w : Int) * 1 + 0) * 4 + 1, 1, 1,
       ((w : Int) * 1 + 1) * 4 + 2, 0, 2,
       1, 8,
       2, 4] := by
  have r1 : ((row : Int) + -1) % 2 = 1 := by omega
  have r2 : ((row : Int) + 0) % 2 = 0 := by omega
  have r3 : ((row : Int) + 1) % 2 = 1 := by omega
  have r4 : ((row : Int)) % 2 = 0 := by omega
  have c1 : ((col : Int) + -1) % 2 = 1 := by omega
  have c2 : ((col : Int) + 0) % 2 = 0 := by omega
  have c3 : ((col : Int) + 1) % 2 = 1 := by omega
  have c4 : ((col : Int)) % 2 = 0 := by omega
  unfold linCode
  simp only [fc_INDI_rggb, r1, r2, r3, r4, c1, c2, c3, c4, List.foldl_cons, List.foldl_nil,
    loop_three]
  simp +decide [sadd, sget]

theorem linCode_rggb_eo (w row col : Nat) (hr : row % 2 = 0) (hc : col % 2 = 1) :
    linCode 0x94949494 w 3 row col =
      [((w : Int) * -1 + -1) * 4 + 1, 0, 1,
       ((w : Int) * -1 + 0) * 4 + 2, 1, 2,
       ((w : Int) * -1 + 1) * 4 + 1, 0, 1,
       ((w : Int) * 0 + -1) * 4 + 0, 1, 0,
       ((w : Int) * 0 + 1) * 4 + 0, 1, 0,
       ((w : Int) * 1 + -1) * 4 + 1, 0, 1,
       ((w : Int) * 1 + 0) * 4 + 2, 1, 2,
       ((w : Int) * 1 + 1) * 4 + 1, 0, 1,
       0, 4,
       2, 4] := by
  have r1 : ((row : Int) + -1) % 2 = 1 := by omega
  have r2 : ((row : Int) + 0) % 2 = 0 := by omega
  have r3 : ((row : Int) + 1) % 2 = 1 := by omega
  have r4 : ((row : Int)) % 2 = 0 := by omega
  have c1 : ((col : Int) + -1) % 2 = 0 := by omega
  have c2 : ((col : Int) + 0) % 2 = 1 := by omega
  have c3 : ((col : Int) + 1) % 2 = 0 := by omega
  have c4 : ((col : Int)) % 2 = 1 := by omega
  unfold linCode
  simp only [fc_INDI_rggb, r1, r2, r3, r4, c1, c2, c3, c4, List.foldl_cons, List.foldl_nil,
    loop_three]
  simp +decide [sadd, sget]

theorem linCode_rggb_oe (w row col : Nat) (hr : row % 2 = 1) (hc : col % 2 = 0) :
    linCode 0x94949494 w 3 row col =
      [((w : Int) * -1 + -1) * 4 + 1, 0, 1,
       ((w : Int) * -1 + 0) * 4 + 0, 1, 0,
       ((w : Int) * -1 + 1) * 4 + 1, 0, 1,
       ((w : Int) * 0 + -1) * 4 + 2, 1, 2,
       ((w : Int) * 0 + 1) * 4 + 2, 1, 2,
       ((w : Int) * 1 + -1) * 4 + 1, 0, 1,
       ((w : Int) * 1 + 0) * 4 + 0, 1, 0,
       ((w : Int) * 1 + 1) * 4 + 1, 0, 1,
       0, 4,
       2, 4] := by
  have r1 : ((row : Int) + -1) % 2 = 0 := by omega
  have r2 : ((row : Int) + 0) % 2 = 1 := by omega
  have r3 : ((row : Int) + 1) % 2 = 0 := by omega
  have r4 : ((row : Int)) % 2 = 1 := by omega
  have c1 : ((col : Int) + -1) % 2 = 1 := by omega
  have c2 : ((col : Int) + 0) % 2 = 0 := by omega
  have c3 : ((col : Int) + 1) % 2 = 1 := by omega
  have c4 : ((col : Int)) % 2 = 0 := by omega
  unfold linCode
  simp only [fc_INDI_rggb, r1, r2, r3, r4, c1, c2, c3, c4, List.foldl_cons, List.foldl_nil,
    loop_three]
  simp +decide [sadd, sget]

theorem linCode_rggb_oo (w row col : Nat) (hr : row % 2 = 1) (hc : col % 2 = 1) :
    linCode 0x94949494 w 3 row col =
      [((w : Int) * -1 + -1) * 4 + 0, 0, 0,
       ((w : Int) * -1 + 0) * 4 + 1, 1, 1,
       ((w : Int) * -1 + 1) * 4 + 0, 0, 0,
       ((w : Int) * 0 + -1) * 4 + 1, 1, 1,
       ((w : Int) * 0 + 1) * 4 + 1, 1, 1,
       ((w : Int) * 1 + -1) * 4 + 0, 0, 0,
       ((w : Int) * 1 + 0) * 4 + 1, 1, 1,
       ((w : Int) * 1 + 1) * 4 + 0, 0, 0,
       0, 4,
       1, 8] := by
  have r1 : ((row : Int) + -1) % 2 = 0 := by omega
  have r2 : ((row : Int) + 0) % 2 = 1 := by omega
  have r3 : ((row : Int) + 1) % 2 = 0 := by omega
  have r4 : ((row : Int)) % 2 = 1 := by omega
  have c1 : ((col : Int) + -1) % 2 = 0 := by omega
  have c2 : ((col : Int) + 0) % 2 = 1 := by omega
  have c3 : ((col : Int) + 1) % 2 = 0 := by omega
  have c4 : ((col : Int)) % 2 = 1 := by omega
  unfold linCode
  simp only [fc_INDI_rggb, r1, r2, r3, r4, c1, c2, c3, c4, List.foldl_cons, List.foldl_nil,
    loop_three]
  simp +decide [sadd, sget]

/-- In a uniform mosaic, the table offset `(w*y + x)*4 + k` read from the pixel
`(row, col)` yields `colour k` when the neighbour `(row+y, col+x)` lies in the
image and has native colour `k`. -/
theorem uni_read {h w : Nat} {colour : Nat → Nat} {img : List Nat}
    (huni : Uniform h w colour img) (row col : Nat) (y x : Int) (k : Nat)
    (hy0 : 0 ≤ (row : Int) + y) (hy1 : (row : Int) + y < h)
    (hx0 : 0 ≤ (col : Int) + x) (hx1 : (col : Int) + x < w)
    (hk : fc_INDI 0x94949494 ((row : Int) + y) ((col : Int) + x) = k) :
    rd img (((row : Int) * w + col) * 4 + (((w : Int) * y + x) * 4 + (k : Int))) = colour k := by
  obtain ⟨y1, hy⟩ := Int.eq_ofNat_of_zero_le hy0
  obtain ⟨x1, hx⟩ := Int.eq_ofNat_of_zero_le hx0
  have := huni y1 x1 (by omega) (by omega)
  rw [← hy, ← hx, hk] at this
  rw [← this]
  congr 1
  ring

theorem sadd4_0 (a b c d v : Int) : sadd [a, b, c, d] 0 v = [a + v, b, c, d] := rfl
theorem sadd4_1 (a b c d v : Int) : sadd [a, b, c, d] 1 v = [a, b + v, c, d] := rfl
theorem sadd4_2 (a b c d v : Int) : sadd [a, b, c, d] 2 v = [a, b, c + v, d] := rfl
theorem sget4_0 (a b c d : Int) : sget [a, b, c, d] 0 = a := rfl
theorem sget4_1 (a b c d : Int) : sget [a, b, c, d] 1 = b := rfl
theorem sget4_2 (a b c d : Int) : sget [a, b, c, d] 2 = c := rfl
theorem toNat_lit0 : (0 : Int).toNat = 0 := rfl
theorem toNat_lit1 : (1 : Int).toNat = 1 := rfl
theorem toNat_lit2 : (2 : Int).toNat = 2 := rfl

theorem store_exact (v : Nat) (s k : Int) (hv : v < 65536) (hk : 0 < k) (hs : s = k * v) :
    (Int.tdiv s k % 65536).toNat = v := by
  rw [hs, Int.mul_tdiv_cancel_left _ (by omega)]
  omega

/-- Two stores into the non-native slots `c1`, `c2` of a pixel whose native
slot `c0` already holds its value. -/
theorem two_stores (img : List Nat) (pix : Int) (c0 c1 c2 : Nat) (v1 v2 : Int)
    (colour : Nat → Nat) (h0 : c0 < 3) (h1 : c1 < 3) (h2 : c2 < 3)
    (h01 : c0 ≠ c1) (h02 : c0 ≠ c2) (h12 : c1 ≠ c2)
    (hp0 : 0 ≤ pix) (hp1 : pix + 3 < img.length)
    (hn : rd img (pix + c0) = colour c0)
    (e1 : (v1 % 65536).toNat = colour c1) (e2 : (v2 % 65536).toNat = colour c2) :
    (wr (wr img (pix + c1) v1) (pix + c2) v2).length = img.length ∧
    (∀ j : Int, (j < pix ∨ pix + 3 ≤ j) →
      rd (wr (wr img (pix + c1) v1) (pix + c2) v2) j = rd img j) ∧
    (∀ c : Nat, c < 3 → rd (wr (wr img (pix + c1) v1) (pix + c2) v2) (pix + c) = colour c) := by
  refine ⟨by rw [wr_length, wr_length], ?_, ?_⟩
  · intro j hj
    rw [rd_wr_ne _ _ _ _ (by omega), rd_wr_ne _ _ _ _ (by omega)]
  · intro c hc
    by_cases hc2 : c = c2
    · subst hc2
      rw [rd_wr_eq _ _ _ (by omega) (by rw [wr_length]; omega)]
      exact e2
    · rw [rd_wr_ne _ _ _ _ (by omega)]
      by_cases hc1 : c = c1
      · subst hc1
        rw [rd_wr_eq _ _ _ (by omega) (by omega)]
        exact e1
      · rw [rd_wr_ne _ _ _ _ (by omega)]
        have : c = c0 := by omega
        rw [this]
        exact hn

theorem linPixel_rggb_ee (h w row col : Nat) (img : List Nat) (colour : Nat → Nat)
    (hlen : img.length = h * w * 4) (huni : Uniform h w colour img)
    (hcol : ∀ c, colour c < 65536)
    (hr0 : 1 ≤ row) (hr1 : row + 1 < h) (hc0 : 1 ≤ col) (hc1 : col + 1 < w)
    (hr : row % 2 = 0) (hc : col % 2 = 0) :
    PixelDone w colour row col img (linPixelVal w 3 (linCode 0x94949494 w 3 row col) img row col) := by
  rw [linCode_rggb_ee w row col hr hc, linPixel_three]
  simp only [toNat_lit0, toNat_lit1, toNat_lit2, sadd4_0, sadd4_1, sadd4_2, sget4_0, sget4_1,
    sget4_2]
  have n1 := uni_read huni row col (-1) (-1) 2 (by omega) (by omega) (by omega) (by omega)
    (by have e1 : ((row : Int) + (-1)) % 2 = 1 := by omega
        have e2 : ((col : Int) + (-1)) % 2 = 1 := by omega
        rw [fc_INDI_rggb, e1, e2]
        decide)
  have n2 := uni_read huni row col (-1) 0 1 (by omega) (by omega) (by omega) (by omega)
    (by have e1 : ((row : Int) + (-1)) % 2 = 1 := by omega
        have e2 : ((col : Int) + 0) % 2 = 0 := by omega
        rw [fc_INDI_rggb, e1, e2]
        decide)
  have n3 := uni_read huni row col (-1) 1 2 (by omega) (by omega) (by omega) (by omega)
    (by have e1 : ((row : Int) + (-1)) % 2 = 1 := by omega
        have e2 : ((col : Int) + 1) % 2 = 1 := by omega
        rw [fc_INDI_rggb, e1, e2]
        decide)
  have n4 := uni_read huni row col 0 (-1) 1 (by omega) (by omega) (by omega) (by omega)
    (by have e1 : ((row : Int) + 0) % 2 = 0 := by omega
        have e2 : ((col : Int) + (-1)) % 2 = 1 := by omega
        rw [fc_INDI_rggb, e1, e2]
        decide)
  have n5 := uni_read huni row col 0 1 1 (by omega) (by omega) (by omega) (by omega)
    (by have e1 : ((row : Int) + 0) % 2 = 0 := by omega
        have e2 : ((col : Int) + 1) % 2 = 1 := by omega
        rw [fc_INDI_rggb, e1, e2]
        decide)
  have n6 := uni_read huni row col 1 (-1) 2 (by omega) (by omega) (by omega) (by omega)
    (by have e1 : ((row : Int) + 1) % 2 = 1 := by omega
        have e2 : ((col : Int) + (-1)) % 2 = 1 := by omega
        rw [fc_INDI_rggb, e1, e2]
        decide)
  have n7 := uni_read huni row col 1 0 1 (by omega) (by omega) (by omega) (by omega)
    (by have e1 : ((row : Int) + 1) % 2 = 1 := by omega
        have e2 : ((col : Int) + 0) % 2 = 0 := by omega
        rw [fc_INDI_rggb, e1, e2]
        decide)
  have n8 := uni_read huni row col 1 1 2 (by omega) (by omega) (by omega) (by omega)
    (by have e1 : ((row : Int) + 1) % 2 = 1 := by omega
        have e2 : ((col : Int) + 1) % 2 = 1 := by omega
        rw [fc_INDI_rggb, e1, e2]
        decide)
  simp only [Nat.cast_ofNat, Nat.cast_one, Nat.cast_zero] at n1 n2 n3 n4 n5 n6 n7 n8
  simp only [n1, n2, n3, n4, n5, n6, n7, n8]
  have hn := huni row col (by omega) (by omega)
  have hf : fc_INDI 0x94949494 (row : Int) (col : Int) = 0 := by
    have e1 : (row : Int) % 2 = 0 := by omega
    have e2 : (col : Int) % 2 = 0 := by omega
    rw [fc_INDI_rggb, e1, e2]
    decide
  rw [hf] at hn
  have hpix := lt_size_of_coord row col h w (by omega) (by omega)
  exact two_stores img _ 0 1 2 _ _ colour (by decide) (by decide) (by decide)
    (by decide) (by decide) (by decide) (by positivity) (by rw [hlen]; push_cast; omega)
    hn
    (store_exact _ _ 8 (hcol 1) (by norm_num) (by ring))
    (store_exact _ _ 4 (hcol 2) (by norm_num) (by ring))

theorem linPixel_rggb_eo (h w row col : Nat) (img : List Nat) (colour : Nat → Nat)
    (hlen : img.length = h * w * 4) (huni : Uniform h w colour img)
    (hcol : ∀ c, colour c < 65536)
    (hr0 : 1 ≤ row) (hr1 : row + 1 < h) (hc0 : 1 ≤ col) (hc1 : col + 1 < w)
    (hr : row % 2 = 0) (hc : col % 2 = 1) :
    PixelDone w colour row col img (linPixelVal w 3 (linCode 0x94949494 w 3 row col) img row col) := by
  rw [linCode_rggb_eo w row col hr hc, linPixel_three]
  simp only [toNat_lit0, toNat_lit1, toNat_lit2, sadd4_0, sadd4_1, sadd4_2, sget4_0, sget4_1,
    sget4_2]
  have n1 := uni_read huni row col (-1) (-1) 1 (by omega) (by omega) (by omega) (by omega)
    (by have e1 : ((row : Int) + (-1)) % 2 = 1 := by omega
        have e2 : ((col : Int) + (-1)) % 2 = 0 := by omega
        rw [fc_INDI_rggb, e1, e2]
        decide)
  have n2 := uni_read huni row col (-1) 0 2 (by omega) (by omega) (by omega) (by omega)
    (by have e1 : ((row : Int) + (-1)) % 2 = 1 := by omega
        have e2 : ((col : Int) + 0) % 2 = 1 := by omega
        rw [fc_INDI_rggb, e1, e2]
        decide)
  have n3 := uni_read huni row col (-1) 1 1 (by omega) (by omega) (by omega) (by omega)
    (by have e1 : ((row : Int) + (-1)) % 2 = 1 := by omega
        have e2 : ((col : Int) + 1) % 2 = 0 := by omega
        rw [fc_INDI_rggb, e1, e2]
        decide)
  have n4 := uni_read huni row col 0 (-1) 0 (by omega) (by omega) (by omega) (by omega)
    (by have e1 : ((row : Int) + 0) % 2 = 0 := by omega
        have e2 : ((col : Int) + (-1)) % 2 = 0 := by omega
        rw [fc_INDI_rggb, e1, e2]
        decide)
  have n5 := uni_read huni row col 0 1 0 (by omega) (by omega) (by omega) (by omega)
    (by have e1 : ((row : Int) + 0) % 2 = 0 := by omega
        have e2 : ((col : Int) + 1) % 2 = 0 := by omega
        rw [fc_INDI_rggb, e1, e2]
        decide)
  have n6 := uni_read huni row col 1 (-1) 1 (by omega) (by omega) (by omega) (by omega)
    (by have e1 : ((row : Int) + 1) % 2 = 1 := by omega
        have e2 : ((col : Int) + (-1)) % 2 = 0 := by omega
        rw [fc_INDI_rggb, e1, e2]
        decide)
  have n7 := uni_read huni row col 1 0 2 (by omega) (by omega) (by omega) (by omega)
    (by have e1 : ((row : Int) + 1) % 2 = 1 := by omega
        have e2 : ((col : Int) + 0) % 2 = 1 := by omega
        rw [fc_INDI_rggb, e1, e2]
        decide)
  have n8 := uni_read huni row col 1 1 1 (by omega) (by omega) (by omega) (by omega)
    (by have e1 : ((row : Int) + 1) % 2 = 1 := by omega
        have e2 : ((col : Int) + 1) % 2 = 0 := by omega
        rw [fc_INDI_rggb, e1, e2]
        decide)
  simp only [Nat.cast_ofNat, Nat.cast_one, Nat.cast_zero] at n1 n2 n3 n4 n5 n6 n7 n8
  simp only [n1, n2, n3, n4, n5, n6, n7, n8]
  have hn := huni row col (by omega) (by omega)
  have hf : fc_INDI 0x94949494 (row : Int) (col : Int) = 1 := by
    have e1 : (row : Int) % 2 = 0 := by omega
    have e2 : (col : Int) % 2 = 1 := by omega
    rw [fc_INDI_rggb, e1, e2]
    decide
  rw [hf] at hn
  have hpix := lt_size_of_coord row col h w (by omega) (by omega)
  exact two_stores img _ 1 0 2 _ _ colour (by decide) (by decide) (by decide)
    (by decide) (by decide) (by decide) (by positivity) (by rw [hlen]; push_cast; omega)
    hn
    (store_exact _ _ 4 (hcol 0) (by norm_num) (by ring))
    (store_exact _ _ 4 (hcol 2) (by norm_num) (by ring))

theorem linPixel_rggb_oe (h w row col : Nat) (img : List Nat) (colour : Nat → Nat)
    (hlen : img.length = h * w * 4) (huni : Uniform h w colour img)
    (hcol : ∀ c, colour c < 65536)
    (hr0 : 1 ≤ row) (hr1 : row + 1 < h) (hc0 : 1 ≤ col) (hc1 : col + 1 < w)
    (hr : row % 2 = 1) (hc : col % 2 = 0) :
    PixelDone w colour row col img (linPixelVal w 3 (linCode 0x94949494 w 3 row col) img row col) := by
  rw [linCode_rggb_oe w row col hr hc, linPixel_three]
  simp only [toNat_lit0, toNat_lit1, toNat_lit2, sadd4_0, sadd4_1, sadd4_2, sget4_0, sget4_1,
    sget4_2]
  have n1 := uni_read huni row col (-1) (-1) 1 (by omega) (by omega) (by omega) (by omega)
    (by have e1 : ((row : Int) + (-1)) % 2 = 0 := by omega
        have e2 : ((col : Int) + (-1)) % 2 = 1 := by omega
        rw [fc_INDI_rggb, e1, e2]
        decide)
  have n2 := uni_read huni row col (-1) 0 0 (by omega) (by omega) (by omega) (by omega)
    (by have e1 : ((row : Int) + (-1)) % 2 = 0 := by omega
        have e2 : ((col : Int) + 0) % 2 = 0 := by omega
        rw [fc_INDI_rggb, e1, e2]
        decide)
  have n3 := uni_read huni row col (-1) 1 1 (by omega) (by omega) (by omega) (by omega)
    (by have e1 : ((row : Int) + (-1)) % 2 = 0 := by omega
        have e2 : ((col : Int) + 1) % 2 = 1 := by omega
        rw [fc_INDI_rggb, e1, e2]
        decide)
  have n4 := uni_read huni row col 0 (-1) 2 (by omega) (by omega) (by omega) (by omega)
    (by have e1 : ((row : Int) + 0) % 2 = 1 := by omega
        have e2 : ((col : Int) + (-1)) % 2 = 1 := by omega
        rw [fc_INDI_rggb, e1, e2]
        decide)
  have n5 := uni_read huni row col 0 1 2 (by omega) (by omega) (by omega) (by omega)
    (by have e1 : ((row : Int) + 0) % 2 = 1 := by omega
        have e2 : ((col : Int) + 1) % 2 = 1 := by omega
        rw [fc_INDI_rggb, e1, e2]
        decide)
  have n6 := uni_read huni row col 1 (-1) 1 (by omega) (by omega) (by omega) (by omega)
    (by have e1 : ((row : Int) + 1) % 2 = 0 := by omega
        have e2 : ((col : Int) + (-1)) % 2 = 1 := by omega
        rw [fc_INDI_rggb, e1, e2]
        decide)
  have n7 := uni_read huni row col 1 0 0 (by omega) (by omega) (by omega) (by omega)
    (by have e1 : ((row : Int) + 1) % 2 = 0 := by omega
        have e2 : ((col : Int) + 0) % 2 = 0 := by omega
        rw [fc_INDI_rggb, e1, e2]
        decide)
  have n8 := uni_read huni row col 1 1 1 (by omega) (by omega) (by omega) (by omega)
    (by have e1 : ((row : Int) + 1) % 2 = 0 := by omega
        have e2 : ((col : Int) + 1) % 2 = 1 := by omega
        rw [fc_INDI_rggb, e1, e2]
        decide)
  simp only [Nat.cast_ofNat, Nat.cast_one, Nat.cast_zero] at n1 n2 n3 n4 n5 n6 n7 n8
  simp only [n1, n2, n3, n4, n5, n6, n7, n8]
  have hn := huni row col (by omega) (by omega)
  have hf : fc_INDI 0x94949494 (row : Int) (col : Int) = 1 := by
    have e1 : (row : Int) % 2 = 1 := by omega
    have e2 : (col : Int) % 2 = 0 := by omega
    rw [fc_INDI_rggb, e1, e2]
    decide
  rw [hf] at hn
  have hpix := lt_size_of_coord row col h w (by omega) (by omega)
  exact two_stores img _ 1 0 2 _ _ colour (by decide) (by decide) (by decide)
    (by decide) (by decide) (by decide) (by positivity) (by rw [hlen]; push_cast; omega)
    hn
    (store_exact _ _ 4 (hcol 0) (by norm_num) (by ring))
    (store_exact _ _ 4 (hcol 2) (by norm_num) (by ring))

theorem linPixel_rggb_oo (h w row col : Nat) (img : List Nat) (colour : Nat → Nat)
    (hlen : img.length = h * w * 4) (huni : Uniform h w colour img)
    (hcol : ∀ c, colour c < 65536)
    (hr0 : 1 ≤ row) (hr1 : row + 1 < h) (hc0 : 1 ≤ col) (hc1 : col + 1 < w)
    (hr : row % 2 = 1) (hc : col % 2 = 1) :
    PixelDone w colour row col img (linPixelVal w 3 (linCode 0x94949494 w 3 row col) img row col) := by
  rw [linCode_rggb_oo w row col hr hc, linPixel_three]
  simp only [toNat_lit0, toNat_lit1, toNat_lit2, sadd4_0, sadd4_1, sadd4_2, sget4_0, sget4_1,
    sget4_2]
  have n1 := uni_read huni row col (-1) (-1) 0 (by omega) (by omega) (by omega) (by omega)
    (by have e1 : ((row : Int) + (-1)) % 2 = 0 := by omega
        have e2 : ((col : Int) + (-1)) % 2 = 0 := by omega
        rw [fc_INDI_rggb, e1, e2]
        decide)
  have n2 := uni_read huni row col (-1) 0 1 (by omega) (by omega) (by omega) (by omega)
    (by have e1 : ((row : Int) + (-1)) % 2 = 0 := by omega
        have e2 : ((col : Int) + 0) % 2 = 1 := by omega
        rw [fc_INDI_rggb, e1, e2]
        decide)
  have n3 := uni_read huni row col (-1) 1 0 (by omega) (by omega) (by omega) (by omega)
    (by have e1 : ((row : Int) + (-1)) % 2 = 0 := by omega
        have e2 : ((col : Int) + 1) % 2 = 0 := by omega
        rw [fc_INDI_rggb, e1, e2]
        decide)
  have n4 := uni_read huni row col 0 (-1) 1 (by omega) (by omega) (by omega) (by omega)
    (by have e1 : ((row : Int) + 0) % 2 = 1 := by omega
        have e2 : ((col : Int) + (-1)) % 2 = 0 := by omega
        rw [fc_INDI_rggb, e1, e2]
        decide)
  have n5 := uni_read huni row col 0 1 1 (by omega) (by omega) (by omega) (by omega)
    (by have e1 : ((row : Int) + 0) % 2 = 1 := by omega
        have e2 : ((col : Int) + 1) % 2 = 0 := by omega
        rw [fc_INDI_rggb, e1, e2]
        decide)
  have n6 := uni_read huni row col 1 (-1) 0 (by omega) (by omega) (by omega) (by omega)
    (by have e1 : ((row : Int) + 1) % 2 = 0 := by omega
        have e2 : ((col : Int) + (-1)) % 2 = 0 := by omega
        rw [fc_INDI_rggb, e1, e2]
        decide)
  have n7 := uni_read huni row col 1 0 1 (by omega) (by omega) (by omega) (by omega)
    (by have e1 : ((row : Int) + 1) % 2 = 0 := by omega
        have e2 : ((col : Int) + 0) % 2 = 1 := by omega
        rw [fc_INDI_rggb, e1, e2]
        decide)
  have n8 := uni_read huni row col 1 1 0 (by omega) (by omega) (by omega) (by omega)
    (by have e1 : ((row : Int) + 1) % 2 = 0 := by omega
        have e2 : ((col : Int) + 1) % 2 = 0 := by omega
        rw [fc_INDI_rggb, e1, e2]
        decide)
  simp only [Nat.cast_ofNat, Nat.cast_one, Nat.cast_zero] at n1 n2 n3 n4 n5 n6 n7 n8
  simp only [n1, n2, n3, n4, n5, n6, n7, n8]
  have hn := huni row col (by omega) (by omega)
  have hf : fc_INDI 0x94949494 (row : Int) (col : Int) = 2 := by
    have e1 : (row : Int) % 2 = 1 := by omega
    have e2 : (col : Int) % 2 = 1 := by omega
    rw [fc_INDI_rggb, e1, e2]
    decide
  rw [hf] at hn
  have hpix := lt_size_of_coord row col h w (by omega) (by omega)
  exact two_stores img _ 2 0 1 _ _ colour (by decide) (by decide) (by decide)
    (by decide) (by decide) (by decide) (by positivity) (by rw [hlen]; push_cast; omega)
    hn
    (store_exact _ _ 4 (hcol 0) (by norm_num) (by ring))
    (store_exact _ _ 8 (hcol 1) (by norm_num) (by ring))

theorem fc_INDI_rggb_lt (r c : Int) : fc_INDI 0x94949494 r c < 3 := by
  rw [fc_INDI_rggb]
  split_ifs <;> omega

theorem linPixel_rggb (h w row col : Nat) (img : List Nat) (colour : Nat → Nat)
    (hlen : img.length = h * w * 4) (huni : Uniform h w colour img)
    (hcol : ∀ c, colour c < 65536)
    (hr0 : 1 ≤ row) (hr1 : row + 1 < h) (hc0 : 1 ≤ col) (hc1 : col + 1 < w) :
    PixelDone w colour row col img
      (linPixelVal w 3 (linCode 0x94949494 w 3 (row &&& 15) (col &&& 15)) img row col) := by
  rw [linCode_mask16]
  rcases Nat.mod_two_eq_zero_or_one row with hr | hr <;>
    rcases Nat.mod_two_eq_zero_or_one col with hc | hc
  · exact linPixel_rggb_ee h w row col img colour hlen huni hcol hr0 hr1 hc0 hc1 hr hc
  · exact linPixel_rggb_eo h w row col img colour hlen huni hcol hr0 hr1 hc0 hc1 hr hc
  · exact linPixel_rggb_oe h w row col img colour hlen huni hcol hr0 hr1 hc0 hc1 hr hc
  · exact linPixel_rggb_oo h w row col img colour hlen huni hcol hr0 hr1 hc0 hc1 hr hc

theorem other_pixel_slot (w row col y x k : Nat) (hc : col < w) (hx : x < w) (hk : k < 4)
    (hne : ¬ (y = row ∧ x = col)) :
    ((y : Int) * w + x) * 4 + k < ((row : Int) * w + col) * 4 ∨
    ((row : Int) * w + col) * 4 + 3 ≤ ((y : Int) * w + x) * 4 + k := by
  have h1 : y * w + x ≠ row * w + col := by
    intro h
    obtain ⟨e1, e2⟩ := pixel_index_inj w y x row col hx hc h
    exact hne ⟨e1, e2⟩
  have h2 : ((y : Int) * w + x) ≠ (row : Int) * w + col := by
    intro h
    apply h1
    exact_mod_cast h
  omega

theorem LinInv.lin_step {h w : Nat} {colour : Nat → Nat} {P : Nat → Nat → Prop} {img out : List Nat}
    (inv : LinInv h w colour P img) (row col : Nat) (_hr : row < h) (hc : col < w)
    (hd : PixelDone w colour row col img out) :
    LinInv h w colour (fun y x => P y x ∨ (y = row ∧ x = col)) out := by
  obtain ⟨hlen, huni, hdone⟩ := inv
  obtain ⟨dlen, dframe, dval⟩ := hd
  refine ⟨dlen.trans hlen, ?_, ?_⟩
  · intro y x hy hx
    by_cases he : y = row ∧ x = col
    · rw [he.1, he.2]
      exact dval _ (fc_INDI_rggb_lt _ _)
    · rw [dframe _ (other_pixel_slot w row col y x _ hc hx (fc_INDI_lt _ _ _) he)]
      exact huni y x hy hx
  · intro y x hP hy hx c hc3
    by_cases he : y = row ∧ x = col
    · rw [he.1, he.2]
      exact dval c hc3
    · rw [dframe _ (other_pixel_slot w row col y x c hc hx (by omega) he)]
      rcases hP with hP | hP
      · exact hdone y x hP hy hx c hc3
      · exact absurd hP he

theorem LinInv.lin_mono {h w : Nat} {colour : Nat → Nat} {P Q : Nat → Nat → Prop} {img : List Nat}
    (inv : LinInv h w colour P img) (hPQ : ∀ y x, Q y x → P y x) : LinInv h w colour Q img :=
  ⟨inv.1, inv.2.1, fun y x hQ hy hx c hc => inv.2.2 y x (hPQ y x hQ) hy hx c hc⟩

/-- The main loops of `lin_interpolate_INDI` on a uniform RGGB mosaic. -/
theorem linLoops_rggb (h w : Nat) (colour : Nat → Nat) (img : List Nat)
    (hcol : ∀ c, colour c < 65536) (inv : LinInv h w colour (fun _ _ => False) img) :
    LinInv h w colour (fun y x => 1 ≤ y ∧ y + 1 < h ∧ 1 ≤ x ∧ x + 1 < w)
      (loop (fun row im =>
        loop (fun col im =>
          linPixelVal w 3 (linCode 0x94949494 w 3 (row &&& 15) (col &&& 15)) im row col)
          (w - 1 - 1) 1 im) (h - 1 - 1) 1 img) := by
  have rows := loop_inv
    (fun i im => LinInv h w colour (fun y x => 1 ≤ y ∧ y < i ∧ 1 ≤ x ∧ x + 1 < w) im)
    (fun row im =>
        loop (fun col im =>
          linPixelVal w 3 (linCode 0x94949494 w 3 (row &&& 15) (col &&& 15)) im row col)
          (w - 1 - 1) 1 im) (h - 1 - 1) 1 img
    (inv.lin_mono (fun y x hQ => by omega))
    (by
      intro row im hr0 hr1 hinv
      have cols := loop_inv
        (fun i im1 => LinInv h w colour
          (fun y x => (1 ≤ y ∧ y < row ∧ 1 ≤ x ∧ x + 1 < w) ∨ (y = row ∧ 1 ≤ x ∧ x < i)) im1)
        (fun col im =>
          linPixelVal w 3 (linCode 0x94949494 w 3 (row &&& 15) (col &&& 15)) im row col)
        (w - 1 - 1) 1 im
        (hinv.lin_mono (fun y x hQ => by
          rcases hQ with hQ | hQ
          · exact hQ
          · omega))
        (by
          intro col im1 hc0 hc1 hinv1
          have hd := linPixel_rggb h w row col im1 colour hinv1.1 hinv1.2.1 hcol
            (by omega) (by omega) (by omega) (by omega)
          exact (hinv1.lin_step row col (by omega) (by omega) hd).lin_mono (fun y x hQ => by
            rcases hQ with hQ | hQ
            · exact Or.inl (Or.inl hQ)
            · by_cases hx : x = col
              · exact Or.inr ⟨hQ.1, hx⟩
              · exact Or.inl (Or.inr ⟨hQ.1, hQ.2.1, by omega⟩)))
      exact cols.lin_mono (fun y x hQ => by
        by_cases hy : y = row
        · right
          exact ⟨hy, hQ.2.2.1, by omega⟩
        · left
          exact ⟨hQ.1, by omega, hQ.2.2.1, hQ.2.2.2⟩))
  exact rows.lin_mono (fun y x hQ => ⟨hQ.1, by omega, hQ.2.2.1, hQ.2.2.2⟩)

theorem rd_mosaic (filters height width : Nat) (colour : Nat → Nat) (y x k : Nat)
    (hy : y < height) (hx : x < width) (hk : k < 4) :
    rd (mosaic filters height width colour) (((y : Int) * width + x) * 4 + k)
      = if k = fc_INDI filters y x then colour k else 0 := by
  have hpix := lt_size_of_coord y x height width hy hx
  have hidx : (((y : Int) * width + x) * 4 + k) = (((y * width + x) * 4 + k : Nat) : Int) := by
    push_cast; ring
  unfold rd mosaic
  rw [hidx]
  simp only [Int.toNat_ofNat, show ¬ (((y * width + x) * 4 + k : Nat) : Int) < 0 by omega,
    if_false]
  rw [getD_range_map _ _ _ _ (by omega)]
  have e1 : ((y * width + x) * 4 + k) % 4 = k := by omega
  have e2 : ((y * width + x) * 4 + k) / 4 = y * width + x := by omega
  rw [e1, e2, enc_div y x width hx, enc_mod y x width hx]

theorem mosaic_length (filters height width : Nat) (colour : Nat → Nat) :
    (mosaic filters height width colour).length = height * width * 4 := by
  unfold mosaic
  simp

theorem mosaic_uniform (height width : Nat) (colour : Nat → Nat) :
    Uniform height width colour (mosaic 0x94949494 height width colour) := by
  intro y x hy hx
  rw [rd_mosaic _ _ _ _ _ _ _ hy hx (fc_INDI_lt _ _ _)]
  simp

/-! ## Claim on bilinear interpolation -/

/-- On the RGGB descriptor with `colors = 3` no divisor of the stores of a
table entry is 0. -/
theorem linSafe_rggb (w row col : Nat) :
    linSafe 3 (linCode 0x94949494 w 3 row col) = true := by
  rcases Nat.mod_two_eq_zero_or_one row with hr | hr <;>
    rcases Nat.mod_two_eq_zero_or_one col with hc | hc
  · rw [linCode_rggb_ee w row col hr hc]
    rfl
  · rw [linCode_rggb_eo w row col hr hc]
    rfl
  · rw [linCode_rggb_oe w row col hr hc]
    rfl
  · rw [linCode_rggb_oo w row col hr hc]
    rfl

theorem LinSafe_rggb (width height : Nat) : LinSafe 0x94949494 width height 3 :=
  fun row col _ _ _ _ => linSafe_rggb width (row &&& 15) (col &&& 15)

/-- On the RGGB mosaic of a uniform image, `lin_interpolate_INDI` returns and
every pixel off the outermost ring holds the three values exactly. -/
theorem lin_interpolate_INDI_rggb (height width fuel : Nat) (colour : Nat → Nat)
    (hcol : ∀ c, colour c < 65536) (hfuel : width < fuel) :
    ∃ out, lin_interpolate_INDI (mosaic 0x94949494 height width colour) 0x94949494
        width height 3 fuel = some out ∧
      LinInv height width colour (fun y x => 1 ≤ y ∧ y + 1 < height ∧ 1 ≤ x ∧ x + 1 < width)
        out := by
  obtain ⟨img1, hb, hs⟩ := border_interpolate_INDI_sameNative height width
    (mosaic 0x94949494 height width colour) 0x94949494 3 1 fuel (by omega) (by omega)
    (by omega) hfuel
  refine ⟨_, ?_, linLoops_rggb height width colour img1 hcol ?_⟩
  · rw [lin_interpolate_INDI_safe _ _ _ _ _ _ (LinSafe_rggb width height), hb]
    rfl
  · refine ⟨by rw [hs.1, mosaic_length], ?_, fun _ _ h => h.elim⟩
    intro y x hy hx
    rw [hs.2 y x hy hx]
    exact mosaic_uniform height width colour y x hy hx

/-- C6: for every height and width and every uniform colour `(r, g, b)` of
`ushort` values, on the periodic RGGB Bayer mosaic of that image (descriptor
`0x94949494`, `colors = 3`, each pixel holding only its native sample)
`lin_interpolate_INDI` returns (given fuel beyond the width for the border
pass) and every pixel at least 2 pixels from every edge holds exactly
`(r, g, b)` in planes 0..2. -/
theorem lin_interpolate_INDI_uniform (height width r g b fuel : Nat)
    (hr : r < 65536) (hg : g < 65536) (hb : b < 65536) (hfuel : width < fuel) :
    ∃ out, lin_interpolate_INDI (mosaic 0x94949494 height width (fun c => [r, g, b].getD c 0))
        0x94949494 width height 3 fuel = some out ∧
      ∀ row col : Nat, 2 ≤ row → row + 2 < height → 2 ≤ col → col + 2 < width →
        rd out (((row : Int) * width + col) * 4 + 0) = r ∧
        rd out (((row : Int) * width + col) * 4 + 1) = g ∧
        rd out (((row : Int) * width + col) * 4 + 2) = b := by
  have hcol : ∀ c, (fun c => [r, g, b].getD c 0) c < 65536 := by
    intro c
    show [r, g, b].getD c 0 < 65536
    rcases c with _ | _ | _ | c
    · exact hr
    · exact hg
    · exact hb
    · simp
  obtain ⟨out, ho, inv⟩ := lin_interpolate_INDI_rggb height width fuel _ hcol hfuel
  refine ⟨out, ho, ?_⟩
  intro row col h1 h2 h3 h4
  have := inv.2.2 row col ⟨by omega, by omega, by omega, by omega⟩ (by omega) (by omega)
  exact ⟨this 0 (by omega), this 1 (by omega), this 2 (by omega)⟩

theorem lin_interpolate_INDI_uniform_witness :
    ((8192 : Nat) < 65536 ∧ (8192 : Nat) < 65536 ∧ (8192 : Nat) < 65536 ∧ (16 : Nat) < 17) ∧
    ∃ out, lin_interpolate_INDI (mosaic 0x94949494 16 16 (fun c => [8192, 8192, 8192].getD c 0))
        0x94949494 16 16 3 17 = some out ∧
      ∀ row col : Nat, 2 ≤ row → row + 2 < 16 → 2 ≤ col → col + 2 < 16 →
        rd out (((row : Int) * (16 : Nat) + col) * 4 + 0) = 8192 ∧
        rd out (((row : Int) * (16 : Nat) + col) * 4 + 1) = 8192 ∧
        rd out (((row : Int) * (16 : Nat) + col) * 4 + 2) = 8192 :=
  ⟨by decide,
   lin_interpolate_INDI_uniform 16 16 8192 8192 8192 17 (by decide) (by decide) (by decide)
     (by decide)⟩

/-! ## The border pass on narrow images -/

/-- With `border = 3` and `width = 4` the column loop of a row with
`3 ≤ row < height - 3` never ends: from column 2 it reaches column 3, is sent
back to column `width - border = 1`, and is at column 2 again. -/
theorem borderCols_cycle (height filters colors : Nat) (row : Int)
    (h1 : 3 ≤ row) (h2 : row < (height : Int) - 3) :
    ∀ (fuel : Nat) (img : List Nat),
      borderCols height 4 filters colors 3 row fuel 2 img = none ∧
      borderCols height 4 filters colors 3 row fuel 3 img = none := by
  intro fuel
  induction fuel using Nat.strong_induction_on with
  | _ fuel ih =>
    intro img
    have h3 : borderCols height 4 filters colors 3 row fuel 3 img = none := by
      cases fuel with
      | zero => rfl
      | succ f =>
        unfold borderCols
        have hj : ((3 : Int) = 3 ∧ row ≥ 3 ∧ row < (height : Int) - 3) := ⟨rfl, h1, h2⟩
        simp only [Nat.cast_ofNat, show ((3 : Int) < 4) by decide, if_true, hj, and_self]
        exact (ih f (by omega) _).1
    refine ⟨?_, h3⟩
    cases fuel with
    | zero => rfl
    | succ f =>
      unfold borderCols
      have hj : ¬ ((2 : Int) = 3 ∧ row ≥ 3 ∧ row < (height : Int) - 3) := by
        intro h
        exact absurd h.1 (by decide)
      simp only [Nat.cast_ofNat, show ((2 : Int) < 4) by decide, if_true, hj, if_false]
      exact (ih f (by omega) _).2

theorem borderCols_stuck (height filters colors : Nat) (row : Int)
    (h1 : 3 ≤ row) (h2 : row < (height : Int) - 3) (fuel : Nat) (img : List Nat) :
    borderCols height 4 filters colors 3 row fuel 0 img = none := by
  cases fuel with
  | zero => rfl
  | succ f =>
    unfold borderCols
    have hj : ¬ ((0 : Int) = 3 ∧ row ≥ 3 ∧ row < (height : Int) - 3) := by
      intro h
      exact absurd h.1 (by decide)
    simp only [Nat.cast_ofNat, show ((0 : Int) < 4) by decide, if_true, hj, if_false]
    cases f with
    | zero => rfl
    | succ f =>
      unfold borderCols
      have hj1 : ¬ ((0 + 1 : Int) = 3 ∧ row ≥ 3 ∧ row < (height : Int) - 3) := by
        intro h
        exact absurd h.1 (by decide)
      simp only [Nat.cast_ofNat, show ((0 + 1 : Int) < 4) by decide, if_true, hj1, if_false]
      exact (borderCols_cycle height filters colors row h1 h2 f _).1

/-- On an image of height 7 and width 4 the border pass of width 3 does not
return, whatever the fuel. -/
theorem border_interpolate_INDI_stuck (img : List Nat) (filters colors fuel : Nat) :
    border_interpolate_INDI 7 4 img filters colors 3 fuel = none := by
  unfold border_interpolate_INDI
  apply loopOpt_none _ 3
  · intro s
    exact borderCols_stuck 7 filters colors ((3 : Nat) : Int) (by decide) (by decide) fuel s
  · omega
  · omega

/-! ## Claims on VNG and AHD on a uniform image -/

/-- C7 (the code at the failing input): on the 5 × 5 RGGB mosaic of the uniform
colour `(8192, 8192, 8192)` `vng_interpolate_INDI` returns, and the pixel at
row 1, column 2, which is not on the outermost ring, holds `(0, 0, 0)`: the
final write-back copies the row buffer `brow[0]`, never filled and still zero,
over image row 1. -/
theorem vng_interpolate_INDI_height5 :
    (vng_interpolate_INDI (mosaic 0x94949494 5 5 (fun c => [8192, 8192, 8192].getD c 0))
        0x94949494 5 5 3 300).map
      (fun out => (rd out ((1 * 5 + 2) * 4 + 0), rd out ((1 * 5 + 2) * 4 + 1),
        rd out ((1 * 5 + 2) * 4 + 2))) = some (0, 0, 0) := by
  decide

/-- C8 (the code at the failing input): on the 7 × 4 RGGB mosaic of a uniform
colour `ahd_interpolate_INDI` does not return, whatever the fuel, the CIELab
helper and the initial contents of its scratch memory: its border pass of
width 3 cycles through the columns 1, 2, 3 of row 3. -/
theorem ahd_interpolate_INDI_width4 (colour : Nat → Nat) (labOf : List Int → List Int)
    (lab0 : Buf) (abdiff0 : List Int) (fuel : Nat) :
    ahd_interpolate_INDI (mosaic 0x94949494 7 4 colour) 0x94949494 4 7 3 labOf lab0 abdiff0
      fuel = none := by
  unfold ahd_interpolate_INDI
  rw [border_interpolate_INDI_stuck]

/-! ## The combination pass of AHD -/

theorem three_stores (img : List Nat) (pix : Int) (g : Nat → Int)
    (hp0 : 0 ≤ pix) (hp1 : pix + 3 < img.length) :
    (loop (fun c im => wr im (pix + c) (g c)) 3 0 img).length = img.length ∧
    (∀ j : Int, (j < pix ∨ pix + 3 ≤ j) →
      rd (loop (fun c im => wr im (pix + c) (g c)) 3 0 img) j = rd img j) ∧
    (∀ c : Nat, c < 3 →
      rd (loop (fun c im => wr im (pix + c) (g c)) 3 0 img) (pix + c)
        = (g c % 65536).toNat) := by
  rw [loop_three]
  simp only [Nat.zero_add]
  refine ⟨by rw [wr_length, wr_length, wr_length], ?_, ?_⟩
  · intro j hj
    rw [rd_wr_ne _ _ _ _ (by push_cast; omega), rd_wr_ne _ _ _ _ (by push_cast; omega),
      rd_wr_ne _ _ _ _ (by push_cast; omega)]
  · intro c hc
    have hc' : c = 0 ∨ c = 1 ∨ c = 2 := by omega
    rcases hc' with rfl | rfl | rfl
    · rw [rd_wr_ne _ _ _ _ (by push_cast; omega), rd_wr_ne _ _ _ _ (by push_cast; omega),
        rd_wr_eq _ _ _ (by push_cast; omega) (by push_cast; omega)]
    · rw [rd_wr_ne _ _ _ _ (by push_cast; omega),
        rd_wr_eq _ _ _ (by push_cast; omega) (by rw [wr_length]; push_cast; omega)]
    · rw [rd_wr_eq _ _ _ (by push_cast; omega) (by rw [wr_length, wr_length]; push_cast; omega)]

theorem ahdCombinePixel_spec (rgb homo : Buf) (width height top left row col : Nat)
    (img : List Nat) (hlen : img.length = height * width * 4)
    (hr : row < height) (hc : col < width) :
    (ahdCombinePixel rgb homo width top left row col img).length = img.length ∧
    (∀ j : Int, (j < ((row : Int) * width + col) * 4 ∨ ((row : Int) * width + col) * 4 + 3 ≤ j) →
      rd (ahdCombinePixel rgb homo width top left row col img) j = rd img j) ∧
    (∀ c : Nat, c < 3 →
      rd (ahdCombinePixel rgb homo width top left row col img)
          (((row : Int) * width + col) * 4 + c)
        = (ahdChoice rgb homo ((row : Int) - top) ((col : Int) - left) c % 65536).toNat) := by
  have hpix := lt_size_of_coord row col height width hr hc
  have hp0 : (0 : Int) ≤ ((row : Int) * width + col) * 4 := by positivity
  have hp1 : ((row : Int) * width + col) * 4 + 3 < img.length := by
    rw [hlen]; push_cast; omega
  unfold ahdCombinePixel ahdChoice
  by_cases hne : ahdHm homo 0 ((row : Int) - top) ((col : Int) - left)
      ≠ ahdHm homo 1 ((row : Int) - top) ((col : Int) - left)
  · simp only [hne, ne_eq, not_false_eq_true, if_true]
    exact three_stores img _ _ hp0 hp1
  · simp only [hne, if_false]
    exact three_stores img _ _ hp0 hp1

theorem PixelsHold.hold_step {w : Nat} {val : Nat → Nat → Nat → Nat} {P : Nat → Nat → Prop}
    {img out : List Nat} (inv : PixelsHold w val P img) (row col : Nat) (hc : col < w)
    (hlen : out.length = img.length)
    (hframe : ∀ j : Int, (j < ((row : Int) * w + col) * 4 ∨ ((row : Int) * w + col) * 4 + 3 ≤ j) →
      rd out j = rd img j)
    (hval : ∀ c : Nat, c < 3 → rd out (((row : Int) * w + col) * 4 + c) = val row col c) :
    PixelsHold w val (fun y x => P y x ∨ (y = row ∧ x = col)) out := by
  have _ := hlen
  intro y x hP hx c hc3
  by_cases he : y = row ∧ x = col
  · rw [he.1, he.2]
    exact hval c hc3
  · rw [hframe _ (other_pixel_slot w row col y x c hc hx (by omega) he)]
    rcases hP with hP | hP
    · exact inv y x hP hx c hc3
    · exact absurd hP he

theorem PixelsHold.hold_mono {w : Nat} {val : Nat → Nat → Nat → Nat} {P Q : Nat → Nat → Prop}
    {img : List Nat} (inv : PixelsHold w val P img) (hPQ : ∀ y x, Q y x → P y x) :
    PixelsHold w val Q img :=
  fun y x hQ hx c hc => inv y x (hPQ y x hQ) hx c hc

/-- The combination pass of a tile leaves every pixel of its range with the
chosen values. -/
theorem ahdCombine_spec (rgb homo : Buf) (width height top left : Nat) (img : List Nat)
    (hlen : img.length = height * width * 4) :
    PixelsHold width
      (fun y x c => (ahdChoice rgb homo ((y : Int) - top) ((x : Int) - left) c % 65536).toNat)
      (fun y x => top + 3 ≤ y ∧ y < top + 253 ∧ y + 3 < height ∧
        left + 3 ≤ x ∧ x < left + 253 ∧ x + 3 < width)
      (ahdCombine rgb homo width height top left img) := by
  unfold ahdCombine
  have rows := loop_inv
    (fun i im => im.length = height * width * 4 ∧ PixelsHold width
      (fun y x c => (ahdChoice rgb homo ((y : Int) - top) ((x : Int) - left) c % 65536).toNat)
      (fun y x => top + 3 ≤ y ∧ y < i ∧ left + 3 ≤ x ∧ x < left + 253 ∧ x + 3 < width) im)
    (fun row im =>
      loop (fun col im => ahdCombinePixel rgb homo width top left row col im)
        (min (left + 253) (width - 3) - (left + 3)) (left + 3) im)
    (min (top + 253) (height - 3) - (top + 3)) (top + 3) img
    ⟨hlen, fun y x hP => by omega⟩
    (by
      intro row im hr0 hr1 hinv
      have cols := loop_inv
        (fun i im1 => im1.length = height * width * 4 ∧ PixelsHold width
          (fun y x c =>
            (ahdChoice rgb homo ((y : Int) - top) ((x : Int) - left) c % 65536).toNat)
          (fun y x => (top + 3 ≤ y ∧ y < row ∧ left + 3 ≤ x ∧ x < left + 253 ∧ x + 3 < width)
            ∨ (y = row ∧ left + 3 ≤ x ∧ x < i)) im1)
        (fun col im => ahdCombinePixel rgb homo width top left row col im)
        (min (left + 253) (width - 3) - (left + 3)) (left + 3) im
        ⟨hinv.1, hinv.2.hold_mono (fun y x hQ => by
          rcases hQ with hQ | hQ
          · exact hQ
          · omega)⟩
        (by
          intro col im1 hc0 hc1 hinv1
          obtain ⟨l1, f1, v1⟩ := ahdCombinePixel_spec rgb homo width height top left row col im1
            hinv1.1 (by omega) (by omega)
          refine ⟨l1.trans hinv1.1, ?_⟩
          exact (PixelsHold.hold_step hinv1.2 row col (by omega) l1 f1 v1).hold_mono
            (fun y x hQ => by
              rcases hQ with hQ | hQ
              · exact Or.inl (Or.inl hQ)
              · by_cases hx : x = col
                · exact Or.inr ⟨hQ.1, hx⟩
                · exact Or.inl (Or.inr ⟨hQ.1, hQ.2.1, by omega⟩)))
      refine ⟨cols.1, cols.2.hold_mono (fun y x hQ => ?_)⟩
      by_cases hy : y = row
      · right
        exact ⟨hy, hQ.2.2.1, by omega⟩
      · left
        exact ⟨hQ.1, by omega, hQ.2.2.1, hQ.2.2.2⟩)
  exact rows.2.hold_mono (fun y x hQ => ⟨hQ.1, by omega, hQ.2.2.2.1, hQ.2.2.2.2⟩)

/-- The sum `hm[d]` is the sum of the nine counters around the pixel. -/
theorem ahdHm_eq (homo : Buf) (d : Nat) (tr tc : Int) :
    ahdHm homo d tr tc
      = ∑ i ∈ Finset.range 3, ∑ j ∈ Finset.range 3,
          homo.get (homoIdx d (tr - 1 + (i : Int)) (tc - 1 + (j : Int))) := by
  unfold ahdHm
  simp only [loop_three, Finset.sum_range_succ, Finset.sum_range_zero]
  push_cast
  ring

/-! ## Claim on the AHD combination and tie-break -/

/-- C9: for every pixel `(row, col)` in the range of the combination pass of a
tile (`top+3 ≤ row < min(top+TS-3, height-3)`, the same for the column), with
`hm0` and `hm1` the sums of the horizontal and vertical homogeneity counters
over its 3 × 3 neighbourhood and the two directional candidates read from the
`ushort` buffer `rgb`, the pass leaves in each plane `c` in `0..2` the
candidate of direction 0 if `hm0 > hm1`, the candidate of direction 1 if
`hm1 > hm0`, and the floor of the mean of the two if `hm0 = hm1`. -/
theorem ahdCombine_rule (rgb homo : Buf) (width height top left : Nat) (img : List Nat)
    (row col c : Nat) (hm0 hm1 : Int)
    (hrgb : ∀ i, 0 ≤ rgb.get i ∧ rgb.get i < 65536)
    (hlen : img.length = height * width * 4)
    (hr0 : top + 3 ≤ row) (hr1 : row < top + 253) (hr2 : row + 3 < height)
    (hc0 : left + 3 ≤ col) (hc1 : col < left + 253) (hc2 : col + 3 < width)
    (hc : c < 3)
    (h0 : hm0 = ∑ i ∈ Finset.range 3, ∑ j ∈ Finset.range 3,
      homo.get (homoIdx 0 ((row : Int) - top - 1 + (i : Int)) ((col : Int) - left - 1 + (j : Int))))
    (h1 : hm1 = ∑ i ∈ Finset.range 3, ∑ j ∈ Finset.range 3,
      homo.get (homoIdx 1 ((row : Int) - top - 1 + (i : Int)) ((col : Int) - left - 1 + (j : Int)))) :
    (rd (ahdCombine rgb homo width height top left img)
        (((row : Int) * width + col) * 4 + c) : Int)
      = if hm0 > hm1 then rgb.get (rgbIdx 0 ((row : Int) - top) ((col : Int) - left) c)
        else if hm1 > hm0 then rgb.get (rgbIdx 1 ((row : Int) - top) ((col : Int) - left) c)
        else (rgb.get (rgbIdx 0 ((row : Int) - top) ((col : Int) - left) c)
          + rgb.get (rgbIdx 1 ((row : Int) - top) ((col : Int) - left) c)) / 2 := by
  have key : rd (ahdCombine rgb homo width height top left img)
        (((row : Int) * width + col) * 4 + c)
      = (ahdChoice rgb homo ((row : Int) - top) ((col : Int) - left) c % 65536).toNat :=
    ahdCombine_spec rgb homo width height top left img hlen row col
      ⟨hr0, hr1, hr2, hc0, hc1, hc2⟩ (by omega) c hc
  rw [key]
  have e0 : ahdHm homo 0 ((row : Int) - top) ((col : Int) - left) = hm0 := by
    rw [ahdHm_eq, h0]; rfl
  have e1 : ahdHm homo 1 ((row : Int) - top) ((col : Int) - left) = hm1 := by
    rw [ahdHm_eq, h1]; rfl
  have a0 := hrgb (rgbIdx 0 ((row : Int) - top) ((col : Int) - left) c)
  have a1 := hrgb (rgbIdx 1 ((row : Int) - top) ((col : Int) - left) c)
  unfold ahdChoice
  rw [e0, e1]
  by_cases g0 : hm0 > hm1
  · have hne : hm0 ≠ hm1 := by omega
    have hng : ¬ hm1 > hm0 := by omega
    simp only [hne, ne_eq, not_false_eq_true, if_true, hng, if_false, g0]
    omega
  · by_cases g1 : hm1 > hm0
    · have hne : hm0 ≠ hm1 := by omega
      simp only [hne, ne_eq, not_false_eq_true, if_true, g0, if_false, g1]
      omega
    · have he : hm0 = hm1 := by omega
      subst he
      simp only [ne_eq, not_true_eq_false, if_false, g0]
      omega

theorem ahdCombine_rule_witness :
    ((∀ i : Int, 0 ≤ (Buf.mk (fun j => if j < 196608 then 10 else 21)).get i ∧
        (Buf.mk (fun j => if j < 196608 then 10 else 21)).get i < 65536) ∧
      (List.replicate 196 0 : List Nat).length = 7 * 7 * 4) ∧
    (rd (ahdCombine (Buf.mk (fun j => if j < 196608 then 10 else 21)) (Buf.mk (fun _ => 1))
          7 7 0 0 (List.replicate 196 0))
        ((((3 : Nat) : Int) * (7 : Nat) + (3 : Nat)) * 4 + (0 : Nat)) : Int)
      = if (9 : Int) > 9 then
          (Buf.mk (fun j => if j < 196608 then 10 else 21)).get
            (rgbIdx 0 (((3 : Nat) : Int) - (0 : Nat)) (((3 : Nat) : Int) - (0 : Nat)) (0 : Nat))
        else if (9 : Int) > 9 then
          (Buf.mk (fun j => if j < 196608 then 10 else 21)).get
            (rgbIdx 1 (((3 : Nat) : Int) - (0 : Nat)) (((3 : Nat) : Int) - (0 : Nat)) (0 : Nat))
        else ((Buf.mk (fun j => if j < 196608 then 10 else 21)).get
            (rgbIdx 0 (((3 : Nat) : Int) - (0 : Nat)) (((3 : Nat) : Int) - (0 : Nat)) (0 : Nat))
          + (Buf.mk (fun j => if j < 196608 then 10 else 21)).get
            (rgbIdx 1 (((3 : Nat) : Int) - (0 : Nat)) (((3 : Nat) : Int) - (0 : Nat)) (0 : Nat)))
          / 2 :=
  ⟨⟨fun i => by
      show 0 ≤ (if i < 196608 then (10 : Int) else 21) ∧
        (if i < 196608 then (10 : Int) else 21) < 65536
      split_ifs <;> decide,
    by decide⟩,
   ahdCombine_rule (Buf.mk (fun j => if j < 196608 then 10 else 21)) (Buf.mk (fun _ => 1))
     7 7 0 0 (List.replicate 196 0) 3 3 0 9 9
     (fun i => by
      show 0 ≤ (if i < 196608 then (10 : Int) else 21) ∧
        (if i < 196608 then (10 : Int) else 21) < 65536
      split_ifs <;> decide)
     (by decide) (by decide) (by decide) (by decide) (by decide) (by decide) (by decide)
     (by decide) (by simp) (by simp)⟩

/-! ## Termination of the border pass -/

/-- The column loop of a row returns when the jump `col = width-border` does
not move `col` backward: the row does not jump, or `width ≤ border`, or
`2*border ≤ width`. -/
theorem borderCols_returns (height width filters colors : Nat) (border row : Int)
    (h : ¬ (row ≥ border ∧ row < height - border) ∨ (width : Int) ≤ border
      ∨ 2 * border ≤ width) :
    ∀ (fuel : Nat) (col : Int) (img : List Nat), ((width : Int) - col).toNat < fuel →
      ∃ out, borderCols height width filters colors border row fuel col img = some out := by
  intro fuel
  induction fuel with
  | zero =>
    intro col img hf
    omega
  | succ fuel ih =>
    intro col img hf
    unfold borderCols
    by_cases hlt : col < width
    · simp only [hlt, if_true]
      by_cases hjump : col = border ∧ row ≥ border ∧ row < height - border
      · simp only [hjump, and_self, if_true]
        have hj := hjump.1
        have h2 : 2 * border ≤ width := by
          rcases h with h | h | h
          · exact absurd hjump.2 h
          · omega
          · exact h
        exact ih _ _ (by omega)
      · simp only [hjump, if_false]
        exact ih _ _ (by omega)
    · simp only [hlt, if_false]
      exact ⟨img, rfl⟩

/-- In a row that jumps, with `border < width < 2*border`, the column loop
never ends: from a column `col ≤ border` it reaches `border`, is sent back to
`width - border < border`, and so on. -/
theorem borderCols_loops (height width filters colors : Nat) (border row : Int)
    (hrow : row ≥ border ∧ row < height - border) (h1 : border < width)
    (h2 : (width : Int) < 2 * border) :
    ∀ (fuel : Nat) (col : Int) (img : List Nat), col ≤ border →
      borderCols height width filters colors border row fuel col img = none := by
  intro fuel
  induction fuel with
  | zero =>
    intro col img _
    rfl
  | succ fuel ih =>
    intro col img hc
    unfold borderCols
    have hlt : col < width := by omega
    simp only [hlt, if_true]
    by_cases hjump : col = border ∧ row ≥ border ∧ row < height - border
    · simp only [hjump, and_self, if_true]
      exact ih _ _ (by omega)
    · simp only [hjump, if_false]
      have hne : col ≠ border := fun e => hjump ⟨e, hrow⟩
      exact ih _ _ (by omega)

/-- With fuel beyond the width `border_interpolate_INDI` returns unless some
row jumps backward. -/
theorem border_interpolate_INDI_returns (height width : Nat) (img : List Nat)
    (filters colors : Nat) (border : Int) (fuel : Nat)
    (h : ¬ (2 * border < height ∧ border < width ∧ (width : Int) < 2 * border))
    (hfuel : width < fuel) :
    ∃ out, border_interpolate_INDI height width img filters colors border fuel = some out := by
  unfold border_interpolate_INDI
  obtain ⟨out, ho, _⟩ := loopOpt_inv (fun _ (_ : List Nat) => True)
    (fun row im => borderCols height width filters colors border row fuel 0 im)
    height 0 img trivial (by
      intro i s _ hi _
      obtain ⟨out, ho⟩ := borderCols_returns height width filters colors border i
        (by omega) fuel 0 s (by omega)
      exact ⟨out, ho, trivial⟩)
  exact ⟨out, ho⟩

/-- When a row jumps backward `border_interpolate_INDI` does not return,
whatever the fuel. -/
theorem border_interpolate_INDI_loops (height width : Nat) (img : List Nat)
    (filters colors : Nat) (border : Int) (fuel : Nat)
    (h : 2 * border < height ∧ border < width ∧ (width : Int) < 2 * border) :
    border_interpolate_INDI height width img filters colors border fuel = none := by
  unfold border_interpolate_INDI
  obtain ⟨b, hb⟩ := Int.eq_ofNat_of_zero_le (show 0 ≤ border by omega)
  apply loopOpt_none _ b
  · intro s
    exact borderCols_loops height width filters colors border b (by omega) h.2.1 h.2.2
      fuel 0 s (by omega)
  · omega
  · omega

/-- C11 (the code as it behaves): for every image, descriptor and number of
colours the border pass of width 1 returns; `lin_interpolate_INDI` returns
exactly when no pixel body of its main loop divides by 0 (a plane without a
neighbour of its colour has the divisor 0, and the division traps); the
border pass of width 3 returns exactly when the image is not both at least 7
rows high and 4 or 5 columns wide, and `ahd_interpolate_INDI` likewise.  On a
7 × 4 image the column loop of row 3 is sent from column 3 back to column
`width - border = 1` for ever. -/
theorem border_interpolate_INDI_terminates_iff (height width : Nat) (img : List Nat)
    (filters colors : Nat) :
    (∃ out, border_interpolate_INDI height width img filters colors 1 (width + 1) = some out) ∧
    ((∃ out, lin_interpolate_INDI img filters width height colors (width + 1) = some out) ↔
      LinSafe filters width height colors) ∧
    ((∃ fuel out, border_interpolate_INDI height width img filters colors 3 fuel = some out) ↔
      ¬ (7 ≤ height ∧ (width = 4 ∨ width = 5))) ∧
    (∀ (labOf : List Int → List Int) (lab0 : Buf) (abdiff0 : List Int),
      (∃ fuel out, ahd_interpolate_INDI img filters width height colors labOf lab0 abdiff0 fuel
          = some out) ↔
        ¬ (7 ≤ height ∧ (width = 4 ∨ width = 5))) := by
  have h1 := border_interpolate_INDI_returns height width img filters colors 1 (width + 1)
    (by omega) (by omega)
  have h3 : (∃ fuel out, border_interpolate_INDI height width img filters colors 3 fuel
      = some out) ↔ ¬ (7 ≤ height ∧ (width = 4 ∨ width = 5)) := by
    constructor
    · rintro ⟨fuel, out, ho⟩ hbad
      rw [border_interpolate_INDI_loops height width img filters colors 3 fuel (by omega)] at ho
      exact Option.noConfusion ho
    · intro hgood
      obtain ⟨out, ho⟩ := border_interpolate_INDI_returns height width img filters colors 3
        (width + 1) (by omega) (by omega)
      exact ⟨width + 1, out, ho⟩
  refine ⟨h1, ?_, h3, ?_⟩
  · constructor
    · rintro ⟨out, ho⟩
      exact lin_interpolate_INDI_some img out filters width height colors (width + 1) ho
    · intro hs
      obtain ⟨out, ho⟩ := h1
      rw [lin_interpolate_INDI_safe img filters width height colors (width + 1) hs]
      rw [ho]
      exact ⟨_, rfl⟩
  · intro labOf lab0 abdiff0
    rw [← h3]
    constructor
    · rintro ⟨fuel, out, ho⟩
      unfold ahd_interpolate_INDI at ho
      cases hb : border_interpolate_INDI height width img filters colors 3 fuel with
      | none =>
        rw [hb] at ho
        exact Option.noConfusion ho
      | some img1 => exact ⟨fuel, img1, hb⟩
    · rintro ⟨fuel, img1, hb⟩
      refine ⟨fuel, ?_⟩
      unfold ahd_interpolate_INDI
      rw [hb]
      exact ⟨_, rfl⟩

/-! ## The border pass as a traversal of the border pixels -/

/-- From a column the loop can reach, the column loop of a row applies the
pixel body to the remaining border pixels of the row, left to right. -/
theorem borderCols_eq_loop (height width filters colors b r : Nat) (hb : 0 < b)
    (hw : 2 * b ≤ width) :
    ∀ (fuel c : Nat) (img : List Nat), width - c < fuel →
      ((b ≤ r ∧ r + b < height) → (c ≤ b ∨ width - b ≤ c)) →
      borderCols height width filters colors (b : Int) (r : Int) fuel (c : Int) img
        = some (loop (fun x im =>
            if inBorder height width b r x = true then
              borderPixel height width filters colors im r x
            else im) (width - c) c img) := by
  intro fuel
  induction fuel with
  | zero =>
    intro c img hf
    omega
  | succ fuel ih =>
    intro c img hf hreach
    unfold borderCols
    by_cases hlt : c < width
    · have hlt1 : (c : Int) < (width : Int) := by exact_mod_cast hlt
      simp only [hlt1, if_true]
      by_cases hjump : (c : Int) = (b : Int) ∧ (r : Int) ≥ (b : Int)
          ∧ (r : Int) < (height : Int) - (b : Int)
      · simp only [hjump, and_self, if_true]
        have hcb : c = b := by exact_mod_cast hjump.1
        have hrow : b ≤ r ∧ r + b < height := by omega
        have e1 : (width : Int) - (b : Int) = ((width - b : Nat) : Int) := by omega
        have e2 : ((width - b : Nat) : Int) + 1 = ((width - b + 1 : Nat) : Int) := by
          push_cast
          rfl
        rw [e1, e2, ih (width - b + 1) _ (by omega) (fun _ => Or.inr (by omega))]
        congr 1
        rw [show width - c = (width - 2 * b) + ((b - 1) + 1) by omega, loop_skip _ _ _ c img,
          loop_succ]
        · have hin : inBorder height width b r (c + (width - 2 * b)) = true := by
            unfold inBorder
            simp only [decide_eq_true_eq]
            omega
          simp only [hin, if_true]
          rw [show c + (width - 2 * b) = width - b by omega,
            show width - (width - b + 1) = b - 1 by omega]
        · intro j t h1 h2
          have hout : inBorder height width b r j = false := by
            unfold inBorder
            simp only [decide_eq_false_iff_not]
            omega
          simp only [hout]
          rfl
      · simp only [hjump, if_false]
        have hin : inBorder height width b r c = true := by
          unfold inBorder
          simp only [decide_eq_true_eq]
          by_cases hrow : b ≤ r ∧ r + b < height
          · have := hreach hrow
            have hne : c ≠ b := by
              intro e
              apply hjump
              subst e
              omega
            omega
          · omega
        have e2 : (c : Int) + 1 = ((c + 1 : Nat) : Int) := by
          push_cast
          rfl
        rw [e2, ih (c + 1) _ (by omega) (by
          intro hrow
          have := hreach hrow
          have hne : c ≠ b := by
            intro e
            apply hjump
            subst e
            omega
          omega)]
        congr 1
        rw [show width - c = (width - (c + 1)) + 1 by omega, loop_succ]
        simp only [hin, if_true]
    · have hlt1 : ¬ (c : Int) < (width : Int) := by
        intro h
        exact hlt (by exact_mod_cast h)
      simp only [hlt1, if_false]
      rw [show width - c = 0 by omega]
      rfl

/-- With a border of at least 1 that fits twice into the width and fuel
beyond the width, `border_interpolate_INDI` returns the result of the pass
over the border pixels. -/
theorem border_interpolate_INDI_eq_borderPass (height width : Nat) (img : List Nat)
    (filters colors border fuel : Nat) (hb : 0 < border) (hw : 2 * border ≤ width)
    (hfuel : width < fuel) :
    border_interpolate_INDI height width img filters colors (border : Int) fuel
      = some (borderPass height width filters colors border img) := by
  unfold border_interpolate_INDI borderPass
  apply loopOpt_eq_loop
  intro i t _ _
  have := borderCols_eq_loop height width filters colors border i hb hw fuel 0 t (by omega)
    (fun _ => Or.inl (Nat.zero_le _))
  simpa using this

/-! ## What the border pass leaves alone -/

/-- Slots of different pixels are different. -/
theorem pixel_slot_ne (w r c y x k j : Nat) (hc : c < w) (hx : x < w) (hk : k < 4) (hj : j < 4)
    (hne : ¬ (y = r ∧ x = c)) :
    ((y : Int) * w + x) * 4 + k ≠ ((r : Int) * w + c) * 4 + j := by
  have h1 : y * w + x ≠ r * w + c := by
    intro h
    obtain ⟨e1, e2⟩ := pixel_index_inj w y x r c hx hc h
    exact hne ⟨e1, e2⟩
  have h2 : ((y : Int) * w + x) ≠ (r : Int) * w + c := by
    intro h
    apply h1
    exact_mod_cast h
  omega

theorem borderSum_eq_foldl (height width filters : Nat) (img : List Nat) (row col : Int) :
    borderSum height width filters img row col
      = ([(row - 1, col - 1), (row - 1, col), (row - 1, col + 1), (row, col - 1), (row, col),
          (row, col + 1), (row + 1, col - 1), (row + 1, col), (row + 1, col + 1)] :
            List (Int × Int)).foldl
          (borderStep height width filters img) (List.replicate 8 0) := rfl

theorem borderStep_length (height width filters : Nat) (img : List Nat) (s : List Int)
    (p : Int × Int) : (borderStep height width filters img s p).length = s.length := by
  unfold borderStep
  split_ifs
  · rw [sadd_length, sadd_length]
  · rfl

/-- One step of the scan adds the sample read to `sum[c]` and 1 to `sum[c+4]`
when the position is in bounds and has native colour `c`. -/
theorem borderStep_sget (height width filters : Nat) (img : List Nat) (c : Nat) (hc : c < 4)
    (s : List Int) (hs : s.length = 8) (p : Int × Int) :
    sget (borderStep height width filters img s p) c
        = sget s c + (if isNative height width filters c p = true
            then (rd img ((p.1 * width + p.2) * 4 + c) : Int) else 0) ∧
    sget (borderStep height width filters img s p) (c + 4)
        = sget s (c + 4) + (if isNative height width filters c p = true then 1 else 0) := by
  have hf := fc_INDI_lt filters p.1 p.2
  unfold borderStep isNative
  by_cases hin : 0 ≤ p.1 ∧ p.1 < height ∧ 0 ≤ p.2 ∧ p.2 < width
  · rw [if_pos hin, sget_sadd, sget_sadd, sget_sadd, sget_sadd, sadd_length, hs]
    by_cases he : fc_INDI filters p.1 p.2 = c
    · have hd : decide (0 ≤ p.1 ∧ p.1 < height ∧ 0 ≤ p.2 ∧ p.2 < width
          ∧ fc_INDI filters p.1 p.2 = c) = true := by
        simp only [decide_eq_true_eq]
        exact ⟨hin.1, hin.2.1, hin.2.2.1, hin.2.2.2, he⟩
      rw [if_pos hd, if_pos hd, if_neg (by omega), if_pos ⟨he, by omega⟩,
        if_pos ⟨by omega, by omega⟩, if_neg (by omega), he]
      exact ⟨rfl, rfl⟩
    · have hd : ¬ decide (0 ≤ p.1 ∧ p.1 < height ∧ 0 ≤ p.2 ∧ p.2 < width
          ∧ fc_INDI filters p.1 p.2 = c) = true := by
        simp only [decide_eq_true_eq]
        exact fun h => he h.2.2.2.2
      rw [if_neg hd, if_neg hd, if_neg (by omega), if_neg (fun h => he h.1),
        if_neg (by omega), if_neg (by omega)]
      simp
  · have hd : ¬ decide (0 ≤ p.1 ∧ p.1 < height ∧ 0 ≤ p.2 ∧ p.2 < width
        ∧ fc_INDI filters p.1 p.2 = c) = true := by
      simp only [decide_eq_true_eq]
      exact fun h => hin ⟨h.1, h.2.1, h.2.2.1, h.2.2.2.1⟩
    rw [if_neg hin, if_neg hd, if_neg hd]
    simp

/-- After the scan of a list of positions, `sum[c]` has grown by the native
samples of colour `c` at the in-bounds positions and `sum[c+4]` by their
number. -/
theorem foldl_borderStep (height width filters : Nat) (img : List Nat) (c : Nat) (hc : c < 4) :
    ∀ (ps : List (Int × Int)) (s : List Int), s.length = 8 →
      (ps.foldl (borderStep height width filters img) s).length = 8 ∧
      sget (ps.foldl (borderStep height width filters img) s) c
        = sget s c + (((ps.filter (isNative height width filters c)).map
            (fun p => rd img ((p.1 * width + p.2) * 4 + c))).sum : Nat) ∧
      sget (ps.foldl (borderStep height width filters img) s) (c + 4)
        = sget s (c + 4) + ((ps.filter (isNative height width filters c)).length : Nat) := by
  intro ps
  induction ps with
  | nil =>
    intro s hs
    simp [hs]
  | cons p ps ih =>
    intro s hs
    have hl : (borderStep height width filters img s p).length = 8 := by
      rw [borderStep_length, hs]
    obtain ⟨h1, h2, h3⟩ := ih (borderStep height width filters img s p) hl
    obtain ⟨k1, k2⟩ := borderStep_sget height width filters img c hc s hs p
    rw [List.foldl_cons, h2, h3, k1, k2, List.filter_cons]
    refine ⟨h1, ?_, ?_⟩
    · split_ifs
      · rw [List.map_cons, List.sum_cons]
        push_cast
        ring
      · ring
    · split_ifs
      · rw [List.length_cons]
        push_cast
        ring
      · ring

/-- For a colour `c` other than the native colour of the pixel, `sum[c]` and
`sum[c+4]` of the border pass are the sum and the number of the native samples
of colour `c` among the 8 surrounding in-bounds pixels. -/
theorem borderSum_neighbours (height width filters : Nat) (img : List Nat) (row col : Int)
    (c : Nat) (hc : c < 4) (hne : c ≠ fc_INDI filters row col) :
    sget (borderSum height width filters img row col) c
        = ((neighbourSamples height width filters img row col c).sum : Nat) ∧
    sget (borderSum height width filters img row col) (c + 4)
        = ((neighbourSamples height width filters img row col c).length : Nat) := by
  obtain ⟨_, h2, h3⟩ := foldl_borderStep height width filters img c hc
    [(row - 1, col - 1), (row - 1, col), (row - 1, col + 1), (row, col - 1), (row, col),
      (row, col + 1), (row + 1, col - 1), (row + 1, col), (row + 1, col + 1)]
    (List.replicate 8 0) (by simp)
  have hcentre : isNative height width filters c (row, col) = false := by
    unfold isNative
    simp only [decide_eq_false_iff_not]
    exact fun h => hne h.2.2.2.2.symm
  have hctr : ((row, col) :: [(row, col + 1), (row + 1, col - 1), (row + 1, col),
        (row + 1, col + 1)] : List (Int × Int)).filter (isNative height width filters c)
      = ([(row, col + 1), (row + 1, col - 1), (row + 1, col), (row + 1, col + 1)] :
          List (Int × Int)).filter (isNative height width filters c) :=
    List.filter_cons_of_neg (by rw [hcentre]; exact Bool.false_ne_true)
  have hfilter : ([(row - 1, col - 1), (row - 1, col), (row - 1, col + 1), (row, col - 1),
        (row, col), (row, col + 1), (row + 1, col - 1), (row + 1, col), (row + 1, col + 1)] :
          List (Int × Int)).filter (isNative height width filters c)
      = (neighbours row col).filter (isNative height width filters c) := by
    rw [show ([(row - 1, col - 1), (row - 1, col), (row - 1, col + 1), (row, col - 1),
        (row, col), (row, col + 1), (row + 1, col - 1), (row + 1, col), (row + 1, col + 1)] :
          List (Int × Int))
        = [(row - 1, col - 1), (row - 1, col), (row - 1, col + 1), (row, col - 1)]
          ++ ((row, col) :: [(row, col + 1), (row + 1, col - 1), (row + 1, col),
              (row + 1, col + 1)]) from rfl,
      List.filter_append, hctr, ← List.filter_append]
    rfl
  rw [hfilter] at h2 h3
  have z1 : sget (List.replicate 8 (0 : Int)) c = 0 := by
    interval_cases c <;> rfl
  have z2 : sget (List.replicate 8 (0 : Int)) (c + 4) = 0 := by
    interval_cases c <;> rfl
  rw [borderSum_eq_foldl, h2, h3, z1, z2]
  unfold neighbourSamples
  simp

/-! ## The value that the border pass stores -/

/-- The sums of the border pass read native samples only. -/
theorem borderSum_congr (height width filters : Nat) (img im : List Nat)
    (h : SameNative filters height width img im) (row col : Int) :
    borderSum height width filters im row col = borderSum height width filters img row col := by
  rw [borderSum_eq_foldl, borderSum_eq_foldl]
  have hstep : borderStep height width filters im = borderStep height width filters img := by
    funext s p
    obtain ⟨a, b⟩ := p
    unfold borderStep
    by_cases hin : 0 ≤ a ∧ a < (height : Int) ∧ 0 ≤ b ∧ b < (width : Int)
    · rw [if_pos hin, if_pos hin]
      obtain ⟨y, hy⟩ := Int.eq_ofNat_of_zero_le hin.1
      obtain ⟨x, hx⟩ := Int.eq_ofNat_of_zero_le hin.2.2.1
      subst hy hx
      show sadd (sadd s _ (rd im (((y : Int) * width + x) * 4 + fc_INDI filters y x) : Int)) _ 1
        = sadd (sadd s _ (rd img (((y : Int) * width + x) * 4 + fc_INDI filters y x) : Int)) _ 1
      rw [h.2 y x (by omega) (by omega)]
    · rw [if_neg hin, if_neg hin]
  rw [hstep]

/-- The slot `k` of the pixel after the body of the border pass. -/
theorem borderPixel_slot (height width filters colors : Nat) (img : List Nat) (row col : Int)
    (k : Nat) (hcolors : colors ≤ 4) (h0 : 0 ≤ (row * width + col) * 4)
    (hlen : (row * width + col) * 4 + 3 < img.length) :
    rd (borderPixel height width filters colors img row col) ((row * width + col) * 4 + k)
      = if k < colors ∧ k ≠ fc_INDI filters row col
            ∧ sget (borderSum height width filters img row col) (k + 4) ≠ 0 then
          (Int.tdiv (sget (borderSum height width filters img row col) k)
            (sget (borderSum height width filters img row col) (k + 4)) % 65536).toNat
        else rd img ((row * width + col) * 4 + k) := by
  unfold borderPixel
  have key := loop_inv (fun i (im : List Nat) => im.length = img.length ∧
      rd im ((row * width + col) * 4 + k)
        = if k < i ∧ k ≠ fc_INDI filters row col
            ∧ sget (borderSum height width filters img row col) (k + 4) ≠ 0 then
          (Int.tdiv (sget (borderSum height width filters img row col) k)
            (sget (borderSum height width filters img row col) (k + 4)) % 65536).toNat
        else rd img ((row * width + col) * 4 + k))
    (fun c im =>
      if c ≠ fc_INDI filters row col
          ∧ sget (borderSum height width filters img row col) (c + 4) ≠ 0 then
        wr im ((row * width + col) * 4 + c)
          (Int.tdiv (sget (borderSum height width filters img row col) c)
            (sget (borderSum height width filters img row col) (c + 4)))
      else im) colors 0 img ⟨rfl, by simp⟩ (by
      intro i s _ hi hP
      simp only [Nat.zero_add] at hi
      obtain ⟨hl, hv⟩ := hP
      beta_reduce
      by_cases hki : k = i
      · subst hki
        by_cases hcond : k ≠ fc_INDI filters row col
            ∧ sget (borderSum height width filters img row col) (k + 4) ≠ 0
        · rw [if_pos hcond, if_pos ⟨Nat.lt_succ_self k, hcond⟩, wr_length,
            rd_wr_eq _ _ _ (by omega) (by omega)]
          exact ⟨hl, rfl⟩
        · rw [if_neg hcond, if_neg (fun h => hcond h.2)]
          refine ⟨hl, ?_⟩
          rw [hv, if_neg (fun h => absurd h.1 (lt_irrefl _))]
      · have e : rd (if i ≠ fc_INDI filters row col
              ∧ sget (borderSum height width filters img row col) (i + 4) ≠ 0 then
            wr s ((row * width + col) * 4 + i)
              (Int.tdiv (sget (borderSum height width filters img row col) i)
                (sget (borderSum height width filters img row col) (i + 4)))
            else s) ((row * width + col) * 4 + k) = rd s ((row * width + col) * 4 + k) := by
          split_ifs
          · rw [rd_wr_ne _ _ _ _ (by omega)]
          · rfl
        have l : (if i ≠ fc_INDI filters row col
              ∧ sget (borderSum height width filters img row col) (i + 4) ≠ 0 then
            wr s ((row * width + col) * 4 + i)
              (Int.tdiv (sget (borderSum height width filters img row col) i)
                (sget (borderSum height width filters img row col) (i + 4)))
            else s).length = img.length := by
          split_ifs
          · rw [wr_length]
            exact hl
          · exact hl
        refine ⟨l, ?_⟩
        rw [e, hv]
        exact if_congr ⟨fun h => ⟨by omega, h.2⟩, fun h => ⟨by omega, h.2⟩⟩ rfl rfl)
  simpa using key.2

theorem pixel_in_buffer (height width : Nat) (img : List Nat)
    (hlen : img.length = height * width * 4) (r c : Nat) (hr : r < height) (hc : c < width) :
    0 ≤ ((r : Int) * width + c) * 4 ∧ ((r : Int) * width + c) * 4 + 3 < img.length := by
  have h1 : r * width + c < height * width := by
    have : (r + 1) * width ≤ height * width := Nat.mul_le_mul_right width hr
    have e : (r + 1) * width = r * width + width := by ring
    omega
  have h2 : (r * width + c) * 4 + 3 < img.length := by omega
  constructor
  · positivity
  · exact_mod_cast h2

/-! ## The invariant of the border pass -/

theorem BorderInv.inv_congr {height width filters colors : Nat} {img im : List Nat}
    {D E : Nat → Nat → Prop} (h : BorderInv height width filters colors img D im)
    (hDE : ∀ y x, y < height → x < width → (D y x ↔ E y x)) :
    BorderInv height width filters colors img E im :=
  ⟨h.1, fun y x k hy hx hk =>
    ⟨fun he => (h.2 y x k hy hx hk).1 ((hDE y x hy hx).2 he),
     fun hne => (h.2 y x k hy hx hk).2 (fun hd => hne ((hDE y x hy hx).1 hd))⟩⟩

/-- The pixel body applied to a pixel not yet processed keeps the invariant. -/
theorem BorderInv.border_step {height width filters colors : Nat} {img im : List Nat}
    {D : Nat → Nat → Prop} (h : BorderInv height width filters colors img D im)
    (hlen : img.length = height * width * 4) (hcolors : colors ≤ 4) (r c : Nat)
    (hr : r < height) (hc : c < width) (hnew : ¬ D r c) :
    BorderInv height width filters colors img (fun y x => D y x ∨ (y = r ∧ x = c))
      (borderPixel height width filters colors im r c) := by
  refine ⟨SameNative.trans h.1 (borderPixel_sameNative height width filters colors im r c hc
    hcolors), ?_⟩
  intro y x k hy hx hk
  by_cases hp : y = r ∧ x = c
  · obtain ⟨e1, e2⟩ := hp
    subst e1 e2
    obtain ⟨b0, b1⟩ := pixel_in_buffer height width img hlen y x hy hx
    refine ⟨fun _ => ?_, fun hn => absurd (Or.inr ⟨rfl, rfl⟩) hn⟩
    rw [borderPixel_slot height width filters colors im y x k hcolors b0
        (by rw [h.1.1]; exact b1),
      borderPixel_slot height width filters colors img y x k hcolors b0 b1,
      borderSum_congr height width filters img im h.1, (h.2 y x k hy hx hk).2 hnew]
  · have hframe : rd (borderPixel height width filters colors im r c)
          (((y : Int) * width + x) * 4 + k) = rd im (((y : Int) * width + x) * 4 + k) := by
      apply borderPixel_frame
      intro j hj _
      exact pixel_slot_ne width r c y x k j hc hx hk (by omega) hp
    rw [hframe]
    refine ⟨fun hd => ?_, fun hn => ?_⟩
    · rcases hd with hd | hd
      · exact (h.2 y x k hy hx hk).1 hd
      · exact absurd hd hp
    · exact (h.2 y x k hy hx hk).2 (fun hd => hn (Or.inl hd))

/-- After the pass over the border pixels, every pixel within `border` of an
edge holds what the pixel body makes of it on the input image, and every other
pixel is as in the input. -/
theorem borderPass_inv (height width filters colors border : Nat) (img : List Nat)
    (hlen : img.length = height * width * 4) (hcolors : colors ≤ 4) :
    BorderInv height width filters colors img
      (fun y x => inBorder height width border y x = true)
      (borderPass height width filters colors border img) := by
  unfold borderPass
  have key := loop_inv (fun r (im : List Nat) => BorderInv height width filters colors img
      (fun y x => inBorder height width border y x = true ∧ y < r) im)
    (fun row im =>
      loop (fun col im =>
        if inBorder height width border row col = true then
          borderPixel height width filters colors im row col
        else im) width 0 im) height 0 img
    ⟨SameNative.refl _ _ _ _, fun y x k _ _ _ =>
      ⟨fun hd => absurd hd.2 (Nat.not_lt_zero _), fun _ => rfl⟩⟩ (by
      intro r s _ hr hP
      simp only [Nat.zero_add] at hr
      have inner := loop_inv (fun c (im : List Nat) => BorderInv height width filters colors img
          (fun y x => inBorder height width border y x = true ∧ (y < r ∨ (y = r ∧ x < c))) im)
        (fun col im =>
          if inBorder height width border r col = true then
            borderPixel height width filters colors im r col
          else im) width 0 s
        (hP.inv_congr (fun y x _ _ => by
          constructor
          · exact fun h => ⟨h.1, Or.inl h.2⟩
          · rintro ⟨h1, h2 | h2⟩
            · exact ⟨h1, h2⟩
            · omega)) (by
          intro c t _ hc hQ
          simp only [Nat.zero_add] at hc
          beta_reduce
          by_cases hin : inBorder height width border r c = true
          · rw [if_pos hin]
            have hnew : ¬ (inBorder height width border r c = true
                ∧ (r < r ∨ (r = r ∧ c < c))) := by
              rintro ⟨_, h | h⟩
              · omega
              · omega
            refine (hQ.border_step hlen hcolors r c hr hc hnew).inv_congr (fun y x _ _ => ?_)
            constructor
            · rintro (⟨h1, h2⟩ | ⟨e1, e2⟩)
              · exact ⟨h1, by omega⟩
              · subst e1 e2
                exact ⟨hin, by omega⟩
            · rintro ⟨h1, h2⟩
              by_cases hp : y = r ∧ x = c
              · exact Or.inr hp
              · exact Or.inl ⟨h1, by omega⟩
          · rw [if_neg hin]
            refine hQ.inv_congr (fun y x _ _ => ?_)
            constructor
            · rintro ⟨h1, h2⟩
              exact ⟨h1, by omega⟩
            · rintro ⟨h1, h2⟩
              refine ⟨h1, ?_⟩
              by_cases hp : y = r ∧ x = c
              · obtain ⟨e1, e2⟩ := hp
                subst e1 e2
                exact absurd h1 hin
              · omega)
      refine inner.inv_congr (fun y x _ hx => ?_)
      simp only [Nat.zero_add]
      constructor
      · rintro ⟨h1, h2⟩
        exact ⟨h1, by omega⟩
      · rintro ⟨h1, h2⟩
        exact ⟨h1, by omega⟩)
  refine key.inv_congr (fun y x hy _ => ?_)
  simp only [Nat.zero_add]
  constructor
  · exact fun h => h.1
  · exact fun h => ⟨h, hy⟩

theorem rd_lt (img : List Nat) (h : ∀ v ∈ img, v < 65536) (i : Int) : rd img i < 65536 := by
  unfold rd
  split_ifs
  · decide
  · rw [List.getD_eq_getElem?_getD]
    cases hg : img[i.toNat]? with
    | none => decide
    | some v => exact h v (List.getElem?_mem hg)

theorem neighbourSamples_sum_lt (height width filters : Nat) (img : List Nat)
    (h : ∀ v ∈ img, v < 65536) (row col : Int) (c : Nat)
    (hpos : (neighbourSamples height width filters img row col c).length ≠ 0) :
    (neighbourSamples height width filters img row col c).sum
      < (neighbourSamples height width filters img row col c).length * 65536 := by
  have h1 : (neighbourSamples height width filters img row col c).sum
      ≤ (neighbourSamples height width filters img row col c).length • 65535 := by
    apply List.sum_le_card_nsmul
    intro v hv
    unfold neighbourSamples at hv
    obtain ⟨p, _, rfl⟩ := List.mem_map.1 hv
    have := rd_lt img h ((p.1 * width + p.2) * 4 + c)
    omega
  simp only [smul_eq_mul] at h1
  omega

/-- C13: for an image of `ushort` samples, a border width of at least 1 with
`2*border ≤ width`, a pixel within `border` of an edge and a plane
`c < colors` (at most 4) other than the native colour of the pixel,
`border_interpolate_INDI` returns and the new value of plane `c` is
`floor(sum / count)` over the native samples of colour `c` that the 8
surrounding in-bounds pixels have in the input image; if there is no such
neighbour the plane keeps its value. -/
theorem border_interpolate_INDI_value (height width : Nat) (img : List Nat)
    (filters colors border fuel row col c : Nat)
    (hlen : img.length = height * width * 4) (hushort : ∀ v ∈ img, v < 65536)
    (hcolors : colors ≤ 4) (hb : 0 < border) (hw : 2 * border ≤ width) (hfuel : width < fuel)
    (hrow : row < height) (hcol : col < width)
    (hedge : row < border ∨ height ≤ row + border ∨ col < border ∨ width ≤ col + border)
    (hc : c < colors) (hne : c ≠ fc_INDI filters row col) :
    ∃ out, border_interpolate_INDI height width img filters colors (border : Int) fuel
        = some out ∧
      rd out (((row : Int) * width + col) * 4 + c)
        = if (neighbourSamples height width filters img row col c).length = 0 then
            rd img (((row : Int) * width + col) * 4 + c)
          else (neighbourSamples height width filters img row col c).sum
            / (neighbourSamples height width filters img row col c).length := by
  refine ⟨_, border_interpolate_INDI_eq_borderPass height width img filters colors border fuel
    hb hw hfuel, ?_⟩
  have hin : inBorder height width border row col = true := by
    unfold inBorder
    simp only [decide_eq_true_eq]
    exact hedge
  obtain ⟨b0, b1⟩ := pixel_in_buffer height width img hlen row col hrow hcol
  obtain ⟨s1, s2⟩ := borderSum_neighbours height width filters img row col c (by omega) hne
  rw [((borderPass_inv height width filters colors border img hlen hcolors).2 row col c hrow
      hcol (by omega)).1 hin,
    borderPixel_slot height width filters colors img row col c hcolors b0 b1, s1, s2]
  by_cases hz : (neighbourSamples height width filters img row col c).length = 0
  · rw [if_pos hz, if_neg]
    rintro ⟨_, _, h3⟩
    apply h3
    exact_mod_cast hz
  · rw [if_neg hz, if_pos ⟨hc, hne, by exact_mod_cast hz⟩, ← Int.ofNat_tdiv]
    have hlt := Nat.div_lt_of_lt_mul
      (neighbourSamples_sum_lt height width filters img hushort row col c hz)
    generalize (neighbourSamples height width filters img row col c).sum
      / (neighbourSamples height width filters img row col c).length = q at hlt ⊢
    omega

theorem border_interpolate_INDI_value_witness :
    ∃ out, border_interpolate_INDI 2 2 [10, 0, 0, 0, 0, 20, 0, 0, 0, 31, 0, 0, 0, 0, 40, 0]
        0x94949494 3 ((1 : Nat) : Int) 3 = some out ∧
      rd out ((((0 : Nat) : Int) * (2 : Nat) + (0 : Nat)) * 4 + (1 : Nat))
        = if (neighbourSamples 2 2 0x94949494
              [10, 0, 0, 0, 0, 20, 0, 0, 0, 31, 0, 0, 0, 0, 40, 0] (0 : Nat) (0 : Nat) 1).length
              = 0 then
            rd [10, 0, 0, 0, 0, 20, 0, 0, 0, 31, 0, 0, 0, 0, 40, 0]
              ((((0 : Nat) : Int) * (2 : Nat) + (0 : Nat)) * 4 + (1 : Nat))
          else (neighbourSamples 2 2 0x94949494
              [10, 0, 0, 0, 0, 20, 0, 0, 0, 31, 0, 0, 0, 0, 40, 0] (0 : Nat) (0 : Nat) 1).sum
            / (neighbourSamples 2 2 0x94949494
              [10, 0, 0, 0, 0, 20, 0, 0, 0, 31, 0, 0, 0, 0, 40, 0] (0 : Nat) (0 : Nat) 1).length :=
  border_interpolate_INDI_value 2 2 [10, 0, 0, 0, 0, 20, 0, 0, 0, 31, 0, 0, 0, 0, 40, 0]
    0x94949494 3 1 3 0 0 1 (by decide) (by decide) (by decide) (by decide) (by decide)
    (by decide) (by decide) (by decide) (by decide) (by decide) (by decide)

/-! ## AHD leaves the border to the border pass -/

/-- The combination step of one pixel writes the slots 0, 1, 2 of that pixel
only. -/
theorem ahdCombinePixel_frame (rgb homo : Buf) (width top left row col : Nat) (img : List Nat)
    (j : Int) (hj : ∀ c : Nat, c < 3 → j ≠ ((row : Int) * width + col) * 4 + c) :
    rd (ahdCombinePixel rgb homo width top left row col img) j = rd img j := by
  have h0 := hj 0 (by decide)
  have h1 := hj 1 (by decide)
  have h2 := hj 2 (by decide)
  unfold ahdCombinePixel
  have key : ∀ (g : Nat → Int), rd (loop (fun c im =>
      wr im (((row : Int) * width + col) * 4 + c) (g c)) 3 0 img) j = rd img j := by
    intro g
    rw [loop_three, rd_wr_ne _ _ _ _ (Ne.symm h2), rd_wr_ne _ _ _ _ (Ne.symm h1),
      rd_wr_ne _ _ _ _ (Ne.symm h0)]
  by_cases hne : ahdHm homo 0 ((row : Int) - top) ((col : Int) - left)
      ≠ ahdHm homo 1 ((row : Int) - top) ((col : Int) - left)
  · simp only [hne, ne_eq, not_false_eq_true, if_true]
    exact key _
  · simp only [hne, if_false]
    exact key _

/-- The combination pass of a tile changes no slot of a pixel within 3 pixels
of an edge of the image. -/
theorem ahdCombine_frame (rgb homo : Buf) (width height top left : Nat) (img : List Nat)
    (y x k : Nat) (hx : x < width) (hk : k < 4)
    (hedge : y < 3 ∨ height ≤ y + 3 ∨ x < 3 ∨ width ≤ x + 3) :
    rd (ahdCombine rgb homo width height top left img) (((y : Int) * width + x) * 4 + k)
      = rd img (((y : Int) * width + x) * 4 + k) := by
  unfold ahdCombine
  refine loop_inv (fun _ (im : List Nat) =>
    rd im (((y : Int) * width + x) * 4 + k) = rd img (((y : Int) * width + x) * 4 + k))
    _ _ _ img rfl ?_
  intro r s hr0 hr1 hP
  refine loop_inv (fun _ (im : List Nat) =>
    rd im (((y : Int) * width + x) * 4 + k) = rd img (((y : Int) * width + x) * 4 + k))
    _ _ _ s hP ?_
  intro c t hc0 hc1 hQ
  rw [ahdCombinePixel_frame]
  · exact hQ
  · intro j hj
    apply pixel_slot_ne width r c y x k j (by omega) hx hk (by omega)
    rintro ⟨e1, e2⟩
    omega

/-- C15: whenever the image is not both at least 7 rows high and 4 or 5
columns wide (so that the border pass of width 3 returns),
`ahd_interpolate_INDI` returns, and every pixel within 3 pixels of an image
edge has in all four slots exactly the value it had after the initial
`border_interpolate_INDI (..., 3)`: the tiles never write it. -/
theorem ahd_interpolate_INDI_edge (img : List Nat) (filters width height colors : Nat)
    (labOf : List Int → List Int) (lab0 : Buf) (abdiff0 : List Int) (fuel : Nat)
    (hsize : ¬ (7 ≤ height ∧ (width = 4 ∨ width = 5))) (hfuel : width < fuel) :
    ∃ img1 out, border_interpolate_INDI height width img filters colors 3 fuel = some img1 ∧
      ahd_interpolate_INDI img filters width height colors labOf lab0 abdiff0 fuel = some out ∧
      ∀ row col k : Nat, col < width → k < 4 →
        (row < 3 ∨ height ≤ row + 3 ∨ col < 3 ∨ width ≤ col + 3) →
        rd out (((row : Int) * width + col) * 4 + k)
          = rd img1 (((row : Int) * width + col) * 4 + k) := by
  obtain ⟨img1, h1⟩ := border_interpolate_INDI_returns height width img filters colors 3 fuel
    (by omega) hfuel
  refine ⟨img1, _, h1, by unfold ahd_interpolate_INDI; rw [h1], ?_⟩
  intro row col k hcol hk hedge
  refine loop_inv (fun _ (s : AhdState) =>
    rd s.img (((row : Int) * width + col) * 4 + k)
      = rd img1 (((row : Int) * width + col) * 4 + k)) _ _ _ _ rfl ?_
  intro i s _ _ hP
  refine loop_inv (fun _ (s : AhdState) =>
    rd s.img (((row : Int) * width + col) * 4 + k)
      = rd img1 (((row : Int) * width + col) * 4 + k)) _ _ _ s hP ?_
  intro j t _ _ hQ
  show rd (ahdTile filters width height labOf (250 * i) (250 * j) t).img _ = _
  unfold ahdTile
  simp only []
  rw [ahdCombine_frame _ _ _ _ _ _ _ row col k hcol hk hedge]
  exact hQ

theorem ahd_interpolate_INDI_edge_witness :
    ∃ img1 out, border_interpolate_INDI 6 6
        (mosaic 0x94949494 6 6 (fun c => [100, 200, 300].getD c 0)) 0x94949494 3 3 7
          = some img1 ∧
      ahd_interpolate_INDI (mosaic 0x94949494 6 6 (fun c => [100, 200, 300].getD c 0))
        0x94949494 6 6 3 (fun l => l.take 3) bzero (List.replicate 8 0) 7 = some out ∧
      ∀ row col k : Nat, col < 6 → k < 4 →
        (row < 3 ∨ 6 ≤ row + 3 ∨ col < 3 ∨ 6 ≤ col + 3) →
        rd out (((row : Int) * (6 : Nat) + col) * 4 + k)
          = rd img1 (((row : Int) * (6 : Nat) + col) * 4 + k) :=
  ahd_interpolate_INDI_edge (mosaic 0x94949494 6 6 (fun c => [100, 200, 300].getD c 0))
    0x94949494 6 6 3 (fun l => l.take 3) bzero (List.replicate 8 0) 7 (by decide) (by decide)

/-! ## AHD: the green candidates are clamped -/

theorem ULIM_bounds (x y z : Int) : min y z ≤ ULIM x y z ∧ ULIM x y z ≤ max y z := by
  unfold ULIM LIM
  split_ifs with h
  · constructor
    · rw [min_eq_left (le_of_lt h)]
      exact le_max_left _ _
    · rw [max_eq_right (le_of_lt h)]
      exact max_le (le_of_lt h) (min_le_right _ _)
  · have h1 : z ≤ y := not_lt.1 h
    constructor
    · rw [min_eq_right h1]
      exact le_max_left _ _
    · rw [max_eq_left h1]
      exact max_le h1 (min_le_right _ _)

theorem bset_get (b : Buf) (i v j : Int) :
    (bset b i v).get j = if j = i then v else b.get j := rfl

/-- The two stores of the green pass at one pixel: the pixel is clamped, and a
pixel of the tile that was clamped before stays so. -/
theorem green_step (img : List Nat) (width top left : Nat) (rgb : Buf) (row col : Nat)
    (vh vv : Int) (hr : top ≤ row) (hr1 : row < top + 256) (hc : left ≤ col)
    (hc1 : col < left + 256) :
    GreenClamped img width top left
      (bset (bset rgb (rgbIdx 0 ((row : Int) - top) ((col : Int) - left) 1)
          (ULIM vh (pixAt img width row col (-1) 1) (pixAt img width row col 1 1)))
        (rgbIdx 1 ((row : Int) - top) ((col : Int) - left) 1)
        (ULIM vv (pixAt img width row col (-(width : Int)) 1)
          (pixAt img width row col (width : Int) 1))) row col ∧
    ∀ y x : Nat, top ≤ y → y < top + 256 → left ≤ x → x < left + 256 →
      ¬ (y = row ∧ x = col) → GreenClamped img width top left rgb y x →
      GreenClamped img width top left
        (bset (bset rgb (rgbIdx 0 ((row : Int) - top) ((col : Int) - left) 1)
            (ULIM vh (pixAt img width row col (-1) 1) (pixAt img width row col 1 1)))
          (rgbIdx 1 ((row : Int) - top) ((col : Int) - left) 1)
          (ULIM vv (pixAt img width row col (-(width : Int)) 1)
            (pixAt img width row col (width : Int) 1))) y x := by
  constructor
  · unfold GreenClamped
    rw [bset_get, bset_get, bset_get, if_neg (by unfold rgbIdx TS; omega), if_pos rfl,
      if_pos rfl]
    exact ⟨ULIM_bounds _ _ _, ULIM_bounds _ _ _⟩
  · intro y x hy hy1 hx hx1 hne hG
    unfold GreenClamped at hG ⊢
    have e0 : rgbIdx 0 ((y : Int) - top) ((x : Int) - left) 1
        ≠ rgbIdx 0 ((row : Int) - top) ((col : Int) - left) 1 := by
      unfold rgbIdx TS
      omega
    have e1 : rgbIdx 0 ((y : Int) - top) ((x : Int) - left) 1
        ≠ rgbIdx 1 ((row : Int) - top) ((col : Int) - left) 1 := by
      unfold rgbIdx TS
      omega
    have e2 : rgbIdx 1 ((y : Int) - top) ((x : Int) - left) 1
        ≠ rgbIdx 0 ((row : Int) - top) ((col : Int) - left) 1 := by
      unfold rgbIdx TS
      omega
    have e3 : rgbIdx 1 ((y : Int) - top) ((x : Int) - left) 1
        ≠ rgbIdx 1 ((row : Int) - top) ((col : Int) - left) 1 := by
      unfold rgbIdx TS
      omega
    rw [bset_get, bset_get, bset_get, bset_get, if_neg e1, if_neg e0, if_neg e3, if_neg e2]
    exact hG

theorem ahdCol0_ge (filters left row : Nat) : left ≤ ahdCol0 filters left row := by
  unfold ahdCol0
  split_ifs <;> omega

/-- After the green pass of a tile every pixel the pass visited is clamped. -/
theorem ahdGreen_inv (img : List Nat) (filters width height top left : Nat) (rgb : Buf) :
    ∀ y j : Nat, (if top < 2 then 2 else top) ≤ y →
      y < (if top < 2 then 2 else top)
        + (min (top + 256) (height - 2) - (if top < 2 then 2 else top)) →
      j < (min (left + 256) (width - 2) - ahdCol0 filters left y + 1) / 2 →
      GreenClamped img width top left (ahdGreen img filters width height top left rgb) y
        (ahdCol0 filters left y + 2 * j) := by
  unfold ahdGreen
  refine loop_inv (fun R (b : Buf) => ∀ y j : Nat, (if top < 2 then 2 else top) ≤ y → y < R →
      j < (min (left + 256) (width - 2) - ahdCol0 filters left y + 1) / 2 →
      GreenClamped img width top left b y (ahdCol0 filters left y + 2 * j))
    _ _ _ rgb (fun y j h1 h2 => by omega) ?_
  intro r b hr0 hr1 hP
  have inner := loop_inv (fun I (b1 : Buf) =>
      (∀ y j : Nat, (if top < 2 then 2 else top) ≤ y → y < r →
        j < (min (left + 256) (width - 2) - ahdCol0 filters left y + 1) / 2 →
        GreenClamped img width top left b1 y (ahdCol0 filters left y + 2 * j)) ∧
      (∀ j : Nat, j < I →
        j < (min (left + 256) (width - 2) - ahdCol0 filters left r + 1) / 2 →
        GreenClamped img width top left b1 r (ahdCol0 filters left r + 2 * j)))
    (fun i rgb =>
      bset (bset rgb (rgbIdx 0 ((r : Int) - top)
          (((ahdCol0 filters left r + 2 * i : Nat) : Int) - left) 1)
          (ULIM (((pixAt img width r (ahdCol0 filters left r + 2 * i) (-1) 1
              + pixAt img width r (ahdCol0 filters left r + 2 * i) 0
                  (FC filters r (ahdCol0 filters left r) : Int)
              + pixAt img width r (ahdCol0 filters left r + 2 * i) 1 1) * 2
            - pixAt img width r (ahdCol0 filters left r + 2 * i) (-2)
                (FC filters r (ahdCol0 filters left r) : Int)
            - pixAt img width r (ahdCol0 filters left r + 2 * i) 2
                (FC filters r (ahdCol0 filters left r) : Int)) / 4)
            (pixAt img width r (ahdCol0 filters left r + 2 * i) (-1) 1)
            (pixAt img width r (ahdCol0 filters left r + 2 * i) 1 1)))
        (rgbIdx 1 ((r : Int) - top) (((ahdCol0 filters left r + 2 * i : Nat) : Int) - left) 1)
        (ULIM (((pixAt img width r (ahdCol0 filters left r + 2 * i) (-(width : Int)) 1
              + pixAt img width r (ahdCol0 filters left r + 2 * i) 0
                  (FC filters r (ahdCol0 filters left r) : Int)
              + pixAt img width r (ahdCol0 filters left r + 2 * i) (width : Int) 1) * 2
            - pixAt img width r (ahdCol0 filters left r + 2 * i) (-2 * (width : Int))
                (FC filters r (ahdCol0 filters left r) : Int)
            - pixAt img width r (ahdCol0 filters left r + 2 * i) (2 * (width : Int))
                (FC filters r (ahdCol0 filters left r) : Int)) / 4)
          (pixAt img width r (ahdCol0 filters left r + 2 * i) (-(width : Int)) 1)
          (pixAt img width r (ahdCol0 filters left r + 2 * i) (width : Int) 1)))
    ((min (left + 256) (width - 2) - ahdCol0 filters left r + 1) / 2) 0 b
    ⟨hP, fun j hj => absurd hj (Nat.not_lt_zero j)⟩ (by
      intro i b1 _ hi hQ
      simp only [Nat.zero_add] at hi
      have hge := ahdCol0_ge filters left r
      have htop : top ≤ r := by
        split_ifs at hr0 <;> omega
      obtain ⟨g1, g2⟩ := green_step img width top left b1 r (ahdCol0 filters left r + 2 * i)
        (((pixAt img width r (ahdCol0 filters left r + 2 * i) (-1) 1
              + pixAt img width r (ahdCol0 filters left r + 2 * i) 0
                  (FC filters r (ahdCol0 filters left r) : Int)
              + pixAt img width r (ahdCol0 filters left r + 2 * i) 1 1) * 2
            - pixAt img width r (ahdCol0 filters left r + 2 * i) (-2)
                (FC filters r (ahdCol0 filters left r) : Int)
            - pixAt img width r (ahdCol0 filters left r + 2 * i) 2
                (FC filters r (ahdCol0 filters left r) : Int)) / 4)
        (((pixAt img width r (ahdCol0 filters left r + 2 * i) (-(width : Int)) 1
              + pixAt img width r (ahdCol0 filters left r + 2 * i) 0
                  (FC filters r (ahdCol0 filters left r) : Int)
              + pixAt img width r (ahdCol0 filters left r + 2 * i) (width : Int) 1) * 2
            - pixAt img width r (ahdCol0 filters left r + 2 * i) (-2 * (width : Int))
                (FC filters r (ahdCol0 filters left r) : Int)
            - pixAt img width r (ahdCol0 filters left r + 2 * i) (2 * (width : Int))
                (FC filters r (ahdCol0 filters left r) : Int)) / 4)
        htop (by omega) (by omega) (by omega)
      refine ⟨fun y j h1 h2 h3 => ?_, fun j h1 h2 => ?_⟩
      · have hgy := ahdCol0_ge filters left y
        have hty : top ≤ y := by
          split_ifs at h1 <;> omega
        exact g2 y _ hty (by omega) (by omega) (by omega) (by omega) (hQ.1 y j h1 h2 h3)
      · by_cases hji : j = i
        · subst hji
          exact g1
        · exact g2 r _ htop (by omega) (by omega) (by omega) (by omega)
            (hQ.2 j (by omega) h2))
  intro y j h1 h2 h3
  by_cases hyr : y = r
  · subst hyr
    exact inner.2 j (by simpa using h3) h3
  · exact inner.1 y j h1 (by omega) h3

/-- C30: for every pixel that the green pass of a tile of
`ahd_interpolate_INDI` processes (row `max(top,2) ≤ row < min(top+TS, height-2)`,
column the `i`-th of the row, in steps of 2 from the first non-green column,
below `min(left+TS, width-2)`), the horizontal candidate `rgb[0][..][1]` lies
between the minimum and the maximum of the green samples of the left and the
right neighbour, and the vertical candidate `rgb[1][..][1]` between those of
the upper and the lower neighbour, inclusive, whatever the unclamped value. -/
theorem ahdGreen_clamped (img : List Nat) (filters width height top left : Nat) (rgb : Buf)
    (row i : Nat) (hr0 : (if top < 2 then 2 else top) ≤ row)
    (hr1 : row < min (top + 256) (height - 2))
    (hi : i < (min (left + 256) (width - 2) - ahdCol0 filters left row + 1) / 2) :
    (min (pixAt img width row (ahdCol0 filters left row + 2 * i) (-1) 1)
        (pixAt img width row (ahdCol0 filters left row + 2 * i) 1 1)
      ≤ (ahdGreen img filters width height top left rgb).get
          (rgbIdx 0 ((row : Int) - top)
            (((ahdCol0 filters left row + 2 * i : Nat) : Int) - left) 1) ∧
    (ahdGreen img filters width height top left rgb).get
        (rgbIdx 0 ((row : Int) - top) (((ahdCol0 filters left row + 2 * i : Nat) : Int) - left) 1)
      ≤ max (pixAt img width row (ahdCol0 filters left row + 2 * i) (-1) 1)
        (pixAt img width row (ahdCol0 filters left row + 2 * i) 1 1)) ∧
    (min (pixAt img width row (ahdCol0 filters left row + 2 * i) (-(width : Int)) 1)
        (pixAt img width row (ahdCol0 filters left row + 2 * i) (width : Int) 1)
      ≤ (ahdGreen img filters width height top left rgb).get
          (rgbIdx 1 ((row : Int) - top)
            (((ahdCol0 filters left row + 2 * i : Nat) : Int) - left) 1) ∧
    (ahdGreen img filters width height top left rgb).get
        (rgbIdx 1 ((row : Int) - top) (((ahdCol0 filters left row + 2 * i : Nat) : Int) - left) 1)
      ≤ max (pixAt img width row (ahdCol0 filters left row + 2 * i) (-(width : Int)) 1)
        (pixAt img width row (ahdCol0 filters left row + 2 * i) (width : Int) 1)) :=
  ahdGreen_inv img filters width height top left rgb row i hr0 (by omega) hi

theorem ahdGreen_clamped_witness :
    (min (pixAt (mosaic 0x94949494 8 8 (fun c => [100, 200, 300].getD c 0)) 8 3
          (ahdCol0 0x94949494 0 3 + 2 * 1) (-1) 1)
        (pixAt (mosaic 0x94949494 8 8 (fun c => [100, 200, 300].getD c 0)) 8 3
          (ahdCol0 0x94949494 0 3 + 2 * 1) 1 1)
      ≤ (ahdGreen (mosaic 0x94949494 8 8 (fun c => [100, 200, 300].getD c 0)) 0x94949494 8 8 0 0
            bzero).get
          (rgbIdx 0 (((3 : Nat) : Int) - (0 : Nat))
            (((ahdCol0 0x94949494 0 3 + 2 * 1 : Nat) : Int) - (0 : Nat)) 1) ∧
    (ahdGreen (mosaic 0x94949494 8 8 (fun c => [100, 200, 300].getD c 0)) 0x94949494 8 8 0 0
          bzero).get
        (rgbIdx 0 (((3 : Nat) : Int) - (0 : Nat))
          (((ahdCol0 0x94949494 0 3 + 2 * 1 : Nat) : Int) - (0 : Nat)) 1)
      ≤ max (pixAt (mosaic 0x94949494 8 8 (fun c => [100, 200, 300].getD c 0)) 8 3
          (ahdCol0 0x94949494 0 3 + 2 * 1) (-1) 1)
        (pixAt (mosaic 0x94949494 8 8 (fun c => [100, 200, 300].getD c 0)) 8 3
          (ahdCol0 0x94949494 0 3 + 2 * 1) 1 1)) ∧
    (min (pixAt (mosaic 0x94949494 8 8 (fun c => [100, 200, 300].getD c 0)) 8 3
          (ahdCol0 0x94949494 0 3 + 2 * 1) (-((8 : Nat) : Int)) 1)
        (pixAt (mosaic 0x94949494 8 8 (fun c => [100, 200, 300].getD c 0)) 8 3
          (ahdCol0 0x94949494 0 3 + 2 * 1) ((8 : Nat) : Int) 1)
      ≤ (ahdGreen (mosaic 0x94949494 8 8 (fun c => [100, 200, 300].getD c 0)) 0x94949494 8 8 0 0
            bzero).get
          (rgbIdx 1 (((3 : Nat) : Int) - (0 : Nat))
            (((ahdCol0 0x94949494 0 3 + 2 * 1 : Nat) : Int) - (0 : Nat)) 1) ∧
    (ahdGreen (mosaic 0x94949494 8 8 (fun c => [100, 200, 300].getD c 0)) 0x94949494 8 8 0 0
          bzero).get
        (rgbIdx 1 (((3 : Nat) : Int) - (0 : Nat))
          (((ahdCol0 0x94949494 0 3 + 2 * 1 : Nat) : Int) - (0 : Nat)) 1)
      ≤ max (pixAt (mosaic 0x94949494 8 8 (fun c => [100, 200, 300].getD c 0)) 8 3
          (ahdCol0 0x94949494 0 3 + 2 * 1) (-((8 : Nat) : Int)) 1)
        (pixAt (mosaic 0x94949494 8 8 (fun c => [100, 200, 300].getD c 0)) 8 3
          (ahdCol0 0x94949494 0 3 + 2 * 1) ((8 : Nat) : Int) 1)) :=
  ahdGreen_clamped (mosaic 0x94949494 8 8 (fun c => [100, 200, 300].getD c 0)) 0x94949494 8 8 0 0
    bzero 3 1 (by decide) (by decide) (by decide)

/-! ## Flip: termination -/

/-- From the `j`-th point of the orbit of `base`, the inner loop of
`flip_image_INDI` returns within the steps that remain of a period `k`. -/
theorem flipCycle_returns {α : Type} [Inhabited α] (height width flip base k : Nat)
    (hk : (flipNext height width flip)^[k] base = base) :
    ∀ (m j fuel : Nat) (img : List α) (flag : List Nat), j + m + 1 = k → m < fuel →
      ∃ r, flipCycle height width flip base fuel img flag
        ((flipNext height width flip)^[j] base) = some r := by
  intro m
  induction m with
  | zero =>
    intro j fuel img flag hj hf
    obtain ⟨f, rfl⟩ : ∃ f, fuel = f + 1 := ⟨fuel - 1, by omega⟩
    unfold flipCycle
    have h1 := Function.iterate_succ_apply' (flipNext height width flip) j base
    have e : flipNext height width flip ((flipNext height width flip)^[j] base) = base := by
      rw [← h1, show j.succ = k by omega, hk]
    simp only [e, if_true]
    exact ⟨_, rfl⟩
  | succ m ih =>
    intro j fuel img flag hj hf
    obtain ⟨f, rfl⟩ : ∃ f, fuel = f + 1 := ⟨fuel - 1, by omega⟩
    unfold flipCycle
    have h1 := Function.iterate_succ_apply' (flipNext height width flip) j base
    by_cases e : flipNext height width flip ((flipNext height width flip)^[j] base) = base
    · simp only [e, if_true]
      exact ⟨_, rfl⟩
    · simp only [e, if_false]
      rw [← h1]
      exact ih (j + 1) f _ _ (by omega) (by omega)

/-- The outer loop of `flip_image_INDI` returns, whatever the buffer and the
bitmap, when the fuel of the inner loop is at least the number of slots. -/
theorem flipLoop_returns {α : Type} [Inhabited α] (height width F fuel : Nat) (hF : F < 8)
    (hfuel : height * width ≤ fuel) :
    ∀ (cnt base : Nat) (img : List α) (flag : List Nat), base + cnt ≤ height * width →
      ∃ r, flipLoop height width F fuel cnt base img flag = some r := by
  intro cnt
  induction cnt with
  | zero =>
    intro base img flag _
    exact ⟨_, rfl⟩
  | succ cnt ih =>
    intro base img flag hb
    unfold flipLoop
    split_ifs
    · exact ih (base + 1) img flag (by omega)
    · obtain ⟨k, hk0, hkn, hk⟩ := exists_period (flipNext_permOn height width F hF)
        (show base < height * width by omega)
      obtain ⟨r, hr⟩ := flipCycle_returns height width F base k hk (k - 1) 0 fuel img flag
        (by omega) (by omega)
      rw [Function.iterate_zero_apply] at hr
      rw [hr]
      exact ih (base + 1) _ _ (by omega)

/-- C29: for every flip code `F` in 0..7 and every height and width, every
slot `base` of the buffer comes back to itself after at most `height*width`
steps of the source-index map, the inner loop of `flip_image_INDI` started at
`base` returns (given that many units of fuel) whatever the buffer and the
bitmap, and so does `flip_image_INDI`. -/
theorem flip_image_INDI_terminates {α : Type} [Inhabited α] (img : List α)
    (height width F fuel : Nat) (hF : F < 8) (hfuel : height * width ≤ fuel) :
    (∀ base, base < height * width →
      (∃ k, 0 < k ∧ k ≤ height * width ∧ (flipNext height width F)^[k] base = base) ∧
      ∀ (buf : List α) (flag : List Nat),
        ∃ r, flipCycle height width F base fuel buf flag base = some r) ∧
    ∃ out, flip_image_INDI img height width F fuel = some out := by
  constructor
  · intro base hb
    obtain ⟨k, hk0, hkn, hk⟩ := exists_period (flipNext_permOn height width F hF) hb
    refine ⟨⟨k, hk0, hkn, hk⟩, fun buf flag => ?_⟩
    have := flipCycle_returns height width F base k hk (k - 1) 0 fuel buf flag
      (by omega) (by omega)
    rwa [Function.iterate_zero_apply] at this
  · obtain ⟨r, hr⟩ := flipLoop_returns height width F fuel hF hfuel (height * width) 0 img
      (List.replicate ((height * width + 31) >>> 5) 0) (by omega)
    unfold flip_image_INDI
    simp only [hr]
    split_ifs
    · exact ⟨_, rfl⟩
    · exact ⟨_, rfl⟩

theorem flip_image_INDI_terminates_witness :
    (∀ base, base < 2 * 3 →
      (∃ k, 0 < k ∧ k ≤ 2 * 3 ∧ (flipNext 2 3 5)^[k] base = base) ∧
      ∀ (buf : List Nat) (flag : List Nat),
        ∃ r, flipCycle 2 3 5 base 6 buf flag base = some r) ∧
    ∃ out, flip_image_INDI [10, 11, 12, 13, 14, 15] 2 3 5 6 = some out :=
  flip_image_INDI_terminates [10, 11, 12, 13, 14, 15] 2 3 5 6 (by decide) (by decide)

/-! ## Flip: every slot is stored to once -/

/-- Without the record of the stores, `flipCycleW` is `flipCycle`. -/
theorem flipCycleW_erase {α : Type} [Inhabited α] (height width flip base : Nat) :
    ∀ (fuel : Nat) (img : List α) (flag : List Nat) (dest : Nat) (tr : List Nat),
      (flipCycleW height width flip base fuel img flag dest tr).map
          (fun r => (r.1, r.2.1, r.2.2.1))
        = flipCycle height width flip base fuel img flag dest := by
  intro fuel
  induction fuel with
  | zero =>
    intro img flag dest tr
    rfl
  | succ fuel ih =>
    intro img flag dest tr
    unfold flipCycleW flipCycle
    simp only []
    split_ifs
    · rfl
    · exact ih _ _ _ _

/-- Without the record of the stores, `flipLoopW` is `flipLoop`. -/
theorem flipLoopW_erase {α : Type} [Inhabited α] (height width flip fuel : Nat) :
    ∀ (cnt base : Nat) (img : List α) (flag : List Nat) (tr : List Nat),
      (flipLoopW height width flip fuel cnt base img flag tr).map (fun r => (r.1, r.2.1))
        = flipLoop height width flip fuel cnt base img flag := by
  intro cnt
  induction cnt with
  | zero =>
    intro base img flag tr
    rfl
  | succ cnt ih =>
    intro base img flag tr
    unfold flipLoopW flipLoop
    split_ifs
    · exact ih _ _ _ _
    · have he := flipCycleW_erase height width flip base fuel img flag base tr
      cases hw : flipCycleW height width flip base fuel img flag base tr with
      | none =>
        rw [hw] at he
        simp only [Option.map_none'] at he
        rw [← he]
        rfl
      | some r =>
        obtain ⟨img1, flag1, dest, tr1⟩ := r
        rw [hw] at he
        simp only [Option.map_some'] at he
        rw [← he]
        exact ih _ _ _ _

/-- The run of the inner loop from the `j`-th point of the orbit of `b`, of
least period `k`: it stops at the last point of the orbit, has stored to the
points `j, …, k-2` in this order and flagged the points `j+1, …, k-1`. -/
theorem flipCycleW_spec {α : Type} [Inhabited α] (height width flip : Nat)
    (hp : PermOn (height * width) (flipNext height width flip)) (b k : Nat)
    (hb : b < height * width)
    (hk : (flipNext height width flip)^[k] b = b)
    (hmin : ∀ t, 0 < t → t < k → (flipNext height width flip)^[t] b ≠ b) :
    ∀ (m j fuel : Nat) (img : List α) (flag : List Nat) (tr : List Nat),
      j + m + 1 = k → m < fuel → flag.length = (height * width + 31) >>> 5 →
      ∃ img2 flag2,
        flipCycleW height width flip b fuel img flag ((flipNext height width flip)^[j] b) tr
          = some (img2, flag2, (flipNext height width flip)^[k - 1] b,
              tr ++ (List.range' j m).map (fun t => (flipNext height width flip)^[t] b)) ∧
        flag2.length = flag.length ∧
        ∀ i, flagBit flag2 i = true ↔
          (flagBit flag i = true ∨
            ∃ t, j < t ∧ t ≤ k - 1 ∧ i = (flipNext height width flip)^[t] b) := by
  intro m
  induction m with
  | zero =>
    intro j fuel img flag tr hj hf _
    obtain ⟨f, rfl⟩ : ∃ f, fuel = f + 1 := ⟨fuel - 1, by omega⟩
    unfold flipCycleW
    have h1 := Function.iterate_succ_apply' (flipNext height width flip) j b
    have e : flipNext height width flip ((flipNext height width flip)^[j] b) = b := by
      rw [← h1, show j.succ = k by omega, hk]
    simp only [e, if_true]
    refine ⟨img, flag, ?_, rfl, fun i => ?_⟩
    · rw [show k - 1 = j by omega]
      simp
    · constructor
      · exact fun h => Or.inl h
      · rintro (h | ⟨t, h1, h2, _⟩)
        · exact h
        · omega
  | succ m ih =>
    intro j fuel img flag tr hj hf hfl
    obtain ⟨f, rfl⟩ : ∃ f, fuel = f + 1 := ⟨fuel - 1, by omega⟩
    unfold flipCycleW
    have h1 := Function.iterate_succ_apply' (flipNext height width flip) j b
    have e : flipNext height width flip ((flipNext height width flip)^[j] b) ≠ b := by
      rw [← h1]
      exact hmin (j + 1) (by omega) (by omega)
    simp only [e, if_false]
    rw [← h1]
    have hlt : (flipNext height width flip)^[j + 1] b < height * width :=
      iterate_lt hp hb (j + 1)
    obtain ⟨img2, flag2, hrun, hl2, hf2⟩ := ih (j + 1) f
      (img.set ((flipNext height width flip)^[j] b)
        (img.getD ((flipNext height width flip)^[j + 1] b) default))
      (flagSet flag ((flipNext height width flip)^[j + 1] b))
      (tr ++ [(flipNext height width flip)^[j] b]) (by omega) (by omega)
      (by rw [flagSet_length]; exact hfl)
    refine ⟨img2, flag2, ?_, ?_, fun i => ?_⟩
    · rw [hrun, List.range'_succ, List.map_cons, List.append_assoc]
      rfl
    · rw [hl2, flagSet_length]
    · rw [hf2 i, flagBit_flagSet _ _ _ (by rw [hfl]; exact word_index_lt _ _ hlt)]
      simp only [Bool.or_eq_true, decide_eq_true_eq]
      constructor
      · rintro ((h | h) | ⟨t, h1, h2, h3⟩)
        · exact Or.inl h
        · exact Or.inr ⟨j + 1, by omega, by omega, h⟩
        · exact Or.inr ⟨t, by omega, h2, h3⟩
      · rintro (h | ⟨t, h1, h2, h3⟩)
        · exact Or.inl (Or.inl h)
        · by_cases ht : t = j + 1
          · subst ht
            exact Or.inl (Or.inr h3)
          · exact Or.inr ⟨t, by omega, h2, h3⟩

/-- One cycle more: the record of the stores grows by the whole orbit of `b`,
and the invariant holds before iteration `b + 1`. -/
theorem TraceInv.trace_step {n : Nat} {p : Nat → Nat} (hp : PermOn n p) {b k : Nat}
    {flag flag2 tr : List Nat} (inv : TraceInv n p b flag tr) (hb : b < n) (hk0 : 0 < k)
    (hk : p^[k] b = b) (hmin : ∀ t, 0 < t → t < k → p^[t] b ≠ b)
    (hflag : flagBit flag b = false) (hl2 : flag2.length = flag.length)
    (hf2 : ∀ i, flagBit flag2 i = true ↔
      (flagBit flag i = true ∨ ∃ t, 0 < t ∧ t ≤ k - 1 ∧ i = p^[t] b)) :
    TraceInv n p (b + 1) flag2 (tr ++ (List.range k).map (fun t => p^[t] b)) := by
  have hnot : b ∉ tr := by
    intro h
    have := inv.low b hb h hflag
    omega
  have horb : ∀ t, p^[t] b ∉ tr := fun t =>
    orbit_not_done hp (D := fun i => i ∈ tr) inv.closed hb hnot t
  have hmem : ∀ i, i ∈ (List.range k).map (fun t => p^[t] b) ↔ ∃ t, t < k ∧ i = p^[t] b := by
    intro i
    simp only [List.mem_map, List.mem_range]
    constructor
    · rintro ⟨t, h1, h2⟩
      exact ⟨t, h1, h2.symm⟩
    · rintro ⟨t, h1, h2⟩
      exact ⟨t, h1, h2.symm⟩
  refine ⟨by rw [hl2]; exact inv.flen, ?_, ?_, ?_, ?_, ?_, ?_⟩
  · rw [List.nodup_append]
    refine ⟨inv.nodup, ?_, ?_⟩
    · apply List.Nodup.map_on _ (List.nodup_range k)
      intro s hs t ht hst
      simp only [List.mem_range] at hs ht
      by_contra hne
      rcases Nat.lt_or_gt_of_ne hne with h | h
      · exact orbit_distinct hp hb hmin h ht hst
      · exact orbit_distinct hp hb hmin h hs hst.symm
    · rw [List.disjoint_left]
      intro a ha ha2
      obtain ⟨t, _, rfl⟩ := (hmem a).1 ha2
      exact horb t ha
  · intro i hi
    rcases List.mem_append.1 hi with h | h
    · exact inv.bound i h
    · obtain ⟨t, _, rfl⟩ := (hmem i).1 h
      exact iterate_lt hp hb t
  · intro i hi
    rw [List.mem_append, List.mem_append, hmem, hmem]
    constructor
    · rintro (h | ⟨t, ht, rfl⟩)
      · exact Or.inl ((inv.closed i hi).1 h)
      · right
        have h1 := Function.iterate_succ_apply' p t b
        by_cases hlast : t + 1 = k
        · refine ⟨0, hk0, ?_⟩
          rw [← h1, show t.succ = k by omega, hk]
          rfl
        · exact ⟨t + 1, by omega, h1.symm⟩
    · rintro (h | ⟨t, ht, h⟩)
      · exact Or.inl ((inv.closed i hi).2 h)
      · right
        cases t with
        | zero =>
          refine ⟨k - 1, by omega, ?_⟩
          have h1 := Function.iterate_succ_apply' p (k - 1) b
          rw [show (k - 1).succ = k by omega, hk] at h1
          rw [Function.iterate_zero_apply] at h
          exact hp.2 _ _ hi (iterate_lt hp hb (k - 1)) (h.trans h1)
        | succ t =>
          refine ⟨t, by omega, ?_⟩
          have h1 := Function.iterate_succ_apply' p t b
          exact hp.2 _ _ hi (iterate_lt hp hb t) (h.trans h1)
  · intro i _ hfl
    rw [List.mem_append, hmem]
    rcases (hf2 i).1 hfl with h | ⟨t, _, h2, h3⟩
    · exact Or.inl (inv.flagged i (by assumption) h)
    · exact Or.inr ⟨t, by omega, h3⟩
  · intro i hi hin hfl
    have hfl1 : flagBit flag i = false := by
      cases hc : flagBit flag i with
      | false => rfl
      | true =>
        rw [(hf2 i).2 (Or.inl hc)] at hfl
        exact Bool.noConfusion hfl
    rcases List.mem_append.1 hin with h | h
    · have := inv.low i hi h hfl1
      omega
    · obtain ⟨t, ht, rfl⟩ := (hmem i).1 h
      cases t with
      | zero =>
        rw [Function.iterate_zero_apply]
        omega
      | succ t =>
        rw [(hf2 _).2 (Or.inr ⟨t + 1, by omega, by omega, rfl⟩)] at hfl
        exact Bool.noConfusion hfl
  · intro i hi hin
    rw [List.mem_append, hmem]
    by_cases hib : i = b
    · exact Or.inr ⟨0, hk0, by rw [hib]; rfl⟩
    · exact Or.inl (inv.cov i (by omega) hin)

/-- The outer loop of `flip_image_INDI` returns and keeps the invariant of the
record of the stores. -/
theorem flipLoopW_spec {α : Type} [Inhabited α] (height width flip fuel : Nat)
    (hp : PermOn (height * width) (flipNext height width flip))
    (hfuel : height * width ≤ fuel) :
    ∀ (cnt b : Nat) (img : List α) (flag : List Nat) (tr : List Nat),
      b + cnt = height * width →
      TraceInv (height * width) (flipNext height width flip) b flag tr →
      ∃ img1 flag1 tr1,
        flipLoopW height width flip fuel cnt b img flag tr = some (img1, flag1, tr1) ∧
        TraceInv (height * width) (flipNext height width flip) (height * width) flag1 tr1 := by
  intro cnt
  induction cnt with
  | zero =>
    intro b img flag tr hb inv
    have : b = height * width := by omega
    subst this
    exact ⟨img, flag, tr, rfl, inv⟩
  | succ cnt ih =>
    intro b img flag tr hb inv
    have hbn : b < height * width := by omega
    unfold flipLoopW
    rw [flagTest_eq_flagBit]
    cases hflag : flagBit flag b
    · obtain ⟨k, hk0, hkn, hk, hmin⟩ := exists_min_period hp hbn
      obtain ⟨img2, flag2, hrun, hl2, hf2⟩ := flipCycleW_spec height width flip hp b k hbn hk
        hmin (k - 1) 0 fuel img flag tr (by omega) (by omega) inv.flen
      rw [Function.iterate_zero_apply] at hrun
      simp only [hrun, Bool.false_eq_true, if_false]
      apply ih (b + 1) _ _ _ (by omega)
      have hlist : tr ++ (List.range' 0 (k - 1)).map
            (fun t => (flipNext height width flip)^[t] b)
            ++ [(flipNext height width flip)^[k - 1] b]
          = tr ++ (List.range k).map (fun t => (flipNext height width flip)^[t] b) := by
        rw [← List.range_eq_range', List.append_assoc]
        congr 1
        obtain ⟨k1, rfl⟩ : ∃ k1, k = k1 + 1 := ⟨k - 1, by omega⟩
        rw [List.range_succ, List.map_append]
        rfl
      rw [hlist]
      exact inv.trace_step hp hbn hk0 hk hmin hflag hl2 hf2
    · simp only [if_true]
      apply ih (b + 1) img flag tr (by omega)
      refine ⟨inv.flen, inv.nodup, inv.bound, inv.closed, inv.flagged, ?_, ?_⟩
      · intro i hi hin hf
        have := inv.low i hi hin hf
        omega
      · intro i hi hin
        by_cases hib : i = b
        · rw [hib]
          exact inv.flagged b hbn hflag
        · exact inv.cov i (by omega) hin

/-- The stores of `flip_image_INDI` go to every slot of the buffer exactly
once. -/
theorem flipWrites_perm {α : Type} [Inhabited α] (img : List α) (height width F fuel : Nat)
    (hF : F < 8) (hfuel : height * width ≤ fuel) :
    ∃ tr, flipWrites img height width F fuel = some tr ∧
      tr.Perm (List.range (height * width)) := by
  have init : TraceInv (height * width) (flipNext height width F) 0
      (List.replicate ((height * width + 31) >>> 5) 0) [] := by
    refine ⟨by simp, List.nodup_nil, fun i h => absurd h (List.not_mem_nil i),
      fun i _ => by simp, ?_, fun i _ h => absurd h (List.not_mem_nil i),
      fun i h => absurd h (Nat.not_lt_zero i)⟩
    intro i _ h
    rw [flagBit_replicate] at h
    exact Bool.noConfusion h
  obtain ⟨img1, flag1, tr1, hrun, inv⟩ := flipLoopW_spec height width F fuel
    (flipNext_permOn height width F hF) hfuel (height * width) 0 img _ [] (by omega) init
  refine ⟨tr1, ?_, ?_⟩
  · unfold flipWrites
    rw [hrun]
    rfl
  · rw [List.perm_ext_iff_of_nodup inv.nodup (List.nodup_range _)]
    intro i
    rw [List.mem_range]
    exact ⟨inv.bound i, fun h => inv.cov i h h⟩

/-! ## Claim on the flip as a rearrangement -/

/-- A map that permutes `[0, n)` reaches every index below `n`. -/
theorem PermOn.surj {n : Nat} {p : Nat → Nat} (hp : PermOn n p) (j : Nat) (hj : j < n) :
    ∃ i, i < n ∧ p i = j := by
  obtain ⟨k, hk0, _, hk⟩ := exists_period hp hj
  refine ⟨p^[k - 1] j, iterate_lt hp hj (k - 1), ?_⟩
  have h1 := Function.iterate_succ_apply' p (k - 1) j
  rw [← h1, show (k - 1).succ = k by omega, hk]

/-- Reading a list through a map that permutes its indices rearranges it. -/
theorem map_getD_perm {α : Type} (l : List α) (d : α) (p : Nat → Nat) (hp : PermOn l.length p) :
    ((List.range l.length).map (fun i => l.getD (p i) d)).Perm l := by
  have h1 : ((List.range l.length).map p).Perm (List.range l.length) := by
    rw [List.perm_ext_iff_of_nodup _ (List.nodup_range _)]
    · intro j
      rw [List.mem_map, List.mem_range]
      constructor
      · rintro ⟨i, hi, rfl⟩
        exact hp.1 i (List.mem_range.1 hi)
      · intro hj
        obtain ⟨i, hi, e⟩ := hp.surj j hj
        exact ⟨i, List.mem_range.2 hi, e⟩
    · apply List.Nodup.map_on _ (List.nodup_range _)
      intro s hs t ht hst
      exact hp.2 s t (List.mem_range.1 hs) (List.mem_range.1 ht) hst
  have h2 := h1.map (fun i => l.getD i d)
  rw [List.map_map, range_map_getD] at h2
  exact h2

/-- C28: for every flip code `F` in 0..7 and every height and width, the
source-index map of `flip_image_INDI` sends `[0, height*width)` into itself,
injectively and onto; the function returns a buffer that is a rearrangement of
the input words, slot `i` holding the input word of slot `next(i)`; and the
stores `img[dest] = …` of the run, recorded in order by the instrumented loops
(which compute the same buffer and bitmap), go to every slot exactly once. -/
theorem flip_image_INDI_bijection {α : Type} [Inhabited α] (img : List α)
    (height width F fuel : Nat) (hF : F < 8) (hlen : img.length = height * width)
    (hfuel : height * width ≤ fuel) :
    ((∀ i, i < height * width → flipNext height width F i < height * width) ∧
      (∀ i j, i < height * width → j < height * width →
        flipNext height width F i = flipNext height width F j → i = j) ∧
      (∀ j, j < height * width → ∃ i, i < height * width ∧ flipNext height width F i = j)) ∧
    (∃ out h1 w1, flip_image_INDI img height width F fuel = some (out, h1, w1) ∧
      out.Perm img ∧
      ∀ i, i < height * width →
        out.getD i default = img.getD (flipNext height width F i) default) ∧
    (∃ tr, flipWrites img height width F fuel = some tr ∧
      tr.Perm (List.range (height * width))) ∧
    (flipLoopW height width F fuel (height * width) 0 img
        (List.replicate ((height * width + 31) >>> 5) 0) []).map (fun r => (r.1, r.2.1))
      = flipLoop height width F fuel (height * width) 0 img
          (List.replicate ((height * width + 31) >>> 5) 0) := by
  have hp := flipNext_permOn height width F hF
  refine ⟨⟨hp.1, hp.2, hp.surj⟩, ?_, flipWrites_perm img height width F fuel hF hfuel,
    flipLoopW_erase height width F fuel _ _ _ _ _⟩
  refine ⟨_, _, _, flip_image_INDI_eq img height width F fuel hF hlen hfuel, ?_, ?_⟩
  · have := map_getD_perm img default (flipNext height width F) (by rw [hlen]; exact hp)
    rw [hlen] at this
    exact this
  · intro i hi
    rw [getD_range_map _ _ _ _ hi]

theorem flip_image_INDI_bijection_witness :
    ((∀ i, i < 2 * 3 → flipNext 2 3 5 i < 2 * 3) ∧
      (∀ i j, i < 2 * 3 → j < 2 * 3 → flipNext 2 3 5 i = flipNext 2 3 5 j → i = j) ∧
      (∀ j, j < 2 * 3 → ∃ i, i < 2 * 3 ∧ flipNext 2 3 5 i = j)) ∧
    (∃ out h1 w1, flip_image_INDI [10, 11, 12, 13, 14, 15] 2 3 5 6 = some (out, h1, w1) ∧
      out.Perm [10, 11, 12, 13, 14, 15] ∧
      ∀ i, i < 2 * 3 →
        out.getD i default = ([10, 11, 12, 13, 14, 15] : List Nat).getD (flipNext 2 3 5 i) default) ∧
    (∃ tr, flipWrites [10, 11, 12, 13, 14, 15] 2 3 5 6 = some tr ∧
      tr.Perm (List.range (2 * 3))) ∧
    (flipLoopW 2 3 5 6 (2 * 3) 0 [10, 11, 12, 13, 14, 15]
        (List.replicate ((2 * 3 + 31) >>> 5) 0) []).map (fun r => (r.1, r.2.1))
      = flipLoop 2 3 5 6 (2 * 3) 0 [10, 11, 12, 13, 14, 15]
          (List.replicate ((2 * 3 + 31) >>> 5) 0) :=
  flip_image_INDI_bijection [10, 11, 12, 13, 14, 15] 2 3 5 6 (by decide) (by decide)
    (by decide)

/-! ## The bilinear table in general -/

theorem loop_congr {σ : Type} (f g : Nat → σ → σ) :
    ∀ (n start : Nat) (s : σ), (∀ i t, start ≤ i → i < start + n → f i t = g i t) →
      loop f n start s = loop g n start s := by
  intro n
  induction n with
  | zero =>
    intro start s _
    rfl
  | succ n ih =>
    intro start s h
    rw [loop_succ, loop_succ, h start s (le_refl _) (by omega)]
    exact ih (start + 1) (g start s) (fun i t h1 h2 => h i t (by omega) (by omega))

/-- A run of stores into distinct slots of one pixel. -/
theorem wr_loop (pix : Int) (cs : Nat → Nat) (g : Nat → Int) (im : List Nat)
    (hp0 : 0 ≤ pix) (hp1 : pix + 3 < im.length) (n : Nat) (hcs : ∀ i, i < n → cs i < 4)
    (hinj : ∀ i j, i < n → j < n → cs i = cs j → i = j) :
    (loop (fun i im => wr im (pix + cs i) (g i)) n 0 im).length = im.length ∧
    (∀ j : Int, (∀ i, i < n → j ≠ pix + cs i) →
      rd (loop (fun i im => wr im (pix + cs i) (g i)) n 0 im) j = rd im j) ∧
    (∀ i, i < n →
      rd (loop (fun i im => wr im (pix + cs i) (g i)) n 0 im) (pix + cs i)
        = (g i % 65536).toNat) := by
  have key := loop_inv (fun k (w : List Nat) => k ≤ n → (w.length = im.length ∧
      (∀ j : Int, (∀ i, i < k → j ≠ pix + cs i) → rd w j = rd im j) ∧
      (∀ i, i < k → rd w (pix + cs i) = (g i % 65536).toNat)))
    (fun i im => wr im (pix + cs i) (g i)) n 0 im
    (fun _ => ⟨rfl, fun _ _ => rfl, fun i hi => absurd hi (Nat.not_lt_zero i)⟩)
    (by
      intro k w _ hk ih hk1
      obtain ⟨hl, hfr, hv⟩ := ih (by omega)
      have hck := hcs k (by omega)
      refine ⟨by rw [wr_length]; exact hl, ?_, ?_⟩
      · intro j hj
        rw [rd_wr_ne _ _ _ _ (fun e => hj k (by omega) e.symm)]
        exact hfr j (fun i hi => hj i (by omega))
      · intro i hi
        by_cases hik : i = k
        · subst hik
          exact rd_wr_eq _ _ _ (by omega) (by rw [hl]; omega)
        · have hne : cs k ≠ cs i := fun e => hik (hinj i k (by omega) (by omega) e.symm)
          rw [rd_wr_ne _ _ _ _ (by omega)]
          exact hv i (by omega))
  rw [Nat.zero_add] at key
  exact key (le_refl _)

theorem getD_app (pre l : List Int) (k : Nat) : (pre ++ l).getD (pre.length + k) 0 = l.getD k 0 := by
  rw [List.getD_append_right _ _ _ _ (by omega)]
  congr 1
  omega

theorem getD_app0 (pre l : List Int) : (pre ++ l).getD pre.length 0 = l.getD 0 0 :=
  getD_app pre l 0

/-- The inner loop `while ((g = *ip++) != -1) gval[g] += diff` over the
remaining gradient numbers of a block. -/
theorem vngMore_run (diff : Int) (post : List Int) :
    ∀ (gs pre : List Int) (fuel : Nat) (gval : List Int), (∀ g ∈ gs, g ≠ -1) →
      gs.length < fuel →
      vngMore (pre ++ (gs ++ -1 :: post)) diff fuel pre.length gval
        = some (gs.foldl (fun gv g => sadd gv g.toNat diff) gval, pre.length + gs.length + 1) := by
  intro gs
  induction gs with
  | nil =>
    intro pre fuel gval _ hf
    obtain ⟨f, rfl⟩ : ∃ f, fuel = f + 1 := ⟨fuel - 1, by simp at hf; omega⟩
    unfold vngMore
    simp only []
    rw [getD_app0]
    simp
  | cons g gs ih =>
    intro pre fuel gval hg hf
    obtain ⟨f, rfl⟩ : ∃ f, fuel = f + 1 := ⟨fuel - 1, by simp at hf; omega⟩
    unfold vngMore
    simp only []
    rw [getD_app0]
    have hne : g ≠ -1 := hg g (List.mem_cons_self _ _)
    have e : pre ++ (g :: gs ++ -1 :: post) = (pre ++ [g]) ++ (gs ++ -1 :: post) := by simp
    simp only [List.cons_append, List.getD_cons_zero, if_neg hne]
    have := ih (pre ++ [g]) f (sadd gval g.toNat diff)
      (fun x hx => hg x (List.mem_cons_of_mem _ hx)) (by simp at hf; omega)
    simp only [List.length_append, List.length_singleton, List.append_assoc,
      List.singleton_append] at this
    rw [this]
    simp only [List.foldl_cons, List.length_cons]
    congr 2
    omega

/-- One turn of the gradient loop of `vng_interpolate_INDI` over a block of
the table: it ends on the entry after the block's `-1`. -/
theorem vngGrads_block (img : List Nat) (pix : Int) (pre post : List Int) (o1 o2 w : Int)
    (gs : List Int) (hgs : gs ≠ []) (hg : ∀ g ∈ gs, g ≠ -1) (ho : o1 ≠ INT_MAX) (fuel : Nat)
    (hf : gs.length < fuel) (gval : List Int) :
    vngGrads img pix (pre ++ (o1 :: o2 :: w :: (gs ++ -1 :: post))) (fuel + 1) pre.length gval
      = vngGrads img pix (pre ++ (o1 :: o2 :: w :: (gs ++ -1 :: post))) fuel
          (pre.length + (3 + (gs.length + 1)))
          (blockGrad img pix gval (o1 :: o2 :: w :: (gs ++ [-1]))) := by
  have hb : blockGrad img pix gval (o1 :: o2 :: w :: (gs ++ [-1]))
      = gs.foldl (fun gv g => sadd gv g.toNat
          ((((rd img (pix + o1) : Int) - rd img (pix + o2)).natAbs : Int) * 2 ^ w.toNat)) gval := by
    unfold blockGrad
    simp only [List.dropLast_concat]
  rw [hb]
  conv_lhs => unfold vngGrads
  simp only []
  rw [getD_app0, getD_app, getD_app, getD_app, getD_app]
  simp only [List.getD_cons_zero, List.getD_cons_succ, if_neg ho]
  match gs, hgs, hg, hf with
  | [g0], _, _, _ =>
    simp only [List.singleton_append, List.getD_cons_zero, List.getD_cons_succ, if_true,
      List.foldl_cons, List.foldl_nil, List.length_singleton]
  | g0 :: g1 :: gs1, _, hg, hf =>
    have h1 : g1 ≠ -1 := hg g1 (by simp)
    simp only [List.cons_append, List.getD_cons_zero, List.getD_cons_succ, if_neg h1]
    have e : pre ++ (o1 :: o2 :: w :: g0 :: g1 :: (gs1 ++ -1 :: post))
        = (pre ++ [o1, o2, w, g0, g1]) ++ (gs1 ++ -1 :: post) := by simp
    have := vngMore_run ((((rd img (pix + o1) : Int) - rd img (pix + o2)).natAbs : Int)
        * 2 ^ w.toNat) post gs1 (pre ++ [o1, o2, w, g0, g1]) fuel
      (sadd (sadd gval g0.toNat ((((rd img (pix + o1) : Int) - rd img (pix + o2)).natAbs : Int)
        * 2 ^ w.toNat)) g1.toNat ((((rd img (pix + o1) : Int) - rd img (pix + o2)).natAbs : Int)
        * 2 ^ w.toNat))
      (fun x hx => hg x (by simp [hx])) (by
        have h2 := hf
        simp only [List.length_cons] at h2
        omega)
    rw [← e] at this
    simp only [List.length_append, List.length_cons, List.length_nil] at this
    rw [this]
    simp only [List.foldl_cons, List.length_cons]
    rw [show pre.length + (0 + 1 + 1 + 1 + 1 + 1) + gs1.length + 1
      = pre.length + (3 + (gs1.length + 1 + 1 + 1)) by omega]

theorem goodBlock_offset (width : Nat) (hw : 8 * width + 11 < 2147483647) (y x : Int) (c : Nat)
    (hy : -2 ≤ y ∧ y ≤ 2) (hx : -2 ≤ x ∧ x ≤ 2) (hc : c < 4) :
    (y * width + x) * 4 + c ≠ INT_MAX := by
  have h1 : y * width ≤ 2 * width := mul_le_mul_of_nonneg_right hy.2 (Int.natCast_nonneg width)
  unfold INT_MAX
  omega

/-- The gradient loop of `vng_interpolate_INDI` over a run of blocks followed
by `INT_MAX`: with enough fuel it returns, on the `INT_MAX` entry, the
gradients accumulated block by block. -/
theorem vngGrads_blocks (width : Nat) (hw : 8 * width + 11 < 2147483647) (img : List Nat)
    (pix : Int) (post : List Int) :
    ∀ (bs : List (List Int)) (pre gval : List Int) (fuel : Nat),
      (∀ b ∈ bs, GoodBlock width b) → bs.length + 8 < fuel →
      vngGrads img pix (pre ++ (bs.flatten ++ INT_MAX :: post)) fuel pre.length gval
        = some (bs.foldl (blockGrad img pix) gval, pre.length + bs.flatten.length) := by
  intro bs
  induction bs with
  | nil =>
    intro pre gval fuel _ hf
    obtain ⟨f, rfl⟩ : ∃ f, fuel = f + 1 := ⟨fuel - 1, by omega⟩
    unfold vngGrads
    simp only [List.flatten_nil, List.nil_append]
    rw [getD_app0]
    simp
  | cons b bs ih =>
    intro pre gval fuel hb hf
    have hbs : ∀ b ∈ bs, GoodBlock width b := fun x hx => hb x (List.mem_cons_of_mem _ hx)
    rcases hb b (List.mem_cons_self _ _) with h0 | ⟨y1, x1, y2, x2, c, w, gs, hbe, hy1, hx1, _, _,
      hc, hgs, hlen, hg⟩
    · subst h0
      simp only [List.flatten_cons, List.nil_append, List.foldl_cons]
      rw [ih pre gval fuel hbs (by simp at hf; omega)]
      rfl
    · obtain ⟨f, rfl⟩ : ∃ f, fuel = f + 1 := ⟨fuel - 1, by omega⟩
      have e1 : pre ++ ((b :: bs).flatten ++ INT_MAX :: post)
          = pre ++ (((y1 * width + x1) * 4 + c) :: ((y2 * width + x2) * 4 + c) :: w ::
              (gs ++ -1 :: (bs.flatten ++ INT_MAX :: post))) := by
        rw [List.flatten_cons, hbe]
        simp
      have e2 : pre ++ ((b :: bs).flatten ++ INT_MAX :: post)
          = (pre ++ b) ++ (bs.flatten ++ INT_MAX :: post) := by
        rw [List.flatten_cons]
        simp
      have hl : (pre ++ b).length = pre.length + (3 + (gs.length + 1)) := by
        rw [hbe]
        simp
        omega
      rw [e1, vngGrads_block img pix pre _ _ _ w gs hgs hg
        (goodBlock_offset width hw y1 x1 c hy1 hx1 hc) f (by simp at hf; omega), ← e1, e2, ← hl,
        ih (pre ++ b) _ f hbs (by simp at hf; omega), List.foldl_cons, ← hbe]
      simp only [List.length_append, List.flatten_cons]
      congr 2
      omega

/-! ## The VNG table is a run of good blocks -/

theorem loop_append (f : Nat → List Int) :
    ∀ (n i : Nat) (l : List Int),
      loop (fun t ip => ip ++ f t) n i l = l ++ ((List.range' i n).map f).flatten := by
  intro n
  induction n with
  | zero =>
    intro i l
    simp [loop]
  | succ n ih =>
    intro i l
    rw [loop_succ, ih]
    simp [List.range'_succ]

theorem terms_bounds : ∀ t, t < 64 →
    (-2 ≤ terms.getD (6 * t) 0 ∧ terms.getD (6 * t) 0 ≤ 2) ∧
    (-2 ≤ terms.getD (6 * t + 1) 0 ∧ terms.getD (6 * t + 1) 0 ≤ 2) ∧
    (-2 ≤ terms.getD (6 * t + 2) 0 ∧ terms.getD (6 * t + 2) 0 ≤ 2) ∧
    (-2 ≤ terms.getD (6 * t + 3) 0 ∧ terms.getD (6 * t + 3) 0 ≤ 2) := by
  decide

theorem termGrads_bounds : ∀ t, t < 64 →
    termGrads t ≠ [] ∧ (termGrads t).length ≤ 8 ∧ ∀ g ∈ termGrads t, g ≠ -1 := by
  decide

theorem vngTerm_eq (filters width row col t : Nat) :
    vngTerm filters width row col t
      = if fc_INDI filters (row + terms.getD (6 * t + 2) 0) (col + terms.getD (6 * t + 3) 0)
            ≠ fc_INDI filters (row + terms.getD (6 * t) 0) (col + terms.getD (6 * t + 1) 0)
        then []
        else if (((terms.getD (6 * t) 0 - terms.getD (6 * t + 2) 0).natAbs : Int)
              = (if fc_INDI filters row ((col : Int) + 1)
                    = fc_INDI filters (row + terms.getD (6 * t) 0) (col + terms.getD (6 * t + 1) 0)
                  ∧ fc_INDI filters ((row : Int) + 1) col
                    = fc_INDI filters (row + terms.getD (6 * t) 0) (col + terms.getD (6 * t + 1) 0)
                then 2 else 1)
            ∧ ((terms.getD (6 * t + 1) 0 - terms.getD (6 * t + 3) 0).natAbs : Int)
              = (if fc_INDI filters row ((col : Int) + 1)
                    = fc_INDI filters (row + terms.getD (6 * t) 0) (col + terms.getD (6 * t + 1) 0)
                  ∧ fc_INDI filters ((row : Int) + 1) col
                    = fc_INDI filters (row + terms.getD (6 * t) 0) (col + terms.getD (6 * t + 1) 0)
                then 2 else 1))
        then []
        else
          ((terms.getD (6 * t) 0 * width + terms.getD (6 * t + 1) 0) * 4
              + fc_INDI filters (row + terms.getD (6 * t) 0) (col + terms.getD (6 * t + 1) 0))
            :: ((terms.getD (6 * t + 2) 0 * width + terms.getD (6 * t + 3) 0) * 4
              + fc_INDI filters (row + terms.getD (6 * t) 0) (col + terms.getD (6 * t + 1) 0))
            :: terms.getD (6 * t + 4) 0 :: (termGrads t ++ [-1]) := by
  rfl

theorem vngTerm_good (filters width row col t : Nat) (ht : t < 64) :
    GoodBlock width (vngTerm filters width row col t) := by
  rw [vngTerm_eq]
  obtain ⟨b1, b2, b3, b4⟩ := terms_bounds t ht
  obtain ⟨g1, g2, g3⟩ := termGrads_bounds t ht
  split_ifs <;>
    first
    | exact Or.inl rfl
    | exact Or.inr ⟨_, _, _, _, _, _, _, rfl, b1, b2, b3, b4, fc_INDI_lt _ _ _, g1, g2, g3⟩

theorem vngCode_eq (filters width row col : Nat) :
    vngCode filters width row col
      = [] ++ ((vngTerms filters width row col).flatten
          ++ INT_MAX :: vngHoods filters width row col) := by
  unfold vngCode vngTerms vngHoods
  rw [loop_append, List.range_eq_range', List.nil_append, List.nil_append, List.append_assoc,
    List.singleton_append]

/-- The gradient loop of `vng_interpolate_INDI` on a table entry returns, on
the `INT_MAX` entry, the gradients accumulated block by block. -/
theorem vngGrads_code (filters width row col : Nat) (hw : 8 * width + 11 < 2147483647)
    (img : List Nat) (pix : Int) (gval : List Int) (fuel : Nat) (hf : 72 < fuel) :
    vngGrads img pix (vngCode filters width row col) fuel 0 gval
      = some ((vngTerms filters width row col).foldl (blockGrad img pix) gval,
          (vngTerms filters width row col).flatten.length) := by
  rw [vngCode_eq]
  have := vngGrads_blocks width hw img pix (vngHoods filters width row col)
    (vngTerms filters width row col) [] gval fuel
    (by
      intro b hb
      unfold vngTerms at hb
      obtain ⟨t, ht, rfl⟩ := List.mem_map.1 hb
      exact vngTerm_good filters width row col t (List.mem_range.1 ht))
    (by unfold vngTerms; simp; omega)
  simpa using this

/-! ## The VNG pixel body in parts -/

/-- The pixel body of `vng_interpolate_INDI` is the gradient loop, the choice
of the threshold, the averaging loop and the store loop. -/
theorem vngPixel_eq (filters width colors : Nat) (code : List Int) (fuel : Nat) (img : List Nat)
    (row col : Nat) (b2 : List Nat) :
    vngPixel filters width colors code fuel img row col b2
      = match vngGrads img (((row : Int) * width + col) * 4) code fuel 0 (List.replicate 8 0) with
        | none => none
        | some (gval, ipEnd) =>
          if vngGmax gval = 0 then
            some (copyPixels b2 ((col : Int) * 4) img (((row : Int) * width + col) * 4) 1)
          else
            some (vngStore colors (fc_INDI filters row col) img (((row : Int) * width + col) * 4)
              col (vngSums colors (fc_INDI filters row col) code (ipEnd + 1) img
                (((row : Int) * width + col) * 4) gval (vngThold gval)) b2) := rfl

/-- The pixel body of `vng_interpolate_INDI` with a table entry returns. -/
theorem vngPixel_run (filters width colors r0 c0 : Nat) (hw : 8 * width + 11 < 2147483647)
    (fuel : Nat) (hf : 72 < fuel) (img : List Nat) (row col : Nat) (b2 : List Nat) :
    vngPixel filters width colors (vngCode filters width r0 c0) fuel img row col b2
      = some (if vngGmax (vngGval filters width r0 c0 img (((row : Int) * width + col) * 4)) = 0
          then copyPixels b2 ((col : Int) * 4) img (((row : Int) * width + col) * 4) 1
          else vngStore colors (fc_INDI filters row col) img (((row : Int) * width + col) * 4)
            col (vngSums colors (fc_INDI filters row col) (vngCode filters width r0 c0)
              (vngHoodAt filters width r0 c0) img (((row : Int) * width + col) * 4)
              (vngGval filters width r0 c0 img (((row : Int) * width + col) * 4))
              (vngThold (vngGval filters width r0 c0 img (((row : Int) * width + col) * 4)))) b2) := by
  rw [vngPixel_eq, vngGrads_code filters width r0 c0 hw img _ _ fuel hf]
  simp only []
  unfold vngGval vngHoodAt
  split_ifs <;> rfl

/-! ## The threshold rule of VNG -/

theorem vngGmin_least (gval : List Int) :
    IsLeast {x | ∃ g, g < 8 ∧ sget gval g = x} (vngGmin gval) := by
  have key := loop_inv (fun k (m : Int) =>
      (∀ g, g < k → m ≤ sget gval g) ∧ ∃ g, g < k ∧ sget gval g = m)
    (fun g m => if m > sget gval g then sget gval g else m) 7 1 (sget gval 0)
    ⟨fun g hg => by
      have : g = 0 := by omega
      rw [this], 0, by omega, rfl⟩
    (by
      intro k m _ _ ⟨h1, g0, hg0, e0⟩
      beta_reduce
      split_ifs with hlt
      · refine ⟨fun g hg => ?_, k, by omega, rfl⟩
        by_cases e : g = k
        · rw [e]
        · exact le_trans (le_of_lt hlt) (h1 g (by omega))
      · refine ⟨fun g hg => ?_, g0, by omega, e0⟩
        by_cases e : g = k
        · rw [e]
          exact not_lt.1 hlt
        · exact h1 g (by omega))
  obtain ⟨h1, g0, hg0, e0⟩ := key
  exact ⟨⟨g0, hg0, e0⟩, fun x ⟨g, hg, e⟩ => e ▸ h1 g hg⟩

theorem vngGmax_greatest (gval : List Int) :
    IsGreatest {x | ∃ g, g < 8 ∧ sget gval g = x} (vngGmax gval) := by
  have key := loop_inv (fun k (m : Int) =>
      (∀ g, g < k → sget gval g ≤ m) ∧ ∃ g, g < k ∧ sget gval g = m)
    (fun g m => if m < sget gval g then sget gval g else m) 7 1 (sget gval 0)
    ⟨fun g hg => by
      have : g = 0 := by omega
      rw [this], 0, by omega, rfl⟩
    (by
      intro k m _ _ ⟨h1, g0, hg0, e0⟩
      beta_reduce
      split_ifs with hlt
      · refine ⟨fun g hg => ?_, k, by omega, rfl⟩
        by_cases e : g = k
        · rw [e]
        · exact le_trans (h1 g (by omega)) (le_of_lt hlt)
      · refine ⟨fun g hg => ?_, g0, by omega, e0⟩
        by_cases e : g = k
        · rw [e]
          exact not_lt.1 hlt
        · exact h1 g (by omega))
  obtain ⟨h1, g0, hg0, e0⟩ := key
  exact ⟨⟨g0, hg0, e0⟩, fun x ⟨g, hg, e⟩ => e ▸ h1 g hg⟩

/-- A loop that applies `f g` and counts, for the indices `g` that pass a
test, is a fold over the indices that pass it. -/
theorem loop_filter (p : Nat → Bool) (f : Nat → List Int → List Int) :
    ∀ (n i : Nat) (s : List Int) (k : Int),
      loop (fun g (a : List Int × Int) => if p g = true then (f g a.1, a.2 + 1) else a) n i (s, k)
        = (((List.range' i n).filter p).foldl (fun s g => f g s) s,
            k + (((List.range' i n).filter p).length : Int)) := by
  intro n
  induction n with
  | zero =>
    intro i s k
    simp [loop]
  | succ n ih =>
    intro i s k
    rw [loop_succ, List.range'_succ]
    by_cases h : p i = true
    · beta_reduce
      rw [if_pos h, ih, List.filter_cons_of_pos h, List.foldl_cons, List.length_cons]
      push_cast
      congr 1
      ring
    · beta_reduce
      rw [if_neg h, ih, List.filter_cons_of_neg h]

/-- The averaging loop of `vng_interpolate_INDI`: exactly the directions with
`gval[g] <= thold` contribute, and `num` is their number. -/
theorem vngSums_eq (colors color : Nat) (code : List Int) (ip : Nat) (img : List Nat) (pix : Int)
    (gval : List Int) (thold : Int) :
    vngSums colors color code ip img pix gval thold
      = (((List.range 8).filter (fun g => decide (sget gval g ≤ thold))).foldl
            (fun s g => vngDir colors color code ip img pix g s) (List.replicate 4 0),
          (((List.range 8).filter (fun g => decide (sget gval g ≤ thold))).length : Int)) := by
  unfold vngSums
  have := loop_filter (fun g => decide (sget gval g ≤ thold))
    (fun g s => vngDir colors color code ip img pix g s) 8 0 (List.replicate 4 0) 0
  simp only [decide_eq_true_eq, zero_add] at this
  rw [this, List.range_eq_range']

theorem vngThold_floor (gval : List Int) :
    vngThold gval = vngGmin gval + Int.floor ((vngGmax gval : ℚ) / 2) := by
  unfold vngThold
  have := Rat.floor_intCast_div_natCast (vngGmax gval) 2
  push_cast at this
  rw [this]

/-- Claim C23. For every pixel and every table entry of `vng_interpolate_INDI`
the gradient loop returns gradients `gval[0..7]`; the value `gmin` is their
least and `gmax` their greatest, the threshold is `gmin + floor(gmax / 2)`;
and, unless `gmax = 0`, what the pixel body stores is computed from the sums
over exactly the compass directions `g` with `gval[g] <= thold`, in increasing
order, and from `num`, the number of these directions. -/
theorem vngPixel_threshold (filters width colors r0 c0 : Nat)
    (hw : 8 * width + 11 < 2147483647) (fuel : Nat) (hf : 72 < fuel) (img : List Nat)
    (row col : Nat) (b2 : List Nat) :
    ∃ gval ipEnd,
      vngGrads img (((row : Int) * width + col) * 4) (vngCode filters width r0 c0) fuel 0
        (List.replicate 8 0) = some (gval, ipEnd) ∧
      IsLeast {x | ∃ g, g < 8 ∧ sget gval g = x} (vngGmin gval) ∧
      IsGreatest {x | ∃ g, g < 8 ∧ sget gval g = x} (vngGmax gval) ∧
      vngThold gval = vngGmin gval + Int.floor ((vngGmax gval : ℚ) / 2) ∧
      vngPixel filters width colors (vngCode filters width r0 c0) fuel img row col b2
        = some (if vngGmax gval = 0
            then copyPixels b2 ((col : Int) * 4) img (((row : Int) * width + col) * 4) 1
            else vngStore colors (fc_INDI filters row col) img (((row : Int) * width + col) * 4) col
              (((List.range 8).filter (fun g => decide (sget gval g ≤ vngThold gval))).foldl
                  (fun s g => vngDir colors (fc_INDI filters row col) (vngCode filters width r0 c0)
                    (ipEnd + 1) img (((row : Int) * width + col) * 4) g s) (List.replicate 4 0),
                (((List.range 8).filter
                  (fun g => decide (sget gval g ≤ vngThold gval))).length : Int)) b2) := by
  refine ⟨_, _, vngGrads_code filters width r0 c0 hw img _ _ fuel hf, vngGmin_least _,
    vngGmax_greatest _, vngThold_floor _, ?_⟩
  rw [vngPixel_run filters width colors r0 c0 hw fuel hf, vngSums_eq]
  rfl

theorem vngPixel_threshold_witness :
    ∃ gval ipEnd,
      vngGrads (mosaic 0x94949494 5 5 (fun c => [10, 20, 30].getD c 0))
        ((((2 : Nat) : Int) * (5 : Nat) + (2 : Nat)) * 4) (vngCode 0x94949494 5 2 0) 73 0
        (List.replicate 8 0) = some (gval, ipEnd) ∧
      IsLeast {x | ∃ g, g < 8 ∧ sget gval g = x} (vngGmin gval) ∧
      IsGreatest {x | ∃ g, g < 8 ∧ sget gval g = x} (vngGmax gval) ∧
      vngThold gval = vngGmin gval + Int.floor ((vngGmax gval : ℚ) / 2) ∧
      vngPixel 0x94949494 5 3 (vngCode 0x94949494 5 2 0) 73
          (mosaic 0x94949494 5 5 (fun c => [10, 20, 30].getD c 0)) 2 2 (List.replicate 20 0)
        = some (if vngGmax gval = 0
            then copyPixels (List.replicate 20 0) (((2 : Nat) : Int) * 4)
              (mosaic 0x94949494 5 5 (fun c => [10, 20, 30].getD c 0))
              ((((2 : Nat) : Int) * (5 : Nat) + (2 : Nat)) * 4) 1
            else vngStore 3 (fc_INDI 0x94949494 (2 : Nat) (2 : Nat))
              (mosaic 0x94949494 5 5 (fun c => [10, 20, 30].getD c 0))
              ((((2 : Nat) : Int) * (5 : Nat) + (2 : Nat)) * 4) 2
              (((List.range 8).filter (fun g => decide (sget gval g ≤ vngThold gval))).foldl
                  (fun s g => vngDir 3 (fc_INDI 0x94949494 (2 : Nat) (2 : Nat))
                    (vngCode 0x94949494 5 2 0) (ipEnd + 1)
                    (mosaic 0x94949494 5 5 (fun c => [10, 20, 30].getD c 0))
                    ((((2 : Nat) : Int) * (5 : Nat) + (2 : Nat)) * 4) g s) (List.replicate 4 0),
                (((List.range 8).filter
                  (fun g => decide (sget gval g ≤ vngThold gval))).length : Int))
              (List.replicate 20 0)) :=
  vngPixel_threshold 0x94949494 5 3 2 0 (by decide) 73 (by decide)
    (mosaic 0x94949494 5 5 (fun c => [10, 20, 30].getD c 0)) 2 2 (List.replicate 20 0)

/-! ## What the VNG pixel body reads -/

/-- The sample `k` of the pixel `(row + y, col + x)` lies in the rows
`row-2 .. row+2` when `(row, col)` is at least 2 columns from either side. -/
theorem in_window (width row col : Nat) (y x k : Int) (hc : 2 ≤ col) (hc2 : col + 2 < width)
    (hy : -2 ≤ y ∧ y ≤ 2) (hx : -2 ≤ x ∧ x ≤ 2) (hk : 0 ≤ k ∧ k ≤ 3) :
    ((row : Int) - 2) * width * 4 ≤ ((row : Int) * width + col) * 4 + ((y * width + x) * 4 + k) ∧
    ((row : Int) * width + col) * 4 + ((y * width + x) * 4 + k) < ((row : Int) + 3) * width * 4 := by
  have h1 : y * width ≤ 2 * width := mul_le_mul_of_nonneg_right hy.2 (Int.natCast_nonneg width)
  have h2 : -2 * (width : Int) ≤ y * width :=
    mul_le_mul_of_nonneg_right hy.1 (Int.natCast_nonneg width)
  have e1 : ((row : Int) - 2) * width * 4 = (row : Int) * width * 4 - 8 * width := by ring
  have e2 : ((row : Int) + 3) * width * 4 = (row : Int) * width * 4 + 12 * width := by ring
  have e3 : ((row : Int) * width + col) * 4 + ((y * width + x) * 4 + k)
      = (row : Int) * width * 4 + col * 4 + y * width * 4 + x * 4 + k := by ring
  rw [e1, e2, e3]
  constructor <;> omega

theorem agree_read {width row col : Nat} {a b : List Nat} (h : AgreeWin width row a b)
    (y x k : Int) (hc : 2 ≤ col) (hc2 : col + 2 < width)
    (hy : -2 ≤ y ∧ y ≤ 2) (hx : -2 ≤ x ∧ x ≤ 2) (hk : 0 ≤ k ∧ k ≤ 3) :
    rd a (((row : Int) * width + col) * 4 + ((y * width + x) * 4 + k))
      = rd b (((row : Int) * width + col) * 4 + ((y * width + x) * 4 + k)) := by
  obtain ⟨h1, h2⟩ := in_window width row col y x k hc hc2 hy hx hk
  exact h _ h1 h2

/-- The gradients a block adds depend on the image through the rows
`row-2 .. row+2` only. -/
theorem blockGrad_agree {width row col : Nat} {a b : List Nat} (h : AgreeWin width row a b)
    (hc : 2 ≤ col) (hc2 : col + 2 < width) (blk : List Int) (hb : GoodBlock width blk)
    (gval : List Int) :
    blockGrad a (((row : Int) * width + col) * 4) gval blk
      = blockGrad b (((row : Int) * width + col) * 4) gval blk := by
  rcases hb with h0 | ⟨y1, x1, y2, x2, c, w, gs, hbe, hy1, hx1, hy2, hx2, hc4, _, _, _⟩
  · rw [h0]
    rfl
  · rw [hbe]
    unfold blockGrad
    simp only []
    rw [agree_read h y1 x1 c hc hc2 hy1 hx1 (by omega),
      agree_read h y2 x2 c hc hc2 hy2 hx2 (by omega)]

theorem vngGval_agree {width row col : Nat} {a b : List Nat} (h : AgreeWin width row a b)
    (hc : 2 ≤ col) (hc2 : col + 2 < width) (filters r0 c0 : Nat) :
    vngGval filters width r0 c0 a (((row : Int) * width + col) * 4)
      = vngGval filters width r0 c0 b (((row : Int) * width + col) * 4) := by
  unfold vngGval
  have key : ∀ (bs : List (List Int)) (gval : List Int), (∀ blk ∈ bs, GoodBlock width blk) →
      bs.foldl (blockGrad a (((row : Int) * width + col) * 4)) gval
        = bs.foldl (blockGrad b (((row : Int) * width + col) * 4)) gval := by
    intro bs
    induction bs with
    | nil =>
      intro gval _
      rfl
    | cons blk bs ih =>
      intro gval hg
      rw [List.foldl_cons, List.foldl_cons,
        blockGrad_agree h hc hc2 blk (hg blk (List.mem_cons_self _ _)),
        ih _ (fun x hx => hg x (List.mem_cons_of_mem _ hx))]
  apply key
  intro blk hb
  unfold vngTerms at hb
  obtain ⟨t, ht, rfl⟩ := List.mem_map.1 hb
  exact vngTerm_good filters width r0 c0 t (List.mem_range.1 ht)

/-! ## The neighbour descriptors of the VNG table -/

theorem chood_bounds : ∀ g, g < 8 →
    (-1 ≤ chood.getD (2 * g) 0 ∧ chood.getD (2 * g) 0 ≤ 1) ∧
    (-1 ≤ chood.getD (2 * g + 1) 0 ∧ chood.getD (2 * g + 1) 0 ≤ 1) := by
  decide

theorem vngHoods_getD (filters width r0 c0 g : Nat) (hg : g < 8) :
    (vngHoods filters width r0 c0).getD (2 * g) 0
        = (chood.getD (2 * g) 0 * width + chood.getD (2 * g + 1) 0) * 4 ∧
    (vngHoods filters width r0 c0).getD (2 * g + 1) 0
        = if fc_INDI filters (r0 + chood.getD (2 * g) 0) (c0 + chood.getD (2 * g + 1) 0)
              ≠ fc_INDI filters r0 c0 ∧
            fc_INDI filters (r0 + chood.getD (2 * g) 0 * 2) (c0 + chood.getD (2 * g + 1) 0 * 2)
              = fc_INDI filters r0 c0
          then (chood.getD (2 * g) 0 * width + chood.getD (2 * g + 1) 0) * 8
            + fc_INDI filters r0 c0
          else 0 := by
  interval_cases g <;> exact ⟨rfl, rfl⟩

/-- The descriptor of compass direction `g` in a table entry: the offset of a
neighbour at most one row and column away, and `0` or the offset of a sample
of the pixel twice as far. -/
theorem vngCode_hood (filters width r0 c0 g : Nat) (hg : g < 8) :
    ∃ (y x : Int) (c : Nat), (-1 ≤ y ∧ y ≤ 1) ∧ (-1 ≤ x ∧ x ≤ 1) ∧ c < 4 ∧
      (vngCode filters width r0 c0).getD (vngHoodAt filters width r0 c0 + 2 * g) 0
        = (y * width + x) * 4 ∧
      ((vngCode filters width r0 c0).getD (vngHoodAt filters width r0 c0 + 2 * g + 1) 0 = 0 ∨
        (vngCode filters width r0 c0).getD (vngHoodAt filters width r0 c0 + 2 * g + 1) 0
          = (y * width + x) * 8 + c) := by
  have e : vngCode filters width r0 c0
      = ((vngTerms filters width r0 c0).flatten ++ [INT_MAX]) ++ vngHoods filters width r0 c0 := by
    rw [vngCode_eq]
    simp
  have hl : vngHoodAt filters width r0 c0
      = ((vngTerms filters width r0 c0).flatten ++ [INT_MAX]).length := by
    unfold vngHoodAt
    simp
  obtain ⟨h1, h2⟩ := vngHoods_getD filters width r0 c0 g hg
  obtain ⟨b1, b2⟩ := chood_bounds g hg
  refine ⟨chood.getD (2 * g) 0, chood.getD (2 * g + 1) 0, fc_INDI filters r0 c0, b1, b2,
    fc_INDI_lt _ _ _, ?_, ?_⟩
  · rw [e, hl, getD_app, h1]
  · rw [e, hl, Nat.add_assoc, getD_app, h2]
    split_ifs
    · exact Or.inr rfl
    · exact Or.inl rfl

/-- What a compass direction adds to `sum[]` depends on the image through the
rows `row-2 .. row+2` only. -/
theorem vngDir_agree {width row col : Nat} {a b : List Nat} (h : AgreeWin width row a b)
    (hc : 2 ≤ col) (hc2 : col + 2 < width) (filters r0 c0 colors color : Nat)
    (hcolors : colors ≤ 4) (g : Nat) (hg : g < 8) (s : List Int) :
    vngDir colors color (vngCode filters width r0 c0) (vngHoodAt filters width r0 c0) a
        (((row : Int) * width + col) * 4) g s
      = vngDir colors color (vngCode filters width r0 c0) (vngHoodAt filters width r0 c0) b
        (((row : Int) * width + col) * 4) g s := by
  obtain ⟨y, x, c, hy, hx, hc4, e1, e2⟩ := vngCode_hood filters width r0 c0 g hg
  unfold vngDir
  apply loop_congr
  intro k t _ hk
  beta_reduce
  have r0 : rd a (((row : Int) * width + col) * 4 + k) = rd b (((row : Int) * width + col) * 4 + k) := by
    have := agree_read h 0 0 k hc hc2 (by omega) (by omega) (by omega)
    simpa using this
  have r1 : rd a (((row : Int) * width + col) * 4 + ((y * width + x) * 4 + k))
      = rd b (((row : Int) * width + col) * 4 + ((y * width + x) * 4 + k)) :=
    agree_read h y x k hc hc2 (by omega) (by omega) (by omega)
  rw [e1, r0, r1]
  rcases e2 with e2 | e2
  · rw [e2]
    simp
  · rw [e2]
    have r2 : rd a (((row : Int) * width + col) * 4 + ((y * width + x) * 8 + c))
        = rd b (((row : Int) * width + col) * 4 + ((y * width + x) * 8 + c)) := by
      have := agree_read h (2 * y) (2 * x) c hc hc2 (by omega) (by omega) (by omega)
      have e : (2 * y * width + 2 * x) * 4 + (c : Int) = (y * width + x) * 8 + c := by ring
      rw [e] at this
      exact this
    rw [r2]

theorem vngSums_agree {width row col : Nat} {a b : List Nat} (h : AgreeWin width row a b)
    (hc : 2 ≤ col) (hc2 : col + 2 < width) (filters r0 c0 colors color : Nat)
    (hcolors : colors ≤ 4) (gval : List Int) (thold : Int) :
    vngSums colors color (vngCode filters width r0 c0) (vngHoodAt filters width r0 c0) a
        (((row : Int) * width + col) * 4) gval thold
      = vngSums colors color (vngCode filters width r0 c0) (vngHoodAt filters width r0 c0) b
        (((row : Int) * width + col) * 4) gval thold := by
  unfold vngSums
  apply loop_congr
  intro g t _ hg
  beta_reduce
  rw [vngDir_agree h hc hc2 filters r0 c0 colors color hcolors g (by omega)]

/-! ## The stores of the VNG pixel body -/

theorem wr_ushort (b : List Nat) (i v : Int) (h : Ushort b) : Ushort (wr b i v) := by
  intro j
  by_cases e : i = j
  · by_cases hr : 0 ≤ i ∧ i < b.length
    · rw [← e, rd_wr_eq _ _ _ hr.1 hr.2]
      omega
    · have : wr b i v = b := by
        unfold wr
        split_ifs with h0
        · rfl
        · apply List.set_eq_of_length_le
          omega
      rw [this]
      exact h j
  · rw [rd_wr_ne _ _ _ _ e]
    exact h j

theorem loop_wr_ushort (p g : Nat → Int) (n start : Nat) (b : List Nat) (h : Ushort b) :
    Ushort (loop (fun i im => wr im (p i) (g i)) n start b) :=
  loop_inv (fun _ im => Ushort im) _ n start b h (fun _ s _ _ hs => wr_ushort s _ _ hs)

theorem replicate_ushort (n : Nat) : Ushort (List.replicate n 0) := by
  intro j
  unfold rd
  split_ifs
  · omega
  · rw [List.getD_eq_getElem?_getD, List.getElem?_replicate]
    split_ifs <;> simp

/-- The copy of `n` pixels: outside the destination nothing changes, inside
it holds the source entries as `ushort`s. -/
theorem copyPixels_spec (dst : List Nat) (d : Int) (src : List Nat) (s : Int) (n : Nat)
    (hd0 : 0 ≤ d) (hd1 : d + 4 * n ≤ dst.length) :
    (copyPixels dst d src s n).length = dst.length ∧
    (∀ j : Int, (j < d ∨ d + 4 * n ≤ j) → rd (copyPixels dst d src s n) j = rd dst j) ∧
    (∀ i : Nat, i < 4 * n →
      rd (copyPixels dst d src s n) (d + i) = ((rd src (s + i) : Int) % 65536).toNat) ∧
    (Ushort dst → Ushort (copyPixels dst d src s n)) := by
  unfold copyPixels
  have key := loop_inv (fun k (w : List Nat) => k ≤ 4 * n → (w.length = dst.length ∧
      (∀ j : Int, (j < d ∨ d + k ≤ j) → rd w j = rd dst j) ∧
      (∀ i : Nat, i < k → rd w (d + i) = ((rd src (s + i) : Int) % 65536).toNat)))
    (fun i out => wr out (d + i) (rd src (s + i))) (4 * n) 0 dst
    (fun _ => ⟨rfl, fun _ _ => rfl, fun i hi => absurd hi (Nat.not_lt_zero i)⟩)
    (by
      intro k w _ hk ih hk1
      obtain ⟨hl, hfr, hv⟩ := ih (by omega)
      refine ⟨by rw [wr_length]; exact hl, ?_, ?_⟩
      · intro j hj
        rw [rd_wr_ne _ _ _ _ (by push_cast at hj; omega)]
        exact hfr j (by push_cast at hj; omega)
      · intro i hi
        by_cases hik : i = k
        · subst hik
          exact rd_wr_eq _ _ _ (by omega) (by rw [hl]; omega)
        · rw [rd_wr_ne _ _ _ _ (by omega)]
          exact hv i (by omega))
  rw [Nat.zero_add] at key
  obtain ⟨k1, k2, k3⟩ := key (le_refl _)
  refine ⟨k1, fun j hj => k2 j (by push_cast; omega), k3, fun hu => ?_⟩
  exact loop_wr_ushort (fun i => d + i) (fun i => (rd src (s + i) : Int)) (4 * n) 0 dst hu

/-- The store loop of the VNG pixel body: it stores into the planes below
`colors` of the pixel `col` of the row buffer. -/
theorem vngStore_spec (colors color : Nat) (img : List Nat) (pix : Int) (col : Nat)
    (acc : List Int × Int) (b : List Nat) (hcolors : colors ≤ 4)
    (hb : (col : Int) * 4 + 3 < b.length) :
    (vngStore colors color img pix col acc b).length = b.length ∧
    (∀ j : Int, (j < (col : Int) * 4 ∨ (col : Int) * 4 + 3 < j) →
      rd (vngStore colors color img pix col acc b) j = rd b j) ∧
    (∀ k : Nat, k < colors →
      rd (vngStore colors color img pix col acc b) ((col : Int) * 4 + k)
        = (CLIP (if k ≠ color
            then (rd img (pix + color) : Int) + Int.tdiv (sget acc.1 k - sget acc.1 color) acc.2
            else (rd img (pix + color) : Int)) % 65536).toNat) ∧
    (Ushort b → Ushort (vngStore colors color img pix col acc b)) := by
  obtain ⟨w1, w2, w3⟩ := wr_loop ((col : Int) * 4) (fun i => i)
    (fun c => CLIP (if c ≠ color
      then (rd img (pix + color) : Int) + Int.tdiv (sget acc.1 c - sget acc.1 color) acc.2
      else (rd img (pix + color) : Int))) b (by positivity) hb colors
    (fun i hi => by beta_reduce; omega) (fun i j _ _ e => e)
  refine ⟨w1, fun j hj => w2 j (fun i hi => by omega), w3, fun hu => ?_⟩
  exact loop_wr_ushort (fun c => (col : Int) * 4 + c) _ colors 0 b hu

/-! ## One pixel of VNG -/

/-- The VNG pixel body on an image that agrees with `L` on the rows
`row-2 .. row+2`: it returns, changes the pixel `col` of the row buffer only,
and stores there what it computes from `L`, in the planes below `colors`, or
in all four when the gradients vanish. -/
theorem vngPixel_agree (filters width colors r0 c0 : Nat) (hw : 8 * width + 11 < 2147483647)
    (fuel : Nat) (hf : 72 < fuel) (hcolors : colors ≤ 4) (row col : Nat) (hc : 2 ≤ col)
    (hc2 : col + 2 < width) (a L : List Nat) (h : AgreeWin width row a L) (b : List Nat)
    (hb : b.length = width * 4) :
    ∃ v, vngPixel filters width colors (vngCode filters width r0 c0) fuel a row col b = some v ∧
      v.length = b.length ∧ (Ushort b → Ushort v) ∧
      (∀ j : Int, (j < (col : Int) * 4 ∨ (col : Int) * 4 + 3 < j) → rd v j = rd b j) ∧
      (∀ k : Nat, k < 4 →
        (k < colors ∨ vngGmax (vngGval filters width r0 c0 L (((row : Int) * width + col) * 4)) = 0) →
        rd v ((col : Int) * 4 + k) = vngOut filters width colors r0 c0 L row col k) := by
  rw [vngPixel_run filters width colors r0 c0 hw fuel hf, vngGval_agree h hc hc2]
  have hbl : (col : Int) * 4 + 3 < b.length := by
    rw [hb]
    push_cast
    omega
  by_cases hg : vngGmax (vngGval filters width r0 c0 L (((row : Int) * width + col) * 4)) = 0
  · rw [if_pos hg]
    obtain ⟨s1, s2, s3, s4⟩ := copyPixels_spec b ((col : Int) * 4) a
      (((row : Int) * width + col) * 4) 1 (by positivity) (by omega)
    refine ⟨_, rfl, s1, s4, fun j hj => s2 j (by omega), ?_⟩
    intro k hk _
    rw [s3 k (by omega)]
    unfold vngOut
    rw [if_pos hg]
    have := agree_read h 0 0 k hc hc2 (by omega) (by omega) (by omega)
    simp only [zero_mul, add_zero, zero_add] at this
    rw [this]
  · rw [if_neg hg]
    obtain ⟨s1, s2, s3, s4⟩ := vngStore_spec colors (fc_INDI filters row col) a
      (((row : Int) * width + col) * 4) col
      (vngSums colors (fc_INDI filters row col) (vngCode filters width r0 c0)
        (vngHoodAt filters width r0 c0) a (((row : Int) * width + col) * 4)
        (vngGval filters width r0 c0 L (((row : Int) * width + col) * 4))
        (vngThold (vngGval filters width r0 c0 L (((row : Int) * width + col) * 4)))) b hcolors hbl
    refine ⟨_, rfl, s1, s4, s2, ?_⟩
    intro k _ hd
    have hk : k < colors := by
      rcases hd with hd | hd
      · exact hd
      · exact absurd hd hg
    rw [s3 k hk]
    unfold vngOut
    rw [if_neg hg]
    have hfc := fc_INDI_lt filters row col
    have := agree_read h 0 0 (fc_INDI filters row col) hc hc2 (by omega) (by omega) (by omega)
    simp only [zero_mul, add_zero, zero_add] at this
    rw [this, vngSums_agree h hc hc2 filters r0 c0 colors _ hcolors]

/-! ## One row of VNG -/

/-- The column loop of `vng_interpolate_INDI` for the row `row`, on an image
that agrees with `L` on the rows `row-2 .. row+2`, returns with the results of
the row in the row buffer. -/
theorem vngCols_spec (filters width colors : Nat) (hw : 8 * width + 11 < 2147483647)
    (fuel : Nat) (hf : 72 < fuel) (hcolors : colors ≤ 4) (row : Nat) (a L : List Nat)
    (h : AgreeWin width row a L) (b : List Nat) (hb : b.length = width * 4) (hu : Ushort b) :
    ∃ b1, loopOpt (fun col b =>
        vngPixel filters width colors
          (vngCode filters width (row &&& (if filters = 1 then 15 else 7))
            (col &&& (if filters = 1 then 15 else 1))) fuel a row col b)
        (width - 2 - 2) 2 b = some b1 ∧
      b1.length = width * 4 ∧ Ushort b1 ∧ RowHolds filters width colors L row b1 := by
  have key := loopOpt_inv (fun c (B : List Nat) => B.length = width * 4 ∧ Ushort B ∧
      ∀ col k : Nat, 2 ≤ col → col < c → k < 4 → Stored filters width colors L row col k →
        rd B ((col : Int) * 4 + k) = vngVal filters width colors L row col k)
    (fun col b =>
        vngPixel filters width colors
          (vngCode filters width (row &&& (if filters = 1 then 15 else 7))
            (col &&& (if filters = 1 then 15 else 1))) fuel a row col b)
    (width - 2 - 2) 2 b ⟨hb, hu, fun col k h1 h2 => by omega⟩
    (by
      intro c B hc1 hc2 ⟨hl, hus, hd⟩
      obtain ⟨v, e, v1, v2, v3, v4⟩ := vngPixel_agree filters width colors
        (row &&& (if filters = 1 then 15 else 7)) (c &&& (if filters = 1 then 15 else 1))
        hw fuel hf hcolors row c hc1 (by omega) a L h B hl
      refine ⟨v, e, v1.trans hl, v2 hus, ?_⟩
      intro col k h1 h2 hk hst
      by_cases ec : col = c
      · subst ec
        exact v4 k hk hst
      · rw [v3 _ (by omega)]
        exact hd col k h1 (by omega) hk hst)
  obtain ⟨b1, e, l1, u1, d1⟩ := key
  exact ⟨b1, e, l1, u1, fun col k h1 h2 hk hst => d1 col k h1 (by omega) hk hst⟩

/-! ## The row loop of VNG -/

/-- The write-back of a row buffer that holds the results of row `r` into the
columns `2 .. width-3` of the image row `r`. -/
theorem writeBack_spec (width height : Nat) (img B : List Nat) (r : Nat)
    (hwd : 4 ≤ width) (hr : r < height) (hlen : img.length = height * width * 4)
    (hu : Ushort B) :
    (copyPixels img ((((r : Int) * width + 2) * 4)) B (2 * 4) (width - 4)).length = img.length ∧
    (∀ j : Int, (j < ((r : Int) * width) * 4 ∨ ((r : Int) + 1) * width * 4 ≤ j) →
      rd (copyPixels img ((((r : Int) * width + 2) * 4)) B (2 * 4) (width - 4)) j = rd img j) ∧
    (∀ col k : Nat, 2 ≤ col → col + 2 < width → k < 4 →
      rd (copyPixels img ((((r : Int) * width + 2) * 4)) B (2 * 4) (width - 4))
          (((r : Int) * width + col) * 4 + k) = rd B ((col : Int) * 4 + k)) := by
  have hcast : ((width - 4 : Nat) : Int) = (width : Int) - 4 := by omega
  have hrw : (r + 1) * width ≤ height * width := Nat.mul_le_mul_right width hr
  have hrw2 : ((r : Int) + 1) * width ≤ (height : Int) * width := by exact_mod_cast hrw
  have e1 : ((r : Int) + 1) * width = (r : Int) * width + width := by ring
  have hpos : 0 ≤ (r : Int) * width := by positivity
  obtain ⟨s1, s2, s3, _⟩ := copyPixels_spec img ((((r : Int) * width + 2) * 4)) B (2 * 4)
    (width - 4) (by omega) (by
      rw [hlen]
      push_cast
      rw [hcast]
      have e2 : (height : Int) * width * 4 = ((height : Int) * width) * 4 := rfl
      omega)
  refine ⟨s1, fun j hj => s2 j ?_, ?_⟩
  · rw [hcast]
    have e3 : ((r : Int) + 1) * width * 4 = ((r : Int) * width + width) * 4 := by rw [e1]
    omega
  · intro col k h1 h2 hk
    have e4 : ((r : Int) * width + col) * 4 + k
        = (((r : Int) * width + 2) * 4) + (((col - 2) * 4 + k : Nat) : Int) := by
      push_cast
      have : ((col - 2 : Nat) : Int) = (col : Int) - 2 := by omega
      rw [this]
      ring
    have e5 : (2 * 4 : Int) + (((col - 2) * 4 + k : Nat) : Int) = (col : Int) * 4 + k := by
      push_cast
      have : ((col - 2 : Nat) : Int) = (col : Int) - 2 := by omega
      rw [this]
      ring
    rw [e4, s3 _ (by omega), e5]
    have := hu ((col : Int) * 4 + k)
    omega

theorem row_pixel_lt (width r r1 col k : Nat) (hc : col < width) (hk : k < 4) (hr : r + 1 ≤ r1) :
    ((r : Int) * width + col) * 4 + k < (r1 : Int) * width * 4 := by
  have h1 : (r + 1) * width ≤ r1 * width := Nat.mul_le_mul_right width hr
  have h2 : (r * width + col) * 4 + k < r1 * width * 4 := by
    have e : (r + 1) * width = r * width + width := by ring
    omega
  exact_mod_cast h2

/-- One iteration of the row loop of `vng_interpolate_INDI`. -/
theorem VngInv.row_step {filters width colors : Nat} {L : List Nat} {row : Nat} {s : VngState}
    (inv : VngInv filters width colors L row s) (height fuel : Nat)
    (hw : 8 * width + 11 < 2147483647) (hf : 72 < fuel) (hcolors : colors ≤ 4)
    (hwd : 4 ≤ width) (hr0 : 2 ≤ row) (hr1 : row + 2 < height)
    (hlen : L.length = height * width * 4) :
    ∃ s1, vngRow filters width colors fuel row s = some s1 ∧
      VngInv filters width colors L (row + 1) s1 := by
  obtain ⟨b2, e, l, u, rh⟩ := vngCols_spec filters width colors hw fuel hf hcolors row s.img L
    (fun j h1 _ => inv.agree j h1) s.b2 inv.l2 inv.u2
  have ew : ((row + 1 : Nat) : Int) - 2 = ((row : Int) - 2) + 1 := by
    push_cast
    ring
  have em : ((row : Int) - 2) * width * 4 ≤ (((row : Int) - 2) + 1) * width * 4 := by
    have : (((row : Int) - 2) + 1) * width * 4 = ((row : Int) - 2) * width * 4 + width * 4 := by
      ring
    omega
  unfold vngRow
  simp only []
  rw [e]
  simp only []
  by_cases h3 : row > 3
  · rw [if_pos h3]
    have er : ((row - 2 : Nat) : Int) = (row : Int) - 2 := by omega
    have ws := writeBack_spec width height s.img s.b0 (row - 2) hwd (by omega)
      (inv.len.trans hlen) inv.u0
    rw [er] at ws
    obtain ⟨w1, w2, w3⟩ := ws
    refine ⟨_, rfl, ⟨w1.trans inv.len, inv.l1, l, inv.l0, inv.u1, u, inv.u0, ?_, ?_, ?_, ?_⟩⟩
    · intro j hj
      rw [ew] at hj
      rw [w2 j (Or.inr hj)]
      exact inv.agree j (le_trans em hj)
    · intro r col k hr2 hr3 hc hc2 hk hst
      by_cases e2 : r + 2 = row
      · have e3 : (r : Int) = (row : Int) - 2 := by omega
        have e4 : r = row - 2 := by omega
        rw [e3, w3 col k hc hc2 hk, e4]
        rw [e4] at hst
        exact inv.h0 (by omega) col k hc hc2 hk hst
      · have hlt := row_pixel_lt width r (row - 2) col k (by omega) hk (by omega)
        rw [er] at hlt
        rw [w2 _ (Or.inl hlt)]
        exact inv.done r col k hr2 (by omega) hc hc2 hk hst
    · intro _
      have := inv.h1 (by omega)
      rw [show row + 1 - 2 = row - 1 by omega]
      exact this
    · intro _
      exact rh
  · rw [if_neg h3]
    refine ⟨_, rfl, ⟨inv.len, inv.l1, l, inv.l0, inv.u1, u, inv.u0, ?_, ?_, ?_, ?_⟩⟩
    · intro j hj
      rw [ew] at hj
      exact inv.agree j (le_trans em hj)
    · intro r col k hr2 hr3 _ _ _ _
      omega
    · intro h4
      have := inv.h1 (by omega)
      rw [show row + 1 - 2 = row - 1 by omega]
      exact this
    · intro _
      exact rh

/-! ## VNG starts from the bilinear image -/

theorem borderPixel_ushort (height width filters colors : Nat) (img : List Nat) (row col : Int)
    (h : Ushort img) : Ushort (borderPixel height width filters colors img row col) := by
  unfold borderPixel
  refine loop_inv (fun _ (im : List Nat) => Ushort im) _ colors 0 img h ?_
  intro i s _ _ hP
  beta_reduce
  split_ifs
  · exact wr_ushort _ _ _ hP
  · exact hP

theorem linPixel_ushort (width colors : Nat) (ip : List Int) (img : List Nat) (row col : Nat)
    (h : Ushort img) : Ushort (linPixelVal width colors ip img row col) := by
  unfold linPixelVal
  exact loop_inv (fun _ (im : List Nat) => Ushort im) _ (colors - 1) 0 img h
    (fun _ s _ _ hs => wr_ushort s _ _ hs)

theorem linPixel_length (width colors : Nat) (ip : List Int) (img : List Nat) (row col : Nat) :
    (linPixelVal width colors ip img row col).length = img.length := by
  unfold linPixelVal
  exact loop_inv (fun _ (im : List Nat) => im.length = img.length) _ (colors - 1) 0 img rfl
    (fun _ s _ _ hs => (wr_length s _ _).trans hs)

/-- With a width of at least 2 and fuel beyond the width, a result of
`lin_interpolate_INDI` is a buffer of the size of its input, of `ushort`
entries if the input has `ushort` entries. -/
theorem lin_interpolate_INDI_good (img L : List Nat) (filters width height colors fuel : Nat)
    (hwd : 2 ≤ width) (hfuel : width < fuel)
    (hL : lin_interpolate_INDI img filters width height colors fuel = some L) :
    L.length = img.length ∧ (Ushort img → Ushort L) := by
  have hb := border_interpolate_INDI_eq_borderPass height width img filters colors 1 fuel
    (by omega) (by omega) hfuel
  rw [show ((1 : Nat) : Int) = 1 from rfl] at hb
  rw [lin_interpolate_INDI_safe img filters width height colors fuel
    (lin_interpolate_INDI_some img L filters width height colors fuel hL), hb] at hL
  rw [← Option.some.inj hL]
  unfold linPass
  refine ⟨?_, ?_⟩
  · have h0 : (borderPass height width filters colors 1 img).length = img.length := by
      unfold borderPass
      refine loop_inv (fun _ (im : List Nat) => im.length = img.length) _ height 0 img rfl ?_
      intro r s _ _ hs
      refine loop_inv (fun _ (im : List Nat) => im.length = img.length) _ width 0 s hs ?_
      intro c t _ _ ht
      beta_reduce
      split_ifs
      · rw [borderPixel_length]
        exact ht
      · exact ht
    refine loop_inv (fun _ (im : List Nat) => im.length = img.length) _ _ 1 _ h0 ?_
    intro r s _ _ hs
    refine loop_inv (fun _ (im : List Nat) => im.length = img.length) _ _ 1 s hs ?_
    intro c t _ _ ht
    beta_reduce
    rw [linPixel_length]
    exact ht
  · intro hu
    have h0 : Ushort (borderPass height width filters colors 1 img) := by
      unfold borderPass
      refine loop_inv (fun _ (im : List Nat) => Ushort im) _ height 0 img hu ?_
      intro r s _ _ hs
      refine loop_inv (fun _ (im : List Nat) => Ushort im) _ width 0 s hs ?_
      intro c t _ _ ht
      beta_reduce
      split_ifs
      · exact borderPixel_ushort _ _ _ _ _ _ _ ht
      · exact ht
    refine loop_inv (fun _ (im : List Nat) => Ushort im) _ _ 1 _ h0 ?_
    intro r s _ _ hs
    refine loop_inv (fun _ (im : List Nat) => Ushort im) _ _ 1 s hs ?_
    intro c t _ _ ht
    exact linPixel_ushort _ _ _ _ _ _ ht

/-! ## The result of VNG -/

/-- On an image of at least 5 rows and 4 columns `vng_interpolate_INDI`
returns, and every pixel at least 2 rows and columns from the edges holds, in
the planes the pixel body stores, what the body computes from the bilinear
image `L`. -/
theorem vng_interpolate_INDI_rows (img : List Nat) (filters width height colors fuel : Nat)
    (L : List Nat) (hL : lin_interpolate_INDI img filters width height colors fuel = some L)
    (hlen : L.length = height * width * 4) (hw : 8 * width + 11 < 2147483647) (hf : 72 < fuel)
    (hcolors : colors ≤ 4) (hwd : 4 ≤ width) (hh : 5 ≤ height) :
    ∃ out, vng_interpolate_INDI img filters width height colors fuel = some out ∧
      ∀ r col k : Nat, 2 ≤ r → r + 2 < height → 2 ≤ col → col + 2 < width → k < 4 →
        Stored filters width colors L r col k →
        rd out (((r : Int) * width + col) * 4 + k) = vngVal filters width colors L r col k := by
  have hz : (List.replicate (width * 4) 0 : List Nat).length = width * 4 := List.length_replicate _ _
  obtain ⟨s, es, inv⟩ := loopOpt_inv (fun row s => VngInv filters width colors L row s)
    (vngRow filters width colors fuel) (height - 2 - 2) 2
    (VngState.mk L (List.replicate (width * 4) 0) (List.replicate (width * 4) 0)
      (List.replicate (width * 4) 0))
    ⟨rfl, hz, hz, hz, replicate_ushort _, replicate_ushort _, replicate_ushort _,
      fun _ _ => rfl, fun r _ _ h1 h2 => by omega, fun h => by omega, fun h => by omega⟩
    (fun row s h1 h2 hinv => hinv.row_step height fuel hw hf hcolors hwd h1 (by omega) hlen)
  rw [show 2 + (height - 2 - 2) = height - 2 by omega] at inv
  unfold vng_interpolate_INDI
  rw [hL]
  simp only []
  rw [es]
  simp only []
  have e1 : (2 : Int) + ((height - 2 - 2 : Nat) : Int) - 2 = ((height - 4 : Nat) : Int) := by omega
  have e2 : (2 : Int) + ((height - 2 - 2 : Nat) : Int) - 1 = ((height - 3 : Nat) : Int) := by omega
  rw [e1, e2]
  obtain ⟨a1, a2, a3⟩ := writeBack_spec width height s.img s.b0 (height - 4) hwd (by omega)
    (inv.len.trans hlen) inv.u0
  obtain ⟨c1, c2, c3⟩ := writeBack_spec width height
    (copyPixels s.img (((((height - 4 : Nat) : Int)) * width + 2) * 4) s.b0 (2 * 4) (width - 4))
    s.b1 (height - 3) hwd (by omega) (a1.trans (inv.len.trans hlen)) inv.u1
  refine ⟨_, rfl, ?_⟩
  intro r col k hr hr2 hc hc2 hk hst
  by_cases r3 : r = height - 3
  · rw [r3, c3 col k hc hc2 hk]
    have := inv.h1 (by omega) col k hc hc2 hk
    rw [show height - 2 - 1 = height - 3 by omega] at this
    rw [r3] at hst
    exact this hst
  · have hlt := row_pixel_lt width r (height - 3) col k (by omega) hk (by omega)
    rw [c2 _ (Or.inl hlt)]
    by_cases r4 : r = height - 4
    · rw [r4, a3 col k hc hc2 hk]
      have := inv.h0 (by omega) col k hc hc2 hk
      rw [show height - 2 - 2 = height - 4 by omega] at this
      rw [r4] at hst
      exact this hst
    · have hlt2 := row_pixel_lt width r (height - 4) col k (by omega) hk (by omega)
      rw [a2 _ (Or.inl hlt2)]
      exact inv.done r col k hr (by omega) hc hc2 hk hst

/-! ## Claims on the rolling buffers of VNG -/

/-- Claim C26. For every image of at least 5 rows and 5 columns of at most 4
planes that bilinear interpolation turns into an image `L`,
`vng_interpolate_INDI` returns, and every interior pixel
(`2 ≤ row < height-2`, `2 ≤ col < width-2`) holds in each of its `colors`
planes the value that the pixel body of VNG, run on the bilinear image `L`
alone with any row buffer `b`, stores for that pixel: the result depends on no
value written back earlier, and row `row` holds the results of row `row`. -/
theorem vng_interpolate_INDI_out_of_place (img : List Nat)
    (filters width height colors fuel row col : Nat) (L : List Nat)
    (hlen : img.length = height * width * 4)
    (hcolors : colors ≤ 4) (hh : 5 ≤ height) (hwd : 5 ≤ width)
    (hw : 8 * width + 11 < 2147483647) (hfuel : width < fuel) (hf : 72 < fuel)
    (hr : 2 ≤ row) (hr2 : row + 2 < height) (hc : 2 ≤ col) (hc2 : col + 2 < width)
    (hL : lin_interpolate_INDI img filters width height colors fuel = some L) :
    ∃ out, vng_interpolate_INDI img filters width height colors fuel = some out ∧
      ∀ b : List Nat, b.length = width * 4 →
        ∃ v, vngPixel filters width colors
            (vngCode filters width (row &&& (if filters = 1 then 15 else 7))
              (col &&& (if filters = 1 then 15 else 1))) fuel L row col b = some v ∧
          ∀ k : Nat, k < colors →
            rd out (((row : Int) * width + col) * 4 + k) = rd v ((col : Int) * 4 + k) := by
  obtain ⟨hl, _⟩ := lin_interpolate_INDI_good img L filters width height colors fuel
    (by omega) hfuel hL
  obtain ⟨out, ho, hv⟩ := vng_interpolate_INDI_rows img filters width height colors fuel L hL
    (hl.trans hlen) hw hf hcolors (by omega) hh
  refine ⟨out, ho, ?_⟩
  intro b hb
  obtain ⟨v, e, _, _, _, v4⟩ := vngPixel_agree filters width colors
    (row &&& (if filters = 1 then 15 else 7)) (col &&& (if filters = 1 then 15 else 1))
    hw fuel hf hcolors row col hc hc2 L L (fun _ _ _ => rfl) b hb
  refine ⟨v, e, ?_⟩
  intro k hk
  rw [hv row col k hr hr2 hc hc2 (by omega) (Or.inl hk), v4 k (by omega) (Or.inl hk)]
  rfl

theorem vng_interpolate_INDI_out_of_place_witness :
    ∃ L, lin_interpolate_INDI (mosaic 0x94949494 5 5 (fun c => [10, 20, 30].getD c 0))
        0x94949494 5 5 3 73 = some L ∧
      ∃ out, vng_interpolate_INDI (mosaic 0x94949494 5 5 (fun c => [10, 20, 30].getD c 0))
          0x94949494 5 5 3 73 = some out ∧
        ∀ b : List Nat, b.length = 5 * 4 →
          ∃ v, vngPixel 0x94949494 5 3
              (vngCode 0x94949494 5 (2 &&& (if 0x94949494 = 1 then 15 else 7))
                (2 &&& (if 0x94949494 = 1 then 15 else 1))) 73 L 2 2 b = some v ∧
            ∀ k : Nat, k < 3 →
              rd out ((((2 : Nat) : Int) * (5 : Nat) + (2 : Nat)) * 4 + k)
                = rd v (((2 : Nat) : Int) * 4 + k) := by
  obtain ⟨img1, h1⟩ := border_interpolate_INDI_returns 5 5
    (mosaic 0x94949494 5 5 (fun c => [10, 20, 30].getD c 0)) 0x94949494 3 1 73
    (by decide) (by decide)
  have hL : lin_interpolate_INDI (mosaic 0x94949494 5 5 (fun c => [10, 20, 30].getD c 0))
      0x94949494 5 5 3 73 = some (linPass 0x94949494 5 5 3 img1) := by
    rw [lin_interpolate_INDI_safe _ _ _ _ _ _ (LinSafe_rggb 5 5), h1]
    rfl
  exact ⟨_, hL, vng_interpolate_INDI_out_of_place
    (mosaic 0x94949494 5 5 (fun c => [10, 20, 30].getD c 0))
    0x94949494 5 5 3 73 2 2 _ (by decide) (by decide) (by decide) (by decide) (by decide)
    (by decide) (by decide) (by decide) (by decide) (by decide) (by decide) hL⟩

/-- Claim C24. For every image of `ushort` samples with `height ≥ 6` and
`width ≥ 5` that bilinear interpolation turns into an image `L`, and every
interior pixel (`2 ≤ row < height-2`, `2 ≤ col < width-2`) whose 8 gradients,
computed on `L`, are all 0: `vng_interpolate_INDI` returns, and all four slots
of the pixel hold the values that `lin_interpolate_INDI` gave them. -/
theorem vng_interpolate_INDI_flat (img : List Nat)
    (filters width height colors fuel row col : Nat) (L : List Nat) (gval : List Int)
    (ipEnd : Nat) (hlen : img.length = height * width * 4) (hu : ∀ v ∈ img, v < 65536)
    (hcolors : colors ≤ 4) (hh : 6 ≤ height) (hwd : 5 ≤ width)
    (hw : 8 * width + 11 < 2147483647) (hfuel : width < fuel) (hf : 72 < fuel)
    (hr : 2 ≤ row) (hr2 : row + 2 < height) (hc : 2 ≤ col) (hc2 : col + 2 < width)
    (hL : lin_interpolate_INDI img filters width height colors fuel = some L)
    (hg : vngGrads L (((row : Int) * width + col) * 4)
      (vngCode filters width (row &&& (if filters = 1 then 15 else 7))
        (col &&& (if filters = 1 then 15 else 1))) fuel 0 (List.replicate 8 0)
      = some (gval, ipEnd))
    (hz : ∀ g, g < 8 → sget gval g = 0) :
    ∃ out, vng_interpolate_INDI img filters width height colors fuel = some out ∧
      ∀ k : Nat, k < 4 →
        rd out (((row : Int) * width + col) * 4 + k)
          = rd L (((row : Int) * width + col) * 4 + k) := by
  obtain ⟨hl, hus⟩ := lin_interpolate_INDI_good img L filters width height colors fuel
    (by omega) hfuel hL
  obtain ⟨out, ho, hv⟩ := vng_interpolate_INDI_rows img filters width height colors fuel L hL
    (hl.trans hlen) hw hf hcolors (by omega) (by omega)
  have eg := vngGrads_code filters width (row &&& (if filters = 1 then 15 else 7))
    (col &&& (if filters = 1 then 15 else 1)) hw L (((row : Int) * width + col) * 4)
    (List.replicate 8 0) fuel hf
  have e1 : vngGval filters width (row &&& (if filters = 1 then 15 else 7))
      (col &&& (if filters = 1 then 15 else 1)) L (((row : Int) * width + col) * 4) = gval := by
    have := Option.some.inj (eg.symm.trans hg)
    exact congrArg Prod.fst this
  have hmax : vngGmax gval = 0 := by
    obtain ⟨g, hg8, e⟩ := (vngGmax_greatest gval).1
    rw [← e]
    exact hz g hg8
  refine ⟨out, ho, ?_⟩
  intro k hk
  rw [hv row col k hr hr2 hc hc2 hk (Or.inr (by rw [e1]; exact hmax))]
  unfold vngVal vngOut
  rw [e1, if_pos hmax]
  have := hus (fun j => rd_lt img hu j) (((row : Int) * width + col) * 4 + k)
  omega

theorem vng_interpolate_INDI_flat_witness :
    ∃ out, vng_interpolate_INDI (mosaic 0x94949494 6 5 (fun c => [8192, 8192, 8192].getD c 0))
        0x94949494 5 6 3 73 = some out ∧
      ∀ k : Nat, k < 4 →
        rd out ((((2 : Nat) : Int) * (5 : Nat) + (2 : Nat)) * 4 + k)
          = rd ((List.range 120).map (fun i => if i % 4 = 3 then 0 else 8192))
              ((((2 : Nat) : Int) * (5 : Nat) + (2 : Nat)) * 4 + k) :=
  vng_interpolate_INDI_flat (mosaic 0x94949494 6 5 (fun c => [8192, 8192, 8192].getD c 0))
    0x94949494 5 6 3 73 2 2 ((List.range 120).map (fun i => if i % 4 = 3 then 0 else 8192))
    [0, 0, 0, 0, 0, 0, 0, 0] 192 (by decide) (by decide) (by decide) (by decide) (by decide)
    (by decide) (by decide) (by decide) (by decide) (by decide) (by decide) (by decide)
    (by decide) (by decide) (by decide)

/-! ## The margin of VNG on a short image -/

/-- C25 (the code at the failing input): on the 5 × 5 RGGB mosaic of the
uniform colour `(100, 200, 300)` the pixel at row 1, column 2, which lies in
the 2-pixel margin, holds `(100, 200, 300)` after `lin_interpolate_INDI` and
`(0, 0, 0)` after `vng_interpolate_INDI`: the row loop runs once, and the
write-back after the loop copies the row buffer `brow[0]`, never filled, over
the columns `2 .. width-3` of image row 1. -/
theorem vng_interpolate_INDI_margin_row1 :
    (lin_interpolate_INDI (mosaic 0x94949494 5 5 (fun c => [100, 200, 300].getD c 0))
        0x94949494 5 5 3 73).map
      (fun out => (rd out ((1 * 5 + 2) * 4 + 0), rd out ((1 * 5 + 2) * 4 + 1),
        rd out ((1 * 5 + 2) * 4 + 2))) = some (100, 200, 300) ∧
    (vng_interpolate_INDI (mosaic 0x94949494 5 5 (fun c => [100, 200, 300].getD c 0))
        0x94949494 5 5 3 73).map
      (fun out => (rd out ((1 * 5 + 2) * 4 + 0), rd out ((1 * 5 + 2) * 4 + 1),
        rd out ((1 * 5 + 2) * 4 + 2))) = some (0, 0, 0) := by
  decide

/-! ## Claim on `MaxMidMin` -/

/-- Claim C38. For every triple `p[0..2]` of integers (in particular of 64-bit
integers) the indices `(maxc, midc, minc)` that `MaxMidMin` returns are a
permutation of `0, 1, 2`, and `p[maxc] ≥ p[midc] ≥ p[minc]`; ties included. -/
theorem MaxMidMin_orders (p0 p1 p2 : Int) :
    [(MaxMidMin [p0, p1, p2]).1, (MaxMidMin [p0, p1, p2]).2.1,
        (MaxMidMin [p0, p1, p2]).2.2].Perm [0, 1, 2] ∧
    [p0, p1, p2].getD (MaxMidMin [p0, p1, p2]).1 0
      ≥ [p0, p1, p2].getD (MaxMidMin [p0, p1, p2]).2.1 0 ∧
    [p0, p1, p2].getD (MaxMidMin [p0, p1, p2]).2.1 0
      ≥ [p0, p1, p2].getD (MaxMidMin [p0, p1, p2]).2.2 0 := by
  unfold MaxMidMin
  simp only [List.getD_cons_zero, List.getD_cons_succ]
  split_ifs <;>
    refine ⟨by decide, ?_, ?_⟩ <;>
    simp only [List.getD_cons_zero, List.getD_cons_succ] <;> omega

/-! ## VNG never divides by zero -/

theorem sadd_nonneg (s : List Int) (k : Nat) (v : Int) (hv : 0 ≤ v) (h : ∀ g, 0 ≤ sget s g) :
    ∀ g, 0 ≤ sget (sadd s k v) g := by
  intro g
  rw [sget_sadd]
  split_ifs
  · exact add_nonneg (h g) hv
  · exact h g

theorem blockGrad_nonneg (img : List Nat) (pix : Int) (gval b : List Int)
    (h : ∀ g, 0 ≤ sget gval g) : ∀ g, 0 ≤ sget (blockGrad img pix gval b) g := by
  unfold blockGrad
  split
  · rename_i o1 o2 w gs
    have key : ∀ (l : List Int) (gv : List Int), (∀ g, 0 ≤ sget gv g) →
        ∀ g, 0 ≤ sget (l.foldl (fun gv g =>
          sadd gv g.toNat
            ((((rd img (pix + o1) : Int) - rd img (pix + o2)).natAbs : Int) * 2 ^ w.toNat)) gv) g := by
      intro l
      induction l with
      | nil =>
        intro gv hgv
        exact hgv
      | cons a l ih =>
        intro gv hgv
        rw [List.foldl_cons]
        exact ih _ (sadd_nonneg gv _ _ (by positivity) hgv)
    exact key _ gval h
  · exact h

/-- The gradients of a pixel are not negative. -/
theorem vngGval_nonneg (filters width r0 c0 : Nat) (img : List Nat) (pix : Int) :
    ∀ g, 0 ≤ sget (vngGval filters width r0 c0 img pix) g := by
  unfold vngGval
  have key : ∀ (bs : List (List Int)) (gv : List Int), (∀ g, 0 ≤ sget gv g) →
      ∀ g, 0 ≤ sget (bs.foldl (blockGrad img pix) gv) g := by
    intro bs
    induction bs with
    | nil =>
      intro gv hgv
      exact hgv
    | cons b bs ih =>
      intro gv hgv
      rw [List.foldl_cons]
      exact ih _ (blockGrad_nonneg img pix gv b hgv)
  apply key
  intro g
  unfold sget
  rw [List.getD_eq_getElem?_getD, List.getElem?_replicate]
  split_ifs <;> simp

/-- Claim C32. For every pixel and every table entry of `vng_interpolate_INDI`
the gradient loop returns gradients `gval[0..7]`, none of them negative; a
direction `g` with the least gradient satisfies `gval[g] <= thold`, so the
count `num` of the averaging loop is at least 1; and when the greatest
gradient is not 0 the pixel body stores the values computed with this `num`
as the divisor. -/
theorem vngPixel_num_pos (filters width colors r0 c0 : Nat)
    (hw : 8 * width + 11 < 2147483647) (fuel : Nat) (hf : 72 < fuel) (img : List Nat)
    (row col : Nat) (b2 : List Nat) :
    ∃ gval ipEnd g,
      vngGrads img (((row : Int) * width + col) * 4) (vngCode filters width r0 c0) fuel 0
        (List.replicate 8 0) = some (gval, ipEnd) ∧
      (∀ i, i < 8 → 0 ≤ sget gval i) ∧
      g < 8 ∧ sget gval g = vngGmin gval ∧ sget gval g ≤ vngThold gval ∧
      1 ≤ (vngSums colors (fc_INDI filters row col) (vngCode filters width r0 c0) (ipEnd + 1) img
        (((row : Int) * width + col) * 4) gval (vngThold gval)).2 ∧
      (vngGmax gval ≠ 0 →
        vngPixel filters width colors (vngCode filters width r0 c0) fuel img row col b2
          = some (vngStore colors (fc_INDI filters row col) img (((row : Int) * width + col) * 4)
              col (vngSums colors (fc_INDI filters row col) (vngCode filters width r0 c0)
                (ipEnd + 1) img (((row : Int) * width + col) * 4) gval (vngThold gval)) b2)) := by
  have hn := vngGval_nonneg filters width r0 c0 img (((row : Int) * width + col) * 4)
  obtain ⟨g, hg8, hg⟩ := (vngGmin_least
    (vngGval filters width r0 c0 img (((row : Int) * width + col) * 4))).1
  obtain ⟨g1, _, hg1⟩ := (vngGmax_greatest
    (vngGval filters width r0 c0 img (((row : Int) * width + col) * 4))).1
  have hmax : 0 ≤ vngGmax (vngGval filters width r0 c0 img (((row : Int) * width + col) * 4)) := by
    rw [← hg1]
    exact hn g1
  have hle : sget (vngGval filters width r0 c0 img (((row : Int) * width + col) * 4)) g
      ≤ vngThold (vngGval filters width r0 c0 img (((row : Int) * width + col) * 4)) := by
    unfold vngThold
    rw [hg]
    have := Int.ediv_nonneg hmax (show (0 : Int) ≤ 2 by omega)
    omega
  refine ⟨vngGval filters width r0 c0 img (((row : Int) * width + col) * 4),
    (vngTerms filters width r0 c0).flatten.length, g,
    vngGrads_code filters width r0 c0 hw img _ _ fuel hf, fun i _ => hn i, hg8, hg, hle, ?_, ?_⟩
  · rw [vngSums_eq]
    have hmem : g ∈ (List.range 8).filter (fun g => decide
        (sget (vngGval filters width r0 c0 img (((row : Int) * width + col) * 4)) g
          ≤ vngThold (vngGval filters width r0 c0 img (((row : Int) * width + col) * 4)))) := by
      rw [List.mem_filter]
      exact ⟨List.mem_range.2 hg8, by simpa using hle⟩
    have := List.length_pos_of_mem hmem
    simp only []
    exact_mod_cast this
  · intro hne
    rw [vngPixel_run filters width colors r0 c0 hw fuel hf, if_neg hne]
    rfl

theorem vngPixel_num_pos_witness :
    ∃ gval ipEnd g,
      vngGrads (mosaic 0x94949494 5 5 (fun c => [10, 20, 30].getD c 0))
        ((((2 : Nat) : Int) * (5 : Nat) + (2 : Nat)) * 4) (vngCode 0x94949494 5 2 0) 73 0
        (List.replicate 8 0) = some (gval, ipEnd) ∧
      (∀ i, i < 8 → 0 ≤ sget gval i) ∧
      g < 8 ∧ sget gval g = vngGmin gval ∧ sget gval g ≤ vngThold gval ∧
      1 ≤ (vngSums 3 (fc_INDI 0x94949494 (2 : Nat) (2 : Nat)) (vngCode 0x94949494 5 2 0)
        (ipEnd + 1) (mosaic 0x94949494 5 5 (fun c => [10, 20, 30].getD c 0))
        ((((2 : Nat) : Int) * (5 : Nat) + (2 : Nat)) * 4) gval (vngThold gval)).2 ∧
      (vngGmax gval ≠ 0 →
        vngPixel 0x94949494 5 3 (vngCode 0x94949494 5 2 0) 73
            (mosaic 0x94949494 5 5 (fun c => [10, 20, 30].getD c 0)) 2 2 (List.replicate 20 0)
          = some (vngStore 3 (fc_INDI 0x94949494 (2 : Nat) (2 : Nat))
              (mosaic 0x94949494 5 5 (fun c => [10, 20, 30].getD c 0))
              ((((2 : Nat) : Int) * (5 : Nat) + (2 : Nat)) * 4)
              2 (vngSums 3 (fc_INDI 0x94949494 (2 : Nat) (2 : Nat)) (vngCode 0x94949494 5 2 0)
                (ipEnd + 1) (mosaic 0x94949494 5 5 (fun c => [10, 20, 30].getD c 0))
                ((((2 : Nat) : Int) * (5 : Nat) + (2 : Nat)) * 4) gval (vngThold gval))
              (List.replicate 20 0))) :=
  vngPixel_num_pos 0x94949494 5 3 2 0 (by decide) 73 (by decide)
    (mosaic 0x94949494 5 5 (fun c => [10, 20, 30].getD c 0)) 2 2 (List.replicate 20 0)

/-! ## The border pass on a narrow image -/

theorem loop_two {σ : Type} (f : Nat → σ → σ) (i : Nat) (s : σ) :
    loop f 2 i s = f (i + 1) (f i s) := rfl

/-- A loop of `n` conditional increments of one counter adds between 0 and `n`
to it and changes nothing else. -/
theorem count_loop (p : Nat → Prop) [DecidablePred p] (k : Int) (n : Nat) (h : Buf) :
    ∃ m : Int, 0 ≤ m ∧ m ≤ n ∧
      ∀ j, (loop (fun i hm => if p i then bset hm k (hm.get k + 1) else hm) n 0 h).get j
        = if j = k then h.get j + m else h.get j := by
  have key := loop_inv (fun i (hm : Buf) => ∃ m : Int, 0 ≤ m ∧ m ≤ i ∧
      ∀ j, hm.get j = if j = k then h.get j + m else h.get j)
    (fun i hm => if p i then bset hm k (hm.get k + 1) else hm) n 0 h
    ⟨0, le_refl _, by simp, fun j => by simp⟩
    (by
      intro i hm _ _ ⟨m, m0, m1, hg⟩
      beta_reduce
      split_ifs with hp
      · refine ⟨m + 1, by omega, by push_cast; omega, fun j => ?_⟩
        rw [bset_get]
        by_cases e : j = k
        · rw [if_pos e, if_pos e, hg k, if_pos rfl, e]
          ring
        · rw [if_neg e, if_neg e, hg j, if_neg e]
      · exact ⟨m, m0, by push_cast; omega, hg⟩)
  rw [Nat.zero_add] at key
  exact key

theorem homoIdx_ne (tr tc : Int) :
    homoIdx ((0 : Nat) : Int) tr tc ≠ homoIdx ((0 + 1 : Nat) : Int) tr tc := by
  unfold homoIdx TS
  push_cast
  omega

/-- The two counting loops of the homogeneity body at one tile position add
between 0 and 4 to each of the two counters of the position and change no
other counter. -/
theorem homo_loops (p : Nat → Nat → Prop) [∀ d i, Decidable (p d i)] (tr tc : Int) (h : Buf) :
    ∃ m0 m1 : Int, (0 ≤ m0 ∧ m0 ≤ 4) ∧ (0 ≤ m1 ∧ m1 ≤ 4) ∧
      ∀ j, (loop (fun d homo =>
          loop (fun i homo =>
            if p d i then bset homo (homoIdx d tr tc) (homo.get (homoIdx d tr tc) + 1)
            else homo) 4 0 homo) 2 0 h).get j
        = if j = homoIdx ((0 : Nat) : Int) tr tc then h.get j + m0
          else if j = homoIdx ((0 + 1 : Nat) : Int) tr tc then h.get j + m1
          else h.get j := by
  rw [loop_two]
  obtain ⟨m0, a0, a1, ag⟩ := count_loop (fun i => p 0 i) (homoIdx ((0 : Nat) : Int) tr tc) 4 h
  obtain ⟨m1, b0, b1, bg⟩ := count_loop (fun i => p (0 + 1) i)
    (homoIdx ((0 + 1 : Nat) : Int) tr tc) 4
    (loop (fun i homo =>
      if p 0 i then bset homo (homoIdx ((0 : Nat) : Int) tr tc)
        (homo.get (homoIdx ((0 : Nat) : Int) tr tc) + 1)
      else homo) 4 0 h)
  refine ⟨m0, m1, ⟨a0, by exact_mod_cast a1⟩, ⟨b0, by exact_mod_cast b1⟩, fun j => ?_⟩
  rw [bg j, ag j]
  have hne := homoIdx_ne tr tc
  by_cases e0 : j = homoIdx ((0 : Nat) : Int) tr tc
  · have e1 : j ≠ homoIdx ((0 + 1 : Nat) : Int) tr tc := by
      rw [e0]
      exact hne
    simp only [if_pos e0, if_neg e1]
  · simp only [if_neg e0]

theorem ahdHomoPixel_get (lab : Buf) (tr tc : Int) (s : Buf × List Int) :
    ∃ m0 m1 : Int, (0 ≤ m0 ∧ m0 ≤ 4) ∧ (0 ≤ m1 ∧ m1 ≤ 4) ∧
      ∀ j, (ahdHomoPixel lab tr tc s).1.get j
        = if j = homoIdx ((0 : Nat) : Int) tr tc then s.1.get j + m0
          else if j = homoIdx ((0 + 1 : Nat) : Int) tr tc then s.1.get j + m1
          else s.1.get j := by
  unfold ahdHomoPixel
  simp only []
  exact homo_loops _ tr tc s.1

theorem homoIdx_inj (top left d row col d1 row1 col1 : Nat) (_hd : d < 2) (_hd1 : d1 < 2)
    (hr : top + 2 ≤ row) (hr2 : row < top + 254) (hc : left + 2 ≤ col) (hc2 : col < left + 254)
    (hr1 : top + 2 ≤ row1) (hr12 : row1 < top + 254) (hc1 : left + 2 ≤ col1)
    (hc12 : col1 < left + 254)
    (h : homoIdx d ((row : Int) - top) ((col : Int) - left)
      = homoIdx d1 ((row1 : Int) - top) ((col1 : Int) - left)) :
    d = d1 ∧ row = row1 ∧ col = col1 := by
  unfold homoIdx TS at h
  omega

theorem HomoOk.homo_step {top left : Nat} {V : Nat → Nat → Prop} {s : Buf × List Int}
    (h : HomoOk top left V s.1) (lab : Buf) (row col : Nat)
    (hr : top + 2 ≤ row) (hr2 : row < top + 254) (hc : left + 2 ≤ col) (hc2 : col < left + 254)
    (hnew : ¬ V row col) :
    HomoOk top left (fun y x => V y x ∨ (y = row ∧ x = col))
      (ahdHomoPixel lab ((row : Int) - top) ((col : Int) - left) s).1 := by
  obtain ⟨m0, m1, b0, b1, hg⟩ := ahdHomoPixel_get lab ((row : Int) - top) ((col : Int) - left) s
  have z0 := h.2 0 row col (by omega) hr hr2 hc hc2 hnew
  have z1 := h.2 (0 + 1) row col (by omega) hr hr2 hc hc2 hnew
  constructor
  · intro j
    rw [hg j]
    split_ifs with e0 e1
    · rw [e0, z0]
      omega
    · rw [e1, z1]
      omega
    · exact h.1 j
  · intro d y x hd hy hy2 hx hx2 hn
    have hp : ¬ (y = row ∧ x = col) := fun e => hn (Or.inr e)
    rw [hg _, if_neg, if_neg]
    · exact h.2 d y x hd hy hy2 hx hx2 (fun hv => hn (Or.inl hv))
    · intro e
      have := homoIdx_inj top left d y x (0 + 1) row col hd (by omega) hy hy2 hx hx2 hr hr2 hc hc2 e
      exact hp ⟨this.2.1, this.2.2⟩
    · intro e
      have := homoIdx_inj top left d y x 0 row col hd (by omega) hy hy2 hx hx2 hr hr2 hc hc2 e
      exact hp ⟨this.2.1, this.2.2⟩

theorem HomoOk.homo_mono {top left : Nat} {V W : Nat → Nat → Prop} {homo : Buf}
    (h : HomoOk top left V homo) (hVW : ∀ y x, V y x → W y x) : HomoOk top left W homo :=
  ⟨h.1, fun d y x hd hy hy2 hx hx2 hn => h.2 d y x hd hy hy2 hx hx2 (fun hv => hn (hVW y x hv))⟩

/-- After the homogeneity pass of a tile every counter is between 0 and 4. -/
theorem ahdHomo_range (lab : Buf) (width height top left : Nat) (abdiff : List Int) :
    ∀ j, 0 ≤ (ahdHomo lab width height top left abdiff).1.get j
      ∧ (ahdHomo lab width height top left abdiff).1.get j ≤ 4 := by
  unfold ahdHomo
  have rows := loop_inv (fun r (s : Buf × List Int) =>
      HomoOk top left (fun y _ => y < r) s.1)
    (fun row s =>
      loop (fun col s => ahdHomoPixel lab ((row : Int) - top) ((col : Int) - left) s)
        (min (left + 254) width - (left + 2)) (left + 2) s)
    (min (top + 254) height - (top + 2)) (top + 2) (bzero, abdiff)
    ⟨fun j => ⟨le_refl _, by unfold bzero; simp⟩, fun _ _ _ _ _ _ _ _ _ => rfl⟩
    (by
      intro r s hr1 hr2 inv
      have cols := loop_inv (fun c (t : Buf × List Int) =>
          HomoOk top left (fun y x => y < r ∨ (y = r ∧ x < c)) t.1)
        (fun col s => ahdHomoPixel lab ((r : Int) - top) ((col : Int) - left) s)
        (min (left + 254) width - (left + 2)) (left + 2) s
        (inv.homo_mono (fun y x hy => Or.inl hy))
        (by
          intro c t hc1 hc2 hinv
          exact (hinv.homo_step lab r c hr1 (by omega) hc1 (by omega) (by omega)).homo_mono
            (fun y x hv => by
              rcases hv with hv | hv
              · rcases hv with hv | hv
                · exact Or.inl hv
                · exact Or.inr ⟨hv.1, by omega⟩
              · exact Or.inr ⟨hv.1, by omega⟩))
      exact ⟨cols.1, fun d y x hd hy hy2 hx hx2 hn => cols.2 d y x hd hy hy2 hx hx2 (by
        intro hv
        apply hn
        omega)⟩)
  exact rows.1

/-- Each sum `hm[d]` over 3 × 3 counters is between 0 and 36. -/
theorem ahdHm_range (homo : Buf) (h : ∀ j, 0 ≤ homo.get j ∧ homo.get j ≤ 4) (d : Nat)
    (tr tc : Int) : 0 ≤ ahdHm homo d tr tc ∧ ahdHm homo d tr tc ≤ 36 := by
  unfold ahdHm
  simp only [loop_three]
  have h1 := h (homoIdx d (tr - 1 + ((0 : Nat) : Int)) (tc - 1 + ((0 : Nat) : Int)))
  have h2 := h (homoIdx d (tr - 1 + ((0 : Nat) : Int)) (tc - 1 + ((0 + 1 : Nat) : Int)))
  have h3 := h (homoIdx d (tr - 1 + ((0 : Nat) : Int)) (tc - 1 + ((0 + 2 : Nat) : Int)))
  have h4 := h (homoIdx d (tr - 1 + ((0 + 1 : Nat) : Int)) (tc - 1 + ((0 : Nat) : Int)))
  have h5 := h (homoIdx d (tr - 1 + ((0 + 1 : Nat) : Int)) (tc - 1 + ((0 + 1 : Nat) : Int)))
  have h6 := h (homoIdx d (tr - 1 + ((0 + 1 : Nat) : Int)) (tc - 1 + ((0 + 2 : Nat) : Int)))
  have h7 := h (homoIdx d (tr - 1 + ((0 + 2 : Nat) : Int)) (tc - 1 + ((0 : Nat) : Int)))
  have h8 := h (homoIdx d (tr - 1 + ((0 + 2 : Nat) : Int)) (tc - 1 + ((0 + 1 : Nat) : Int)))
  have h9 := h (homoIdx d (tr - 1 + ((0 + 2 : Nat) : Int)) (tc - 1 + ((0 + 2 : Nat) : Int)))
  constructor <;> omega

/-! ## The homogeneity counters do not depend on stale `abdiff` entries -/

theorem loop_rel {σ τ : Type} (R : σ → τ → Prop) (f : Nat → σ → σ) (g : Nat → τ → τ)
    (h : ∀ i a b, R a b → R (f i a) (g i b)) :
    ∀ (n k : Nat) (s : σ) (t : τ), R s t → R (loop f n k s) (loop g n k t) := by
  intro n
  induction n with
  | zero =>
    intro k s t hr
    exact hr
  | succ n ih =>
    intro k s t hr
    rw [loop_succ, loop_succ]
    exact ih (k + 1) _ _ (h k s t hr)

/-- A loop of conditional stores into the entries `b .. b+n-1` of an array. -/
theorem set_loop (c : Nat → Prop) [DecidablePred c] (v : Nat → Int) (b n : Nat) (a : List Int)
    (hb : b + n ≤ a.length) :
    (loop (fun i ab => if c i then ab.set (b + i) (v i) else ab) n 0 a).length = a.length ∧
    ∀ k, (loop (fun i ab => if c i then ab.set (b + i) (v i) else ab) n 0 a).getD k 0
      = if b ≤ k ∧ k < b + n ∧ c (k - b) then v (k - b) else a.getD k 0 := by
  have key := loop_inv (fun i (ab : List Int) => i ≤ n → (ab.length = a.length ∧
      ∀ k, ab.getD k 0 = if b ≤ k ∧ k < b + i ∧ c (k - b) then v (k - b) else a.getD k 0))
    (fun i ab => if c i then ab.set (b + i) (v i) else ab) n 0 a
    (fun _ => ⟨rfl, fun k => by rw [if_neg (by omega)]⟩)
    (by
      intro i ab _ hi ih hi1
      obtain ⟨hl, hg⟩ := ih (by omega)
      beta_reduce
      by_cases hc : c i
      · rw [if_pos hc]
        refine ⟨by rw [List.length_set]; exact hl, fun k => ?_⟩
        by_cases e : b + i = k
        · rw [← e, getD_set_eq _ _ _ _ (by omega), if_pos ⟨by omega, by omega, by
            rw [show b + i - b = i by omega]; exact hc⟩, show b + i - b = i by omega]
        · rw [getD_set_ne _ _ _ _ _ e, hg k]
          by_cases hk : b ≤ k ∧ k < b + i ∧ c (k - b)
          · rw [if_pos hk, if_pos ⟨hk.1, by omega, hk.2.2⟩]
          · rw [if_neg hk, if_neg]
            rintro ⟨h1, h2, h3⟩
            exact hk ⟨h1, by omega, h3⟩
      · rw [if_neg hc]
        refine ⟨hl, fun k => ?_⟩
        rw [hg k]
        by_cases hk : b ≤ k ∧ k < b + i ∧ c (k - b)
        · rw [if_pos hk, if_pos ⟨hk.1, by omega, hk.2.2⟩]
        · rw [if_neg hk, if_neg]
          rintro ⟨h1, h2, h3⟩
          by_cases e : k = b + i
          · rw [e, show b + i - b = i by omega] at h3
            exact hc h3
          · exact hk ⟨h1, by omega, h3⟩)
  rw [Nat.zero_add] at key
  exact key (le_refl _)

/-- The loops that fill `abdiff[2][4]`: the array keeps its size, and an entry
whose guard holds has the value computed for it. -/
theorem abdiff_loops (c : Nat → Nat → Prop) [∀ d i, Decidable (c d i)] (v : Nat → Nat → Int)
    (a : List Int) (ha : a.length = 8) :
    (loop (fun d ab =>
      loop (fun i ab => if c d i then ab.set (4 * d + i) (v d i) else ab) 4 0 ab) 2 0 a).length = 8 ∧
    ∀ d i, d < 2 → i < 4 → c d i →
      (loop (fun d ab =>
        loop (fun i ab => if c d i then ab.set (4 * d + i) (v d i) else ab) 4 0 ab) 2 0 a).getD
          (4 * d + i) 0 = v d i := by
  rw [loop_two]
  obtain ⟨l0, g0⟩ := set_loop (fun i => c 0 i) (fun i => v 0 i) (4 * 0) 4 a (by omega)
  obtain ⟨l1, g1⟩ := set_loop (fun i => c (0 + 1) i) (fun i => v (0 + 1) i) (4 * (0 + 1)) 4
    (loop (fun i ab => if c 0 i then ab.set (4 * 0 + i) (v 0 i) else ab) 4 0 a) (by omega)
  refine ⟨by rw [l1, l0, ha], ?_⟩
  intro d i hd hi hc
  rw [g1]
  have hd' : d = 0 ∨ d = 1 := by omega
  rcases hd' with rfl | rfl
  · rw [if_neg (by omega), g0, if_pos ⟨by omega, by omega, by
      rw [show 4 * 0 + i - 4 * 0 = i by omega]; exact hc⟩, show 4 * 0 + i - 4 * 0 = i by omega]
  · rw [if_pos ⟨by omega, by omega, by
      rw [show 4 * 1 + i - 4 * (0 + 1) = i by omega]; exact hc⟩,
      show 4 * 1 + i - 4 * (0 + 1) = i by omega]

/-! ## The parts of the homogeneity body of AHD -/

/-- The homogeneity body is the filling of `abdiff` followed by the counting
loops. -/
theorem ahdHomoPixel_eq (lab : Buf) (tr tc : Int) (s : Buf × List Int) :
    ahdHomoPixel lab tr tc s
      = (ahdCount lab tr tc (ahdAbdiffs lab tr tc s.2) s.1, ahdAbdiffs lab tr tc s.2) := rfl

theorem ahdAbdiffs_spec (lab : Buf) (tr tc : Int) (a : List Int) (ha : a.length = 8) :
    (ahdAbdiffs lab tr tc a).length = 8 ∧
    ∀ d i, d < 2 → i < 4 → (i >>> 1 = d ∨ ahdLdiff lab tr tc d i ≤ ahdLeps lab tr tc) →
      (ahdAbdiffs lab tr tc a).getD (4 * d + i) 0 = ahdAbdiff lab tr tc d i := by
  unfold ahdAbdiffs
  exact abdiff_loops (fun d i => i >>> 1 = d ∨ ahdLdiff lab tr tc d i ≤ ahdLeps lab tr tc)
    (fun d i => ahdAbdiff lab tr tc d i) a ha

/-- The counting loops read an entry of `abdiff` only if it was computed for
the pixel: their result is the one obtained with every chroma difference
computed afresh. -/
theorem ahdCount_fresh (lab : Buf) (tr tc : Int) (a : List Int) (ha : a.length = 8)
    (homo : Buf) :
    ahdCount lab tr tc (ahdAbdiffs lab tr tc a) homo = ahdCountFresh lab tr tc homo := by
  obtain ⟨_, hv⟩ := ahdAbdiffs_spec lab tr tc a ha
  have e00 := hv 0 0 (by omega) (by omega) (Or.inl (by decide))
  have e01 := hv 0 1 (by omega) (by omega) (Or.inl (by decide))
  have e12 := hv 1 2 (by omega) (by omega) (Or.inl (by decide))
  have e13 := hv 1 3 (by omega) (by omega) (Or.inl (by decide))
  have he : ahdAbeps (ahdAbdiffs lab tr tc a)
      = min (max (ahdAbdiff lab tr tc 0 0) (ahdAbdiff lab tr tc 0 1))
          (max (ahdAbdiff lab tr tc 1 2) (ahdAbdiff lab tr tc 1 3)) := by
    unfold ahdAbeps
    rw [e00, e01, e12, e13]
  unfold ahdCount ahdCountFresh
  apply loop_congr
  intro d h0 _ hd
  apply loop_congr
  intro i h1 _ hi
  beta_reduce
  apply if_congr _ rfl rfl
  unfold ahdHomoTest
  rw [decide_eq_true_eq, he]
  constructor
  · rintro ⟨h2, h3⟩
    rw [hv d i (by omega) (by omega) (Or.inr h2)] at h3
    exact ⟨h2, h3⟩
  · rintro ⟨h2, h3⟩
    rw [hv d i (by omega) (by omega) (Or.inr h2)]
    exact ⟨h2, h3⟩

/-- The counters after the homogeneity pass of a tile do not depend on the
contents of `abdiff` on entry. -/
theorem ahdHomo_fresh (lab : Buf) (width height top left : Nat) (a b : List Int)
    (ha : a.length = 8) (hb : b.length = 8) :
    (ahdHomo lab width height top left a).1 = (ahdHomo lab width height top left b).1 := by
  unfold ahdHomo
  have key := loop_rel (fun (s t : Buf × List Int) => s.1 = t.1 ∧ s.2.length = 8 ∧ t.2.length = 8)
    (fun row s =>
      loop (fun col s => ahdHomoPixel lab ((row : Int) - top) ((col : Int) - left) s)
        (min (left + 254) width - (left + 2)) (left + 2) s)
    (fun row s =>
      loop (fun col s => ahdHomoPixel lab ((row : Int) - top) ((col : Int) - left) s)
        (min (left + 254) width - (left + 2)) (left + 2) s)
    (by
      intro row s t hr
      refine loop_rel (fun (s t : Buf × List Int) =>
          s.1 = t.1 ∧ s.2.length = 8 ∧ t.2.length = 8) _ _ ?_ _ _ s t hr
      intro col s1 t1 ⟨h1, h2, h3⟩
      rw [ahdHomoPixel_eq, ahdHomoPixel_eq]
      refine ⟨?_, (ahdAbdiffs_spec lab _ _ s1.2 h2).1, (ahdAbdiffs_spec lab _ _ t1.2 h3).1⟩
      simp only []
      rw [ahdCount_fresh lab _ _ s1.2 h2, ahdCount_fresh lab _ _ t1.2 h3, h1])
    (min (top + 254) height - (top + 2)) (top + 2) (bzero, a) (bzero, b) ⟨rfl, ha, hb⟩
  exact key.1

/-- Claim C36: in the homogeneity pass of a tile, run on any buffer `lab` and
from any contents of the array `abdiff[2][4]`, every counter
`homo[d][tr][tc]` ends between 0 and 4 and every sum `hm[d]` over 3 × 3
counters between 0 and 36; for every pixel the counters after the body are
those obtained with every chroma difference computed afresh (an entry of
`abdiff` that enters the count was stored for this pixel, because
`i >> 1 == d` or `ldiff[d][i] <= leps`), the array keeps its 8 entries, and
so the counters of the tile are the same from any other contents of
`abdiff`. -/
theorem ahdHomo_bounded (lab : Buf) (width height top left : Nat) (abdiff : List Int)
    (hab : abdiff.length = 8) :
    (∀ d tr tc : Int,
      0 ≤ (ahdHomo lab width height top left abdiff).1.get (homoIdx d tr tc)
        ∧ (ahdHomo lab width height top left abdiff).1.get (homoIdx d tr tc) ≤ 4) ∧
    (∀ (d : Nat) (tr tc : Int),
      0 ≤ ahdHm (ahdHomo lab width height top left abdiff).1 d tr tc
        ∧ ahdHm (ahdHomo lab width height top left abdiff).1 d tr tc ≤ 36) ∧
    (∀ (tr tc : Int) (homo : Buf),
      (ahdHomoPixel lab tr tc (homo, abdiff)).1 = ahdCountFresh lab tr tc homo
        ∧ (ahdHomoPixel lab tr tc (homo, abdiff)).2.length = 8) ∧
    (∀ ab2 : List Int, ab2.length = 8 →
      (ahdHomo lab width height top left ab2).1
        = (ahdHomo lab width height top left abdiff).1) :=
  ⟨fun d tr tc => ahdHomo_range lab width height top left abdiff (homoIdx d tr tc),
    fun d tr tc => ahdHm_range _ (ahdHomo_range lab width height top left abdiff) d tr tc,
    fun tr tc homo =>
      ⟨(congrArg Prod.fst (ahdHomoPixel_eq lab tr tc (homo, abdiff))).trans
          (ahdCount_fresh lab tr tc abdiff hab homo),
        (ahdAbdiffs_spec lab tr tc abdiff hab).1⟩,
    fun ab2 h2 => ahdHomo_fresh lab width height top left ab2 abdiff h2 hab⟩

theorem ahdHomo_bounded_witness :
    (∀ d tr tc : Int,
      0 ≤ (ahdHomo ⟨fun j => j % 7⟩ 8 8 0 0 [9, 8, 7, 6, 5, 4, 3, 2]).1.get (homoIdx d tr tc)
        ∧ (ahdHomo ⟨fun j => j % 7⟩ 8 8 0 0 [9, 8, 7, 6, 5, 4, 3, 2]).1.get (homoIdx d tr tc)
          ≤ 4) ∧
    (∀ (d : Nat) (tr tc : Int),
      0 ≤ ahdHm (ahdHomo ⟨fun j => j % 7⟩ 8 8 0 0 [9, 8, 7, 6, 5, 4, 3, 2]).1 d tr tc
        ∧ ahdHm (ahdHomo ⟨fun j => j % 7⟩ 8 8 0 0 [9, 8, 7, 6, 5, 4, 3, 2]).1 d tr tc ≤ 36) ∧
    (∀ (tr tc : Int) (homo : Buf),
      (ahdHomoPixel ⟨fun j => j % 7⟩ tr tc (homo, [9, 8, 7, 6, 5, 4, 3, 2])).1
          = ahdCountFresh ⟨fun j => j % 7⟩ tr tc homo
        ∧ (ahdHomoPixel ⟨fun j => j % 7⟩ tr tc (homo, [9, 8, 7, 6, 5, 4, 3, 2])).2.length = 8) ∧
    (∀ ab2 : List Int, ab2.length = 8 →
      (ahdHomo ⟨fun j => j % 7⟩ 8 8 0 0 ab2).1
        = (ahdHomo ⟨fun j => j % 7⟩ 8 8 0 0 [9, 8, 7, 6, 5, 4, 3, 2]).1) :=
  ahdHomo_bounded ⟨fun j => j % 7⟩ 8 8 0 0 [9, 8, 7, 6, 5, 4, 3, 2] (by decide)

/-! ## The tiles of AHD and the pixels their combination pass writes -/

/-- A counted loop is the fold of its body over the values of its variable. -/
theorem loop_eq_foldl {σ : Type} (f : Nat → σ → σ) (n i : Nat) (s : σ) :
    loop f n i s = (List.range' i n).foldl (fun s k => f k s) s := by
  induction n generalizing i s with
  | zero => rfl
  | succ n ih =>
    rw [List.range'_succ, List.foldl_cons]
    exact ih (i + 1) (f i s)

/-- Two nested counted loops are the fold of the body over the pairs of values
of their variables, in the order of the loops. -/
theorem loop_loop_eq_foldl {σ τ : Type} (F : τ → σ → σ) (g : Nat → Nat → τ)
    (n a m b : Nat) (s : σ) :
    loop (fun i s => loop (fun j s => F (g i j) s) m b s) n a s
      = ((List.range' a n).flatMap fun i => (List.range' b m).map fun j => g i j).foldl
          (fun s p => F p s) s := by
  rw [loop_eq_foldl]
  generalize List.range' a n = l
  induction l generalizing s with
  | nil => rfl
  | cons i l ih =>
    rw [List.flatMap_cons, List.foldl_append, List.foldl_cons, List.foldl_map, ih, loop_eq_foldl]

/-- The combination pass of a tile runs its body once for each pixel of
`ahdCombinePixels`, in order. -/
theorem ahdCombine_eq_foldl (rgb homo : Buf) (width height top left : Nat) (img : List Nat) :
    ahdCombine rgb homo width height top left img
      = (ahdCombinePixels width height top left).foldl
          (fun im p => ahdCombinePixel rgb homo width top left p.1 p.2 im) img :=
  loop_loop_eq_foldl (fun (p : Nat × Nat) im => ahdCombinePixel rgb homo width top left p.1 p.2 im)
    (fun row col => (row, col)) _ _ _ _ img

/-- After the border pass `ahd_interpolate_INDI` runs the tile body once for
each tile of `ahdTiles`, in order. -/
theorem ahd_interpolate_INDI_eq_foldl (img : List Nat) (filters width height colors : Nat)
    (labOf : List Int → List Int) (lab0 : Buf) (abdiff0 : List Int) (fuel : Nat) :
    ahd_interpolate_INDI img filters width height colors labOf lab0 abdiff0 fuel
      = (border_interpolate_INDI height width img filters colors 3 fuel).map fun img1 =>
          ((ahdTiles height width).foldl
            (fun s t => ahdTile filters width height labOf t.1 t.2 s)
            { img := img1, lab := lab0, abdiff := abdiff0 }).img := by
  unfold ahd_interpolate_INDI
  cases border_interpolate_INDI height width img filters colors 3 fuel with
  | none => rfl
  | some img1 =>
    simp only [Option.map_some']
    congr 2
    exact loop_loop_eq_foldl
      (fun (t : Nat × Nat) s => ahdTile filters width height labOf t.1 t.2 s)
      (fun i j => (250 * i, 250 * j)) _ _ _ _ _

theorem mem_ahdTiles (height width : Nat) (t : Nat × Nat) :
    t ∈ ahdTiles height width
      ↔ ∃ i j, i < (height + 249) / 250 ∧ j < (width + 249) / 250 ∧ t = (250 * i, 250 * j) := by
  unfold ahdTiles
  simp only [List.mem_flatMap, List.mem_map, List.mem_range'_1]
  constructor
  · rintro ⟨i, ⟨_, hi⟩, j, ⟨_, hj⟩, rfl⟩
    exact ⟨i, j, by omega, by omega, rfl⟩
  · rintro ⟨i, j, hi, hj, rfl⟩
    exact ⟨i, ⟨by omega, by omega⟩, j, ⟨by omega, by omega⟩, rfl⟩

theorem mem_ahdCombinePixels (width height top left row col : Nat) :
    (row, col) ∈ ahdCombinePixels width height top left
      ↔ (top + 3 ≤ row ∧ row < top + 253 ∧ row + 3 < height)
        ∧ (left + 3 ≤ col ∧ col < left + 253 ∧ col + 3 < width) := by
  unfold ahdCombinePixels
  simp only [List.mem_flatMap, List.mem_map, List.mem_range'_1, Prod.mk.injEq]
  constructor
  · rintro ⟨r, ⟨h1, h2⟩, c, ⟨h3, h4⟩, rfl, rfl⟩
    omega
  · rintro ⟨⟨h1, h2, h3⟩, h4, h5, h6⟩
    exact ⟨row, ⟨by omega, by omega⟩, col, ⟨by omega, by omega⟩, rfl, rfl⟩

theorem ahdCombinePixels_nodup (width height top left : Nat) :
    (ahdCombinePixels width height top left).Nodup :=
  List.Nodup.product (List.nodup_range' _ _) (List.nodup_range' _ _)

theorem ahdTiles_nodup (height width : Nat) : (ahdTiles height width).Nodup := by
  have h : ahdTiles height width
      = (List.product (List.range' 0 ((height + 249) / 250))
          (List.range' 0 ((width + 249) / 250))).map fun p => (250 * p.1, 250 * p.2) := by
    unfold ahdTiles List.product
    rw [List.map_flatMap]
    simp only [List.map_map]
    rfl
  rw [h]
  refine List.Nodup.map ?_ (List.Nodup.product (List.nodup_range' _ _) (List.nodup_range' _ _))
  rintro ⟨a, b⟩ ⟨c, d⟩ he
  simp only [Prod.mk.injEq] at he
  obtain ⟨h1, h2⟩ := he
  congr 1 <;> omega

/-- No pixel is in the combination pass of two different tiles. -/
theorem ahdCombinePixels_disjoint (height width : Nat) (t u : Nat × Nat)
    (ht : t ∈ ahdTiles height width) (hu : u ∈ ahdTiles height width) (p : Nat × Nat)
    (hp : p ∈ ahdCombinePixels width height t.1 t.2)
    (hq : p ∈ ahdCombinePixels width height u.1 u.2) : t = u := by
  obtain ⟨i, j, _, _, rfl⟩ := (mem_ahdTiles height width t).1 ht
  obtain ⟨k, l, _, _, rfl⟩ := (mem_ahdTiles height width u).1 hu
  obtain ⟨row, col⟩ := p
  rw [mem_ahdCombinePixels] at hp hq
  simp only [] at hp hq
  have h1 : i = k := by omega
  have h2 : j = l := by omega
  rw [h1, h2]

/-- The pixels written by the combination passes of all tiles, in the order
of the run, without repetition. -/
theorem ahdTiles_pixels_nodup (height width : Nat) :
    ((ahdTiles height width).flatMap fun t => ahdCombinePixels width height t.1 t.2).Nodup := by
  rw [List.nodup_flatMap]
  refine ⟨fun t _ => ahdCombinePixels_nodup width height t.1 t.2, ?_⟩
  refine List.Nodup.pairwise_of_forall_ne (ahdTiles_nodup height width) ?_
  intro t ht u hu hne p hp hq
  exact hne (ahdCombinePixels_disjoint height width t u ht hu p hp hq)

/-- The tile whose combination pass holds an interior pixel. -/
theorem ahdTiles_cover (height width row col : Nat) (h3r : 3 ≤ row) (hr : row + 3 < height)
    (h3c : 3 ≤ col) (hc : col + 3 < width) :
    (250 * ((row - 3) / 250), 250 * ((col - 3) / 250)) ∈ ahdTiles height width
      ∧ (row, col) ∈ ahdCombinePixels width height
          (250 * ((row - 3) / 250)) (250 * ((col - 3) / 250)) := by
  rw [mem_ahdTiles, mem_ahdCombinePixels]
  refine ⟨⟨(row - 3) / 250, (col - 3) / 250, ?_, ?_, rfl⟩, ?_⟩ <;> omega

/-- Claim C35: for every height and width, with the tiles of
`ahd_interpolate_INDI` starting at the multiples of 250 in each axis, every
pixel with `3 ≤ row < height-3` and `3 ≤ col < width-3` is in the combination
pass of exactly one tile, and occurs exactly once among the pixels that the
combination passes of all tiles write; the function runs the tile body over
`ahdTiles` and the combination pass runs its body over `ahdCombinePixels`. -/
theorem ahdTiles_partition (height width row col : Nat) (h3r : 3 ≤ row)
    (hr : row + 3 < height) (h3c : 3 ≤ col) (hc : col + 3 < width) :
    (∃! t : Nat × Nat, t ∈ ahdTiles height width
      ∧ (row, col) ∈ ahdCombinePixels width height t.1 t.2) ∧
    ((ahdTiles height width).flatMap fun t => ahdCombinePixels width height t.1 t.2).countP
        (fun p => decide (p = (row, col))) = 1 ∧
    (∀ (rgb homo : Buf) (top left : Nat) (img : List Nat),
      ahdCombine rgb homo width height top left img
        = (ahdCombinePixels width height top left).foldl
            (fun im p => ahdCombinePixel rgb homo width top left p.1 p.2 im) img) ∧
    (∀ (img : List Nat) (filters colors : Nat) (labOf : List Int → List Int) (lab0 : Buf)
        (abdiff0 : List Int) (fuel : Nat),
      ahd_interpolate_INDI img filters width height colors labOf lab0 abdiff0 fuel
        = (border_interpolate_INDI height width img filters colors 3 fuel).map fun img1 =>
            ((ahdTiles height width).foldl
              (fun s t => ahdTile filters width height labOf t.1 t.2 s)
              { img := img1, lab := lab0, abdiff := abdiff0 }).img) := by
  have hcov := ahdTiles_cover height width row col h3r hr h3c hc
  refine ⟨⟨_, hcov, ?_⟩, ?_, ?_, ?_⟩
  · rintro u ⟨hu, hq⟩
    exact ahdCombinePixels_disjoint height width u _ hu hcov.1 (row, col) hq hcov.2
  · exact List.count_eq_one_of_mem (ahdTiles_pixels_nodup height width)
      (List.mem_flatMap.2 ⟨_, hcov.1, hcov.2⟩)
  · exact fun rgb homo top left img => ahdCombine_eq_foldl rgb homo width height top left img
  · exact fun img filters colors labOf lab0 abdiff0 fuel =>
      ahd_interpolate_INDI_eq_foldl img filters width height colors labOf lab0 abdiff0 fuel

theorem ahdTiles_partition_witness :
    (∃! t : Nat × Nat, t ∈ ahdTiles 600 300
      ∧ (253, 252) ∈ ahdCombinePixels 300 600 t.1 t.2) ∧
    ((ahdTiles 600 300).flatMap fun t => ahdCombinePixels 300 600 t.1 t.2).countP
        (fun p => decide (p = (253, 252))) = 1 ∧
    (∀ (rgb homo : Buf) (top left : Nat) (img : List Nat),
      ahdCombine rgb homo 300 600 top left img
        = (ahdCombinePixels 300 600 top left).foldl
            (fun im p => ahdCombinePixel rgb homo 300 top left p.1 p.2 im) img) ∧
    (∀ (img : List Nat) (filters colors : Nat) (labOf : List Int → List Int) (lab0 : Buf)
        (abdiff0 : List Int) (fuel : Nat),
      ahd_interpolate_INDI img filters 300 600 colors labOf lab0 abdiff0 fuel
        = (border_interpolate_INDI 600 300 img filters colors 3 fuel).map fun img1 =>
            ((ahdTiles 600 300).foldl
              (fun s t => ahdTile filters 300 600 labOf t.1 t.2 s)
              { img := img1, lab := lab0, abdiff := abdiff0 }).img) :=
  ahdTiles_partition 600 300 253 252 (by decide) (by decide) (by decide) (by decide)

/-! ## AHD on a Bayer mosaic -/

/-- The colour `FC(row,col)` depends on `row mod 8` and `col mod 2` only. -/
theorem FC_mod_8_2 (filters : Nat) (row col : Int) :
    FC filters row col = FC filters (row % 8) (col % 2) := by
  rw [FC_eq_mod, FC_eq_mod filters (row % 8)]
  rw [Int.emod_emod_of_dvd row (dvd_refl 8), Int.emod_emod_of_dvd col (dvd_refl 2)]

theorem IsBayer_of_check (filters : Nat) (h : isBayerCheck filters = true) : IsBayer filters := by
  intro row col
  unfold isBayerCheck at h
  simp only [List.all_eq_true, List.mem_range, decide_eq_true_eq] at h
  have h1 := h (row % 8) (Nat.mod_lt _ (by decide)) (col % 2) (Nat.mod_lt _ (by decide))
  have e1 : FC filters row col = FC filters ((row % 8 : Nat) : Int) ((col % 2 : Nat) : Int) := by
    rw [FC_mod_8_2 filters row col, FC_mod_8_2 filters ((row % 8 : Nat) : Int)]
    congr 1 <;> omega
  have e2 : FC filters row ((col : Int) + 1)
      = FC filters ((row % 8 : Nat) : Int) (((col % 2 : Nat) : Int) + 1) := by
    rw [FC_mod_8_2 filters row, FC_mod_8_2 filters ((row % 8 : Nat) : Int)]
    congr 1 <;> omega
  have e3 : FC filters ((row : Int) + 1) col
      = FC filters (((row % 8 : Nat) : Int) + 1) ((col % 2 : Nat) : Int) := by
    rw [FC_mod_8_2 filters ((row : Int) + 1), FC_mod_8_2 filters (((row % 8 : Nat) : Int) + 1)]
    congr 1 <;> omega
  have e4 : FC filters ((row : Int) + 1) ((col : Int) + 1)
      = FC filters (((row % 8 : Nat) : Int) + 1) (((col % 2 : Nat) : Int) + 1) := by
    rw [FC_mod_8_2 filters ((row : Int) + 1), FC_mod_8_2 filters (((row % 8 : Nat) : Int) + 1)]
    congr 1 <;> omega
  rw [e1, e2, e3, e4]
  exact h1

theorem IsBayer.row_period {filters : Nat} (h : IsBayer filters) (row col : Nat) :
    FC filters ((row : Int) + 2) col = FC filters row col := by
  have h1 := (h row col).2.2.2
  have h2 := (h (row + 1) (col + 1)).2.2.2
  have e : FC filters ((row : Int) + 2) col = FC filters ((row : Int) + 2) ((col : Int) + 2) := by
    rw [FC_mod_8_2 filters _ col, FC_mod_8_2 filters _ ((col : Int) + 2)]
    congr 1
    omega
  rw [e]
  push_cast at h2
  rw [show (row : Int) + 1 + 1 = row + 2 by ring, show (col : Int) + 1 + 1 = col + 2 by ring] at h2
  omega

theorem IsBayer.row_mod {filters : Nat} (h : IsBayer filters) (row col : Nat) :
    FC filters row col = FC filters ((row % 2 : Nat) : Int) col := by
  induction row using Nat.strong_induction_on with
  | _ row ih =>
    by_cases hr : row < 2
    · rw [Nat.mod_eq_of_lt hr]
    · have h1 := ih (row - 2) (by omega)
      have h2 := h.row_period (row - 2) col
      have e : ((row - 2 : Nat) : Int) + 2 = row := by omega
      rw [e] at h2
      rw [h2, h1]
      congr 2
      omega

/-- The layout of a Bayer descriptor: green where `row + col` has the parity
`g`, elsewhere the colour `x` on the rows of parity `p` and `2 - x` on the
other rows, with `x` 0 or 2. -/
theorem IsBayer.form {filters : Nat} (h : IsBayer filters) :
    ∃ (g p : Int) (x : Nat), (g = 0 ∨ g = 1) ∧ (p = 0 ∨ p = 1) ∧ (x = 0 ∨ x = 2) ∧
      ∀ r c : Int, 0 ≤ r → 0 ≤ c →
        FC filters r c = if (r + c) % 2 = g then 1 else if r % 2 = p then x else 2 - x := by
  have hmod : ∀ r c : Int, 0 ≤ r → 0 ≤ c →
      FC filters r c = FC filters (r % 2) (c % 2) := by
    intro r c hr hc
    obtain ⟨rn, rfl⟩ := Int.eq_ofNat_of_zero_le hr
    obtain ⟨cn, rfl⟩ := Int.eq_ofNat_of_zero_le hc
    rw [h.row_mod rn cn, FC_mod_8_2 filters _ (cn : Int),
      FC_mod_8_2 filters ((rn : Int) % 2) ((cn : Int) % 2)]
    congr 1
    omega
  have a0 := h 0 0
  have a1 := h 0 1
  have e12 : FC filters 1 2 = FC filters 1 0 := by
    rw [FC_mod_8_2 filters 1 2, FC_mod_8_2 filters 1 0]
    rfl
  simp only [Nat.cast_zero, Nat.cast_one, zero_add] at a0 a1
  rw [show ((1 : Int) + 1) = 2 by rfl, e12] at a1
  have key : ∀ (g p : Int) (x : Nat),
      FC filters 0 0 = (if (0 : Int) = g then 1 else if (0 : Int) = p then x else 2 - x) →
      FC filters 0 1 = (if (1 : Int) = g then 1 else if (0 : Int) = p then x else 2 - x) →
      FC filters 1 0 = (if (1 : Int) = g then 1 else if (1 : Int) = p then x else 2 - x) →
      FC filters 1 1 = (if (0 : Int) = g then 1 else if (1 : Int) = p then x else 2 - x) →
      ∀ r c : Int, 0 ≤ r → 0 ≤ c →
        FC filters r c = if (r + c) % 2 = g then 1 else if r % 2 = p then x else 2 - x := by
    intro g p x h00 h01 h10 h11 r c hr hc
    rw [hmod r c hr hc]
    rcases Int.emod_two_eq_zero_or_one r with hr2 | hr2 <;>
      rcases Int.emod_two_eq_zero_or_one c with hc2 | hc2
    · rw [hr2, hc2, show (r + c) % 2 = 0 by omega]
      exact h00
    · rw [hr2, hc2, show (r + c) % 2 = 1 by omega]
      exact h01
    · rw [hr2, hc2, show (r + c) % 2 = 1 by omega]
      exact h10
    · rw [hr2, hc2, show (r + c) % 2 = 0 by omega]
      exact h11
  by_cases hg : FC filters 0 0 = 1
  · refine ⟨0, 0, FC filters 0 1, Or.inl rfl, Or.inl rfl, by omega, key 0 0 _ ?_ ?_ ?_ ?_⟩
    · simp only [if_true]
      exact hg
    · simp only [show ¬ ((1 : Int) = 0) by decide, if_false, if_true]
    · simp only [show ¬ ((1 : Int) = 0) by decide, if_false]
      omega
    · simp only [if_true]
      omega
  · refine ⟨1, 0, FC filters 0 0, Or.inr rfl, Or.inl rfl, by omega, key 1 0 _ ?_ ?_ ?_ ?_⟩
    · simp only [show ¬ ((0 : Int) = 1) by decide, if_false, if_true]
    · simp only [if_true]
      omega
    · simp only [if_true]
      omega
    · simp only [show ¬ ((0 : Int) = 1) by decide, show ¬ ((1 : Int) = 0) by decide, if_false]
      omega

theorem IsBayer.ne_one {filters : Nat} (h : IsBayer filters) : filters ≠ 1 := by
  rintro rfl
  have := (h 0 0).2.2.2
  revert this
  decide

theorem isBayer_94 : IsBayer 0x94949494 := IsBayer_of_check _ (by decide)

/-! ## Loops as folds, and invariants of folds -/

theorem mem_loopPairs (a n b m i j : Nat) :
    (i, j) ∈ loopPairs a n b m ↔ (a ≤ i ∧ i < a + n) ∧ (b ≤ j ∧ j < b + m) := by
  unfold loopPairs
  simp only [List.mem_flatMap, List.mem_map, List.mem_range'_1, Prod.mk.injEq]
  constructor
  · rintro ⟨r, hr, c, hc, rfl, rfl⟩
    exact ⟨hr, hc⟩
  · rintro ⟨hr, hc⟩
    exact ⟨i, hr, j, hc, rfl, rfl⟩

theorem loop_loop_pairs {σ : Type} (f : Nat → Nat → σ → σ) (n a m b : Nat) (s : σ) :
    loop (fun i s => loop (fun j s => f i j s) m b s) n a s
      = (loopPairs a n b m).foldl (fun s p => f p.1 p.2 s) s :=
  loop_loop_eq_foldl (fun (p : Nat × Nat) s => f p.1 p.2 s) (fun i j => (i, j)) n a m b s

/-- An invariant of a fold that may mention the elements already
processed. -/
theorem foldl_inv {σ τ : Type} (P : List τ → σ → Prop) (F : τ → σ → σ) (L : List τ) (s : σ)
    (h0 : P [] s) (step : ∀ pre x s, x ∈ L → P pre s → P (pre ++ [x]) (F x s)) :
    P L (L.foldl (fun s x => F x s) s) := by
  have key : ∀ (M pre : List τ) (s : σ), (∀ x ∈ M, x ∈ L) → P pre s →
      P (pre ++ M) (M.foldl (fun s x => F x s) s) := by
    intro M
    induction M with
    | nil =>
      intro pre s _ hP
      rw [List.append_nil]
      exact hP
    | cons x M ih =>
      intro pre s hM hP
      rw [List.foldl_cons, show pre ++ x :: M = (pre ++ [x]) ++ M by simp]
      exact ih (pre ++ [x]) (F x s) (fun y hy => hM y (List.mem_cons_of_mem _ hy))
        (step pre x s (hM x (List.mem_cons_self _ _)) hP)
  exact key L [] s (fun _ hx => hx) h0

/-- An invariant that relates two folds over the same list. -/
theorem foldl_rel {σ ρ τ : Type} (R : List τ → σ → ρ → Prop) (F : τ → σ → σ) (G : τ → ρ → ρ)
    (L : List τ) (s : σ) (t : ρ) (h0 : R [] s t)
    (step : ∀ pre x s t, x ∈ L → R pre s t → R (pre ++ [x]) (F x s) (G x t)) :
    R L (L.foldl (fun s x => F x s) s) (L.foldl (fun t x => G x t) t) := by
  have key : ∀ (M pre : List τ) (s : σ) (t : ρ), (∀ x ∈ M, x ∈ L) → R pre s t →
      R (pre ++ M) (M.foldl (fun s x => F x s) s) (M.foldl (fun t x => G x t) t) := by
    intro M
    induction M with
    | nil =>
      intro pre s t _ hP
      rw [List.append_nil]
      exact hP
    | cons x M ih =>
      intro pre s t hM hP
      rw [List.foldl_cons, List.foldl_cons, show pre ++ x :: M = (pre ++ [x]) ++ M by simp]
      exact ih (pre ++ [x]) (F x s) (G x t) (fun y hy => hM y (List.mem_cons_of_mem _ hy))
        (step pre x s t (hM x (List.mem_cons_self _ _)) hP)
  exact key L [] s t (fun _ hx => hx) h0

/-- A relation between two runs of a counted loop with different bodies. -/
theorem loop_rel_inv {σ ρ : Type} (R : σ → ρ → Prop) (f : Nat → σ → σ) (g : Nat → ρ → ρ) :
    ∀ (n start : Nat) (s : σ) (t : ρ), R s t →
      (∀ i s t, start ≤ i → i < start + n → R s t → R (f i s) (g i t)) →
      R (loop f n start s) (loop g n start t) := by
  intro n
  induction n with
  | zero =>
    intro start s t h _
    exact h
  | succ n ih =>
    intro start s t h step
    rw [loop_succ, loop_succ]
    exact ih (start + 1) _ _ (step start s t (le_refl _) (by omega) h)
      (fun i s t h1 h2 hR => step i s t (by omega) (by omega) hR)

/-- Two images with the same native samples give the same read of a native
sample through `pix[k][c]`, for `k = dr*width + dc` with `(row+dr, col+dc)` a
pixel of the image of colour `c`. -/
theorem NatEq.pixAt_eq {filters width height : Nat} {a b : List Nat}
    (h : NatEq filters width height a b) (row col : Nat) (k c dr dc : Int)
    (hk : k = dr * width + dc) (hr0 : 0 ≤ (row : Int) + dr) (hr1 : (row : Int) + dr < height)
    (hc0 : 0 ≤ (col : Int) + dc) (hc1 : (col : Int) + dc < width)
    (hcol : c = (FC filters ((row : Int) + dr) ((col : Int) + dc) : Nat)) :
    pixAt a width row col k c = pixAt b width row col k c := by
  obtain ⟨r1, hr⟩ := Int.eq_ofNat_of_zero_le hr0
  obtain ⟨c1, hc⟩ := Int.eq_ofNat_of_zero_le hc0
  have key := h.2.2 r1 c1 (by omega) (by omega)
  unfold pixAt
  rw [hcol, hk, show (row : Int) * width + col + (dr * width + dc)
    = ((row : Int) + dr) * width + ((col : Int) + dc) by ring, hr, hc]
  exact congrArg _ key

theorem NatEq.symm {filters width height : Nat} {a b : List Nat}
    (h : NatEq filters width height a b) : NatEq filters width height b a :=
  ⟨h.2.1, h.1, fun row col hr hc => (h.2.2 row col hr hc).symm⟩

theorem NatEq.natEq_trans {filters width height : Nat} {a b c : List Nat}
    (h : NatEq filters width height a b) (g : NatEq filters width height b c) :
    NatEq filters width height a c :=
  ⟨h.1, g.2.1, fun row col hr hc => (h.2.2 row col hr hc).trans (g.2.2 row col hr hc)⟩

/-- The colours of two pixels of a Bayer mosaic, from the parities of the
distances between them. -/
theorem IsBayer.rel {filters : Nat} (h : IsBayer filters) (r c r1 c1 : Int)
    (hr : 0 ≤ r) (hc : 0 ≤ c) (hr1 : 0 ≤ r1) (hc1 : 0 ≤ c1) :
    FC filters r c ≤ 2 ∧
    ((r1 - r) % 2 = 0 → (c1 - c) % 2 = 0 → FC filters r1 c1 = FC filters r c) ∧
    ((r1 - r) % 2 = 1 → (c1 - c) % 2 = 1 → FC filters r1 c1 + FC filters r c = 2) ∧
    ((r1 - r + (c1 - c)) % 2 = 1 → FC filters r c ≠ 1 → FC filters r1 c1 = 1) ∧
    ((r1 - r + (c1 - c)) % 2 = 1 → FC filters r c = 1 →
      FC filters r1 c1 ≠ 1 ∧
      ((r1 - r) % 2 = 1 → FC filters r1 c1 = FC filters (r + 1) c) ∧
      ((c1 - c) % 2 = 1 → FC filters r1 c1 + FC filters (r + 1) c = 2)) := by
  obtain ⟨g, p, x, hg, hp, hx, hn⟩ := h.form
  have green : ∀ u v : Int, 0 ≤ u → 0 ≤ v → (FC filters u v = 1 ↔ (u + v) % 2 = g) := by
    intro u v hu hv
    rw [hn u v hu hv]
    split_ifs <;> omega
  have other : ∀ u v : Int, 0 ≤ u → 0 ≤ v → (u + v) % 2 ≠ g →
      FC filters u v = if u % 2 = p then x else 2 - x := by
    intro u v hu hv hne
    rw [hn u v hu hv, if_neg hne]
  have le2 : ∀ u v : Int, 0 ≤ u → 0 ≤ v → FC filters u v ≤ 2 := by
    intro u v hu hv
    rw [hn u v hu hv]
    split_ifs <;> omega
  refine ⟨le2 r c hr hc, ?_, ?_, ?_, ?_⟩
  · intro h1 h2
    by_cases e : (r + c) % 2 = g
    · rw [(green r c hr hc).2 e, (green r1 c1 hr1 hc1).2 (by omega)]
    · rw [other r c hr hc e, other r1 c1 hr1 hc1 (by omega)]
      split_ifs <;> omega
  · intro h1 h2
    by_cases e : (r + c) % 2 = g
    · rw [(green r c hr hc).2 e, (green r1 c1 hr1 hc1).2 (by omega)]
    · rw [other r c hr hc e, other r1 c1 hr1 hc1 (by omega)]
      split_ifs <;> omega
  · intro h1 hne
    have e : (r + c) % 2 ≠ g := fun e => hne ((green r c hr hc).2 e)
    exact (green r1 c1 hr1 hc1).2 (by omega)
  · intro h1 hgr
    have e : (r + c) % 2 = g := (green r c hr hc).1 hgr
    have e1 : (r1 + c1) % 2 ≠ g := by omega
    have e2 : (r + 1 + c) % 2 ≠ g := by omega
    refine ⟨fun hh => e1 ((green r1 c1 hr1 hc1).1 hh), ?_, ?_⟩
    · intro h2
      rw [other r1 c1 hr1 hc1 e1, other (r + 1) c (by omega) hc e2]
      split_ifs <;> omega
    · intro h2
      rw [other r1 c1 hr1 hc1 e1, other (r + 1) c (by omega) hc e2]
      split_ifs <;> omega

/-! ## The green pass reads native samples only -/

theorem ahdGreen_eq (img : List Nat) (filters width height top left : Nat) (rgb : Buf) :
    ahdGreen img filters width height top left rgb
      = loop (fun row rgb =>
          loop (fun i rgb =>
            ahdGreenPixel img width top left row (ahdCol0 filters left row + 2 * i)
              (FC filters row (ahdCol0 filters left row)) rgb)
            ((min (left + 256) (width - 2) - ahdCol0 filters left row + 1) / 2) 0 rgb)
          (min (top + 256) (height - 2) - (if top < 2 then 2 else top))
          (if top < 2 then 2 else top) rgb := rfl

theorem ahdCol0_not_green {filters : Nat} (hb : IsBayer filters) (left row : Nat) :
    FC filters row (ahdCol0 filters left row) ≠ 1 ∧ 2 ≤ ahdCol0 filters left row := by
  unfold ahdCol0
  by_cases hg : FC filters row left = 1
  · simp only [hg, if_true]
    split_ifs
    · exact ⟨((hb.rel row left row ((left + 1 + 2 : Nat) : Int) (by omega) (by omega) (by omega)
        (by omega)).2.2.2.2 (by omega) hg).1, by omega⟩
    · exact ⟨((hb.rel row left row ((left + 1 : Nat) : Int) (by omega) (by omega) (by omega)
        (by omega)).2.2.2.2 (by omega) hg).1, by omega⟩
  · simp only [hg, if_false]
    split_ifs
    · refine ⟨?_, by omega⟩
      rw [(hb.rel row left row ((left + 0 + 2 : Nat) : Int) (by omega) (by omega) (by omega)
        (by omega)).2.1 (by omega) (by omega)]
      exact hg
    · exact ⟨hg, by omega⟩

/-- At a pixel that is not green, with two pixels on each side, the body of the
green pass gives the same result on two images with the same native
samples. -/
theorem ahdGreenPixel_natEq {filters width height : Nat} {a b : List Nat}
    (hb : IsBayer filters) (h : NatEq filters width height a b) (top left row col : Nat)
    (fc : Int) (rgb : Buf) (hr : 2 ≤ row) (hr1 : row + 2 < height) (hc : 2 ≤ col)
    (hc1 : col + 2 < width) (hfc : fc = (FC filters row col : Nat))
    (hne : FC filters row col ≠ 1) :
    ahdGreenPixel a width top left row col fc rgb
      = ahdGreenPixel b width top left row col fc rgb := by
  have G : ∀ k dr dc : Int, k = dr * width + dc → (dr + dc) % 2 = 1 →
      -2 ≤ dr → dr ≤ 2 → -2 ≤ dc → dc ≤ 2 →
      pixAt a width row col k 1 = pixAt b width row col k 1 := by
    intro k dr dc hk hp h1 h2 h3 h4
    refine h.pixAt_eq row col k 1 dr dc hk (by omega) (by omega) (by omega) (by omega) ?_
    rw [(hb.rel row col ((row : Int) + dr) ((col : Int) + dc) (by omega) (by omega) (by omega)
      (by omega)).2.2.2.1 (by omega) hne]
    rfl
  have S : ∀ k dr dc : Int, k = dr * width + dc → dr % 2 = 0 → dc % 2 = 0 →
      -2 ≤ dr → dr ≤ 2 → -2 ≤ dc → dc ≤ 2 →
      pixAt a width row col k fc = pixAt b width row col k fc := by
    intro k dr dc hk hp hq h1 h2 h3 h4
    refine h.pixAt_eq row col k fc dr dc hk (by omega) (by omega) (by omega) (by omega) ?_
    rw [(hb.rel row col ((row : Int) + dr) ((col : Int) + dc) (by omega) (by omega) (by omega)
      (by omega)).2.1 (by omega) (by omega)]
    exact hfc
  unfold ahdGreenPixel
  simp only []
  rw [G (-1) 0 (-1) (by ring) (by decide) (by decide) (by decide) (by decide) (by decide),
    G 1 0 1 (by ring) (by decide) (by decide) (by decide) (by decide) (by decide),
    G (-(width : Int)) (-1) 0 (by ring) (by decide) (by decide) (by decide) (by decide)
      (by decide),
    G (width : Int) 1 0 (by ring) (by decide) (by decide) (by decide) (by decide) (by decide),
    S 0 0 0 (by ring) (by decide) (by decide) (by decide) (by decide) (by decide) (by decide),
    S (-2) 0 (-2) (by ring) (by decide) (by decide) (by decide) (by decide) (by decide)
      (by decide),
    S 2 0 2 (by ring) (by decide) (by decide) (by decide) (by decide) (by decide) (by decide),
    S (-2 * (width : Int)) (-2) 0 (by ring) (by decide) (by decide) (by decide) (by decide)
      (by decide) (by decide),
    S (2 * (width : Int)) 2 0 (by ring) (by decide) (by decide) (by decide) (by decide)
      (by decide) (by decide)]

/-- The green pass of a tile gives the same result on two images with the
same native samples. -/
theorem ahdGreen_natEq {filters width height : Nat} {a b : List Nat}
    (hb : IsBayer filters) (h : NatEq filters width height a b) (top left : Nat) (rgb : Buf) :
    ahdGreen a filters width height top left rgb
      = ahdGreen b filters width height top left rgb := by
  rw [ahdGreen_eq, ahdGreen_eq]
  apply loop_congr
  intro row rgb1 hr0 hr1
  apply loop_congr
  intro i rgb2 _ hi
  obtain ⟨hng, h2⟩ := ahdCol0_not_green hb left row
  have hrow : 2 ≤ row := by
    split_ifs at hr0 <;> omega
  have hsame := (hb.rel row (ahdCol0 filters left row) row
    ((ahdCol0 filters left row + 2 * i : Nat) : Int) (by omega) (by omega) (by omega)
    (by omega)).2.1 (by omega) (by omega)
  exact ahdGreenPixel_natEq hb h top left row _ _ rgb2 hrow (by omega) (by omega)
    (by omega) (by rw [hsame]) (by rw [hsame]; exact hng)

/-! ## The red/blue pass reads native samples only -/

theorem ahdRBPixel_eq (img : List Nat) (filters width top left : Nat)
    (labOf : List Int → List Int) (d row col : Nat) (s : Buf × Buf) :
    ahdRBPixel img filters width top left labOf d row col s
      = (ahdRBrgb img filters width top left d row col s.1,
          loop (fun c lab =>
            bset lab (rgbIdx d ((row : Int) - top) ((col : Int) - left) 0 + c)
              ((labOf
                [(ahdRBrgb img filters width top left d row col s.1).get
                    (rgbIdx d ((row : Int) - top) ((col : Int) - left) 0),
                  (ahdRBrgb img filters width top left d row col s.1).get
                    (rgbIdx d ((row : Int) - top) ((col : Int) - left) 0 + 1),
                  (ahdRBrgb img filters width top left d row col s.1).get
                    (rgbIdx d ((row : Int) - top) ((col : Int) - left) 0 + 2),
                  (ahdRBrgb img filters width top left d row col s.1).get
                    (rgbIdx d ((row : Int) - top) ((col : Int) - left) 0 + 3)]).getD c 0))
            3 0 s.2) := rfl

theorem ahdRB_eq (img : List Nat) (filters width height top left : Nat)
    (labOf : List Int → List Int) (s : Buf × Buf) :
    ahdRB img filters width height top left labOf s
      = ahdRBPass img filters width height top left labOf 1
          (ahdRBPass img filters width height top left labOf 0 s) := by
  unfold ahdRB
  rw [loop_two]
  rfl

theorem ahdRBPass_eq_foldl (img : List Nat) (filters width height top left : Nat)
    (labOf : List Int → List Int) (d : Nat) (s : Buf × Buf) :
    ahdRBPass img filters width height top left labOf d s
      = (ahdRBPixels width height top left).foldl
          (fun s p => ahdRBPixel img filters width top left labOf d p.1 p.2 s) s :=
  loop_loop_pairs (fun row col s => ahdRBPixel img filters width top left labOf d row col s)
    _ _ _ _ s

theorem mem_ahdRBPixels (width height top left row col : Nat) :
    (row, col) ∈ ahdRBPixels width height top left
      ↔ (top + 1 ≤ row ∧ row < top + 255 ∧ row + 1 < height)
        ∧ (left + 1 ≤ col ∧ col < left + 255 ∧ col + 1 < width) := by
  unfold ahdRBPixels
  rw [mem_loopPairs]
  omega

/-- Three stores into consecutive entries of a scratch buffer. -/
theorem lab_stores (lab : Buf) (base : Int) (v : Nat → Int) (j : Int) :
    (loop (fun c lab => bset lab (base + c) (v c)) 3 0 lab).get j
      = if j = base + 2 then v 2 else if j = base + 1 then v 1
        else if j = base then v 0 else lab.get j := by
  rw [loop_three]
  simp only [bset_get, Nat.zero_add, Nat.cast_zero, add_zero, Nat.cast_one, Nat.cast_ofNat,
    Nat.reduceAdd]

/-- At a pixel with a neighbour on every side the stores into `rgb` of the
red/blue pass are the same on two images with the same native samples. -/
theorem ahdRBrgb_natEq {filters width height : Nat} {a b : List Nat}
    (hb : IsBayer filters) (h : NatEq filters width height a b) (top left d row col : Nat)
    (rgb : Buf) (hr : 1 ≤ row) (hr1 : row + 1 < height) (hc : 1 ≤ col)
    (hc1 : col + 1 < width) :
    ahdRBrgb a filters width top left d row col rgb
      = ahdRBrgb b filters width top left d row col rgb := by
  have N : ∀ k c dr dc : Int, k = dr * width + dc → -1 ≤ dr → dr ≤ 1 → -1 ≤ dc → dc ≤ 1 →
      c = (FC filters ((row : Int) + dr) ((col : Int) + dc) : Nat) →
      pixAt a width row col k c = pixAt b width row col k c := by
    intro k c dr dc hk h1 h2 h3 h4 hcol
    exact h.pixAt_eq row col k c dr dc hk (by omega) (by omega) (by omega) (by omega) hcol
  have R := fun (dr dc : Int) (h1 : 0 ≤ (row : Int) + dr) (h2 : 0 ≤ (col : Int) + dc) =>
    hb.rel row col ((row : Int) + dr) ((col : Int) + dc) (by omega) (by omega) h1 h2
  have hself : ((FC filters row col : Nat) : Int)
      = (FC filters ((row : Int) + 0) ((col : Int) + 0) : Nat) := by
    rw [add_zero, add_zero]
  have e0 := N 0 (FC filters row col : Nat) 0 0 (by ring) (by decide) (by decide) (by decide)
    (by decide) hself
  unfold ahdRBrgb
  simp only []
  by_cases hg : FC filters row col = 1
  · have hc0 : (2 : Int) - (FC filters row col : Nat) = 1 := by omega
    simp only [hc0, if_true]
    have e1 := N 0 1 0 0 (by ring) (by decide) (by decide) (by decide) (by decide)
      (by rw [← hself, hg]; rfl)
    have e2 := N (-1) (2 - (FC filters ((row : Int) + 1) col : Nat)) 0 (-1) (by ring)
      (by decide) (by decide) (by decide) (by decide) (by
        have := ((R 0 (-1) (by omega) (by omega)).2.2.2.2 (by omega) hg).2.2 (by omega)
        omega)
    have e3 := N 1 (2 - (FC filters ((row : Int) + 1) col : Nat)) 0 1 (by ring)
      (by decide) (by decide) (by decide) (by decide) (by
        have := ((R 0 1 (by omega) (by omega)).2.2.2.2 (by omega) hg).2.2 (by omega)
        omega)
    have e4 := N (-(width : Int)) (FC filters ((row : Int) + 1) col : Nat) (-1) 0 (by ring)
      (by decide) (by decide) (by decide) (by decide) (by
        have := ((R (-1) 0 (by omega) (by omega)).2.2.2.2 (by omega) hg).2.1 (by omega)
        omega)
    have e5 := N (width : Int) (FC filters ((row : Int) + 1) col : Nat) 1 0 (by ring)
      (by decide) (by decide) (by decide) (by decide) (by
        have := ((R 1 0 (by omega) (by omega)).2.2.2.2 (by omega) hg).2.1 (by omega)
        omega)
    rw [e0, e1, e2, e3, e4, e5]
  · have hc0 : ¬ ((2 : Int) - (FC filters row col : Nat) = 1) := by omega
    simp only [hc0, if_false]
    have e1 := N (-(width : Int) - 1) (2 - (FC filters row col : Nat)) (-1) (-1) (by ring)
      (by decide) (by decide) (by decide) (by decide) (by
        have := (R (-1) (-1) (by omega) (by omega)).2.2.1 (by omega) (by omega)
        omega)
    have e2 := N (-(width : Int) + 1) (2 - (FC filters row col : Nat)) (-1) 1 (by ring)
      (by decide) (by decide) (by decide) (by decide) (by
        have := (R (-1) 1 (by omega) (by omega)).2.2.1 (by omega) (by omega)
        omega)
    have e3 := N ((width : Int) - 1) (2 - (FC filters row col : Nat)) 1 (-1) (by ring)
      (by decide) (by decide) (by decide) (by decide) (by
        have := (R 1 (-1) (by omega) (by omega)).2.2.1 (by omega) (by omega)
        omega)
    have e4 := N ((width : Int) + 1) (2 - (FC filters row col : Nat)) 1 1 (by ring)
      (by decide) (by decide) (by decide) (by decide) (by
        have := (R 1 1 (by omega) (by omega)).2.2.1 (by omega) (by omega)
        omega)
    rw [e0, e1, e2, e3, e4]

/-- The red/blue pass of a tile gives the same result on two images with the
same native samples. -/
theorem ahdRB_natEq {filters width height : Nat} {a b : List Nat}
    (hb : IsBayer filters) (h : NatEq filters width height a b) (top left : Nat)
    (labOf : List Int → List Int) (s : Buf × Buf) :
    ahdRB a filters width height top left labOf s
      = ahdRB b filters width height top left labOf s := by
  unfold ahdRB
  apply loop_congr
  intro d s1 _ _
  apply loop_congr
  intro row s2 hr0 hr1
  apply loop_congr
  intro col s3 hc0 hc1
  rw [ahdRBPixel_eq, ahdRBPixel_eq,
    ahdRBrgb_natEq hb h top left d row col s3.1 (by omega) (by omega) (by omega) (by omega)]

/-- The body of the red/blue pass stores into the three planes of its own
entry of `rgb` only. -/
theorem ahdRBrgb_frame {filters : Nat} (hb : IsBayer filters) (img : List Nat)
    (width top left d row col : Nat) (rgb : Buf) (j : Int)
    (hj : ∀ c : Int, 0 ≤ c → c ≤ 2 →
      j ≠ rgbIdx d ((row : Int) - top) ((col : Int) - left) 0 + c) :
    (ahdRBrgb img filters width top left d row col rgb).get j = rgb.get j := by
  have h1 := (hb.rel row col row col (by omega) (by omega) (by omega) (by omega)).1
  have h2 := (hb.rel ((row : Int) + 1) col row col (by omega) (by omega) (by omega)
    (by omega)).1
  unfold ahdRBrgb
  simp only []
  by_cases hg : (2 : Int) - (FC filters row col : Nat) = 1
  · simp only [hg, if_true, bset_get]
    rw [if_neg (hj _ (by omega) (by omega)), if_neg (hj _ (by omega) (by omega)),
      if_neg (hj _ (by omega) (by omega))]
  · simp only [hg, if_false, bset_get]
    rw [if_neg (hj _ (by omega) (by omega)), if_neg (hj _ (by omega) (by omega))]

/-- The body of the red/blue pass leaves the native sample of the pixel in
its plane of `rgb`. -/
theorem ahdRBrgb_native (img : List Nat) (filters width top left d row col : Nat) (rgb : Buf) :
    (ahdRBrgb img filters width top left d row col rgb).get
        (rgbIdx d ((row : Int) - top) ((col : Int) - left) 0 + (FC filters row col : Nat))
      = pixAt img width row col 0 (FC filters row col : Nat) := by
  unfold ahdRBrgb
  simp only [bset_get, if_true]

/-- The body of the red/blue pass run on two states with the same `rgb`: the
same `rgb` results, and the same entry of `lab` wherever the entry was the
same before or is one of the three that the body stores. -/
theorem ahdRBPixel_rel (img : List Nat) (filters width top left : Nat)
    (labOf : List Int → List Int) (d row col : Nat) (s t : Buf × Buf) (hs : s.1 = t.1) (j : Int)
    (hj : s.2.get j = t.2.get j ∨ ∃ c : Int, 0 ≤ c ∧ c ≤ 2 ∧
      j = rgbIdx d ((row : Int) - top) ((col : Int) - left) 0 + c) :
    (ahdRBPixel img filters width top left labOf d row col s).1
        = (ahdRBPixel img filters width top left labOf d row col t).1 ∧
    (ahdRBPixel img filters width top left labOf d row col s).2.get j
        = (ahdRBPixel img filters width top left labOf d row col t).2.get j := by
  rw [ahdRBPixel_eq, ahdRBPixel_eq, hs]
  refine ⟨rfl, ?_⟩
  simp only []
  rw [lab_stores, lab_stores]
  split_ifs with h1 h2 h3
  · rfl
  · rfl
  · rfl
  · rcases hj with hj | ⟨c, hc0, hc2, hj⟩
    · exact hj
    · exfalso
      have : c = 0 ∨ c = 1 ∨ c = 2 := by omega
      rcases this with rfl | rfl | rfl
      · exact h3 (by rw [hj, add_zero])
      · exact h2 hj
      · exact h1 hj

theorem ahdRBPixel_fst (img : List Nat) (filters width top left : Nat)
    (labOf : List Int → List Int) (d row col : Nat) (s : Buf × Buf) :
    (ahdRBPixel img filters width top left labOf d row col s).1
      = ahdRBrgb img filters width top left d row col s.1 := rfl

/-- One direction of the red/blue pass run on two states with the same `rgb`:
the same `rgb` results, and the same entry of `lab` wherever the entry was
the same before or belongs to a pixel of the pass. -/
theorem ahdRBPass_rel (img : List Nat) (filters width height top left : Nat)
    (labOf : List Int → List Int) (d : Nat) (s t : Buf × Buf) (hs : s.1 = t.1) :
    (ahdRBPass img filters width height top left labOf d s).1
        = (ahdRBPass img filters width height top left labOf d t).1 ∧
    ∀ j : Int, (s.2.get j = t.2.get j ∨ ∃ (row col : Nat) (c : Int),
        (row, col) ∈ ahdRBPixels width height top left ∧ 0 ≤ c ∧ c ≤ 2 ∧
        j = rgbIdx d ((row : Int) - top) ((col : Int) - left) 0 + c) →
      (ahdRBPass img filters width height top left labOf d s).2.get j
        = (ahdRBPass img filters width height top left labOf d t).2.get j := by
  rw [ahdRBPass_eq_foldl, ahdRBPass_eq_foldl]
  have key := foldl_rel
    (fun (pre : List (Nat × Nat)) (s1 t1 : Buf × Buf) => s1.1 = t1.1 ∧
      ∀ j : Int, (s.2.get j = t.2.get j ∨ ∃ (row col : Nat) (c : Int),
          (row, col) ∈ pre ∧ 0 ≤ c ∧ c ≤ 2 ∧
          j = rgbIdx d ((row : Int) - top) ((col : Int) - left) 0 + c) →
        s1.2.get j = t1.2.get j)
    (fun p s => ahdRBPixel img filters width top left labOf d p.1 p.2 s)
    (fun p s => ahdRBPixel img filters width top left labOf d p.1 p.2 s)
    (ahdRBPixels width height top left) s t
    ⟨hs, fun j H => H.elim id (fun ⟨_, _, _, hm, _⟩ => absurd hm (List.not_mem_nil _))⟩
    (by
      rintro pre ⟨row, col⟩ s1 t1 _ ⟨h1, h2⟩
      refine ⟨?_, fun j H => ?_⟩
      · rw [ahdRBPixel_fst, ahdRBPixel_fst, h1]
      · by_cases hw : ∃ c : Int, 0 ≤ c ∧ c ≤ 2 ∧
            j = rgbIdx d ((row : Int) - top) ((col : Int) - left) 0 + c
        · exact (ahdRBPixel_rel img filters width top left labOf d row col s1 t1 h1 j
            (Or.inr hw)).2
        · refine (ahdRBPixel_rel img filters width top left labOf d row col s1 t1 h1 j
            (Or.inl (h2 j ?_))).2
          rcases H with H | ⟨r, c, k, hm, hk0, hk2, hk⟩
          · exact Or.inl H
          · rcases List.mem_append.1 hm with hm | hm
            · exact Or.inr ⟨r, c, k, hm, hk0, hk2, hk⟩
            · rw [List.mem_singleton, Prod.mk.injEq] at hm
              exfalso
              apply hw
              rw [← hm.1, ← hm.2]
              exact ⟨k, hk0, hk2, hk⟩)
  exact key

/-- The red/blue pass of a tile run on the same `rgb` and on two different
buffers `lab`: the same `rgb` results, and the same `lab` in the entries of the
pixels of the pass, for both directions. -/
theorem ahdRB_lab (img : List Nat) (filters width height top left : Nat)
    (labOf : List Int → List Int) (rgb lab1 lab2 : Buf) :
    (ahdRB img filters width height top left labOf (rgb, lab1)).1
        = (ahdRB img filters width height top left labOf (rgb, lab2)).1 ∧
    ∀ (d row col : Nat) (c : Int), d < 2 → (row, col) ∈ ahdRBPixels width height top left →
      0 ≤ c → c ≤ 2 →
      (ahdRB img filters width height top left labOf (rgb, lab1)).2.get
          (rgbIdx d ((row : Int) - top) ((col : Int) - left) 0 + c)
        = (ahdRB img filters width height top left labOf (rgb, lab2)).2.get
          (rgbIdx d ((row : Int) - top) ((col : Int) - left) 0 + c) := by
  rw [ahdRB_eq, ahdRB_eq]
  obtain ⟨p0, q0⟩ := ahdRBPass_rel img filters width height top left labOf 0
    (rgb, lab1) (rgb, lab2) rfl
  obtain ⟨p1, q1⟩ := ahdRBPass_rel img filters width height top left labOf 1 _ _ p0
  refine ⟨p1, ?_⟩
  intro d row col c hd hm hc0 hc2
  have hd01 : d = 0 ∨ d = 1 := by omega
  rcases hd01 with rfl | rfl
  · exact q1 _ (Or.inl (q0 _ (Or.inr ⟨row, col, c, hm, hc0, hc2, rfl⟩)))
  · exact q1 _ (Or.inr ⟨row, col, c, hm, hc0, hc2, rfl⟩)

/-- One direction of the red/blue pass leaves the entries of `rgb` of the
other direction. -/
theorem ahdRBPass_keep {filters : Nat} (hb : IsBayer filters) (img : List Nat)
    (width height top left : Nat) (labOf : List Int → List Int) (d d0 row0 col0 : Nat)
    (c0 : Int) (s : Buf × Buf) (hne : d ≠ d0)
    (hm : (row0, col0) ∈ ahdRBPixels width height top left) (h0 : 0 ≤ c0) (h2 : c0 ≤ 2) :
    (ahdRBPass img filters width height top left labOf d s).1.get
        (rgbIdx d0 ((row0 : Int) - top) ((col0 : Int) - left) 0 + c0)
      = s.1.get (rgbIdx d0 ((row0 : Int) - top) ((col0 : Int) - left) 0 + c0) := by
  rw [ahdRBPass_eq_foldl]
  rw [mem_ahdRBPixels] at hm
  refine foldl_inv
    (fun (_ : List (Nat × Nat)) (s1 : Buf × Buf) =>
      s1.1.get (rgbIdx d0 ((row0 : Int) - top) ((col0 : Int) - left) 0 + c0)
        = s.1.get (rgbIdx d0 ((row0 : Int) - top) ((col0 : Int) - left) 0 + c0))
    (fun p s => ahdRBPixel img filters width top left labOf d p.1 p.2 s)
    (ahdRBPixels width height top left) s rfl ?_
  rintro pre ⟨row, col⟩ s1 hx hP
  rw [mem_ahdRBPixels] at hx
  simp only []
  rw [ahdRBPixel_fst, ahdRBrgb_frame hb]
  · exact hP
  · intro c hc0 hc2
    unfold rgbIdx TS
    omega

/-- One direction of the red/blue pass leaves in `rgb`, for each pixel of the
pass, the native sample of the pixel in its plane. -/
theorem ahdRBPass_set {filters : Nat} (hb : IsBayer filters) (img : List Nat)
    (width height top left : Nat) (labOf : List Int → List Int) (d row0 col0 : Nat)
    (s : Buf × Buf) (hm : (row0, col0) ∈ ahdRBPixels width height top left) :
    (ahdRBPass img filters width height top left labOf d s).1.get
        (rgbIdx d ((row0 : Int) - top) ((col0 : Int) - left) 0 + (FC filters row0 col0 : Nat))
      = pixAt img width row0 col0 0 (FC filters row0 col0 : Nat) := by
  rw [ahdRBPass_eq_foldl]
  have hle := (hb.rel row0 col0 row0 col0 (by omega) (by omega) (by omega) (by omega)).1
  have key := foldl_inv
    (fun (pre : List (Nat × Nat)) (s1 : Buf × Buf) => (row0, col0) ∈ pre →
      s1.1.get (rgbIdx d ((row0 : Int) - top) ((col0 : Int) - left) 0
          + (FC filters row0 col0 : Nat))
        = pixAt img width row0 col0 0 (FC filters row0 col0 : Nat))
    (fun p s => ahdRBPixel img filters width top left labOf d p.1 p.2 s)
    (ahdRBPixels width height top left) s (fun h => absurd h (List.not_mem_nil _)) (by
      rintro pre ⟨row, col⟩ s1 hx hP hin
      rw [mem_ahdRBPixels] at hx
      simp only []
      rw [ahdRBPixel_fst]
      by_cases he : row = row0 ∧ col = col0
      · rw [he.1, he.2]
        exact ahdRBrgb_native img filters width top left d row0 col0 s1.1
      · rw [ahdRBrgb_frame hb]
        · apply hP
          rcases List.mem_append.1 hin with hin | hin
          · exact hin
          · rw [List.mem_singleton, Prod.mk.injEq] at hin
            exact absurd ⟨hin.1.symm, hin.2.symm⟩ he
        · intro c hc0 hc2
          rw [mem_ahdRBPixels] at hm
          unfold rgbIdx TS
          omega)
  exact key hm

/-- After the red/blue pass of a tile both candidates hold, for each pixel of
the pass, the native sample of the pixel in its plane. -/
theorem ahdRB_native {filters : Nat} (hb : IsBayer filters) (img : List Nat)
    (width height top left : Nat) (labOf : List Int → List Int) (d row col : Nat)
    (s : Buf × Buf) (hd : d < 2) (hm : (row, col) ∈ ahdRBPixels width height top left) :
    (ahdRB img filters width height top left labOf s).1.get
        (rgbIdx d ((row : Int) - top) ((col : Int) - left) 0 + (FC filters row col : Nat))
      = pixAt img width row col 0 (FC filters row col : Nat) := by
  have hle := (hb.rel row col row col (by omega) (by omega) (by omega) (by omega)).1
  rw [ahdRB_eq]
  have hd01 : d = 0 ∨ d = 1 := by omega
  rcases hd01 with rfl | rfl
  · rw [ahdRBPass_keep hb img width height top left labOf 1 0 row col _ _ (by decide) hm
      (by omega) (by omega)]
    exact ahdRBPass_set hb img width height top left labOf 0 row col s hm
  · exact ahdRBPass_set hb img width height top left labOf 1 row col _ hm

/-! ## The homogeneity counters of the pixels that are combined -/

/-- At a tile position whose four neighbours belong to the red/blue pass, the
differences `ldiff` and `abdiff` are the same for two buffers `lab` that agree
on the pixels of that pass. -/
theorem LabAgree.diffs {width height top left : Nat} {lab1 lab2 : Buf}
    (h : LabAgree width height top left lab1 lab2) (row col d i : Nat)
    (hr : top + 2 ≤ row) (hr1 : row < top + 254) (hr2 : row + 2 < height)
    (hc : left + 2 ≤ col) (hc1 : col < left + 254) (hc2 : col + 2 < width)
    (hd : d < 2) (hi : i < 4) :
    ahdLdiff lab1 ((row : Int) - top) ((col : Int) - left) d i
        = ahdLdiff lab2 ((row : Int) - top) ((col : Int) - left) d i ∧
    ahdAbdiff lab1 ((row : Int) - top) ((col : Int) - left) d i
        = ahdAbdiff lab2 ((row : Int) - top) ((col : Int) - left) d i := by
  have A : ∀ (δ c : Int) (row1 col1 : Nat), top + 1 ≤ row1 → row1 < top + 255 →
      row1 + 1 < height → left + 1 ≤ col1 → col1 < left + 255 → col1 + 1 < width →
      ((row1 : Int) - row) * 256 + ((col1 : Int) - col) = δ → 0 ≤ c → c ≤ 2 →
      lab1.get (rgbIdx d ((row : Int) - top) ((col : Int) - left + δ) c)
        = lab2.get (rgbIdx d ((row : Int) - top) ((col : Int) - left + δ) c) := by
    intro δ c row1 col1 h1 h2 h3 h4 h5 h6 hδ hc0 hc2
    have e : rgbIdx d ((row : Int) - top) ((col : Int) - left + δ) c
        = rgbIdx d ((row1 : Int) - top) ((col1 : Int) - left) 0 + c := by
      unfold rgbIdx TS
      omega
    rw [e]
    exact h d row1 col1 c hd ((mem_ahdRBPixels width height top left row1 col1).2
      ⟨⟨h1, h2, h3⟩, h4, h5, h6⟩) hc0 hc2
  have A0 : ∀ c : Int, 0 ≤ c → c ≤ 2 →
      lab1.get (rgbIdx d ((row : Int) - top) ((col : Int) - left) c)
        = lab2.get (rgbIdx d ((row : Int) - top) ((col : Int) - left) c) := by
    intro c hc0 hc2
    have := A 0 c row col (by omega) (by omega) (by omega) (by omega) (by omega) (by omega)
      (by omega) hc0 hc2
    rw [add_zero] at this
    exact this
  have hdir : ∀ c : Int, 0 ≤ c → c ≤ 2 →
      lab1.get (rgbIdx d ((row : Int) - top) ((col : Int) - left + dir.getD i 0) c)
        = lab2.get (rgbIdx d ((row : Int) - top) ((col : Int) - left + dir.getD i 0) c) := by
    intro c hc0 hc2
    have hi4 : i = 0 ∨ i = 1 ∨ i = 2 ∨ i = 3 := by omega
    rcases hi4 with rfl | rfl | rfl | rfl
    · exact A (-1) c row (col - 1) (by omega) (by omega) (by omega) (by omega) (by omega)
        (by omega) (by omega) hc0 hc2
    · exact A 1 c row (col + 1) (by omega) (by omega) (by omega) (by omega) (by omega)
        (by omega) (by omega) hc0 hc2
    · exact A (-256) c (row - 1) col (by omega) (by omega) (by omega) (by omega) (by omega)
        (by omega) (by omega) hc0 hc2
    · exact A 256 c (row + 1) col (by omega) (by omega) (by omega) (by omega) (by omega)
        (by omega) (by omega) hc0 hc2
  unfold ahdLdiff ahdAbdiff
  rw [A0 0 (by decide) (by decide), A0 1 (by decide) (by decide), A0 2 (by decide) (by decide),
    hdir 0 (by decide) (by decide), hdir 1 (by decide) (by decide),
    hdir 2 (by decide) (by decide)]
  exact ⟨rfl, rfl⟩

/-- At such a tile position the tests of the counting loops are the same. -/
theorem LabAgree.tests {width height top left : Nat} {lab1 lab2 : Buf}
    (h : LabAgree width height top left lab1 lab2) (row col d i : Nat)
    (hr : top + 2 ≤ row) (hr1 : row < top + 254) (hr2 : row + 2 < height)
    (hc : left + 2 ≤ col) (hc1 : col < left + 254) (hc2 : col + 2 < width)
    (hd : d < 2) (hi : i < 4) :
    ahdHomoTest lab1 ((row : Int) - top) ((col : Int) - left) d i
      = ahdHomoTest lab2 ((row : Int) - top) ((col : Int) - left) d i := by
  have D := fun d i hd hi => h.diffs row col d i hr hr1 hr2 hc hc1 hc2 hd hi
  unfold ahdHomoTest ahdLeps
  rw [(D d i hd hi).1, (D d i hd hi).2, (D 0 0 (by decide) (by decide)).1,
    (D 0 1 (by decide) (by decide)).1, (D 1 2 (by decide) (by decide)).1,
    (D 1 3 (by decide) (by decide)).1, (D 0 0 (by decide) (by decide)).2,
    (D 0 1 (by decide) (by decide)).2, (D 1 2 (by decide) (by decide)).2,
    (D 1 3 (by decide) (by decide)).2]

/-- The counting loops change the two counters of their tile position only. -/
theorem ahdCountFresh_frame (lab : Buf) (tr tc : Int) (h : Buf) (j : Int)
    (h0 : j ≠ homoIdx ((0 : Nat) : Int) tr tc) (h1 : j ≠ homoIdx ((0 + 1 : Nat) : Int) tr tc) :
    (ahdCountFresh lab tr tc h).get j = h.get j := by
  obtain ⟨m0, m1, _, _, hg⟩ := homo_loops (fun d i => ahdHomoTest lab tr tc d i = true) tr tc h
  unfold ahdCountFresh
  rw [hg j, if_neg h0, if_neg h1]

/-- The counting loops with the same tests, run on two buffers with the same
counter, leave the same counter. -/
theorem ahdCountFresh_congr (lab1 lab2 : Buf) (tr tc : Int) (h1 h2 : Buf) (j : Int)
    (ht : ∀ d i, d < 2 → i < 4 → ahdHomoTest lab1 tr tc d i = ahdHomoTest lab2 tr tc d i)
    (hj : h1.get j = h2.get j) :
    (ahdCountFresh lab1 tr tc h1).get j = (ahdCountFresh lab2 tr tc h2).get j := by
  unfold ahdCountFresh
  refine loop_rel_inv (fun (a b : Buf) => a.get j = b.get j) _ _ 2 0 h1 h2 hj ?_
  intro d a b _ hd hab
  refine loop_rel_inv (fun (a b : Buf) => a.get j = b.get j) _ _ 4 0 a b hab ?_
  intro i a1 b1 _ hi hab1
  beta_reduce
  rw [ht d i (by omega) (by omega)]
  split_ifs
  · rw [bset_get, bset_get]
    split_ifs with e
    · rw [← e, hab1]
    · exact hab1
  · exact hab1

/-- The homogeneity pass of a tile run on two buffers `lab` that agree on the
pixels of the red/blue pass, from any two contents of `abdiff`: the same
counters at every position whose four neighbours belong to the red/blue
pass. -/
theorem ahdHomo_agree {width height top left : Nat} {lab1 lab2 : Buf}
    (h : LabAgree width height top left lab1 lab2) (ab1 ab2 : List Int)
    (h1 : ab1.length = 8) (h2 : ab2.length = 8) (d row col : Nat) (hd : d < 2)
    (hr : top + 2 ≤ row) (hr1 : row < top + 254) (hr2 : row + 2 < height)
    (hc : left + 2 ≤ col) (hc1 : col < left + 254) (hc2 : col + 2 < width) :
    (ahdHomo lab1 width height top left ab1).1.get
        (homoIdx d ((row : Int) - top) ((col : Int) - left))
      = (ahdHomo lab2 width height top left ab2).1.get
        (homoIdx d ((row : Int) - top) ((col : Int) - left)) := by
  unfold ahdHomo
  have key := loop_rel_inv
    (fun (s t : Buf × List Int) =>
      s.1.get (homoIdx d ((row : Int) - top) ((col : Int) - left))
        = t.1.get (homoIdx d ((row : Int) - top) ((col : Int) - left))
      ∧ s.2.length = 8 ∧ t.2.length = 8)
    (fun y s =>
      loop (fun x s => ahdHomoPixel lab1 ((y : Int) - top) ((x : Int) - left) s)
        (min (left + 254) width - (left + 2)) (left + 2) s)
    (fun y s =>
      loop (fun x s => ahdHomoPixel lab2 ((y : Int) - top) ((x : Int) - left) s)
        (min (left + 254) width - (left + 2)) (left + 2) s)
    (min (top + 254) height - (top + 2)) (top + 2) (bzero, ab1) (bzero, ab2) ⟨rfl, h1, h2⟩
    (by
      intro y s t hy0 hy1 hR
      refine loop_rel_inv
        (fun (s t : Buf × List Int) =>
          s.1.get (homoIdx d ((row : Int) - top) ((col : Int) - left))
            = t.1.get (homoIdx d ((row : Int) - top) ((col : Int) - left))
          ∧ s.2.length = 8 ∧ t.2.length = 8) _ _ _ _ s t hR ?_
      intro x s1 t1 hx0 hx1 ⟨e, l1, l2⟩
      rw [ahdHomoPixel_eq, ahdHomoPixel_eq]
      refine ⟨?_, (ahdAbdiffs_spec lab1 _ _ s1.2 l1).1, (ahdAbdiffs_spec lab2 _ _ t1.2 l2).1⟩
      simp only []
      rw [ahdCount_fresh lab1 _ _ s1.2 l1, ahdCount_fresh lab2 _ _ t1.2 l2]
      by_cases hp : y = row ∧ x = col
      · rw [hp.1, hp.2]
        exact ahdCountFresh_congr lab1 lab2 _ _ s1.1 t1.1 _
          (fun d i hd hi => h.tests row col d i hr hr1 hr2 hc hc1 hc2 hd hi) e
      · have n0 : homoIdx d ((row : Int) - top) ((col : Int) - left)
            ≠ homoIdx ((0 : Nat) : Int) ((y : Int) - top) ((x : Int) - left) := by
          intro e0
          have := homoIdx_inj top left d row col 0 y x hd (by decide) hr hr1 hc hc1 (by omega)
            (by omega) (by omega) (by omega) e0
          exact hp ⟨this.2.1.symm, this.2.2.symm⟩
        have n1 : homoIdx d ((row : Int) - top) ((col : Int) - left)
            ≠ homoIdx ((0 + 1 : Nat) : Int) ((y : Int) - top) ((x : Int) - left) := by
          intro e0
          have := homoIdx_inj top left d row col (0 + 1) y x hd (by decide) hr hr1 hc hc1
            (by omega) (by omega) (by omega) (by omega) e0
          exact hp ⟨this.2.1.symm, this.2.2.symm⟩
        rw [ahdCountFresh_frame lab1 _ _ _ _ n0 n1, ahdCountFresh_frame lab2 _ _ _ _ n0 n1]
        exact e)
  exact key.1

/-- The homogeneity pass leaves 8 entries in `abdiff`. -/
theorem ahdHomo_abdiff_length (lab : Buf) (width height top left : Nat) (ab : List Int)
    (h : ab.length = 8) : (ahdHomo lab width height top left ab).2.length = 8 := by
  unfold ahdHomo
  refine loop_inv (fun _ (s : Buf × List Int) => s.2.length = 8) _ _ _ _ h ?_
  intro y s _ _ hs
  refine loop_inv (fun _ (s : Buf × List Int) => s.2.length = 8) _ _ _ _ hs ?_
  intro x s1 _ _ hs1
  rw [ahdHomoPixel_eq]
  exact (ahdAbdiffs_spec lab _ _ s1.2 hs1).1

/-- The sums `hm[d]` of a pixel of the combination pass are the same for two
buffers `homo` with the same counters at the positions whose four neighbours
belong to the red/blue pass. -/
theorem ahdHm_agree (width height top left : Nat) (homo1 homo2 : Buf)
    (h : ∀ d row col : Nat, d < 2 → top + 2 ≤ row → row < top + 254 → row + 2 < height →
      left + 2 ≤ col → col < left + 254 → col + 2 < width →
      homo1.get (homoIdx d ((row : Int) - top) ((col : Int) - left))
        = homo2.get (homoIdx d ((row : Int) - top) ((col : Int) - left)))
    (d row col : Nat) (hd : d < 2) (hr : top + 3 ≤ row) (hr1 : row < top + 253)
    (hr2 : row + 3 < height) (hc : left + 3 ≤ col) (hc1 : col < left + 253)
    (hc2 : col + 3 < width) :
    ahdHm homo1 d ((row : Int) - top) ((col : Int) - left)
      = ahdHm homo2 d ((row : Int) - top) ((col : Int) - left) := by
  rw [ahdHm_eq, ahdHm_eq]
  refine Finset.sum_congr rfl (fun i hi => Finset.sum_congr rfl (fun j hj => ?_))
  rw [Finset.mem_range] at hi hj
  have e : homoIdx d ((row : Int) - top - 1 + i) ((col : Int) - left - 1 + j)
      = homoIdx d (((row - 1 + i : Nat) : Int) - top) (((col - 1 + j : Nat) : Int) - left) := by
    unfold homoIdx TS
    omega
  rw [e]
  exact h d (row - 1 + i) (col - 1 + j) hd (by omega) (by omega) (by omega) (by omega)
    (by omega) (by omega)

/-! ## One tile of AHD on a Bayer mosaic -/

theorem ahdCombinePixel_length (rgb homo : Buf) (width top left row col : Nat)
    (img : List Nat) :
    (ahdCombinePixel rgb homo width top left row col img).length = img.length := by
  unfold ahdCombinePixel
  simp only []
  split_ifs <;> rw [loop_three, wr_length, wr_length, wr_length]

theorem ahdCombine_length (rgb homo : Buf) (width height top left : Nat) (img : List Nat) :
    (ahdCombine rgb homo width height top left img).length = img.length := by
  unfold ahdCombine
  refine loop_inv (fun _ (im : List Nat) => im.length = img.length) _ _ _ img rfl ?_
  intro r s _ _ hs
  refine loop_inv (fun _ (im : List Nat) => im.length = img.length) _ _ _ s hs ?_
  intro c t _ _ ht
  rw [ahdCombinePixel_length]
  exact ht

/-- The combination pass of a tile changes no slot 3 and no pixel outside its
range. -/
theorem ahdCombine_other (rgb homo : Buf) (width height top left : Nat) (img : List Nat)
    (y x k : Nat) (hx : x < width) (hk : k < 4)
    (hout : k = 3 ∨ ¬ ((top + 3 ≤ y ∧ y < top + 253 ∧ y + 3 < height)
      ∧ (left + 3 ≤ x ∧ x < left + 253 ∧ x + 3 < width))) :
    rd (ahdCombine rgb homo width height top left img) (((y : Int) * width + x) * 4 + k)
      = rd img (((y : Int) * width + x) * 4 + k) := by
  unfold ahdCombine
  refine loop_inv (fun _ (im : List Nat) =>
    rd im (((y : Int) * width + x) * 4 + k) = rd img (((y : Int) * width + x) * 4 + k))
    _ _ _ img rfl ?_
  intro r s hr0 hr1 hP
  refine loop_inv (fun _ (im : List Nat) =>
    rd im (((y : Int) * width + x) * 4 + k) = rd img (((y : Int) * width + x) * 4 + k))
    _ _ _ s hP ?_
  intro c t hc0 hc1 hQ
  rw [ahdCombinePixel_frame]
  · exact hQ
  · intro j hj
    rcases hout with h3 | hout
    · rw [h3]
      push_cast
      omega
    · apply pixel_slot_ne width r c y x k j (by omega) hx hk (by omega)
      rintro ⟨e1, e2⟩
      apply hout
      omega

theorem ahdTile_img (filters width height : Nat) (labOf : List Int → List Int)
    (top left : Nat) (s : AhdState) :
    (ahdTile filters width height labOf top left s).img
      = ahdCombine
          (ahdRB s.img filters width height top left labOf
            (ahdGreen s.img filters width height top left bzero, s.lab)).1
          (ahdHomo
            (ahdRB s.img filters width height top left labOf
              (ahdGreen s.img filters width height top left bzero, s.lab)).2
            width height top left s.abdiff).1
          width height top left s.img := rfl

theorem ahdTile_abdiff (filters width height : Nat) (labOf : List Int → List Int)
    (top left : Nat) (s : AhdState) (h : s.abdiff.length = 8) :
    (ahdTile filters width height labOf top left s).abdiff.length = 8 :=
  ahdHomo_abdiff_length _ width height top left s.abdiff h

/-- What a tile writes depends on the native samples only: run on two states
whose images have the same native samples, whatever their other samples,
their buffers `lab` and their arrays `abdiff`, the tile leaves the same values
in the planes 0..2 of every pixel of its combination pass. -/
theorem ahdTile_natEq {filters width height : Nat} (hb : IsBayer filters)
    (labOf : List Int → List Int) (top left : Nat) (s1 s2 : AhdState)
    (h : NatEq filters width height s1.img s2.img) (l1 : s1.abdiff.length = 8)
    (l2 : s2.abdiff.length = 8) (row col c : Nat)
    (hr : top + 3 ≤ row ∧ row < top + 253 ∧ row + 3 < height)
    (hc : left + 3 ≤ col ∧ col < left + 253 ∧ col + 3 < width) (hc3 : c < 3) :
    rd (ahdTile filters width height labOf top left s1).img
        (((row : Int) * width + col) * 4 + c)
      = rd (ahdTile filters width height labOf top left s2).img
        (((row : Int) * width + col) * 4 + c) := by
  rw [ahdTile_img, ahdTile_img, ahdGreen_natEq hb h top left bzero,
    ahdRB_natEq hb h top left labOf]
  obtain ⟨e1, e2⟩ := ahdRB_lab s2.img filters width height top left labOf
    (ahdGreen s2.img filters width height top left bzero) s1.lab s2.lab
  have c1 := ahdCombine_spec
    (ahdRB s2.img filters width height top left labOf
      (ahdGreen s2.img filters width height top left bzero, s1.lab)).1
    (ahdHomo (ahdRB s2.img filters width height top left labOf
      (ahdGreen s2.img filters width height top left bzero, s1.lab)).2
      width height top left s1.abdiff).1 width height top left s1.img h.1 row col
    ⟨hr.1, hr.2.1, hr.2.2, hc.1, hc.2.1, hc.2.2⟩ (by omega) c hc3
  have c2 := ahdCombine_spec
    (ahdRB s2.img filters width height top left labOf
      (ahdGreen s2.img filters width height top left bzero, s2.lab)).1
    (ahdHomo (ahdRB s2.img filters width height top left labOf
      (ahdGreen s2.img filters width height top left bzero, s2.lab)).2
      width height top left s2.abdiff).1 width height top left s2.img h.2.1 row col
    ⟨hr.1, hr.2.1, hr.2.2, hc.1, hc.2.1, hc.2.2⟩ (by omega) c hc3
  rw [c1, c2, e1]
  beta_reduce
  have la : LabAgree width height top left
      (ahdRB s2.img filters width height top left labOf
        (ahdGreen s2.img filters width height top left bzero, s1.lab)).2
      (ahdRB s2.img filters width height top left labOf
        (ahdGreen s2.img filters width height top left bzero, s2.lab)).2 := e2
  have hm := fun d hd => ahdHm_agree width height top left _ _
    (fun d y x hd h1 h2 h3 h4 h5 h6 =>
      ahdHomo_agree la s1.abdiff s2.abdiff l1 l2 d y x hd h1 h2 h3 h4 h5 h6)
    d row col hd hr.1 hr.2.1 hr.2.2 hc.1 hc.2.1 hc.2.2
  unfold ahdChoice
  rw [hm 0 (by decide), hm 1 (by decide)]

/-- A tile leaves the native sample of every pixel of its combination pass,
if that sample is a `ushort` value. -/
theorem ahdTile_native {filters width height : Nat} (hb : IsBayer filters)
    (labOf : List Int → List Int) (top left : Nat) (s : AhdState)
    (hlen : s.img.length = height * width * 4) (row col : Nat)
    (hr : top + 3 ≤ row ∧ row < top + 253 ∧ row + 3 < height)
    (hc : left + 3 ≤ col ∧ col < left + 253 ∧ col + 3 < width)
    (hus : rd s.img (((row : Int) * width + col) * 4 + FC filters row col) < 65536) :
    rd (ahdTile filters width height labOf top left s).img
        (((row : Int) * width + col) * 4 + FC filters row col)
      = rd s.img (((row : Int) * width + col) * 4 + FC filters row col) := by
  have hle := (hb.rel row col row col (by omega) (by omega) (by omega) (by omega)).1
  have hm : (row, col) ∈ ahdRBPixels width height top left := by
    rw [mem_ahdRBPixels]
    omega
  have K : ∀ d : Nat, d < 2 →
      (ahdRB s.img filters width height top left labOf
        (ahdGreen s.img filters width height top left bzero, s.lab)).1.get
          (rgbIdx d ((row : Int) - top) ((col : Int) - left) (FC filters row col : Nat))
        = (rd s.img (((row : Int) * width + col) * 4 + FC filters row col) : Nat) := by
    intro d hd
    have := ahdRB_native hb s.img width height top left labOf d row col
      (ahdGreen s.img filters width height top left bzero, s.lab) hd hm
    have e : rgbIdx d ((row : Int) - top) ((col : Int) - left) (FC filters row col : Nat)
        = rgbIdx d ((row : Int) - top) ((col : Int) - left) 0 + (FC filters row col : Nat) := by
      unfold rgbIdx
      ring
    rw [e, this]
    unfold pixAt
    rw [add_zero]
  have k0 := K 0 (by decide)
  have k1 := K 1 (by decide)
  rw [Nat.cast_zero] at k0
  rw [Nat.cast_one] at k1
  rw [ahdTile_img]
  have c1 := ahdCombine_spec
    (ahdRB s.img filters width height top left labOf
      (ahdGreen s.img filters width height top left bzero, s.lab)).1
    (ahdHomo (ahdRB s.img filters width height top left labOf
      (ahdGreen s.img filters width height top left bzero, s.lab)).2
      width height top left s.abdiff).1 width height top left s.img hlen row col
    ⟨hr.1, hr.2.1, hr.2.2, hc.1, hc.2.1, hc.2.2⟩ (by omega) (FC filters row col) (by omega)
  rw [c1]
  beta_reduce
  unfold ahdChoice
  split_ifs
  · rw [k1]
    omega
  · rw [k0]
    omega
  · rw [k0, k1]
    omega

/-! ## All tiles of AHD, in any order -/

/-- A pixel is in the combination pass of a tile exactly when it is at least
3 pixels from every edge and the tile is the one of the pixel. -/
theorem ahdTileOf_iff (width height i j row col : Nat) :
    ((250 * i + 3 ≤ row ∧ row < 250 * i + 253 ∧ row + 3 < height)
        ∧ (250 * j + 3 ≤ col ∧ col < 250 * j + 253 ∧ col + 3 < width))
      ↔ ((3 ≤ row ∧ row + 3 < height ∧ 3 ≤ col ∧ col + 3 < width)
        ∧ ahdTileOf row col = (250 * i, 250 * j)) := by
  unfold ahdTileOf
  rw [Prod.mk.injEq]
  omega

theorem AhdInv.init (filters width height : Nat) (labOf : List Int → List Int)
    (img1 : List Nat) (lab : Buf) (ab : List Int) (hlen : img1.length = height * width * 4)
    (hab : ab.length = 8) :
    AhdInv filters width height labOf img1 [] { img := img1, lab := lab, abdiff := ab } :=
  ⟨⟨hlen, hlen, fun _ _ _ _ => rfl⟩, hab, fun _ _ _ _ _ _ =>
    ⟨fun h => absurd h.2.2 (List.not_mem_nil _), fun _ => rfl⟩⟩

/-- One more tile keeps the state of `AhdInv`. -/
theorem AhdInv.tile {filters width height : Nat} {labOf : List Int → List Int}
    {img1 : List Nat} {pre : List (Nat × Nat)} {s : AhdState} (hb : IsBayer filters)
    (inv : AhdInv filters width height labOf img1 pre s)
    (hus : ∀ row col : Nat, row < height → col < width →
      rd img1 (((row : Int) * width + col) * 4 + FC filters row col) < 65536)
    (t : Nat × Nat) (ht : t ∈ ahdTiles height width) :
    AhdInv filters width height labOf img1 (pre ++ [t])
      (ahdTile filters width height labOf t.1 t.2 s) := by
  obtain ⟨i, j, _, _, rfl⟩ := (mem_ahdTiles height width t).1 ht
  obtain ⟨hn, hab, hv⟩ := inv
  have hk3 := fun (row col : Nat) => (hb.rel row col row col (by omega) (by omega) (by omega)
    (by omega)).1
  refine ⟨⟨hn.1, ?_, ?_⟩, ahdTile_abdiff filters width height labOf _ _ s hab, ?_⟩
  · rw [ahdTile_img, ahdCombine_length]
    exact hn.2.1
  · intro row col hr hc
    by_cases hreg : (250 * i + 3 ≤ row ∧ row < 250 * i + 253 ∧ row + 3 < height)
        ∧ (250 * j + 3 ≤ col ∧ col < 250 * j + 253 ∧ col + 3 < width)
    · rw [ahdTile_native hb labOf (250 * i) (250 * j) s hn.2.1 row col hreg.1 hreg.2
        (by rw [← hn.2.2 row col hr hc]; exact hus row col hr hc)]
      exact hn.2.2 row col hr hc
    · rw [ahdTile_img, ahdCombine_other _ _ _ _ _ _ _ row col (FC filters row col) hc
        (by have := hk3 row col; omega) (Or.inr hreg)]
      exact hn.2.2 row col hr hc
  · intro row col k hr hc hk
    by_cases hreg : ((250 * i + 3 ≤ row ∧ row < 250 * i + 253 ∧ row + 3 < height)
        ∧ (250 * j + 3 ≤ col ∧ col < 250 * j + 253 ∧ col + 3 < width)) ∧ k < 3
    · have htile := ((ahdTileOf_iff width height i j row col).1 hreg.1)
      refine ⟨fun _ => ?_, fun hno => absurd ⟨hreg.2, htile.1, ?_⟩ hno⟩
      · rw [htile.2]
        exact ahdTile_natEq hb labOf (250 * i) (250 * j) s
          { img := img1, lab := bzero, abdiff := List.replicate 8 0 } hn.symm hab
          (List.length_replicate 8 0) row col k hreg.1.1 hreg.1.2 hreg.2
      · rw [htile.2]
        exact List.mem_append_right _ (List.mem_singleton_self _)
    · have hsame : rd (ahdTile filters width height labOf (250 * i) (250 * j) s).img
            (((row : Int) * width + col) * 4 + k)
          = rd s.img (((row : Int) * width + col) * 4 + k) := by
        rw [ahdTile_img]
        apply ahdCombine_other _ _ _ _ _ _ _ row col k hc hk
        by_cases h3 : k = 3
        · exact Or.inl h3
        · exact Or.inr (fun h => hreg ⟨h, by omega⟩)
      rw [hsame]
      have hold := hv row col k hr hc hk
      refine ⟨fun hc1 => hold.1 ⟨hc1.1, hc1.2.1, ?_⟩, fun hno => hold.2 (fun hc1 => hno
        ⟨hc1.1, hc1.2.1, List.mem_append_left _ hc1.2.2⟩)⟩
      rcases List.mem_append.1 hc1.2.2 with hm | hm
      · exact hm
      · rw [List.mem_singleton] at hm
        exact absurd ⟨(ahdTileOf_iff width height i j row col).2 ⟨hc1.2.1, hm⟩, hc1.1⟩ hreg

/-- After all the tiles of a list of tiles, in the order of the list. -/
theorem AhdInv.tiles {filters width height : Nat} (labOf : List Int → List Int)
    {img1 : List Nat} (hb : IsBayer filters) (lab : Buf) (ab : List Int)
    (hlen : img1.length = height * width * 4) (hab : ab.length = 8)
    (hus : ∀ row col : Nat, row < height → col < width →
      rd img1 (((row : Int) * width + col) * 4 + FC filters row col) < 65536)
    (L : List (Nat × Nat)) (hL : ∀ t ∈ L, t ∈ ahdTiles height width) :
    AhdInv filters width height labOf img1 L
      (L.foldl (fun s t => ahdTile filters width height labOf t.1 t.2 s)
        { img := img1, lab := lab, abdiff := ab }) :=
  foldl_inv (fun pre s => AhdInv filters width height labOf img1 pre s)
    (fun t s => ahdTile filters width height labOf t.1 t.2 s) L _
    (AhdInv.init filters width height labOf img1 lab ab hlen hab)
    (fun _ t _ ht inv => inv.tile hb hus t (hL t ht))

/-- Two images of `height × width` pixels with the same samples are equal. -/
theorem image_ext (width height : Nat) (a b : List Nat) (ha : a.length = height * width * 4)
    (hb : b.length = height * width * 4)
    (h : ∀ row col k : Nat, row < height → col < width → k < 4 →
      rd a (((row : Int) * width + col) * 4 + k) = rd b (((row : Int) * width + col) * 4 + k)) :
    a = b := by
  apply List.ext_getElem (ha.trans hb.symm)
  intro n h1 h2
  have hw : 0 < width := by
    rcases Nat.eq_zero_or_pos width with h0 | h0
    · rw [h0] at ha
      simp at ha
      rw [ha] at h1
      exact absurd h1 (Nat.not_lt_zero _)
    · exact h0
  have hn4 : n / 4 < height * width := by omega
  have hrow : n / 4 / width < height := by
    rw [Nat.div_lt_iff_lt_mul hw]
    exact hn4
  have hcol : n / 4 % width < width := Nat.mod_lt _ hw
  have e := h (n / 4 / width) (n / 4 % width) (n % 4) hrow hcol (Nat.mod_lt _ (by decide))
  have hidx : (((n / 4 / width : Nat) : Int) * width + (n / 4 % width : Nat)) * 4 + (n % 4 : Nat)
      = (n : Int) := by
    have := Nat.div_add_mod (n / 4) width
    have h5 : ((n / 4 / width : Nat) : Int) * width + (n / 4 % width : Nat) = (n / 4 : Nat) := by
      rw [mul_comm]
      exact_mod_cast this
    rw [h5]
    omega
  rw [hidx] at e
  unfold rd at e
  simp only [show ¬ ((n : Int) < 0) by omega, if_false, Int.toNat_ofNat] at e
  rw [List.getD_eq_getElem _ _ h1, List.getD_eq_getElem _ _ h2] at e
  exact e

/-- The images after the tiles of two lists with the same tiles are equal. -/
theorem AhdInv.same {filters width height : Nat} {labOf : List Int → List Int}
    {img1 : List Nat} {L1 L2 : List (Nat × Nat)} {s1 s2 : AhdState}
    (h1 : AhdInv filters width height labOf img1 L1 s1)
    (h2 : AhdInv filters width height labOf img1 L2 s2) (hL : ∀ t, t ∈ L1 ↔ t ∈ L2) :
    s1.img = s2.img := by
  apply image_ext width height _ _ h1.1.2.1 h2.1.2.1
  intro row col k hr hc hk
  have a := h1.2.2 row col k hr hc hk
  have b := h2.2.2 row col k hr hc hk
  by_cases hcond : k < 3 ∧ (3 ≤ row ∧ row + 3 < height ∧ 3 ≤ col ∧ col + 3 < width)
      ∧ ahdTileOf row col ∈ L1
  · rw [a.1 hcond, b.1 ⟨hcond.1, hcond.2.1, (hL _).1 hcond.2.2⟩]
  · rw [a.2 hcond, b.2 (fun hc2 => hcond ⟨hc2.1, hc2.2.1, (hL _).2 hc2.2.2⟩)]

/-! ## AHD keeps the native samples -/

/-- If the column loop of the border pass returns, it returns a buffer with
the native samples of its input. -/
theorem borderCols_some_sameNative (height width filters colors : Nat) (border : Int) (r : Nat)
    (hcolors : colors ≤ 4) (hb : 0 < border) :
    ∀ (fuel : Nat) (col : Int) (img out : List Nat), 0 ≤ col →
      borderCols height width filters colors border r fuel col img = some out →
      SameNative filters height width img out := by
  intro fuel
  induction fuel with
  | zero =>
    intro col img out _ h
    unfold borderCols at h
    exact absurd h (by simp)
  | succ fuel ih =>
    intro col img out h0 h
    unfold borderCols at h
    by_cases hlt : col < width
    · simp only [hlt, if_true] at h
      by_cases hjump : col = border ∧ (r : Int) ≥ border ∧ (r : Int) < height - border
      · simp only [hjump, and_self, if_true] at h
        obtain ⟨c1, hc1⟩ := Int.eq_ofNat_of_zero_le (show 0 ≤ (width : Int) - border by omega)
        refine SameNative.trans ?_ (ih _ _ _ (by omega) h)
        rw [hc1]
        exact borderPixel_sameNative height width filters colors img r c1 (by omega) hcolors
      · simp only [hjump, if_false] at h
        obtain ⟨c1, hc1⟩ := Int.eq_ofNat_of_zero_le h0
        refine SameNative.trans ?_ (ih _ _ _ (by omega) h)
        rw [hc1]
        exact borderPixel_sameNative height width filters colors img r c1 (by omega) hcolors
    · simp only [hlt, if_false] at h
      rw [← Option.some.inj h]
      exact SameNative.refl _ _ _ _

/-- If the border pass returns, it returns a buffer with the native samples
of its input. -/
theorem border_interpolate_INDI_some (height width : Nat) (img out : List Nat)
    (filters colors : Nat) (border : Int) (fuel : Nat) (hcolors : colors ≤ 4) (hb : 0 < border)
    (h : border_interpolate_INDI height width img filters colors border fuel = some out) :
    SameNative filters height width img out := by
  unfold border_interpolate_INDI at h
  exact loopOpt_some_inv (fun im => SameNative filters height width img im)
    (fun row im => borderCols height width filters colors border row fuel 0 im)
    height 0 img out (SameNative.refl _ _ _ _)
    (fun i s s1 hs hf => SameNative.trans hs
      (borderCols_some_sameNative height width filters colors border i hcolors hb fuel 0 s s1
        (le_refl _) hf)) h

theorem SameNative.natEq {filters width height : Nat} {img out : List Nat}
    (h : SameNative filters height width img out) (hf : filters ≠ 1)
    (hlen : img.length = height * width * 4) : NatEq filters width height img out := by
  refine ⟨hlen, h.1.trans hlen, fun row col hr hc => ?_⟩
  have := h.2 row col hr hc
  unfold fc_INDI at this
  simp only [hf, ne_eq, not_false_eq_true, if_true] at this
  exact this.symm

/-- Claim C34: for every 3-colour Bayer descriptor and every image of
`height × width` pixels of `ushort` samples on which `ahd_interpolate_INDI`
returns, the result has at every pixel the native sample
`image[row][col][FC(row,col)]` of the input; what a tile writes into the
pixels of its combination pass depends only on the native samples of the
image it runs on, not on the other samples, on `lab` or on `abdiff`; and
running the tiles in any order, from any contents of `lab` and `abdiff`, on the
image left by the border pass gives the same result. -/
theorem ahd_interpolate_INDI_natives (img : List Nat) (filters width height colors : Nat)
    (labOf : List Int → List Int) (lab0 : Buf) (abdiff0 : List Int) (fuel : Nat)
    (out : List Nat) (hb : IsBayer filters) (hlen : img.length = height * width * 4)
    (hus : ∀ v ∈ img, v < 65536) (hcolors : colors ≤ 4) (hab : abdiff0.length = 8)
    (hret : ahd_interpolate_INDI img filters width height colors labOf lab0 abdiff0 fuel
      = some out) :
    (∀ row col : Nat, row < height → col < width →
      rd out (((row : Int) * width + col) * 4 + FC filters row col)
        = rd img (((row : Int) * width + col) * 4 + FC filters row col)) ∧
    (∀ (top left : Nat) (s1 s2 : AhdState), NatEq filters width height s1.img s2.img →
      s1.abdiff.length = 8 → s2.abdiff.length = 8 →
      ∀ row col c : Nat, (row, col) ∈ ahdCombinePixels width height top left → c < 3 →
        rd (ahdTile filters width height labOf top left s1).img
            (((row : Int) * width + col) * 4 + c)
          = rd (ahdTile filters width height labOf top left s2).img
            (((row : Int) * width + col) * 4 + c)) ∧
    (∃ img1, border_interpolate_INDI height width img filters colors 3 fuel = some img1 ∧
      ∀ (L : List (Nat × Nat)) (lab1 : Buf) (ab1 : List Int),
        L.Perm (ahdTiles height width) → ab1.length = 8 →
        (L.foldl (fun s t => ahdTile filters width height labOf t.1 t.2 s)
          { img := img1, lab := lab1, abdiff := ab1 }).img = out) := by
  rw [ahd_interpolate_INDI_eq_foldl] at hret
  cases hb1 : border_interpolate_INDI height width img filters colors 3 fuel with
  | none =>
    rw [hb1] at hret
    exact absurd hret (by simp)
  | some img1 =>
    rw [hb1] at hret
    have hout := Option.some.inj hret
    have sn := border_interpolate_INDI_some height width img img1 filters colors 3 fuel hcolors
      (by decide) hb1
    have ne := sn.natEq hb.ne_one hlen
    have hus1 : ∀ row col : Nat, row < height → col < width →
        rd img1 (((row : Int) * width + col) * 4 + FC filters row col) < 65536 := by
      intro row col hr hc
      rw [← ne.2.2 row col hr hc]
      exact rd_lt img hus _
    have inv0 := AhdInv.tiles labOf hb lab0 abdiff0 ne.2.1 hab hus1 (ahdTiles height width)
      (fun _ h => h)
    refine ⟨?_, ?_, img1, rfl, ?_⟩
    · intro row col hr hc
      rw [← hout, ne.2.2 row col hr hc]
      exact (inv0.1.2.2 row col hr hc).symm
    · intro top left s1 s2 hn l1 l2 row col c hm hc3
      rw [mem_ahdCombinePixels] at hm
      exact ahdTile_natEq hb labOf top left s1 s2 hn l1 l2 row col c hm.1 hm.2 hc3
    · intro L lab1 ab1 hp hl
      rw [← hout]
      exact AhdInv.same
        (AhdInv.tiles labOf hb lab1 ab1 ne.2.1 hl hus1 L (fun t ht => hp.mem_iff.1 ht))
        inv0 (fun t => hp.mem_iff)

theorem ahd_interpolate_INDI_natives_witness :
    ∃ out : List Nat,
      ahd_interpolate_INDI (mosaic 0x94949494 8 8 (fun c => [100, 200, 300].getD c 0))
          0x94949494 8 8 3 (fun l => l.take 3) bzero (List.replicate 8 0) 9 = some out ∧
      ((∀ row col : Nat, row < 8 → col < 8 →
        rd out (((row : Int) * (8 : Nat) + col) * 4 + FC 0x94949494 row col)
          = rd (mosaic 0x94949494 8 8 (fun c => [100, 200, 300].getD c 0))
              (((row : Int) * (8 : Nat) + col) * 4 + FC 0x94949494 row col)) ∧
      (∀ (top left : Nat) (s1 s2 : AhdState), NatEq 0x94949494 8 8 s1.img s2.img →
        s1.abdiff.length = 8 → s2.abdiff.length = 8 →
        ∀ row col c : Nat, (row, col) ∈ ahdCombinePixels 8 8 top left → c < 3 →
          rd (ahdTile 0x94949494 8 8 (fun l => l.take 3) top left s1).img
              (((row : Int) * (8 : Nat) + col) * 4 + c)
            = rd (ahdTile 0x94949494 8 8 (fun l => l.take 3) top left s2).img
              (((row : Int) * (8 : Nat) + col) * 4 + c)) ∧
      (∃ img1, border_interpolate_INDI 8 8
          (mosaic 0x94949494 8 8 (fun c => [100, 200, 300].getD c 0)) 0x94949494 3 3 9
            = some img1 ∧
        ∀ (L : List (Nat × Nat)) (lab1 : Buf) (ab1 : List Int),
          L.Perm (ahdTiles 8 8) → ab1.length = 8 →
          (L.foldl (fun s t => ahdTile 0x94949494 8 8 (fun l => l.take 3) t.1 t.2 s)
            { img := img1, lab := lab1, abdiff := ab1 }).img = out)) := by
  obtain ⟨img1, h1⟩ := border_interpolate_INDI_returns 8 8
    (mosaic 0x94949494 8 8 (fun c => [100, 200, 300].getD c 0)) 0x94949494 3 3 9
    (by decide) (by decide)
  have h2 : ahd_interpolate_INDI (mosaic 0x94949494 8 8 (fun c => [100, 200, 300].getD c 0))
      0x94949494 8 8 3 (fun l => l.take 3) bzero (List.replicate 8 0) 9
      = some ((ahdTiles 8 8).foldl
          (fun s t => ahdTile 0x94949494 8 8 (fun l => l.take 3) t.1 t.2 s)
          { img := img1, lab := bzero, abdiff := List.replicate 8 0 }).img := by
    rw [ahd_interpolate_INDI_eq_foldl, h1]
    rfl
  exact ⟨_, h2, ahd_interpolate_INDI_natives
    (mosaic 0x94949494 8 8 (fun c => [100, 200, 300].getD c 0)) 0x94949494 8 8 3
    (fun l => l.take 3) bzero (List.replicate 8 0) 9 _ (IsBayer_of_check _ (by decide))
    (by decide) (by decide) (by decide) (by decide) h2⟩

/-! ## Rounding to nearest -/

theorem rne_ge (x : ℚ) (n : Int) (h : (n : ℚ) ≤ x) : n ≤ rne x := by
  have hf : n ≤ Int.floor x := Int.le_floor.2 h
  unfold rne
  split_ifs <;> omega

theorem rne_le (x : ℚ) (n : Int) (h : x ≤ (n : ℚ)) : rne x ≤ n := by
  have h1 : ((Int.floor x : Int) : ℚ) ≤ x := Int.floor_le x
  have hf : Int.floor x ≤ n := by exact_mod_cast le_trans h1 h
  have hs : ¬ (x - Int.floor x < 1 / 2) → Int.floor x + 1 ≤ n := by
    intro hh
    by_contra hc
    have e : Int.floor x = n := by omega
    rw [e] at hh
    exact hh (by linarith)
  unfold rne
  split_ifs with a b c
  · exact hf
  · exact hs a
  · exact hf
  · exact hs a

theorem rne_int (n : Int) : rne (n : ℚ) = n :=
  le_antisymm (rne_le _ n le_rfl) (rne_ge _ n le_rfl)

theorem rne_eq (x : ℚ) (n : Int) (h1 : (n : ℚ) - 1 / 2 < x) (h2 : x < (n : ℚ) + 1 / 2) :
    rne x = n := by
  have f1 : ((Int.floor x : Int) : ℚ) ≤ x := Int.floor_le x
  have f2 : x < ((Int.floor x : Int) : ℚ) + 1 := Int.lt_floor_add_one x
  have g1 : n - 1 ≤ Int.floor x := by
    have : ((n - 1 : Int) : ℚ) < ((Int.floor x + 1 : Int) : ℚ) := by
      push_cast
      linarith
    have := Int.cast_lt.1 this
    omega
  have g2 : Int.floor x ≤ n := by
    have : ((Int.floor x : Int) : ℚ) < ((n + 1 : Int) : ℚ) := by
      push_cast
      linarith
    have := Int.cast_lt.1 this
    omega
  have hc : Int.floor x = n ∨ Int.floor x = n - 1 := by omega
  unfold rne
  rcases hc with e | e
  · rw [e, if_pos (by linarith)]
  · rw [e]
    push_cast
    rw [if_neg (by linarith), if_pos (by linarith)]
    ring

theorem two_zpow_pos (k : Int) : (0 : ℚ) < 2 ^ k := zpow_pos (by norm_num) k

theorem log2_le (q : ℚ) (hq : 0 < q) : (2 : ℚ) ^ Int.log 2 q ≤ q := by
  have h := Int.zpow_log_le_self (R := ℚ) (b := 2) (by norm_num) hq
  exact_mod_cast h

theorem log2_lt (q : ℚ) : q < (2 : ℚ) ^ (Int.log 2 q + 1) := by
  have h := Int.lt_zpow_succ_log_self (R := ℚ) (b := 2) (by norm_num) q
  exact_mod_cast h

theorem log2_eq (q : ℚ) (e : Int) (h1 : (2 : ℚ) ^ e ≤ q) (h2 : q < 2 ^ (e + 1)) :
    Int.log 2 q = e := by
  have hq : 0 < q := lt_of_lt_of_le (two_zpow_pos e) h1
  have a : e ≤ Int.log 2 q := by
    apply (Int.zpow_le_iff_le_log (R := ℚ) (b := 2) (by norm_num) hq).1
    exact_mod_cast h1
  have b : Int.log 2 q < e + 1 := by
    apply (Int.lt_zpow_iff_log_lt (R := ℚ) (b := 2) (by norm_num) hq).1
    exact_mod_cast h2
  omega

theorem log2_zpow (k : Int) : Int.log 2 ((2 : ℚ) ^ k) = k :=
  log2_eq _ k le_rfl (zpow_lt_zpow_right₀ (by norm_num) (by omega))

theorem two_zpow_le {m n : Int} (h : m ≤ n) : (2 : ℚ) ^ m ≤ 2 ^ n :=
  zpow_le_zpow_right₀ (by norm_num) h

theorem two_zpow_split (m n : Int) (h : m ≤ n) :
    (2 : ℚ) ^ n = ((2 ^ (n - m).toNat : Int) : ℚ) * 2 ^ m := by
  have e : n = ((n - m).toNat : Int) + m := by
    rw [Int.toNat_of_nonneg (by omega)]
    ring
  conv_lhs => rw [e]
  rw [zpow_add₀ (by norm_num), zpow_natCast]
  push_cast
  rfl

theorem Fp.mag_nonneg (p : Nat) (emin : Int) (q : ℚ) (hq : 0 ≤ q) : 0 ≤ Fp.mag p emin q := by
  unfold Fp.mag
  have h := rne_ge (q / 2 ^ (max (Int.log 2 q) emin - ((p : Int) - 1))) 0
    (by
      push_cast
      exact div_nonneg hq (le_of_lt (two_zpow_pos _)))
  exact mul_nonneg (by exact_mod_cast h) (le_of_lt (two_zpow_pos _))

theorem Fp.mag_le (p : Nat) (emin : Int) (q c : ℚ) (hq : 0 < q) (hqc : q ≤ c)
    (hc : OnGrid p emin c) : Fp.mag p emin q ≤ c := by
  obtain ⟨n, hn⟩ := hc
  have hl : Int.log 2 q ≤ Int.log 2 c := Int.log_mono_right hq hqc
  have he : max (Int.log 2 q) emin - ((p : Int) - 1) ≤ max (Int.log 2 c) emin - ((p : Int) - 1) := by
    have := max_le_max hl (le_refl emin)
    omega
  have hu := two_zpow_pos (max (Int.log 2 q) emin - ((p : Int) - 1))
  rw [two_zpow_split _ _ he, ← mul_assoc] at hn
  have hN : q / 2 ^ (max (Int.log 2 q) emin - ((p : Int) - 1))
      ≤ ((n * 2 ^ (max (Int.log 2 c) emin - ((p : Int) - 1)
          - (max (Int.log 2 q) emin - ((p : Int) - 1))).toNat : Int) : ℚ) := by
    rw [div_le_iff₀ hu]
    push_cast
    push_cast at hn
    rw [← hn]
    exact hqc
  have hr := rne_le _ _ hN
  unfold Fp.mag
  calc (rne (q / 2 ^ (max (Int.log 2 q) emin - ((p : Int) - 1))) : ℚ)
        * 2 ^ (max (Int.log 2 q) emin - ((p : Int) - 1))
      ≤ ((n * 2 ^ (max (Int.log 2 c) emin - ((p : Int) - 1)
          - (max (Int.log 2 q) emin - ((p : Int) - 1))).toNat : Int) : ℚ)
        * 2 ^ (max (Int.log 2 q) emin - ((p : Int) - 1)) :=
        mul_le_mul_of_nonneg_right (by exact_mod_cast hr) (le_of_lt hu)
    _ = c := by
        push_cast
        push_cast at hn
        exact hn.symm

theorem Fp.le_mag (p : Nat) (emin : Int) (q c : ℚ) (hp : 1 ≤ p) (hc0 : 0 < c) (hcq : c ≤ q)
    (hc : OnGrid p emin c) : c ≤ Fp.mag p emin q := by
  obtain ⟨n, hn⟩ := hc
  have hq : 0 < q := lt_of_lt_of_le hc0 hcq
  have hl : Int.log 2 c ≤ Int.log 2 q := Int.log_mono_right hc0 hcq
  have he : max (Int.log 2 c) emin ≤ max (Int.log 2 q) emin := max_le_max hl (le_refl emin)
  have hu := two_zpow_pos (max (Int.log 2 q) emin - ((p : Int) - 1))
  rcases eq_or_lt_of_le he with e | e
  · rw [e] at hn
    have hN : (n : ℚ) ≤ q / 2 ^ (max (Int.log 2 q) emin - ((p : Int) - 1)) := by
      rw [le_div_iff₀ hu, ← hn]
      exact hcq
    have hr := rne_ge _ _ hN
    unfold Fp.mag
    calc c = (n : ℚ) * 2 ^ (max (Int.log 2 q) emin - ((p : Int) - 1)) := hn
      _ ≤ _ := mul_le_mul_of_nonneg_right (by exact_mod_cast hr) (le_of_lt hu)
  · have hlq : max (Int.log 2 q) emin = Int.log 2 q := by
      apply max_eq_left
      by_contra hh
      have : max (Int.log 2 q) emin = emin := max_eq_right (by omega)
      have := le_max_right (Int.log 2 c) emin
      omega
    have hc1 : c < 2 ^ (Int.log 2 q) := by
      refine lt_of_lt_of_le (log2_lt c) (two_zpow_le ?_)
      have := le_max_left (Int.log 2 c) emin
      omega
    have hsplit := two_zpow_split (Int.log 2 q - ((p : Int) - 1)) (Int.log 2 q) (by omega)
    have hN : (((2 ^ (Int.log 2 q - (Int.log 2 q - ((p : Int) - 1))).toNat : Int)) : ℚ)
        ≤ q / 2 ^ (max (Int.log 2 q) emin - ((p : Int) - 1)) := by
      rw [hlq, le_div_iff₀ (two_zpow_pos _), ← hsplit]
      exact log2_le q hq
    have hr := rne_ge _ _ hN
    unfold Fp.mag
    rw [hlq] at hr ⊢
    calc c ≤ 2 ^ (Int.log 2 q) := le_of_lt hc1
      _ = (((2 ^ (Int.log 2 q - (Int.log 2 q - ((p : Int) - 1))).toNat : Int)) : ℚ)
            * 2 ^ (Int.log 2 q - ((p : Int) - 1)) := hsplit
      _ ≤ _ := mul_le_mul_of_nonneg_right (by exact_mod_cast hr) (le_of_lt (two_zpow_pos _))

theorem onGrid_two_zpow (p : Nat) (emin k : Int) (hp : 1 ≤ p) (hk : emin ≤ k) :
    OnGrid p emin ((2 : ℚ) ^ k) := by
  refine ⟨2 ^ (k - (k - ((p : Int) - 1))).toNat, ?_⟩
  rw [log2_zpow, max_eq_left hk]
  exact two_zpow_split _ _ (by omega)

theorem onGrid_int (p : Nat) (emin : Int) (n : Int) (h0 : 0 < n) (hn : n < 2 ^ p)
    (hemin : emin ≤ 0) : OnGrid p emin (n : ℚ) := by
  have hq : (0 : ℚ) < (n : ℚ) := by exact_mod_cast h0
  have h1 : (0 : Int) ≤ Int.log 2 (n : ℚ) := by
    apply (Int.zpow_le_iff_le_log (R := ℚ) (b := 2) (by norm_num) hq).1
    rw [zpow_zero]
    exact_mod_cast h0
  have h2 : Int.log 2 (n : ℚ) < (p : Int) := by
    apply (Int.lt_zpow_iff_log_lt (R := ℚ) (b := 2) (by norm_num) hq).1
    rw [zpow_natCast]
    exact_mod_cast hn
  refine ⟨n * 2 ^ (0 - (Int.log 2 (n : ℚ) - ((p : Int) - 1))).toNat, ?_⟩
  rw [max_eq_left (by omega)]
  have hs := two_zpow_split (Int.log 2 (n : ℚ) - ((p : Int) - 1)) 0 (by omega)
  rw [zpow_zero] at hs
  push_cast
  push_cast at hs
  rw [mul_assoc, ← hs, mul_one]

theorem Fp.mag_eq (p : Nat) (emin : Int) (q : ℚ) (e : Int) (h1 : (2 : ℚ) ^ e ≤ q)
    (h2 : q < 2 ^ (e + 1)) :
    Fp.mag p emin q = (rne (q / 2 ^ (max e emin - ((p : Int) - 1))) : ℚ)
      * 2 ^ (max e emin - ((p : Int) - 1)) := by
  unfold Fp.mag
  rw [log2_eq q e h1 h2]

/-! ## Rounded values -/

theorem Fp.mag_zero (p : Nat) (emin : Int) : Fp.mag p emin 0 = 0 := by
  unfold Fp.mag
  rw [zero_div]
  have h : rne 0 = 0 := by
    have := rne_int 0
    simpa using this
  rw [h]
  simp

theorem Fp.round_zero (p : Nat) (emin emax : Int) : Fp.round p emin emax 0 = Fp.fin 0 := by
  unfold Fp.round
  rw [abs_zero, Fp.mag_zero, if_neg (not_le.2 (two_zpow_pos _)), if_pos rfl]
  simp [Fp.zero]

theorem Fp.round_pos (p : Nat) (emin emax : Int) (q : ℚ) (hq : 0 < q) :
    Fp.round p emin emax q
      = if (2 : ℚ) ^ (emax + 1) ≤ Fp.mag p emin q then Fp.inf false
        else Fp.fin (Fp.mag p emin q) := by
  unfold Fp.round
  rw [abs_of_pos hq]
  have hn : ¬ q < 0 := not_lt.2 (le_of_lt hq)
  simp only [hn, decide_False, if_false]
  by_cases ho : (2 : ℚ) ^ (emax + 1) ≤ Fp.mag p emin q
  · rw [if_pos ho, if_pos ho]
  · rw [if_neg ho, if_neg ho]
    by_cases hz : Fp.mag p emin q = 0
    · rw [if_pos hz, hz]
      rfl
    · rw [if_neg hz]

theorem Fp.round_neg (p : Nat) (emin emax : Int) (q : ℚ) (hq : q < 0) :
    Fp.round p emin emax q
      = if (2 : ℚ) ^ (emax + 1) ≤ Fp.mag p emin (-q) then Fp.inf true
        else if Fp.mag p emin (-q) = 0 then Fp.negZero
        else Fp.fin (- Fp.mag p emin (-q)) := by
  unfold Fp.round
  rw [abs_of_neg hq]
  simp only [hq, decide_True, if_true]
  rfl

theorem Fp.round_le (p : Nat) (emin emax : Int) (q c : ℚ) (hq : 0 < q) (hqc : q ≤ c)
    (hc : OnGrid p emin c) (hmax : c < 2 ^ (emax + 1)) :
    Fp.round p emin emax q = Fp.fin (Fp.mag p emin q) ∧ 0 ≤ Fp.mag p emin q
      ∧ Fp.mag p emin q ≤ c := by
  have h1 := Fp.mag_le p emin q c hq hqc hc
  rw [Fp.round_pos p emin emax q hq, if_neg (not_le.2 (lt_of_le_of_lt h1 hmax))]
  exact ⟨rfl, Fp.mag_nonneg p emin q (le_of_lt hq), h1⟩

theorem Fp.round_ge (p : Nat) (emin emax : Int) (q c : ℚ) (hp : 1 ≤ p) (hc0 : 0 < c)
    (hcq : c ≤ q) (hc : OnGrid p emin c) :
    Fp.round p emin emax q = Fp.inf false
      ∨ (Fp.round p emin emax q = Fp.fin (Fp.mag p emin q) ∧ c ≤ Fp.mag p emin q) := by
  have h1 := Fp.le_mag p emin q c hp hc0 hcq hc
  rw [Fp.round_pos p emin emax q (lt_of_lt_of_le hc0 hcq)]
  by_cases ho : (2 : ℚ) ^ (emax + 1) ≤ Fp.mag p emin q
  · rw [if_pos ho]
    exact Or.inl rfl
  · rw [if_neg ho]
    exact Or.inr ⟨rfl, h1⟩

theorem Fp.round_exact (p : Nat) (emin emax : Int) (q : ℚ) (hp : 1 ≤ p) (hq : 0 < q)
    (hc : OnGrid p emin q) (hmax : q < 2 ^ (emax + 1)) :
    Fp.round p emin emax q = Fp.fin q := by
  obtain ⟨e, _, h2⟩ := Fp.round_le p emin emax q q hq le_rfl hc hmax
  have h3 := Fp.le_mag p emin q q hp hq le_rfl hc
  rw [e, le_antisymm h2 h3]

theorem f32_one : f32 1 = Fp.fin 1 := by
  have h := Fp.round_exact 24 (-126) 127 1 (by norm_num) (by norm_num)
    (by
      have := onGrid_two_zpow 24 (-126) 0 (by norm_num) (by norm_num)
      rwa [zpow_zero] at this)
    (lt_of_lt_of_le (by norm_num) (two_zpow_le (show (1 : Int) ≤ 127 + 1 by norm_num)))
  exact h

theorem f64_one : f64 1 = Fp.fin 1 := by
  have h := Fp.round_exact 53 (-1022) 1023 1 (by norm_num) (by norm_num)
    (by
      have := onGrid_two_zpow 53 (-1022) 0 (by norm_num) (by norm_num)
      rwa [zpow_zero] at this)
    (lt_of_lt_of_le (by norm_num) (two_zpow_le (show (1 : Int) ≤ 1023 + 1 by norm_num)))
  exact h

/-! ## Rounded values between two powers of two -/

theorem Fp.round_mem (p : Nat) (emin emax : Int) (q : ℚ) (a b : Int) (hp : 1 ≤ p)
    (ha : emin ≤ a) (hb : b ≤ emax) (h1 : (2 : ℚ) ^ a ≤ q) (h2 : q ≤ 2 ^ b) :
    ∃ v, Fp.round p emin emax q = Fp.fin v ∧ (2 : ℚ) ^ a ≤ v ∧ v ≤ 2 ^ b := by
  have hab : a ≤ b := (zpow_le_zpow_iff_right₀ (by norm_num : (1 : ℚ) < 2)).1 (le_trans h1 h2)
  have hq : 0 < q := lt_of_lt_of_le (two_zpow_pos a) h1
  obtain ⟨e, _, hle⟩ := Fp.round_le p emin emax q (2 ^ b) hq h2
    (onGrid_two_zpow p emin b hp (by omega))
    (zpow_lt_zpow_right₀ (by norm_num) (by omega))
  exact ⟨_, e, Fp.le_mag p emin q (2 ^ a) hp (two_zpow_pos a) h1
    (onGrid_two_zpow p emin a hp ha), hle⟩

theorem f64_mem (q : ℚ) (a b : Int) (ha : -1022 ≤ a) (hb : b ≤ 1023) (h1 : (2 : ℚ) ^ a ≤ q)
    (h2 : q ≤ 2 ^ b) : ∃ v, f64 q = Fp.fin v ∧ (2 : ℚ) ^ a ≤ v ∧ v ≤ 2 ^ b :=
  Fp.round_mem 53 (-1022) 1023 q a b (by norm_num) ha hb h1 h2

theorem f32_mem (q : ℚ) (a b : Int) (ha : -126 ≤ a) (hb : b ≤ 127) (h1 : (2 : ℚ) ^ a ≤ q)
    (h2 : q ≤ 2 ^ b) : ∃ v, f32 q = Fp.fin v ∧ (2 : ℚ) ^ a ≤ v ∧ v ≤ 2 ^ b :=
  Fp.round_mem 24 (-126) 127 q a b (by norm_num) ha hb h1 h2

theorem f64_ge_one (q : ℚ) (h : 1 ≤ q) :
    f64 q = Fp.inf false ∨ ∃ v, f64 q = Fp.fin v ∧ 1 ≤ v := by
  have hg : OnGrid 53 (-1022) 1 := by
    have := onGrid_two_zpow 53 (-1022) 0 (by norm_num) (by norm_num)
    rwa [zpow_zero] at this
  rcases Fp.round_ge 53 (-1022) 1023 q 1 (by norm_num) (by norm_num) h hg with e | e
  · exact Or.inl e
  · exact Or.inr ⟨_, e.1, e.2⟩

theorem f32_ge_one (q : ℚ) (h : 1 ≤ q) :
    f32 q = Fp.inf false ∨ ∃ v, f32 q = Fp.fin v ∧ 1 ≤ v := by
  have hg : OnGrid 24 (-126) 1 := by
    have := onGrid_two_zpow 24 (-126) 0 (by norm_num) (by norm_num)
    rwa [zpow_zero] at this
  rcases Fp.round_ge 24 (-126) 127 q 1 (by norm_num) (by norm_num) h hg with e | e
  · exact Or.inl e
  · exact Or.inr ⟨_, e.1, e.2⟩

theorem Fp.div_fin (rnd : ℚ → Fp) (a b : ℚ) (ha : a ≠ 0) (hb : b ≠ 0) :
    Fp.div rnd (Fp.fin a) (Fp.fin b) = rnd (a / b) := by
  unfold Fp.div
  rw [if_neg (by simp)]
  show (if true = true then (if true = true then
      (if b = 0 then _ else if a = 0 then _ else _) else _) else _) = _
  rw [if_pos rfl, if_pos rfl, if_neg hb, if_neg ha]
  rfl

theorem Fp.cast_fin (rnd : ℚ → Fp) (q : ℚ) : Fp.cast rnd (Fp.fin q) = rnd q := rfl

theorem Fp.lt_fin (a b : ℚ) : Fp.lt (Fp.fin a) (Fp.fin b) = decide (a < b) := by
  unfold Fp.lt
  rw [if_neg (by simp), if_neg (by simp), if_neg (by simp)]
  rfl

theorem Fp.le_fin (a b : ℚ) : Fp.le (Fp.fin a) (Fp.fin b) = decide (a ≤ b) := by
  unfold Fp.le
  rw [if_neg (by simp), if_neg (by simp), if_neg (by simp)]
  rfl

theorem Fp.le_fin_inf (a : ℚ) : Fp.le (Fp.fin a) (Fp.inf false) = true := by
  unfold Fp.le
  rw [if_neg (by simp), if_pos (Or.inr rfl)]

/-- The quotient of two integers in `1 .. 2 ^ a` and `1 .. 2 ^ b`, taken in
`double` and converted to `float`, is a positive finite number. -/
theorem ratio64_mem (N S : Int) (a b : Nat) (hN1 : 1 ≤ N) (hN2 : N ≤ 2 ^ a) (hS1 : 1 ≤ S)
    (hS2 : S ≤ 2 ^ b) (ha : a ≤ 120) (hb : b ≤ 120) :
    ∃ v, Fp.cast f32 (Fp.div f64 (Fp.ofInt f64 N) (Fp.ofInt f64 S)) = Fp.fin v
      ∧ (2 : ℚ) ^ (-(b : Int)) ≤ v ∧ v ≤ 2 ^ (a : Int) := by
  obtain ⟨n, en, n1, n2⟩ := f64_mem (N : ℚ) 0 a (by norm_num) (by omega)
    (by rw [zpow_zero]; exact_mod_cast hN1) (by rw [zpow_natCast]; exact_mod_cast hN2)
  obtain ⟨s, es, s1, s2⟩ := f64_mem (S : ℚ) 0 b (by norm_num) (by omega)
    (by rw [zpow_zero]; exact_mod_cast hS1) (by rw [zpow_natCast]; exact_mod_cast hS2)
  rw [zpow_zero] at n1 s1
  have hs0 : 0 < s := by linarith
  have hn0 : 0 < n := by linarith
  have q1 : (2 : ℚ) ^ (-(b : Int)) ≤ n / s := by
    rw [zpow_neg, le_div_iff₀ hs0]
    calc ((2 : ℚ) ^ (b : Int))⁻¹ * s ≤ ((2 : ℚ) ^ (b : Int))⁻¹ * 2 ^ (b : Int) :=
          mul_le_mul_of_nonneg_left s2 (le_of_lt (inv_pos.2 (two_zpow_pos _)))
      _ = 1 := inv_mul_cancel₀ (ne_of_gt (two_zpow_pos _))
      _ ≤ n := n1
  have q2 : n / s ≤ (2 : ℚ) ^ (a : Int) := by
    rw [div_le_iff₀ hs0]
    calc n ≤ 2 ^ (a : Int) := n2
      _ = 2 ^ (a : Int) * 1 := (mul_one _).symm
      _ ≤ 2 ^ (a : Int) * s := mul_le_mul_of_nonneg_left s1 (le_of_lt (two_zpow_pos _))
  obtain ⟨w, ew, w1, w2⟩ := f64_mem (n / s) (-(b : Int)) a (by omega) (by omega) q1 q2
  obtain ⟨v, ev, v1, v2⟩ := f32_mem w (-(b : Int)) a (by omega) (by omega) w1 w2
  refine ⟨v, ?_, v1, v2⟩
  unfold Fp.ofInt
  rw [en, es, Fp.div_fin f64 n s (ne_of_gt hn0) (ne_of_gt hs0), ew]
  exact ev

/-- The quotient of two integers in `1 .. 2 ^ a` and `1 .. 2 ^ b`, taken in
`float`, is a positive finite number. -/
theorem ratio32_mem (N S : Int) (a b : Nat) (hN1 : 1 ≤ N) (hN2 : N ≤ 2 ^ a) (hS1 : 1 ≤ S)
    (hS2 : S ≤ 2 ^ b) (ha : a ≤ 120) (hb : b ≤ 120) :
    ∃ v, Fp.div f32 (Fp.ofInt f32 N) (Fp.ofInt f32 S) = Fp.fin v
      ∧ (2 : ℚ) ^ (-(b : Int)) ≤ v ∧ v ≤ 2 ^ (a : Int) := by
  obtain ⟨n, en, n1, n2⟩ := f32_mem (N : ℚ) 0 a (by norm_num) (by omega)
    (by rw [zpow_zero]; exact_mod_cast hN1) (by rw [zpow_natCast]; exact_mod_cast hN2)
  obtain ⟨s, es, s1, s2⟩ := f32_mem (S : ℚ) 0 b (by norm_num) (by omega)
    (by rw [zpow_zero]; exact_mod_cast hS1) (by rw [zpow_natCast]; exact_mod_cast hS2)
  rw [zpow_zero] at n1 s1
  have hs0 : 0 < s := by linarith
  have hn0 : 0 < n := by linarith
  have q1 : (2 : ℚ) ^ (-(b : Int)) ≤ n / s := by
    rw [zpow_neg, le_div_iff₀ hs0]
    calc ((2 : ℚ) ^ (b : Int))⁻¹ * s ≤ ((2 : ℚ) ^ (b : Int))⁻¹ * 2 ^ (b : Int) :=
          mul_le_mul_of_nonneg_left s2 (le_of_lt (inv_pos.2 (two_zpow_pos _)))
      _ = 1 := inv_mul_cancel₀ (ne_of_gt (two_zpow_pos _))
      _ ≤ n := n1
  have q2 : n / s ≤ (2 : ℚ) ^ (a : Int) := by
    rw [div_le_iff₀ hs0]
    calc n ≤ 2 ^ (a : Int) := n2
      _ = 2 ^ (a : Int) * 1 := (mul_one _).symm
      _ ≤ 2 ^ (a : Int) * s := mul_le_mul_of_nonneg_left s1 (le_of_lt (two_zpow_pos _))
  obtain ⟨v, ev, v1, v2⟩ := f32_mem (n / s) (-(b : Int)) a (by omega) (by omega) q1 q2
  refine ⟨v, ?_, v1, v2⟩
  unfold Fp.ofInt
  rw [en, es, Fp.div_fin f32 n s (ne_of_gt hn0) (ne_of_gt hs0)]
  exact ev

/-! ## Values that are stored without rounding -/

theorem Fp.round_exact_neg (p : Nat) (emin emax : Int) (q : ℚ) (hp : 1 ≤ p) (hq : 0 < q)
    (hc : OnGrid p emin q) (hmax : q < 2 ^ (emax + 1)) :
    Fp.round p emin emax (-q) = Fp.fin (-q) := by
  have h1 := Fp.mag_le p emin q q hq le_rfl hc
  have h2 := Fp.le_mag p emin q q hp hq le_rfl hc
  have e : Fp.mag p emin q = q := le_antisymm h1 h2
  rw [Fp.round_neg p emin emax (-q) (by linarith), neg_neg, e, if_neg (not_le.2 hmax),
    if_neg (ne_of_gt hq)]

theorem f64_int (n : Int) (h0 : 0 < n) (hn : n < 2 ^ 53) : f64 (n : ℚ) = Fp.fin n :=
  Fp.round_exact 53 (-1022) 1023 _ (by norm_num) (by exact_mod_cast h0)
    (onGrid_int 53 (-1022) n h0 hn (by norm_num))
    (lt_of_lt_of_le (by exact_mod_cast hn)
      (show ((2 : Int) ^ 53 : ℚ) ≤ 2 ^ ((1023 : Int) + 1) by norm_num))

theorem f32_int (n : Int) (h0 : 0 < n) (hn : n < 2 ^ 24) : f32 (n : ℚ) = Fp.fin n :=
  Fp.round_exact 24 (-126) 127 _ (by norm_num) (by exact_mod_cast h0)
    (onGrid_int 24 (-126) n h0 hn (by norm_num))
    (lt_of_lt_of_le (by exact_mod_cast hn)
      (show ((2 : Int) ^ 24 : ℚ) ≤ 2 ^ ((127 : Int) + 1) by norm_num))

/-- Evaluation of a rounding: the exact result `q` lies in the binade of
exponent `e`, not below the least exponent, and strictly within half a unit in
the last place of the multiple `n` of that unit. -/
theorem Fp.round_eval (p : Nat) (emin emax : Int) (q : ℚ) (e : Int) (n : Int)
    (h1 : (2 : ℚ) ^ e ≤ q) (h2 : q < 2 ^ (e + 1)) (he : emin ≤ e)
    (h3 : ((n : ℚ) - 1 / 2) * 2 ^ (e - ((p : Int) - 1)) < q)
    (h4 : q < ((n : ℚ) + 1 / 2) * 2 ^ (e - ((p : Int) - 1)))
    (h5 : (n : ℚ) * 2 ^ (e - ((p : Int) - 1)) < 2 ^ (emax + 1)) :
    Fp.round p emin emax q = Fp.fin ((n : ℚ) * 2 ^ (e - ((p : Int) - 1))) := by
  have hq : 0 < q := lt_of_lt_of_le (two_zpow_pos e) h1
  have hu := two_zpow_pos (e - ((p : Int) - 1))
  have hm : Fp.mag p emin q = (n : ℚ) * 2 ^ (e - ((p : Int) - 1)) := by
    rw [Fp.mag_eq p emin q e h1 h2, max_eq_left he,
      rne_eq _ n (by rw [lt_div_iff₀ hu]; exact h3) (by rw [div_lt_iff₀ hu]; exact h4)]
  rw [Fp.round_pos p emin emax q hq, hm, if_neg (not_le.2 h5)]

/-! ## Finite values of bounded magnitude -/

/-- An integer of magnitude below `2 ^ 53` converts to `double` without
change. -/
theorem f64_ofInt (n : Int) (h : |n| < 2 ^ 53) : Fp.ofInt f64 n = Fp.fin (n : ℚ) := by
  unfold Fp.ofInt
  rcases lt_trichotomy n 0 with hn | hn | hn
  · have h1 : (0 : Int) < -n := by omega
    have h2 : -n < 2 ^ 53 := by
      rw [abs_of_neg hn] at h
      exact h
    have e := Fp.round_exact_neg 53 (-1022) 1023 ((-n : Int) : ℚ) (by norm_num)
      (by exact_mod_cast h1) (onGrid_int 53 (-1022) (-n) h1 h2 (by norm_num))
      (lt_of_lt_of_le (by exact_mod_cast h2)
        (show ((2 : Int) ^ 53 : ℚ) ≤ 2 ^ ((1023 : Int) + 1) by norm_num))
    have e2 : -(((-n : Int)) : ℚ) = (n : ℚ) := by
      push_cast
      ring
    rw [e2] at e
    exact e
  · rw [hn]
    exact Fp.round_zero 53 (-1022) 1023
  · rw [abs_of_pos hn] at h
    exact f64_int n hn h

theorem loop_four {σ : Type} (f : Nat → σ → σ) (i : Nat) (s : σ) :
    loop f 4 i s = f (i + 3) (f (i + 2) (f (i + 1) (f i s))) := rfl

theorem list_of_length_four {α : Type} (l : List α) (h : l.length = 4) :
    ∃ a b c d, l = [a, b, c, d] := by
  match l, h with
  | [a, b, c, d], _ => exact ⟨a, b, c, d, rfl⟩

theorem mget_set (pm : List Fp) (i j : Nat) (v : Fp) :
    mget (pm.set i v) j = if i = j ∧ i < pm.length then v else mget pm j := by
  unfold mget
  by_cases h : i = j
  · subst h
    by_cases hl : i < pm.length
    · rw [getD_set_eq _ _ _ _ hl]
      simp [hl]
    · simp only [hl, and_false, if_false]
      rw [List.set_eq_of_length_le (by omega)]
  · simp only [h, false_and, if_false]
    exact getD_set_ne _ _ _ _ _ h

theorem set_all_four (f : Nat → Fp) (pm : List Fp) (hlen : pm.length = 4) :
    loop (fun c pm => pm.set c (f c)) 4 0 pm = [f 0, f 1, f 2, f 3] := by
  obtain ⟨a, b, c, d, rfl⟩ := list_of_length_four pm hlen
  rfl

theorem normalise_eq (pm : List Fp) (hlen : pm.length = 4) (d : Fp) :
    loop (fun c pm => pm.set c (scaleNorm d (mget pm c))) 4 0 pm
      = [scaleNorm d (mget pm 0), scaleNorm d (mget pm 1), scaleNorm d (mget pm 2),
          scaleNorm d (mget pm 3)] := by
  obtain ⟨a, b, c, e, rfl⟩ := list_of_length_four pm hlen
  rfl

theorem mget_four (f : Nat → Fp) (c : Nat) (hc : c < 4) : mget [f 0, f 1, f 2, f 3] c = f c := by
  interval_cases c <;> rfl

theorem scaleDmin_four (a b c d : ℚ) :
    scaleDmin [Fp.fin a, Fp.fin b, Fp.fin c, Fp.fin d]
      = Fp.fin (min (min (min (min (2 ^ 1024 - 2 ^ 971) a) b) c) d) := by
  unfold scaleDmin DBL_MAX
  rw [loop_four]
  simp only [Nat.zero_add, mget, List.getD_cons_zero, List.getD_cons_succ]
  have key : ∀ x y : ℚ, (if Fp.lt (Fp.fin y) (Fp.fin x) = true then Fp.fin y else Fp.fin x)
      = Fp.fin (min x y) := by
    intro x y
    rw [Fp.lt_fin]
    by_cases h : y < x
    · rw [if_pos (by simpa using h), min_eq_right (le_of_lt h)]
    · rw [if_neg (by simpa using h), min_eq_left (not_lt.1 h)]
  simp only [key]

/-- The store `pre_mul[c] /= dmin` for a positive `dmin` and a multiplier
that is not below it: the result is at least 1 or `+inf`, it is 1 for the
minimum itself, and it is finite when the quotient does not exceed
`2 ^ 127`. -/
theorem scaleNorm_fin (d x : ℚ) (hd : 0 < d) (hx : d ≤ x) :
    Fp.le (Fp.fin 1) (scaleNorm (Fp.fin d) (Fp.fin x)) = true ∧
    (x = d → scaleNorm (Fp.fin d) (Fp.fin x) = Fp.fin 1) ∧
    (x ≤ 2 ^ 127 * d →
      ∃ v, scaleNorm (Fp.fin d) (Fp.fin x) = Fp.fin v ∧ 1 ≤ v ∧ v ≤ 2 ^ 127) := by
  have hx0 : 0 < x := lt_of_lt_of_le hd hx
  have hq : 1 ≤ x / d := (one_le_div hd).2 hx
  have e : scaleNorm (Fp.fin d) (Fp.fin x) = Fp.cast f32 (f64 (x / d)) := by
    unfold scaleNorm
    rw [Fp.div_fin f64 x d (ne_of_gt hx0) (ne_of_gt hd)]
  rw [e]
  refine ⟨?_, ?_, ?_⟩
  · rcases f64_ge_one (x / d) hq with h | ⟨w, h, hw⟩
    · rw [h]
      exact Fp.le_fin_inf 1
    · rw [h]
      show Fp.le (Fp.fin 1) (f32 w) = true
      rcases f32_ge_one w hw with h1 | ⟨v, h1, hv⟩
      · rw [h1]
        exact Fp.le_fin_inf 1
      · rw [h1, Fp.le_fin]
        simpa using hv
  · intro hxd
    rw [hxd, div_self (ne_of_gt hd), f64_one, Fp.cast_fin, f32_one]
  · intro hb
    have hq2 : x / d ≤ (2 : ℚ) ^ (127 : Int) := by
      rw [div_le_iff₀ hd]
      exact_mod_cast hb
    obtain ⟨w, h, w1, w2⟩ := f64_mem (x / d) 0 127 (by norm_num) (by norm_num)
      (by rw [zpow_zero]; exact hq) hq2
    obtain ⟨v, h1, v1, v2⟩ := f32_mem w 0 127 (by norm_num) (by norm_num) w1 w2
    rw [zpow_zero] at v1
    rw [h]
    exact ⟨v, h1, v1, by exact_mod_cast v2⟩

theorem SumsOk.sums_mono {n m : Int} {s : List Int} (h : SumsOk n s) (hnm : n ≤ m) : SumsOk m s :=
  ⟨h.1, fun c hc => ⟨(h.2 c hc).1, (h.2 c hc).2.1, le_trans (h.2 c hc).2.2.1 hnm,
    (h.2 c hc).2.2.2⟩⟩

theorem SumsOk.zero : SumsOk 0 (List.replicate 8 0) := by
  refine ⟨by simp, ?_⟩
  intro c hc
  have hc' : c = 0 ∨ c = 1 ∨ c = 2 ∨ c = 3 := by omega
  rcases hc' with rfl | rfl | rfl | rfl <;> decide

/-- Adding a non-negative value to plane `k` and one to its count. -/
theorem SumsOk.add {n : Int} {s : List Int} (h : SumsOk n s) (k : Nat) (hk : k < 4) (v : Int)
    (hv : 0 ≤ v) : SumsOk (n + 1) (sadd (sadd s k v) (k + 4) 1) := by
  obtain ⟨hl, hs⟩ := h
  refine ⟨by rw [sadd_length, sadd_length, hl], ?_⟩
  intro c hc
  obtain ⟨h1, h2, h3, h4⟩ := hs c hc
  rw [sget_sadd, sget_sadd, sget_sadd, sget_sadd, sadd_length, hl]
  by_cases hck : k = c
  · subst hck
    have e1 : ¬ (k + 4 = k ∧ k + 4 < 8) := by omega
    have e2 : (k = k ∧ k < 8) := ⟨rfl, by omega⟩
    have e3 : (k + 4 = k + 4 ∧ k + 4 < 8) := ⟨rfl, by omega⟩
    have e4 : ¬ (k = k + 4 ∧ k < 8) := by omega
    simp only [e1, e2, e3, e4, if_true, if_false, and_self]
    refine ⟨by omega, by omega, by omega, fun _ => by omega⟩
  · have e1 : ¬ (k + 4 = c ∧ k + 4 < 8) := by omega
    have e2 : ¬ (k = c ∧ k < 8) := by omega
    have e3 : ¬ (k + 4 = c + 4 ∧ k + 4 < 8) := by omega
    have e4 : ¬ (k = c + 4 ∧ k < 8) := by omega
    simp only [e1, e2, e3, e4, if_false]
    exact ⟨h1, h2, by omega, h4⟩

theorem blockSample_ok (img : List Nat) (width : Nat) (black maximum : Int) (y x c : Nat)
    (hc : c < 4) (n : Int) (s : Option (List Int)) (h : BlockOk n s) :
    BlockOk (n + 1) (blockSample img width black maximum y x c s) := by
  intro sum hsum
  unfold blockSample at hsum
  cases s with
  | none => simp at hsum
  | some s0 =>
    have h0 := h s0 rfl
    simp only at hsum
    split_ifs at hsum with h1 h2 h3
    · cases hsum
      exact h0.sums_mono (by omega)
    · cases hsum
      exact h0.add c hc 0 (le_refl _)
    · cases hsum
      exact h0.add c hc _ (by omega)

theorem blockSum_ok (img : List Nat) (width : Nat) (black maximum : Int) (row col : Nat) :
    BlockOk 196 (blockSum img width black maximum row col) := by
  unfold blockSum
  have rows := loop_inv (fun i s => BlockOk (28 * ((i : Int) - row)) s)
    (fun y s =>
      loop (fun x s =>
        loop (fun c s => blockSample img width black maximum y x c s) 4 0 s) 7 col s)
    7 row (some (List.replicate 8 0))
    (by
      intro sum hsum
      cases hsum
      exact SumsOk.zero.sums_mono (by omega))
    (by
      intro y s _ _ hs
      have cols := loop_inv
        (fun j s => BlockOk (28 * ((y : Int) - row) + 4 * ((j : Int) - col)) s)
        (fun x s => loop (fun c s => blockSample img width black maximum y x c s) 4 0 s)
        7 col s
        (by
          intro sum hsum
          exact (hs sum hsum).sums_mono (by omega))
        (by
          intro x s1 _ _ hs1
          have pl := loop_inv
            (fun k s => BlockOk (28 * ((y : Int) - row) + 4 * ((x : Int) - col) + k) s)
            (fun c s => blockSample img width black maximum y x c s) 4 0 s1
            (by
              intro sum hsum
              exact (hs1 sum hsum).sums_mono (by omega))
            (by
              intro c s2 _ hc hs2
              have := blockSample_ok img width black maximum y x c (by omega) _ s2 hs2
              intro sum hsum
              exact (this sum hsum).sums_mono (by push_cast; omega))
          intro sum hsum
          exact (pl sum hsum).sums_mono (by push_cast; omega))
      intro sum hsum
      exact (cols sum hsum).sums_mono (by push_cast; omega))
  intro sum hsum
  exact (rows sum hsum).sums_mono (by push_cast; omega)

/-- Adding one to the count of plane `k` without touching its sum. -/
theorem SumsOk.count {n : Int} {s : List Int} (h : SumsOk n s) (k : Nat) (hk : k < 4) :
    SumsOk (n + 1) (sadd s (k + 4) 1) := by
  obtain ⟨hl, hs⟩ := h
  refine ⟨by rw [sadd_length, hl], ?_⟩
  intro c hc
  obtain ⟨h1, h2, h3, h4⟩ := hs c hc
  rw [sget_sadd, sget_sadd, hl]
  have e1 : ¬ (k + 4 = c ∧ k + 4 < 8) := by omega
  simp only [e1, if_false]
  by_cases hck : k = c
  · subst hck
    simp only [show (k + 4 = k + 4 ∧ k + 4 < 8) from ⟨rfl, by omega⟩, if_true]
    exact ⟨h1, by omega, by omega, fun _ => by omega⟩
  · simp only [show ¬ (k + 4 = c + 4 ∧ k + 4 < 8) by omega, if_false]
    exact ⟨h1, h2, by omega, h4⟩

/-- The loop `for (c=0; c < 8; c++) dsum[c] += sum[c]`. -/
theorem add_block (dsum sum : List Int) (hl : dsum.length = 8) :
    (loop (fun c d => sadd d c (sget sum c)) 8 0 dsum).length = 8 ∧
    ∀ j, sget (loop (fun c d => sadd d c (sget sum c)) 8 0 dsum) j
      = if j < 8 then sget dsum j + sget sum j else sget dsum j := by
  have key := loop_inv
    (fun i (d : List Int) => d.length = 8 ∧
      ∀ j, sget d j = if j < i then sget dsum j + sget sum j else sget dsum j)
    (fun c d => sadd d c (sget sum c)) 8 0 dsum
    ⟨hl, fun j => by simp⟩
    (by
      intro i d _ hi hd
      refine ⟨by rw [sadd_length]; exact hd.1, ?_⟩
      intro j
      rw [sget_sadd, hd.1, hd.2 j]
      by_cases hij : i = j
      · subst hij
        simp [show i < 8 by omega]
      · simp only [show ¬ (i = j ∧ i < 8) by omega, if_false]
        by_cases hlt : j < i
        · simp only [hlt, if_true, show j < i + 1 by omega]
        · simp only [hlt, if_false, show ¬ j < i + 1 by omega])
  exact key

theorem SumsOk.add_sums {n m : Int} {dsum sum : List Int} (h : SumsOk n dsum)
    (hs : SumsOk m sum) :
    SumsOk (n + m) (loop (fun c d => sadd d c (sget sum c)) 8 0 dsum) := by
  obtain ⟨l1, e1⟩ := add_block dsum sum h.1
  refine ⟨l1, ?_⟩
  intro c hc
  obtain ⟨a1, a2, a3, a4⟩ := h.2 c hc
  obtain ⟨b1, b2, b3, b4⟩ := hs.2 c hc
  rw [e1 c, e1 (c + 4)]
  simp only [show c < 8 by omega, show c + 4 < 8 by omega, if_true]
  refine ⟨by omega, by omega, by omega, ?_⟩
  intro hpos
  by_cases hd : 0 < sget dsum c
  · have := a4 hd
    omega
  · have := b4 (by omega)
    omega

theorem autoSums_ok (img : List Nat) (width height : Nat) (black maximum : Int) :
    SumsOk (196 * (((height - 7 : Nat) : Int) * ((width - 7 : Nat) : Int)))
      (autoSums img width height black maximum) := by
  unfold autoSums
  have rows := loop_inv
    (fun i d => SumsOk (196 * ((i : Int) * ((width - 7 : Nat) : Int))) d)
    (fun row dsum =>
      loop (fun col dsum =>
        match blockSum img width black maximum row col with
        | none => dsum
        | some sum => loop (fun c d => sadd d c (sget sum c)) 8 0 dsum)
        (width - 7) 0 dsum) (height - 7) 0 (List.replicate 8 0)
    (SumsOk.zero.sums_mono (by simp))
    (by
      intro row d _ _ hd
      have cols := loop_inv
        (fun j d1 => SumsOk (196 * ((row : Int) * ((width - 7 : Nat) : Int)) + 196 * (j : Int)) d1)
        (fun col dsum =>
          match blockSum img width black maximum row col with
          | none => dsum
          | some sum => loop (fun c d => sadd d c (sget sum c)) 8 0 dsum)
        (width - 7) 0 d
        (hd.sums_mono (by simp))
        (by
          intro col d1 _ _ hd1
          have hb := blockSum_ok img width black maximum row col
          show SumsOk _ (match blockSum img width black maximum row col with
            | none => d1
            | some sum => loop (fun c d => sadd d c (sget sum c)) 8 0 d1)
          cases hbs : blockSum img width black maximum row col with
          | none => exact hd1.sums_mono (by push_cast; omega)
          | some sum =>
            exact (hd1.add_sums (hb sum hbs)).sums_mono (by push_cast; omega))
      refine cols.sums_mono (le_of_eq ?_)
      push_cast
      ring)
  simpa using rows

theorem whiteSums_ok (white : List Nat) (filters : Nat) (black : Int) :
    SumsOk 64 (whiteSums white filters black) := by
  unfold whiteSums
  have rows := loop_inv
    (fun i s => SumsOk (8 * (i : Int)) s)
    (fun row sum =>
      loop (fun col sum =>
        let c := FC filters row col
        let val : Int := (white.getD (row * 8 + col) 0 : Int) - black
        sadd (if val > 0 then sadd sum c val else sum) (c + 4) 1) 8 0 sum)
    8 0 (List.replicate 8 0)
    (SumsOk.zero.sums_mono (by simp))
    (by
      intro row s _ _ hs
      have cols := loop_inv
        (fun j s1 => SumsOk (8 * (row : Int) + (j : Int)) s1)
        (fun col sum =>
          let c := FC filters row col
          let val : Int := (white.getD (row * 8 + col) 0 : Int) - black
          sadd (if val > 0 then sadd sum c val else sum) (c + 4) 1) 8 0 s
        (hs.sums_mono (by simp))
        (by
          intro col s1 _ _ hs1
          show SumsOk _ (sadd (if _ then _ else _) _ 1)
          split_ifs with hv
          · exact (hs1.add _ (FC_lt _ _ _) _ (le_of_lt hv)).sums_mono (by push_cast; omega)
          · exact (hs1.count _ (FC_lt _ _ _)).sums_mono (by push_cast; omega))
      exact cols.sums_mono (by omega))
  exact rows.sums_mono (by omega)

/-! ## White balance: sums accumulated by loops -/

theorem Tot.tot_congr {S T : Nat → Int} {l : List Int} (h : Tot S l)
    (hST : ∀ k, k < 8 → S k = T k) : Tot T l :=
  ⟨h.1, fun k hk => (h.2 k hk).trans (hST k hk)⟩

theorem Acc.acc_congr {bad bad1 : Prop} {S T : Nat → Int} {s : Option (List Int)} (h : Acc bad S s)
    (hb : bad ↔ bad1) (hST : ∀ k, k < 8 → S k = T k) : Acc bad1 T s :=
  ⟨fun hb1 => h.1 (hb.2 hb1), fun hn => by
    obtain ⟨l, e, ht⟩ := h.2 (fun hbad => hn (hb.1 hbad))
    exact ⟨l, e, ht.tot_congr hST⟩⟩

/-- A loop whose body adds `g i k` to entry `k` adds the sum of the `g i k`. -/
theorem tot_loop (f : Nat → List Int → List Int) (g : Nat → Nat → Int) :
    ∀ (n start : Nat) (S : Nat → Int) (l : List Int),
      (∀ i S l, start ≤ i → i < start + n → Tot S l → Tot (fun k => S k + g i k) (f i l)) →
      Tot S l →
      Tot (fun k => S k + Finset.sum (Finset.range n) (fun j => g (start + j) k))
        (loop f n start l) := by
  intro n
  induction n with
  | zero =>
    intro start S l _ h
    exact h.tot_congr (fun k _ => by simp)
  | succ n ih =>
    intro start S l hstep h
    rw [loop_succ]
    refine (ih (start + 1) _ _ (fun i S l h1 h2 => hstep i S l (by omega) (by omega))
      (hstep start S l (le_refl _) (by omega) h)).tot_congr (fun k _ => ?_)
    rw [Finset.sum_range_succ' _ n]
    simp only [Nat.add_zero]
    have e : ∀ j, start + 1 + j = start + (j + 1) := fun j => by omega
    simp only [e]
    ring

/-- A loop over a block scan: the scan is dropped if it was dropped before or
some iteration drops it, else entry `k` has grown by the sum of the `g i k`. -/
theorem acc_loop (f : Nat → Option (List Int) → Option (List Int)) (sat : Nat → Prop)
    (g : Nat → Nat → Int) :
    ∀ (n start : Nat) (bad : Prop) (S : Nat → Int) (s : Option (List Int)),
      (∀ i bad S s, start ≤ i → i < start + n → Acc bad S s →
        Acc (bad ∨ sat i) (fun k => S k + g i k) (f i s)) →
      Acc bad S s →
      Acc (bad ∨ ∃ j, j < n ∧ sat (start + j))
        (fun k => S k + Finset.sum (Finset.range n) (fun j => g (start + j) k))
        (loop f n start s) := by
  intro n
  induction n with
  | zero =>
    intro start bad S s _ h
    refine h.acc_congr ?_ (fun k _ => by simp)
    constructor
    · exact fun hb => Or.inl hb
    · rintro (hb | ⟨j, hj, _⟩)
      · exact hb
      · omega
  | succ n ih =>
    intro start bad S s hstep h
    rw [loop_succ]
    refine (ih (start + 1) _ _ _ (fun i bad S s h1 h2 => hstep i bad S s (by omega) (by omega))
      (hstep start bad S s (le_refl _) (by omega) h)).acc_congr ?_ (fun k _ => ?_)
    · rw [Nat.exists_lt_succ_left]
      have e : ∀ j, start + 1 + j = start + (j + 1) := fun j => by omega
      simp only [e, Nat.add_zero]
      tauto
    · rw [Finset.sum_range_succ' _ n]
      simp only [Nat.add_zero]
      have e : ∀ j, start + 1 + j = start + (j + 1) := fun j => by omega
      simp only [e]
      ring

/-! ## White balance: the scan of one block -/

/-- The body of the innermost loop of the auto mode, on the state of a block
scan; `maximum` is the saturation ceiling. -/
theorem blockSample_acc (img : List Nat) (width : Nat) (black maximum : Int) (y x c : Nat)
    (hc : c < 4) (bad : Prop) (S : Nat → Int) (s : Option (List Int)) (h : Acc bad S s) :
    Acc (bad ∨ (sample img width y x c ≠ 0 ∧ sample img width y x c > maximum - 25))
      (fun k => S k + sampleTerm img width black y x c k)
      (blockSample img width black (maximum - black) y x c s) := by
  by_cases hbad : bad
  · have hs := h.1 hbad
    subst hs
    exact ⟨fun _ => rfl, fun hn => absurd (Or.inl hbad) hn⟩
  · obtain ⟨l, hs, hl, ht⟩ := h.2 hbad
    subst hs
    unfold blockSample
    show Acc _ _ (if (sample img width y x c) = 0 then some l else
      if sample img width y x c - black > maximum - black - 25 then none
      else some (sadd (sadd l c (if sample img width y x c - black < 0 then 0
        else sample img width y x c - black)) (c + 4) 1))
    by_cases hz : sample img width y x c = 0
    · rw [if_pos hz]
      refine ⟨fun hb => ?_, fun _ => ⟨l, rfl, hl, fun k hk => ?_⟩⟩
      · rcases hb with hb | hb
        · exact absurd hb hbad
        · exact absurd hz hb.1
      · unfold sampleTerm
        beta_reduce
        rw [if_neg (not_not.2 hz), ht k hk, add_zero]
    · rw [if_neg hz]
      by_cases hsat : sample img width y x c - black > maximum - black - 25
      · rw [if_pos hsat]
        exact ⟨fun _ => rfl, fun hn => absurd (Or.inr ⟨hz, by omega⟩) hn⟩
      · rw [if_neg hsat]
        refine ⟨fun hb => ?_, fun _ => ⟨_, rfl, by rw [sadd_length, sadd_length, hl],
          fun k hk => ?_⟩⟩
        · rcases hb with hb | hb
          · exact absurd hb hbad
          · omega
        · unfold sampleTerm
          beta_reduce
          rw [if_pos hz, sget_sadd, sget_sadd, sadd_length, hl, ht k hk]
          by_cases h1 : k = c
          · subst h1
            rw [if_neg (by omega), if_pos ⟨rfl, by omega⟩, if_pos rfl]
            congr 1
            split_ifs with hneg
            · rw [max_eq_left (by omega)]
            · rw [max_eq_right (by omega)]
          · by_cases h2 : k = c + 4
            · subst h2
              rw [if_pos ⟨rfl, by omega⟩, if_neg (by omega), if_neg h1, if_pos rfl]
            · rw [if_neg (fun h => h2 h.1.symm), if_neg (fun h => h1 h.1.symm), if_neg h1,
                if_neg h2, add_zero]

theorem sampleTerm_sum (img : List Nat) (width : Nat) (black : Int) (y x k : Nat) (hk : k < 8) :
    Finset.sum (Finset.range 4) (fun c => sampleTerm img width black y x (0 + c) k)
      = pixelTerm img width black y x k := by
  unfold sampleTerm pixelTerm
  simp only [Finset.sum_range_succ, Finset.sum_range_zero, Nat.zero_add]
  interval_cases k <;> simp

/-- The scan of one pixel (the loop `FORC4`). -/
theorem pixel_acc (img : List Nat) (width : Nat) (black maximum : Int) (y x : Nat)
    (bad : Prop) (S : Nat → Int) (s : Option (List Int)) (h : Acc bad S s) :
    Acc (bad ∨ ∃ c, c < 4 ∧ sample img width y x c ≠ 0 ∧ sample img width y x c > maximum - 25)
      (fun k => S k + pixelTerm img width black y x k)
      (loop (fun c s => blockSample img width black (maximum - black) y x c s) 4 0 s) := by
  refine (acc_loop _ (fun c => sample img width y x c ≠ 0
      ∧ sample img width y x c > maximum - 25)
    (fun c k => sampleTerm img width black y x c k) 4 0 bad S s
    (fun i bad S s _ hi ha => blockSample_acc img width black maximum y x i (by omega) bad S s ha)
    h).acc_congr ?_ (fun k hk => ?_)
  · simp only [Nat.zero_add]
  · rw [sampleTerm_sum img width black y x k hk]

theorem blockSaturated_iff (img : List Nat) (width : Nat) (maximum : Int) (row col : Nat) :
    blockSaturated img width maximum row col = true ↔
      ∃ dy, dy < 7 ∧ ∃ dx, dx < 7 ∧ ∃ c, c < 4 ∧
        sample img width (row + dy) (col + dx) c ≠ 0 ∧
        sample img width (row + dy) (col + dx) c > maximum - 25 := by
  unfold blockSaturated
  simp only [List.any_eq_true, List.mem_range, decide_eq_true_eq]

/-- The scan of the 7 × 7 block at `(row, col)` is dropped exactly when the
block is saturated, and else yields the sums and counts of the block;
`maximum` is the saturation ceiling. -/
theorem blockSum_acc (img : List Nat) (width : Nat) (black maximum : Int) (row col : Nat) :
    Acc (blockSaturated img width maximum row col = true)
      (fun k => blockTerm img width black row col k)
      (blockSum img width black (maximum - black) row col) := by
  unfold blockSum
  have h0 : Acc False (fun _ => (0 : Int)) (some (List.replicate 8 (0 : Int))) :=
    ⟨fun h => absurd h not_false, fun _ => ⟨_, rfl, by simp, fun k hk => by
      interval_cases k <;> rfl⟩⟩
  have rows := acc_loop
    (fun y s => loop (fun x s =>
      loop (fun c s => blockSample img width black (maximum - black) y x c s) 4 0 s) 7 col s)
    (fun y => ∃ dx, dx < 7 ∧ ∃ c, c < 4 ∧ sample img width y (col + dx) c ≠ 0
      ∧ sample img width y (col + dx) c > maximum - 25)
    (fun y k => Finset.sum (Finset.range 7)
      (fun dx => pixelTerm img width black y (col + dx) k))
    7 row False (fun _ => 0) _
    (fun y bad S s _ _ ha => acc_loop
      (fun x s => loop (fun c s => blockSample img width black (maximum - black) y x c s) 4 0 s)
      (fun x => ∃ c, c < 4 ∧ sample img width y x c ≠ 0
        ∧ sample img width y x c > maximum - 25)
      (fun x k => pixelTerm img width black y x k) 7 col bad S s
      (fun x bad S s _ _ hb => pixel_acc img width black maximum y x bad S s hb) ha) h0
  refine rows.acc_congr ?_ (fun k _ => ?_)
  · rw [blockSaturated_iff, false_or]
  · unfold blockTerm
    rw [zero_add]

/-- The array `dsum[8]` of the auto mode holds the sums and counts aggregated
over the blocks that are not saturated. -/
theorem autoSums_tot (img : List Nat) (width height : Nat) (black maximum : Int) :
    Tot (fun k => autoTerm img width height black maximum k)
      (autoSums img width height black (maximum - black)) := by
  unfold autoSums
  have h0 : Tot (fun _ => (0 : Int)) (List.replicate 8 (0 : Int)) :=
    ⟨by simp, fun k hk => by interval_cases k <;> rfl⟩
  have rows := tot_loop
    (fun row dsum =>
      loop (fun col dsum =>
        match blockSum img width black (maximum - black) row col with
        | none => dsum
        | some sum => loop (fun c d => sadd d c (sget sum c)) 8 0 dsum)
        (width - 7) 0 dsum)
    (fun row k => Finset.sum (Finset.range (width - 7)) (fun col =>
      if blockSaturated img width maximum row col = true then 0
      else blockTerm img width black row col k))
    (height - 7) 0 (fun _ => 0) _
    (fun row S l _ _ ht => by
      refine (tot_loop
        (fun col dsum =>
          match blockSum img width black (maximum - black) row col with
          | none => dsum
          | some sum => loop (fun c d => sadd d c (sget sum c)) 8 0 dsum)
        (fun col k => if blockSaturated img width maximum row col = true then 0
          else blockTerm img width black row col k)
        (width - 7) 0 S l ?_ ht).tot_congr (fun k _ => by simp only [Nat.zero_add])
      intro col S l _ _ ht
      have hb := blockSum_acc img width black maximum row col
      by_cases hsat : blockSaturated img width maximum row col = true
      · simp only [hb.1 hsat, hsat, if_true, add_zero]
        exact ht
      · obtain ⟨sum, hs, hsum⟩ := hb.2 hsat
        simp only [hs, hsat, if_false]
        obtain ⟨a1, a2⟩ := add_block l sum ht.1
        refine ⟨a1, fun k hk => ?_⟩
        rw [a2 k, if_pos hk, ht.2 k hk, hsum.2 k hk]
        simp) h0
  refine rows.tot_congr (fun k _ => ?_)
  unfold autoTerm
  simp only [Nat.zero_add, zero_add]

/-! ## White balance: the camera mode -/

/-- The array `sum[8]` of the camera mode holds the sums and counts of the
8 × 8 patch. -/
theorem whiteSums_tot (white : List Nat) (filters : Nat) (black : Int) :
    Tot (fun k => patchTotal white filters black k) (whiteSums white filters black) := by
  unfold whiteSums
  have h0 : Tot (fun _ => (0 : Int)) (List.replicate 8 (0 : Int)) :=
    ⟨by simp, fun k hk => by interval_cases k <;> rfl⟩
  have rows := tot_loop
    (fun row sum =>
      loop (fun col sum =>
        let c := FC filters row col
        let val : Int := (white.getD (row * 8 + col) 0 : Int) - black
        sadd (if val > 0 then sadd sum c val else sum) (c + 4) 1) 8 0 sum)
    (fun row k => Finset.sum (Finset.range 8) (fun col => patchTerm white filters black row col k))
    8 0 (fun _ => 0) _
    (fun row S l _ _ ht => by
      refine (tot_loop
        (fun col sum =>
          let c := FC filters row col
          let val : Int := (white.getD (row * 8 + col) 0 : Int) - black
          sadd (if val > 0 then sadd sum c val else sum) (c + 4) 1)
        (fun col k => patchTerm white filters black row col k)
        8 0 S l ?_ ht).tot_congr (fun k _ => by simp only [Nat.zero_add])
      intro col S l _ _ ht
      have hf := FC_lt filters row col
      beta_reduce
      simp only []
      have hl : (if (white.getD (row * 8 + col) 0 : Int) - black > 0
          then sadd l (FC filters row col) ((white.getD (row * 8 + col) 0 : Int) - black)
          else l).length = 8 := by
        split_ifs
        · rw [sadd_length]
          exact ht.1
        · exact ht.1
      refine ⟨by rw [sadd_length]; exact hl, fun k hk => ?_⟩
      rw [sget_sadd, hl]
      unfold patchTerm
      beta_reduce
      by_cases hk4 : k < 4
      · rw [if_neg (by omega), if_pos hk4]
        by_cases hv : (white.getD (row * 8 + col) 0 : Int) - black > 0
        · rw [if_pos hv, sget_sadd, ht.1, ht.2 k hk]
          by_cases hck : FC filters row col = k
          · rw [if_pos ⟨hck, by omega⟩, if_pos ⟨hck, hv⟩]
          · rw [if_neg (fun h => hck h.1), if_neg (fun h => hck h.1), add_zero]
        · rw [if_neg hv, ht.2 k hk, if_neg (fun h => hv h.2), add_zero]
      · rw [if_neg hk4]
        have e : sget (if (white.getD (row * 8 + col) 0 : Int) - black > 0
            then sadd l (FC filters row col) ((white.getD (row * 8 + col) 0 : Int) - black)
            else l) k = S k := by
          split_ifs
          · rw [sget_sadd, if_neg (by omega), ht.2 k hk]
          · exact ht.2 k hk
        rw [e]
        by_cases hck : FC filters row col = k - 4
        · rw [if_pos ⟨by omega, by omega⟩, if_pos hck]
        · rw [if_neg (by omega), if_neg hck, add_zero]) h0
  refine rows.tot_congr (fun k _ => ?_)
  unfold patchTotal
  simp only [Nat.zero_add, zero_add]

/-! ## White balance: the sums held in `double` are exact -/

/-- Two loops whose bodies commute with a map of the states, on the states
that satisfy an invariant, commute with it. -/
theorem loop_commute {σ τ : Type} (P : Nat → σ → Prop) (F : σ → τ) (f : Nat → σ → σ)
    (g : Nat → τ → τ) :
    ∀ (n start : Nat) (s : σ), P start s →
      (∀ i s, start ≤ i → i < start + n → P i s → P (i + 1) (f i s) ∧ g i (F s) = F (f i s)) →
      P (start + n) (loop f n start s) ∧ loop g n start (F s) = F (loop f n start s) := by
  intro n
  induction n with
  | zero =>
    intro start s h _
    exact ⟨h, rfl⟩
  | succ n ih =>
    intro start s h step
    obtain ⟨h1, h2⟩ := step start s (le_refl _) (by omega) h
    rw [loop_succ, loop_succ, h2]
    have := ih (start + 1) (f start s) h1 (fun i t a b => step i t (by omega) (by omega))
    rw [show start + 1 + n = start + (n + 1) by omega] at this
    exact this

theorem mget_dbl (d : List Int) (c : Nat) : mget (dbl d) c = Fp.fin ((sget d c : Int) : ℚ) := by
  unfold mget dbl sget
  rw [List.getD_eq_getElem?_getD, List.getD_eq_getElem?_getD, List.getElem?_map]
  cases d[c]? with
  | none => simp
  | some v => rfl

theorem dbl_length (d : List Int) : (dbl d).length = d.length := by
  unfold dbl
  rw [List.length_map]

/-- The sum of a `double` that holds a non-negative integer and of a
non-negative `int` is exact below `2 ^ 53`. -/
theorem add64_int (a v : Int) (ha : 0 ≤ a) (hv : 0 ≤ v) (h : a + v < 2 ^ 53) :
    Fp.add f64 (Fp.fin (a : ℚ)) (Fp.ofInt f64 v) = Fp.fin ((a + v : Int) : ℚ) := by
  rw [f64_ofInt v (by rw [abs_of_nonneg hv]; omega)]
  unfold Fp.add
  rw [if_neg (by simp)]
  show (if true = true then (if true = true then
    (if (a : ℚ) + (v : ℚ) = 0 then Fp.zero (decide ((a : ℚ) < 0) && decide ((v : ℚ) < 0))
      else f64 ((a : ℚ) + (v : ℚ))) else _) else _) = _
  rw [if_pos rfl, if_pos rfl]
  split_ifs with hz
  · have ha0 : ¬ ((a : ℚ) < 0) := not_lt.2 (by exact_mod_cast ha)
    rw [decide_eq_false ha0, Bool.false_and]
    show Fp.fin 0 = _
    push_cast
    rw [hz]
  · have hpos : 0 < a + v := by
      rcases lt_or_eq_of_le (add_nonneg ha hv) with h1 | h1
      · exact h1
      · exfalso
        apply hz
        have : ((a + v : Int) : ℚ) = 0 := by rw [← h1]; simp
        push_cast at this
        exact this
    have := f64_int (a + v) hpos h
    push_cast at this ⊢
    exact this

theorem dadd_dbl (d : List Int) (c : Nat) (v : Int) (ha : 0 ≤ sget d c) (hv : 0 ≤ v)
    (h : sget d c + v < 2 ^ 53) : dadd (dbl d) c v = dbl (sadd d c v) := by
  unfold dadd
  rw [mget_dbl, add64_int _ _ ha hv h]
  unfold dbl sadd sget
  rw [List.map_set]

/-- The loop `for (c=0; c < 8; c++) dsum[c] += sum[c]` on `double`s that hold
integers adds the integers, as long as the sums stay below `2 ^ 53`. -/
theorem dadd_block (dsum sum : List Int) (b t : Int) (hd : DsumOk b dsum) (hs : DsumOk t sum)
    (hb : b + t < 2 ^ 53) :
    DsumOk (b + t) (loop (fun c d => sadd d c (sget sum c)) 8 0 dsum) ∧
    loop (fun c d => dadd d c (sget sum c)) 8 0 (dbl dsum)
      = dbl (loop (fun c d => sadd d c (sget sum c)) 8 0 dsum) := by
  obtain ⟨l1, e1⟩ := add_block dsum sum hd.1
  constructor
  · refine ⟨l1, ?_⟩
    intro k hk
    rw [e1 k, if_pos hk]
    have h1 := hd.2 k hk
    have h2 := hs.2 k hk
    omega
  · have key := loop_commute
      (fun i (d : List Int) => d.length = 8 ∧
        ∀ j, sget d j = if j < i then sget dsum j + sget sum j else sget dsum j)
      dbl (fun c d => sadd d c (sget sum c)) (fun c d => dadd d c (sget sum c)) 8 0 dsum
      ⟨hd.1, fun j => by simp⟩
      (by
        intro i d _ hi hp
        have hi8 : i < 8 := by omega
        refine ⟨⟨by rw [sadd_length]; exact hp.1, ?_⟩, ?_⟩
        · intro j
          rw [sget_sadd, hp.1, hp.2 j]
          by_cases hij : i = j
          · subst hij
            simp [show i < 8 by omega]
          · simp only [show ¬ (i = j ∧ i < 8) by omega, if_false]
            by_cases hlt : j < i
            · simp only [hlt, if_true, show j < i + 1 by omega]
            · simp only [hlt, if_false, show ¬ j < i + 1 by omega]
        · have e : sget d i = sget dsum i := by
            rw [hp.2 i, if_neg (lt_irrefl i)]
          have h1 := hd.2 i hi8
          have h2 := hs.2 i hi8
          exact dadd_dbl d i (sget sum i) (by rw [e]; exact h1.1) h2.1 (by rw [e]; omega))
    exact key.2

/-- What one pixel adds to the sums of a block that is not saturated lies in
`0 .. max 1 (maximum - black - 25)`. -/
theorem pixelTerm_range (img : List Nat) (width : Nat) (black maximum : Int) (y x k : Nat)
    (hns : ∀ c, c < 4 → ¬ (sample img width y x c ≠ 0 ∧ sample img width y x c > maximum - 25)) :
    0 ≤ pixelTerm img width black y x k ∧
    pixelTerm img width black y x k ≤ max 1 (maximum - black - 25) := by
  have m1 := le_max_left 1 (maximum - black - 25)
  have m2 := le_max_right 1 (maximum - black - 25)
  unfold pixelTerm
  split_ifs with h1 h2 h3
  · have hle : sample img width y x k ≤ maximum - 25 := by
      by_contra hc
      exact hns k h1 ⟨h2, by omega⟩
    have a1 := le_max_left 0 (sample img width y x k - black)
    refine ⟨a1, max_le (by omega) (by omega)⟩
  · exact ⟨le_refl _, by omega⟩
  · exact ⟨by omega, m1⟩
  · exact ⟨le_refl _, by omega⟩

/-- The sums of a block that is scanned to its end lie in
`0 .. 49 * max 1 (maximum - black - 25)`. -/
theorem blockSum_le (img : List Nat) (width : Nat) (black maximum : Int) (row col : Nat)
    (sum : List Int) (h : blockSum img width black (maximum - black) row col = some sum) :
    DsumOk (49 * max 1 (maximum - black - 25)) sum := by
  have hacc := blockSum_acc img width black maximum row col
  by_cases hsat : blockSaturated img width maximum row col = true
  · rw [hacc.1 hsat] at h
    exact absurd h (by simp)
  · obtain ⟨l, e, ht⟩ := hacc.2 hsat
    rw [h] at e
    cases e
    refine ⟨ht.1, ?_⟩
    intro k hk
    rw [ht.2 k hk]
    have hpix : ∀ dy, dy ∈ Finset.range 7 → ∀ dx, dx ∈ Finset.range 7 →
        0 ≤ pixelTerm img width black (row + dy) (col + dx) k ∧
        pixelTerm img width black (row + dy) (col + dx) k ≤ max 1 (maximum - black - 25) := by
      intro dy hdy dx hdx
      refine pixelTerm_range img width black maximum _ _ k ?_
      intro c hc hh
      exact hsat ((blockSaturated_iff img width maximum row col).2
        ⟨dy, Finset.mem_range.1 hdy, dx, Finset.mem_range.1 hdx, c, hc, hh⟩)
    show 0 ≤ blockTerm img width black row col k ∧
      blockTerm img width black row col k ≤ 49 * max 1 (maximum - black - 25)
    unfold blockTerm
    constructor
    · exact Finset.sum_nonneg (fun dy hdy => Finset.sum_nonneg (fun dx hdx => (hpix dy hdy dx hdx).1))
    · have inner : ∀ dy, dy ∈ Finset.range 7 →
          Finset.sum (Finset.range 7)
            (fun dx => pixelTerm img width black (row + dy) (col + dx) k)
          ≤ 7 * max 1 (maximum - black - 25) := by
        intro dy hdy
        have := Finset.sum_le_sum (fun dx hdx => (hpix dy hdy dx hdx).2)
        simpa using this
      have outer := Finset.sum_le_sum inner
      have e7 : Finset.sum (Finset.range 7) (fun _ => 7 * max 1 (maximum - black - 25))
          = 49 * max 1 (maximum - black - 25) := by
        rw [Finset.sum_const, Finset.card_range]
        simp only [nsmul_eq_mul]
        push_cast
        ring
      rw [e7] at outer
      exact outer

/-- The array `dsum[8]` of `double`s of the auto mode holds the integer sums
exactly, when the bound `49 * max 1 (maximum - black - 25)` on the sums of a
block times the number of blocks is below `2 ^ 53`. -/
theorem autoDsum_exact (img : List Nat) (width height : Nat) (black maximum : Int)
    (hB : 49 * max 1 (maximum - black - 25)
      * (((height - 7 : Nat) : Int) * ((width - 7 : Nat) : Int)) < 2 ^ 53) :
    DsumOk (49 * max 1 (maximum - black - 25)
        * (((height - 7 : Nat) : Int) * ((width - 7 : Nat) : Int)))
      (autoSums img width height black (maximum - black)) ∧
    autoDsum img width height black (maximum - black)
      = dbl (autoSums img width height black (maximum - black)) := by
  have hT : (0 : Int) ≤ 49 * max 1 (maximum - black - 25) := by
    have := le_max_left 1 (maximum - black - 25)
    omega
  have hW : (0 : Int) ≤ ((width - 7 : Nat) : Int) := Int.natCast_nonneg _
  have init : dbl (List.replicate 8 (0 : Int)) = List.replicate 8 (Fp.fin 0) := by
    simp [dbl]
  unfold autoDsum autoSums
  rw [← init]
  have rows := loop_commute
    (fun i (d : List Int) => DsumOk (49 * max 1 (maximum - black - 25)
      * ((i : Int) * ((width - 7 : Nat) : Int))) d) dbl
    (fun row dsum =>
      loop (fun col dsum =>
        match blockSum img width black (maximum - black) row col with
        | none => dsum
        | some sum => loop (fun c d => sadd d c (sget sum c)) 8 0 dsum)
        (width - 7) 0 dsum)
    (fun row dsum =>
      loop (fun col dsum =>
        match blockSum img width black (maximum - black) row col with
        | none => dsum
        | some sum => loop (fun c d => dadd d c (sget sum c)) 8 0 dsum)
        (width - 7) 0 dsum)
    (height - 7) 0 (List.replicate 8 0)
    ⟨by simp, fun k hk => by
      have hz : sget (List.replicate 8 (0 : Int)) k = 0 := by
        interval_cases k <;> rfl
      rw [hz]
      simp⟩
    (by
      intro row d _ hrow hd
      have hrow1 : ((row : Int) + 1) ≤ ((height - 7 : Nat) : Int) := by omega
      have cols := loop_commute
        (fun j (d1 : List Int) => DsumOk (49 * max 1 (maximum - black - 25)
          * ((row : Int) * ((width - 7 : Nat) : Int) + (j : Int))) d1) dbl
        (fun col dsum =>
          match blockSum img width black (maximum - black) row col with
          | none => dsum
          | some sum => loop (fun c d => sadd d c (sget sum c)) 8 0 dsum)
        (fun col dsum =>
          match blockSum img width black (maximum - black) row col with
          | none => dsum
          | some sum => loop (fun c d => dadd d c (sget sum c)) 8 0 dsum)
        (width - 7) 0 d
        (by
          refine ⟨hd.1, fun k hk => ?_⟩
          have := hd.2 k hk
          simpa using this)
        (by
          intro col d1 _ hcol hd1
          have hcol1 : ((col : Int) + 1) ≤ ((width - 7 : Nat) : Int) := by omega
          have hstep : 49 * max 1 (maximum - black - 25)
              * ((row : Int) * ((width - 7 : Nat) : Int) + (col : Int))
              + 49 * max 1 (maximum - black - 25)
              = 49 * max 1 (maximum - black - 25)
                * ((row : Int) * ((width - 7 : Nat) : Int) + ((col + 1 : Nat) : Int)) := by
            push_cast
            ring
          have hle : (row : Int) * ((width - 7 : Nat) : Int) + ((col + 1 : Nat) : Int)
              ≤ ((height - 7 : Nat) : Int) * ((width - 7 : Nat) : Int) := by
            have h1 : ((row : Int) + 1) * ((width - 7 : Nat) : Int)
                ≤ ((height - 7 : Nat) : Int) * ((width - 7 : Nat) : Int) :=
              mul_le_mul_of_nonneg_right hrow1 hW
            have h2 : ((row : Int) + 1) * ((width - 7 : Nat) : Int)
                = (row : Int) * ((width - 7 : Nat) : Int) + ((width - 7 : Nat) : Int) := by ring
            push_cast
            omega
          have hlt : 49 * max 1 (maximum - black - 25)
              * ((row : Int) * ((width - 7 : Nat) : Int) + ((col + 1 : Nat) : Int)) < 2 ^ 53 :=
            lt_of_le_of_lt (mul_le_mul_of_nonneg_left hle hT) hB
          show DsumOk _ (match blockSum img width black (maximum - black) row col with
              | none => d1
              | some sum => loop (fun c d => sadd d c (sget sum c)) 8 0 d1) ∧
            (match blockSum img width black (maximum - black) row col with
              | none => dbl d1
              | some sum => loop (fun c d => dadd d c (sget sum c)) 8 0 (dbl d1))
            = dbl (match blockSum img width black (maximum - black) row col with
              | none => d1
              | some sum => loop (fun c d => sadd d c (sget sum c)) 8 0 d1)
          cases hbs : blockSum img width black (maximum - black) row col with
          | none =>
            refine ⟨⟨hd1.1, fun k hk => ?_⟩, rfl⟩
            have := hd1.2 k hk
            show 0 ≤ sget d1 k ∧ sget d1 k ≤ _
            rw [← hstep]
            omega
          | some sum =>
            have hs := blockSum_le img width black maximum row col sum hbs
            have := dadd_block d1 sum _ _ hd1 hs (by rw [hstep]; exact hlt)
            rw [hstep] at this
            exact this)
      refine ⟨?_, cols.2⟩
      have c1 := cols.1
      beta_reduce at c1
      rw [Nat.zero_add] at c1
      have e : 49 * max 1 (maximum - black - 25)
          * ((row : Int) * ((width - 7 : Nat) : Int) + ((width - 7 : Nat) : Int))
          = 49 * max 1 (maximum - black - 25)
            * (((row + 1 : Nat) : Int) * ((width - 7 : Nat) : Int)) := by
        push_cast
        ring
      rw [e] at c1
      exact c1)
  refine ⟨?_, rows.2⟩
  have r1 := rows.1
  beta_reduce at r1
  rw [Nat.zero_add] at r1
  exact r1

/-- An image whose number of pixels is an `int`, with a ceiling at most 65535
above the black level, keeps the sums of the auto mode below `2 ^ 53`. -/
theorem auto_bound (height width : Nat) (maximum black : Int) (hpix : height * width < 2 ^ 31)
    (hmaxi : maximum - black ≤ 65535) :
    49 * max 1 (maximum - black - 25)
      * (((height - 7 : Nat) : Int) * ((width - 7 : Nat) : Int)) < 2 ^ 53 := by
  have h1 : (height - 7) * (width - 7) ≤ height * width :=
    Nat.mul_le_mul (Nat.sub_le _ _) (Nat.sub_le _ _)
  have h2 : (((height - 7 : Nat) : Int) * ((width - 7 : Nat) : Int)) < 2 ^ 31 := by
    have : (((height - 7) * (width - 7) : Nat) : Int) < 2 ^ 31 := by
      have h3 : (height - 7) * (width - 7) < 2 ^ 31 := lt_of_le_of_lt h1 hpix
      exact_mod_cast h3
    push_cast at this
    exact this
  have h0 : (0 : Int) ≤ ((height - 7 : Nat) : Int) * ((width - 7 : Nat) : Int) :=
    mul_nonneg (Int.natCast_nonneg _) (Int.natCast_nonneg _)
  have hT1 : 49 * max 1 (maximum - black - 25) ≤ 3209990 := by
    have := max_le (show (1 : Int) ≤ 65510 by norm_num) (show maximum - black - 25 ≤ 65510 by omega)
    omega
  have hT0 : (0 : Int) ≤ 49 * max 1 (maximum - black - 25) := by
    have := le_max_left 1 (maximum - black - 25)
    omega
  calc 49 * max 1 (maximum - black - 25)
        * (((height - 7 : Nat) : Int) * ((width - 7 : Nat) : Int))
      ≤ 3209990 * (((height - 7 : Nat) : Int) * ((width - 7 : Nat) : Int)) :=
        mul_le_mul_of_nonneg_right hT1 h0
    _ ≤ 3209990 * (2 ^ 31 - 1) := by omega
    _ < 2 ^ 53 := by norm_num

/-! ## White balance: the multipliers before the normalisation -/

theorem isPos_of_mem (x : Fp) (v : ℚ) (a b : Int) (hx : x = Fp.fin v) (h1 : (2 : ℚ) ^ a ≤ v)
    (h2 : v ≤ 2 ^ b) (hb : b ≤ 1023) : x.IsPos := by
  refine ⟨v, hx, lt_of_lt_of_le (two_zpow_pos a) h1, le_trans h2 ?_⟩
  refine le_trans (two_zpow_le hb) ?_
  norm_num

/-- In a block that is not saturated the sum of a plane is at most its count
times the ceiling less `black` and 25. -/
theorem autoTerm_le (img : List Nat) (width height : Nat) (black maximum : Int) (k : Nat)
    (hk : k < 4) :
    autoTerm img width height black maximum k
      ≤ max 0 (maximum - black - 25) * autoTerm img width height black maximum (k + 4) := by
  unfold autoTerm
  rw [Finset.mul_sum]
  refine Finset.sum_le_sum (fun row _ => ?_)
  rw [Finset.mul_sum]
  refine Finset.sum_le_sum (fun col _ => ?_)
  by_cases hsat : blockSaturated img width maximum row col = true
  · rw [if_pos hsat, if_pos hsat, mul_zero]
  · rw [if_neg hsat, if_neg hsat]
    unfold blockTerm
    rw [Finset.mul_sum]
    refine Finset.sum_le_sum (fun dy hdy => ?_)
    rw [Finset.mul_sum]
    refine Finset.sum_le_sum (fun dx hdx => ?_)
    have hns : ¬ (sample img width (row + dy) (col + dx) k ≠ 0 ∧
        sample img width (row + dy) (col + dx) k > maximum - 25) := by
      intro hh
      exact hsat ((blockSaturated_iff img width maximum row col).2
        ⟨dy, Finset.mem_range.1 hdy, dx, Finset.mem_range.1 hdx, k, hk, hh⟩)
    have e1 : pixelTerm img width black (row + dy) (col + dx) k
        = if sample img width (row + dy) (col + dx) k ≠ 0
          then max 0 (sample img width (row + dy) (col + dx) k - black) else 0 := by
      unfold pixelTerm
      rw [if_pos hk]
    have e2 : pixelTerm img width black (row + dy) (col + dx) (k + 4)
        = if sample img width (row + dy) (col + dx) k ≠ 0 then 1 else 0 := by
      unfold pixelTerm
      rw [if_neg (by omega), Nat.add_sub_cancel]
    rw [e1, e2]
    by_cases h0 : sample img width (row + dy) (col + dx) k ≠ 0
    · rw [if_pos h0, if_pos h0, mul_one]
      have : sample img width (row + dy) (col + dx) k ≤ maximum - 25 := by
        by_contra hc
        exact hns ⟨h0, by omega⟩
      have h1 := le_max_left 0 (maximum - black - 25)
      have h2 := le_max_right 0 (maximum - black - 25)
      exact max_le h1 (by omega)
    · rw [if_neg h0, if_neg h0, mul_zero]

/-- The sums and counts that the auto mode divides: a plane with a non-zero
sum has a count and a sum in `1 .. 2 ^ 53`, when the bound on the sums of a
block times the number of blocks is below `2 ^ 53`. -/
theorem autoSums_range (img : List Nat) (width height : Nat) (black maximum : Int)
    (hB : 49 * max 1 (maximum - black - 25)
      * (((height - 7 : Nat) : Int) * ((width - 7 : Nat) : Int)) < 2 ^ 53) (c : Nat)
    (hc : c < 4) (hne : sget (autoSums img width height black (maximum - black)) c ≠ 0) :
    1 ≤ sget (autoSums img width height black (maximum - black)) (c + 4) ∧
    sget (autoSums img width height black (maximum - black)) (c + 4) < 2 ^ 53 ∧
    1 ≤ sget (autoSums img width height black (maximum - black)) c ∧
    sget (autoSums img width height black (maximum - black)) c < 2 ^ 53 := by
  obtain ⟨h1, h2, h3, h4⟩ := (autoSums_ok img width height black (maximum - black)).2 c hc
  have hd := (autoDsum_exact img width height black maximum hB).1
  have b1 := hd.2 c (by omega)
  have b2 := hd.2 (c + 4) (by omega)
  have hs : 0 < sget (autoSums img width height black (maximum - black)) c :=
    lt_of_le_of_ne h1 (Ne.symm hne)
  have hn := h4 hs
  refine ⟨by omega, by omega, by omega, by omega⟩

/-- The test `if (dsum[c])` on a `double` that holds an integer. -/
theorem isZero_dbl (d : List Int) (c : Nat) :
    (mget (dbl d) c).isZero = false ↔ sget d c ≠ 0 := by
  rw [mget_dbl]
  unfold Fp.isZero
  simp

/-- The stores that end the auto mode: entry `c` becomes the `float` of the
`double` quotient `dsum[c+4] / dsum[c]` when `dsum[c]` is non-zero and else
stays. -/
theorem autoMul_mget (dsum : List Fp) (pre_mul : List Fp) (hlen : pre_mul.length = 4) (c : Nat)
    (hc : c < 4) :
    mget (autoMul dsum pre_mul) c
      = if (mget dsum c).isZero = false then
          Fp.cast f32 (Fp.div f64 (mget dsum (c + 4)) (mget dsum c))
        else mget pre_mul c := by
  unfold autoMul
  have key := loop_inv (fun i (pm : List Fp) => pm.length = 4 ∧
      mget pm c = if c < i ∧ (mget dsum c).isZero = false then
          Fp.cast f32 (Fp.div f64 (mget dsum (c + 4)) (mget dsum c))
        else mget pre_mul c)
    (fun c pm =>
      if (mget dsum c).isZero = false then
        pm.set c (Fp.cast f32 (Fp.div f64 (mget dsum (c + 4)) (mget dsum c)))
      else pm)
    4 0 pre_mul ⟨hlen, by simp⟩ (by
      intro i pm _ hi hp
      simp only [Nat.zero_add] at hi
      obtain ⟨hl, hv⟩ := hp
      beta_reduce
      by_cases hne : (mget dsum i).isZero = false
      · rw [if_pos hne, List.length_set, mget_set, hl]
        refine ⟨rfl, ?_⟩
        by_cases hic : i = c
        · subst hic
          rw [if_pos ⟨rfl, hi⟩, if_pos ⟨Nat.lt_succ_self i, hne⟩]
        · rw [if_neg (fun h => hic h.1), hv]
          exact if_congr ⟨fun h => ⟨by omega, h.2⟩, fun h => ⟨by omega, h.2⟩⟩ rfl rfl
      · rw [if_neg hne]
        refine ⟨hl, ?_⟩
        rw [hv]
        refine if_congr ⟨fun h => ⟨by omega, h.2⟩, fun h => ⟨?_, h.2⟩⟩ rfl rfl
        by_cases hic : i = c
        · subst hic
          exact absurd h.2 hne
        · omega)
  rw [key.2, if_congr ⟨fun h => h.2, fun h => ⟨hc, h⟩⟩ rfl rfl]

theorem f64_thousandth :
    f64 (16 / 16000) = Fp.fin (4611686018427388 / 4611686018427387904) := by
  have h := Fp.round_eval 53 (-1022) 1023 (16 / 16000) (-10) 4611686018427388
    (by norm_num) (by norm_num) (by norm_num) (by norm_num) (by norm_num) (by norm_num)
  have e : ((4611686018427388 : Int) : ℚ) * 2 ^ ((-10 : Int) - (((53 : Nat) : Int) - 1))
      = 4611686018427388 / 4611686018427387904 := by norm_num
  rw [e] at h
  exact h

theorem f32_thousandth :
    f32 (4611686018427388 / 4611686018427387904) = Fp.fin (8589935 / 8589934592) := by
  have h := Fp.round_eval 24 (-126) 127 (4611686018427388 / 4611686018427387904) (-10) 8589935
    (by norm_num) (by norm_num) (by norm_num) (by norm_num) (by norm_num) (by norm_num)
  have e : ((8589935 : Int) : ℚ) * 2 ^ ((-10 : Int) - (((24 : Nat) : Int) - 1))
      = 8589935 / 8589934592 := by norm_num
  rw [e] at h
  exact h

theorem autoSums_mosaic8 :
    autoSums (mosaic 0x94949494 8 8 (fun c => [1000, 2000, 500].getD c 0)) 8 8 0 (4095 - 0)
      = [16000, 48000, 4500, 0, 16, 24, 9, 0] := by
  decide

/-- The auto step on an image whose sums stay below `2 ^ 53`: entry `c`
becomes `N_c / S_c` rounded to `double` and then to `float` when `S_c` is
non-zero, a positive finite number, and else stays. -/
theorem scaleAuto_mget (img : List Nat) (maximum black : Int)
    (use_auto_wb use_camera_wb : Bool) (cam_mul : List Fp) (height width : Nat)
    (pre_mul : List Fp) (c : Nat)
    (hmode : use_auto_wb = true ∨ (use_camera_wb = true ∧ mget cam_mul 0 = Fp.fin (-1)))
    (hlen : pre_mul.length = 4) (hc : c < 4)
    (hB : 49 * max 1 (maximum - black - 25)
      * (((height - 7 : Nat) : Int) * ((width - 7 : Nat) : Int)) < 2 ^ 53) :
    mget (scaleAuto img (maximum - black) black use_auto_wb use_camera_wb cam_mul height width
        pre_mul) c
      = (if autoTerm img width height black maximum c ≠ 0 then
          Fp.cast f32 (f64 ((autoTerm img width height black maximum (c + 4) : ℚ)
            / (autoTerm img width height black maximum c : ℚ)))
        else mget pre_mul c) ∧
    (autoTerm img width height black maximum c ≠ 0 →
      (1 ≤ autoTerm img width height black maximum (c + 4) ∧
        autoTerm img width height black maximum (c + 4) < 2 ^ 53) ∧
      (1 ≤ autoTerm img width height black maximum c ∧
        autoTerm img width height black maximum c < 2 ^ 53) ∧
      (Fp.cast f32 (f64 ((autoTerm img width height black maximum (c + 4) : ℚ)
        / (autoTerm img width height black maximum c : ℚ)))).IsPos) := by
  have htot := (autoSums_tot img width height black maximum).2
  have e1 : sget (autoSums img width height black (maximum - black)) c
      = autoTerm img width height black maximum c := htot c (by omega)
  have e2 : sget (autoSums img width height black (maximum - black)) (c + 4)
      = autoTerm img width height black maximum (c + 4) := htot (c + 4) (by omega)
  have hrange : autoTerm img width height black maximum c ≠ 0 →
      (1 ≤ autoTerm img width height black maximum (c + 4) ∧
        autoTerm img width height black maximum (c + 4) < 2 ^ 53) ∧
      (1 ≤ autoTerm img width height black maximum c ∧
        autoTerm img width height black maximum c < 2 ^ 53) := by
    intro hne
    have hne1 : sget (autoSums img width height black (maximum - black)) c ≠ 0 := by
      rw [e1]
      exact hne
    obtain ⟨n1, n2, s1, s2⟩ := autoSums_range img width height black maximum hB c hc hne1
    rw [e1] at s1 s2
    rw [e2] at n1 n2
    exact ⟨⟨n1, n2⟩, s1, s2⟩
  constructor
  · unfold scaleAuto
    rw [if_pos hmode, (autoDsum_exact img width height black maximum hB).2,
      autoMul_mget _ _ hlen c hc]
    by_cases hne : autoTerm img width height black maximum c ≠ 0
    · obtain ⟨⟨n1, _⟩, _, _⟩ := hrange hne
      have hN : ((autoTerm img width height black maximum (c + 4) : Int) : ℚ) ≠ 0 := by
        have : autoTerm img width height black maximum (c + 4) ≠ 0 := by omega
        exact_mod_cast this
      have hS : ((autoTerm img width height black maximum c : Int) : ℚ) ≠ 0 := by
        exact_mod_cast hne
      rw [if_pos hne, if_pos ((isZero_dbl _ c).2 (by rw [e1]; exact hne)), mget_dbl, mget_dbl,
        e1, e2, Fp.div_fin f64 _ _ hN hS]
    · rw [if_neg hne, if_neg (fun h => hne (by
        have := (isZero_dbl _ c).1 h
        rw [e1] at this
        exact this))]
  · intro hne
    obtain ⟨⟨n1, n2⟩, s1, s2⟩ := hrange hne
    refine ⟨⟨n1, n2⟩, ⟨s1, s2⟩, ?_⟩
    obtain ⟨v, ev, v1, v2⟩ := ratio64_mem _ _ 53 53 n1 (le_of_lt n2) s1 (le_of_lt s2)
      (by norm_num) (by norm_num)
    have hN : ((autoTerm img width height black maximum (c + 4) : Int) : ℚ) ≠ 0 := by
      have : autoTerm img width height black maximum (c + 4) ≠ 0 := by omega
      exact_mod_cast this
    have hS : ((autoTerm img width height black maximum c : Int) : ℚ) ≠ 0 := by
      exact_mod_cast hne
    unfold Fp.ofInt at ev
    rw [f64_int _ (by omega) n2, f64_int _ (by omega) s2, Fp.div_fin f64 _ _ hN hS] at ev
    exact isPos_of_mem _ v _ _ ev v1 v2 (by norm_num)

/-- C17 (as stated, refuted): in the auto mode on the 8 × 8 mosaic of the
descriptor `0x94949494` whose planes hold 1000, 2000 and 500, with `black = 0`,
plane 0 has the sum `S_0 = 16000` and the count `N_0 = 16`, and the auto step
leaves `pre_mul[0] = 8589935 / 2^33`, the `float` nearest to the `double`
nearest to `N_0 / S_0`, which is not `N_0 / S_0 = 1/1000`. -/
theorem scaleAuto_rounds :
    autoTerm (mosaic 0x94949494 8 8 (fun c => [1000, 2000, 500].getD c 0)) 8 8 0 4095 0 = 16000 ∧
    autoTerm (mosaic 0x94949494 8 8 (fun c => [1000, 2000, 500].getD c 0)) 8 8 0 4095 (0 + 4)
      = 16 ∧
    mget (scaleAuto (mosaic 0x94949494 8 8 (fun c => [1000, 2000, 500].getD c 0))
        (4095 - 0) 0 true false [Fp.fin 1, Fp.fin 1, Fp.fin 1, Fp.fin 1] 8 8
        [Fp.fin 1, Fp.fin 1, Fp.fin 1, Fp.fin 0]) 0 = Fp.fin (8589935 / 8589934592) ∧
    Fp.fin (8589935 / 8589934592) ≠ Fp.fin ((16 : Int) / (16000 : Int)) := by
  have htot := (autoSums_tot (mosaic 0x94949494 8 8 (fun c => [1000, 2000, 500].getD c 0))
    8 8 0 4095).2
  rw [autoSums_mosaic8] at htot
  have t0 : autoTerm (mosaic 0x94949494 8 8 (fun c => [1000, 2000, 500].getD c 0)) 8 8 0 4095 0
      = 16000 := (htot 0 (by omega)).symm
  have t4 : autoTerm (mosaic 0x94949494 8 8 (fun c => [1000, 2000, 500].getD c 0)) 8 8 0 4095
      (0 + 4) = 16 := (htot (0 + 4) (by omega)).symm
  refine ⟨t0, t4, ?_, ?_⟩
  · have h := (scaleAuto_mget (mosaic 0x94949494 8 8 (fun c => [1000, 2000, 500].getD c 0))
      4095 0 true false [Fp.fin 1, Fp.fin 1, Fp.fin 1, Fp.fin 1] 8 8
      [Fp.fin 1, Fp.fin 1, Fp.fin 1, Fp.fin 0] 0 (Or.inl rfl) rfl (by omega)
      (auto_bound 8 8 4095 0 (by norm_num) (by norm_num))).1
    rw [t0, t4, if_pos (by norm_num)] at h
    have e : (((16 : Int) : ℚ)) / ((16000 : Int) : ℚ) = 16 / 16000 := by norm_num
    rw [e, f64_thousandth, Fp.cast_fin, f32_thousandth] at h
    exact h
  · intro h
    have h1 := Fp.fin.inj h
    norm_num at h1

/-- C17 (amended): in the auto mode (`use_auto_wb`, or `use_camera_wb` with
`cam_mul[0] == -1`) on an image whose number of pixels `height * width` is an
`int` and whose ceiling is at most 65535 above `black`, with
`S_c = autoTerm … c` the sum of the black-subtracted, clamped values of the
non-zero samples of plane `c` and `N_c = autoTerm … (c+4)` their number, both
over all surviving 7 × 7 blocks, the sums are below `2 ^ 53`, so that the
array `dsum` of `double`s holds them exactly, and the auto step leaves in
`pre_mul[c]`, for a plane with `S_c ≠ 0`, the quotient `N_c / S_c` rounded to
`double` and then to `float`, a positive finite number, and the incoming
`pre_mul[c]` for a plane with `S_c = 0`; when the camera step is not entered
as well, that value is the multiplier before the normalisation. -/
theorem scaleAuto_multiplier (img : List Nat) (maximum black : Int)
    (use_auto_wb use_camera_wb : Bool) (cam_mul : List Fp) (height width : Nat)
    (pre_mul : List Fp) (c : Nat)
    (hmode : use_auto_wb = true ∨ (use_camera_wb = true ∧ mget cam_mul 0 = Fp.fin (-1)))
    (hlen : pre_mul.length = 4) (hc : c < 4)
    (hpix : height * width < 2 ^ 31) (hmaxi : maximum - black ≤ 65535) :
    mget (scaleAuto img (maximum - black) black use_auto_wb use_camera_wb cam_mul height width
        pre_mul) c
      = (if autoTerm img width height black maximum c ≠ 0 then
          Fp.cast f32 (f64 ((autoTerm img width height black maximum (c + 4) : ℚ)
            / (autoTerm img width height black maximum c : ℚ)))
        else mget pre_mul c) ∧
    (∀ k, k < 8 → mget (autoDsum img width height black (maximum - black)) k
      = Fp.fin (autoTerm img width height black maximum k : ℚ) ∧
      0 ≤ autoTerm img width height black maximum k ∧
      autoTerm img width height black maximum k < 2 ^ 53) ∧
    (¬ (use_camera_wb = true ∧ mget cam_mul 0 ≠ Fp.fin (-1)) →
      autoTerm img width height black maximum c ≠ 0 →
      ∀ (colors filters : Nat) (white : List Nat),
        mget (scalePre img maximum black use_auto_wb use_camera_wb cam_mul height width colors
          pre_mul filters white).pre_mul c
        = Fp.cast f32 (f64 ((autoTerm img width height black maximum (c + 4) : ℚ)
            / (autoTerm img width height black maximum c : ℚ)))) ∧
    (autoTerm img width height black maximum c ≠ 0 →
      (Fp.cast f32 (f64 ((autoTerm img width height black maximum (c + 4) : ℚ)
        / (autoTerm img width height black maximum c : ℚ)))).IsPos) := by
  have hB := auto_bound height width maximum black hpix hmaxi
  have hauto := fun j hj => scaleAuto_mget img maximum black use_auto_wb use_camera_wb cam_mul
    height width pre_mul j hmode hlen hj hB
  refine ⟨(hauto c hc).1, ?_, ?_, fun hne => ((hauto c hc).2 hne).2.2⟩
  · intro k hk
    obtain ⟨hok, hex⟩ := autoDsum_exact img width height black maximum hB
    have ek := (autoSums_tot img width height black maximum).2 k hk
    have ek1 : sget (autoSums img width height black (maximum - black)) k
        = autoTerm img width height black maximum k := ek
    have hb := hok.2 k hk
    rw [ek1] at hb
    rw [hex, mget_dbl, ek1]
    exact ⟨rfl, hb.1, lt_of_le_of_lt hb.2 hB⟩
  · intro hcam hne colors filters white
    have hpre : (scalePre img maximum black use_auto_wb use_camera_wb cam_mul height width colors
        pre_mul filters white).pre_mul
        = scaleFourth colors (scaleAuto img (maximum - black) black use_auto_wb use_camera_wb
            cam_mul height width pre_mul) := by
      unfold scalePre scaleCamera
      simp only [hcam, if_false]
    rw [hpre]
    unfold scaleFourth
    by_cases h3 : (mget (scaleAuto img (maximum - black) black use_auto_wb use_camera_wb cam_mul
        height width pre_mul) 3).isZero = true
    · rw [if_pos h3, mget_set]
      have hc3 : c ≠ 3 := by
        intro e
        subst e
        rw [(hauto 3 (by omega)).1, if_pos hne] at h3
        obtain ⟨v, ev, v0, _⟩ := ((hauto 3 (by omega)).2 hne).2.2
        rw [ev] at h3
        have : decide (v = 0) = true := h3
        exact absurd (of_decide_eq_true this) (ne_of_gt v0)
      rw [if_neg (fun h => hc3 h.1.symm), (hauto c hc).1, if_pos hne]
    · rw [if_neg h3, (hauto c hc).1, if_pos hne]

theorem scaleAuto_multiplier_witness :
    (([Fp.fin 1, Fp.fin 1, Fp.fin 1, Fp.fin 0] : List Fp).length = 4 ∧ (0 : Nat) < 4 ∧
      (8 : Nat) * 8 < 2 ^ 31 ∧ (4095 : Int) - 0 ≤ 65535) ∧
    (mget (scaleAuto (mosaic 0x94949494 8 8 (fun c => [1000, 2000, 500].getD c 0))
        (4095 - 0) 0 true false [Fp.fin 1, Fp.fin 1, Fp.fin 1, Fp.fin 1] 8 8
        [Fp.fin 1, Fp.fin 1, Fp.fin 1, Fp.fin 0]) 0
      = (if autoTerm (mosaic 0x94949494 8 8 (fun c => [1000, 2000, 500].getD c 0)) 8 8 0 4095 0
            ≠ 0 then
          Fp.cast f32 (f64
            ((autoTerm (mosaic 0x94949494 8 8 (fun c => [1000, 2000, 500].getD c 0))
              8 8 0 4095 (0 + 4) : ℚ)
            / (autoTerm (mosaic 0x94949494 8 8 (fun c => [1000, 2000, 500].getD c 0))
              8 8 0 4095 0 : ℚ)))
        else mget [Fp.fin 1, Fp.fin 1, Fp.fin 1, Fp.fin 0] 0)) :=
  ⟨⟨rfl, by decide, by norm_num, by norm_num⟩,
    (scaleAuto_multiplier (mosaic 0x94949494 8 8 (fun c => [1000, 2000, 500].getD c 0)) 4095 0
      true false [Fp.fin 1, Fp.fin 1, Fp.fin 1, Fp.fin 1] 8 8
      [Fp.fin 1, Fp.fin 1, Fp.fin 1, Fp.fin 0] 0 (Or.inl rfl) rfl (by decide) (by norm_num)
      (by norm_num)).1⟩

/-! ## White balance: the lengths -/

theorem scaleAuto_length (img : List Nat) (maximum black : Int)
    (use_auto_wb use_camera_wb : Bool) (cam_mul : List Fp) (height width : Nat)
    (pre_mul : List Fp) :
    (scaleAuto img maximum black use_auto_wb use_camera_wb cam_mul height width pre_mul).length
      = pre_mul.length := by
  unfold scaleAuto autoMul
  split_ifs
  · refine loop_inv (fun _ (pm : List Fp) => pm.length = pre_mul.length) _ 4 0 pre_mul rfl ?_
    intro i pm _ _ hp
    beta_reduce
    split_ifs
    · rw [List.length_set]
      exact hp
    · exact hp
  · rfl

theorem scaleCamera_length (black : Int) (use_camera_wb : Bool) (cam_mul : List Fp)
    (filters : Nat) (white : List Nat) (pm : List Fp) (hlen : pm.length = 4) :
    (scaleCamera black use_camera_wb cam_mul filters white pm).pre_mul.length = 4 := by
  unfold scaleCamera
  split_ifs
  · simp only []
    rw [set_all_four (fun c => Fp.div f32
      (Fp.ofInt f32 (sget (whiteSums white filters black) (c + 4)))
      (Fp.ofInt f32 (sget (whiteSums white filters black) c))) pm hlen]
    rfl
  · simp only []
    rw [set_all_four (fun c => mget cam_mul c) pm hlen]
    rfl
  · exact hlen
  · exact hlen

/-! ## Claims on the camera mode and the fourth multiplier -/

theorem whiteSums_patchDark :
    whiteSums patchDark 0xe4e4e4e4 10 = [1440, 1440, 1440, 0, 16, 16, 16, 16] := by
  decide

/-- C18 (as stated, refuted): with the four-colour descriptor `0xe4e4e4e4`,
`black = 10` and the patch `patchDark`, every plane has the sample count 16,
yet the camera step does not use the patch: `sum[3]` is 0, the test
`sum[0] && sum[1] && sum[2] && sum[3]` fails, and the multipliers are the
caller-supplied `cam_mul = (2, 1, 3, 1)`, not the patch quotient
`(float) 16 / 1440` of plane 0. -/
theorem scaleCamera_tests_sums :
    (∀ c, c < 4 → patchTotal patchDark 0xe4e4e4e4 10 (c + 4) = 16) ∧
    (scaleCamera 10 true [Fp.fin 2, Fp.fin 1, Fp.fin 3, Fp.fin 1] 0xe4e4e4e4 patchDark
        [Fp.fin 1, Fp.fin 1, Fp.fin 1, Fp.fin 1]).pre_mul
      = [Fp.fin 2, Fp.fin 1, Fp.fin 3, Fp.fin 1] ∧
    (scaleCamera 10 true [Fp.fin 2, Fp.fin 1, Fp.fin 3, Fp.fin 1] 0xe4e4e4e4 patchDark
        [Fp.fin 1, Fp.fin 1, Fp.fin 1, Fp.fin 1]).noCameraWb = false ∧
    Fp.div f32 (Fp.ofInt f32 (patchTotal patchDark 0xe4e4e4e4 10 (0 + 4)))
        (Fp.ofInt f32 (patchTotal patchDark 0xe4e4e4e4 10 0))
      ≠ Fp.fin 2 := by
  have hs := whiteSums_patchDark
  have ht := (whiteSums_tot patchDark 0xe4e4e4e4 10).2
  rw [hs] at ht
  have e : ∀ k, k < 8 → patchTotal patchDark 0xe4e4e4e4 10 k
      = sget [1440, 1440, 1440, 0, 16, 16, 16, 16] k := fun k hk => (ht k hk).symm
  have hcam : mget [Fp.fin 2, Fp.fin 1, Fp.fin 3, Fp.fin 1] 0 ≠ Fp.fin (-1) := by
    intro h
    have h1 := Fp.fin.inj h
    norm_num at h1
  have hcam2 : (mget [Fp.fin 2, Fp.fin 1, Fp.fin 3, Fp.fin 1] 0).isZero = false
      ∧ (mget [Fp.fin 2, Fp.fin 1, Fp.fin 3, Fp.fin 1] 2).isZero = false := by
    simp [mget, Fp.isZero]
  have hsum : ¬ (sget [1440, 1440, 1440, 0, 16, 16, 16, 16] 0 ≠ 0
      ∧ sget [1440, 1440, 1440, 0, 16, 16, 16, 16] 1 ≠ 0
      ∧ sget [1440, 1440, 1440, 0, 16, 16, 16, 16] 2 ≠ 0
      ∧ sget [1440, 1440, 1440, 0, 16, 16, 16, 16] 3 ≠ 0) := by decide
  refine ⟨fun c hc => ?_, ?_, ?_, ?_⟩
  · rw [e (c + 4) (by omega)]
    interval_cases c <;> rfl
  · unfold scaleCamera
    rw [hs, if_pos ⟨rfl, hcam⟩, if_neg hsum, if_pos hcam2]
    rfl
  · unfold scaleCamera
    rw [hs, if_pos ⟨rfl, hcam⟩, if_neg hsum, if_pos hcam2]
  · rw [e (0 + 4) (by omega), e 0 (by omega)]
    have s0 : sget [1440, 1440, 1440, 0, 16, 16, 16, 16] 0 = 1440 := rfl
    have s4 : sget [1440, 1440, 1440, 0, 16, 16, 16, 16] (0 + 4) = 16 := rfl
    rw [s0, s4]
    obtain ⟨v, ev, _, v2⟩ := ratio32_mem 16 1440 4 11 (by norm_num) (by norm_num) (by norm_num)
      (by norm_num) (by norm_num) (by norm_num)
    rw [ev]
    intro h
    have h1 := Fp.fin.inj h
    have n1 : f32 ((16 : Int) : ℚ) = Fp.fin ((16 : Int) : ℚ) :=
      f32_int 16 (by norm_num) (by norm_num)
    have n2 : f32 ((1440 : Int) : ℚ) = Fp.fin ((1440 : Int) : ℚ) :=
      f32_int 1440 (by norm_num) (by norm_num)
    unfold Fp.ofInt at ev
    rw [n1, n2, Fp.div_fin f32 _ _ (by norm_num) (by norm_num)] at ev
    obtain ⟨w, ew, _, w2⟩ := f32_mem (((16 : Int) : ℚ) / ((1440 : Int) : ℚ)) (-7) (-6)
      (by norm_num) (by norm_num) (by norm_num) (by norm_num)
    rw [ew] at ev
    have h2 := Fp.fin.inj ev
    rw [h2, h1] at w2
    norm_num at w2

/-- The three outcomes of the camera step, in terms of the sums and counts of
the patch. -/
theorem scaleCamera_cases (black : Int) (use_camera_wb : Bool) (cam_mul : List Fp)
    (filters : Nat) (white : List Nat) (pm : List Fp)
    (hcam : use_camera_wb = true) (hmode : mget cam_mul 0 ≠ Fp.fin (-1))
    (hlen : pm.length = 4) :
    ((∀ c, c < 4 → patchTotal white filters black c ≠ 0) →
      (scaleCamera black use_camera_wb cam_mul filters white pm).noCameraWb = false ∧
      ∀ c, c < 4 →
        mget (scaleCamera black use_camera_wb cam_mul filters white pm).pre_mul c
          = Fp.div f32 (Fp.ofInt f32 (patchTotal white filters black (c + 4)))
              (Fp.ofInt f32 (patchTotal white filters black c))) ∧
    ((∃ c, c < 4 ∧ patchTotal white filters black c = 0) →
      (((mget cam_mul 0).isZero = false ∧ (mget cam_mul 2).isZero = false) →
        (scaleCamera black use_camera_wb cam_mul filters white pm).noCameraWb = false ∧
        ∀ c, c < 4 →
          mget (scaleCamera black use_camera_wb cam_mul filters white pm).pre_mul c
            = mget cam_mul c) ∧
      (¬ ((mget cam_mul 0).isZero = false ∧ (mget cam_mul 2).isZero = false) →
        (scaleCamera black use_camera_wb cam_mul filters white pm).noCameraWb = true ∧
        (scaleCamera black use_camera_wb cam_mul filters white pm).pre_mul = pm)) ∧
    (∀ c, c < 4 → patchTotal white filters black (c + 4) = 0 →
      patchTotal white filters black c = 0) := by
  have ht := (whiteSums_tot white filters black).2
  have e : ∀ k, k < 8 → sget (whiteSums white filters black) k
      = patchTotal white filters black k := ht
  refine ⟨fun hall => ?_, fun hex => ⟨fun hc2 => ?_, fun hc2 => ?_⟩, fun c hc hz => ?_⟩
  · have hsum : sget (whiteSums white filters black) 0 ≠ 0
        ∧ sget (whiteSums white filters black) 1 ≠ 0
        ∧ sget (whiteSums white filters black) 2 ≠ 0
        ∧ sget (whiteSums white filters black) 3 ≠ 0 := by
      rw [e 0 (by omega), e 1 (by omega), e 2 (by omega), e 3 (by omega)]
      exact ⟨hall 0 (by omega), hall 1 (by omega), hall 2 (by omega), hall 3 (by omega)⟩
    unfold scaleCamera
    rw [if_pos ⟨hcam, hmode⟩, if_pos hsum]
    refine ⟨rfl, fun c hc => ?_⟩
    simp only []
    rw [set_all_four (fun c => Fp.div f32
          (Fp.ofInt f32 (sget (whiteSums white filters black) (c + 4)))
          (Fp.ofInt f32 (sget (whiteSums white filters black) c))) pm hlen,
      mget_four (fun c => Fp.div f32
          (Fp.ofInt f32 (sget (whiteSums white filters black) (c + 4)))
          (Fp.ofInt f32 (sget (whiteSums white filters black) c))) c hc,
      e c (by omega), e (c + 4) (by omega)]
  · have hsum : ¬ (sget (whiteSums white filters black) 0 ≠ 0
        ∧ sget (whiteSums white filters black) 1 ≠ 0
        ∧ sget (whiteSums white filters black) 2 ≠ 0
        ∧ sget (whiteSums white filters black) 3 ≠ 0) := by
      rw [e 0 (by omega), e 1 (by omega), e 2 (by omega), e 3 (by omega)]
      obtain ⟨c, hc, hz⟩ := hex
      intro h
      interval_cases c
      · exact h.1 hz
      · exact h.2.1 hz
      · exact h.2.2.1 hz
      · exact h.2.2.2 hz
    unfold scaleCamera
    rw [if_pos ⟨hcam, hmode⟩, if_neg hsum, if_pos hc2]
    refine ⟨rfl, fun c hc => ?_⟩
    simp only []
    rw [set_all_four (fun c => mget cam_mul c) pm hlen, mget_four (fun c => mget cam_mul c) c hc]
  · have hsum : ¬ (sget (whiteSums white filters black) 0 ≠ 0
        ∧ sget (whiteSums white filters black) 1 ≠ 0
        ∧ sget (whiteSums white filters black) 2 ≠ 0
        ∧ sget (whiteSums white filters black) 3 ≠ 0) := by
      rw [e 0 (by omega), e 1 (by omega), e 2 (by omega), e 3 (by omega)]
      obtain ⟨c, hc, hz⟩ := hex
      intro h
      interval_cases c
      · exact h.1 hz
      · exact h.2.1 hz
      · exact h.2.2.1 hz
      · exact h.2.2.2 hz
    unfold scaleCamera
    rw [if_pos ⟨hcam, hmode⟩, if_neg hsum, if_neg hc2]
    exact ⟨rfl, rfl⟩
  · obtain ⟨h1, _, _, h4⟩ := (whiteSums_ok white filters black).2 c hc
    rw [e c (by omega)] at h1 h4
    rw [e (c + 4) (by omega)] at h4
    by_contra hne
    have := h4 (lt_of_le_of_ne h1 (Ne.symm hne))
    omega

/-- A patch quotient of a count and a sum below `2 ^ 24` is their exact
quotient rounded to `float`. -/
theorem patch_quotient (n s : Int) (hn : 0 < n) (hn2 : n < 2 ^ 24) (hs : 0 < s)
    (hs2 : s < 2 ^ 24) :
    Fp.div f32 (Fp.ofInt f32 n) (Fp.ofInt f32 s) = f32 ((n : ℚ) / (s : ℚ)) := by
  unfold Fp.ofInt
  rw [f32_int n hn hn2, f32_int s hs hs2,
    Fp.div_fin f32 _ _ (by exact_mod_cast (ne_of_gt hn)) (by exact_mod_cast (ne_of_gt hs))]

/-- C18 (amended): in the camera mode (`use_camera_wb` set and
`cam_mul[0] != -1`), with `sum_c = patchTotal … c` the sum of the
black-subtracted positive samples of colour `c` of the 8 × 8 patch and
`count_c = patchTotal … (c+4)` their number, classified by `FC`: the multipliers
`(float) count_c / sum_c`, the quotient taken in `float` (for a sum below
`2 ^ 24` this is `count_c / sum_c` rounded to `float`), are used when every
plane's sum is non-zero; the step falls back exactly when some plane's sum is
zero, which includes every plane whose count is zero: to `cam_mul` if
`cam_mul[0]` and `cam_mul[2]` are both non-zero, otherwise to the report
`DCRAW_NO_CAMERA_WB` with the multipliers unchanged. -/
theorem scaleCamera_fallback (black : Int) (use_camera_wb : Bool) (cam_mul : List Fp)
    (filters : Nat) (white : List Nat) (pm : List Fp)
    (hcam : use_camera_wb = true) (hmode : mget cam_mul 0 ≠ Fp.fin (-1))
    (hlen : pm.length = 4) :
    ((∀ c, c < 4 → patchTotal white filters black c ≠ 0) →
      (scaleCamera black use_camera_wb cam_mul filters white pm).noCameraWb = false ∧
      ∀ c, c < 4 →
        mget (scaleCamera black use_camera_wb cam_mul filters white pm).pre_mul c
          = Fp.div f32 (Fp.ofInt f32 (patchTotal white filters black (c + 4)))
              (Fp.ofInt f32 (patchTotal white filters black c)) ∧
        (patchTotal white filters black c < 2 ^ 24 →
          mget (scaleCamera black use_camera_wb cam_mul filters white pm).pre_mul c
            = f32 ((patchTotal white filters black (c + 4) : ℚ)
                / (patchTotal white filters black c : ℚ)))) ∧
    ((∃ c, c < 4 ∧ patchTotal white filters black c = 0) →
      (((mget cam_mul 0).isZero = false ∧ (mget cam_mul 2).isZero = false) →
        (scaleCamera black use_camera_wb cam_mul filters white pm).noCameraWb = false ∧
        ∀ c, c < 4 →
          mget (scaleCamera black use_camera_wb cam_mul filters white pm).pre_mul c
            = mget cam_mul c) ∧
      (¬ ((mget cam_mul 0).isZero = false ∧ (mget cam_mul 2).isZero = false) →
        (scaleCamera black use_camera_wb cam_mul filters white pm).noCameraWb = true ∧
        (scaleCamera black use_camera_wb cam_mul filters white pm).pre_mul = pm)) ∧
    (∀ c, c < 4 → patchTotal white filters black (c + 4) = 0 →
      patchTotal white filters black c = 0) := by
  obtain ⟨h1, h2, h3⟩ := scaleCamera_cases black use_camera_wb cam_mul filters white pm hcam
    hmode hlen
  refine ⟨fun hall => ⟨(h1 hall).1, fun c hc => ⟨(h1 hall).2 c hc, fun hb => ?_⟩⟩, h2, h3⟩
  rw [(h1 hall).2 c hc]
  have ht := (whiteSums_tot white filters black).2
  have t1 : sget (whiteSums white filters black) c = patchTotal white filters black c :=
    ht c (by omega)
  have t2 : sget (whiteSums white filters black) (c + 4)
      = patchTotal white filters black (c + 4) := ht (c + 4) (by omega)
  obtain ⟨s0, n0, n64, s4⟩ := (whiteSums_ok white filters black).2 c hc
  rw [t1] at s0 s4
  rw [t2] at n0 n64 s4
  have hs : 0 < patchTotal white filters black c := lt_of_le_of_ne s0 (Ne.symm (hall c hc))
  exact patch_quotient _ _ (s4 hs) (by omega) hs hb

theorem scaleCamera_fallback_witness :
    (true = true ∧ mget [Fp.fin 2, Fp.fin 1, Fp.fin 3, Fp.fin 1] 0 ≠ Fp.fin (-1)
      ∧ ([Fp.fin 1, Fp.fin 1, Fp.fin 1, Fp.fin 1] : List Fp).length = 4) ∧
    ((∃ c, c < 4 ∧ patchTotal patchDark 0xe4e4e4e4 10 c = 0) →
      (((mget [Fp.fin 2, Fp.fin 1, Fp.fin 3, Fp.fin 1] 0).isZero = false
          ∧ (mget [Fp.fin 2, Fp.fin 1, Fp.fin 3, Fp.fin 1] 2).isZero = false) →
        (scaleCamera 10 true [Fp.fin 2, Fp.fin 1, Fp.fin 3, Fp.fin 1] 0xe4e4e4e4 patchDark
          [Fp.fin 1, Fp.fin 1, Fp.fin 1, Fp.fin 1]).noCameraWb = false ∧
        ∀ c, c < 4 →
          mget (scaleCamera 10 true [Fp.fin 2, Fp.fin 1, Fp.fin 3, Fp.fin 1] 0xe4e4e4e4
              patchDark [Fp.fin 1, Fp.fin 1, Fp.fin 1, Fp.fin 1]).pre_mul c
            = mget [Fp.fin 2, Fp.fin 1, Fp.fin 3, Fp.fin 1] c) ∧
      (¬ ((mget [Fp.fin 2, Fp.fin 1, Fp.fin 3, Fp.fin 1] 0).isZero = false
          ∧ (mget [Fp.fin 2, Fp.fin 1, Fp.fin 3, Fp.fin 1] 2).isZero = false) →
        (scaleCamera 10 true [Fp.fin 2, Fp.fin 1, Fp.fin 3, Fp.fin 1] 0xe4e4e4e4 patchDark
          [Fp.fin 1, Fp.fin 1, Fp.fin 1, Fp.fin 1]).noCameraWb = true ∧
        (scaleCamera 10 true [Fp.fin 2, Fp.fin 1, Fp.fin 3, Fp.fin 1] 0xe4e4e4e4 patchDark
          [Fp.fin 1, Fp.fin 1, Fp.fin 1, Fp.fin 1]).pre_mul
          = [Fp.fin 1, Fp.fin 1, Fp.fin 1, Fp.fin 1])) :=
  have hmode : mget [Fp.fin 2, Fp.fin 1, Fp.fin 3, Fp.fin 1] 0 ≠ Fp.fin (-1) := by
    intro h
    have h1 := Fp.fin.inj h
    norm_num at h1
  ⟨⟨rfl, hmode, rfl⟩,
    (scaleCamera_fallback 10 true [Fp.fin 2, Fp.fin 1, Fp.fin 3, Fp.fin 1] 0xe4e4e4e4 patchDark
      [Fp.fin 1, Fp.fin 1, Fp.fin 1, Fp.fin 1] rfl hmode rfl).2.1⟩

theorem scaleFourth_length (colors : Nat) (pm : List Fp) :
    (scaleFourth colors pm).length = pm.length := by
  unfold scaleFourth
  by_cases h : (mget pm 3).isZero = true
  · rw [if_pos h, List.length_set]
  · rw [if_neg h]

theorem scaleNorm_one_int (n : Int) (h0 : 0 < n) (hn : n < 2 ^ 24) :
    scaleNorm (Fp.fin 1) (Fp.fin (n : ℚ)) = Fp.fin (n : ℚ) := by
  unfold scaleNorm
  rw [Fp.div_fin f64 _ _ (by exact_mod_cast (ne_of_gt h0)) one_ne_zero, div_one,
    f64_int n h0 (lt_trans hn (by norm_num)), Fp.cast_fin, f32_int n h0 hn]

/-- C19 (as stated, refuted): in the camera mode with a patch of zeros and the
degenerate `cam_mul = (0, 1, 1, 1)`, the function reports `DCRAW_NO_CAMERA_WB`
and returns the incoming multipliers `(2, 1, 3, 1)` divided by their minimum 1,
not four multipliers of 1. -/
theorem scale_colors_INDI_not_unit :
    (scale_colors_INDI [] 4095 0 false true [Fp.fin 0, Fp.fin 1, Fp.fin 1, Fp.fin 1] 0 0 3
        [Fp.fin 2, Fp.fin 1, Fp.fin 3, Fp.fin 1] 0x94949494 (List.replicate 64 0)).noCameraWb
      = true ∧
    (scale_colors_INDI [] 4095 0 false true [Fp.fin 0, Fp.fin 1, Fp.fin 1, Fp.fin 1] 0 0 3
        [Fp.fin 2, Fp.fin 1, Fp.fin 3, Fp.fin 1] 0x94949494 (List.replicate 64 0)).pre_mul
      = [Fp.fin 2, Fp.fin 1, Fp.fin 3, Fp.fin 1] := by
  have hs : whiteSums (List.replicate 64 0) 0x94949494 0 = [0, 0, 0, 0, 16, 32, 16, 0] := by
    decide
  have hmode : mget [Fp.fin 0, Fp.fin 1, Fp.fin 1, Fp.fin 1] 0 ≠ Fp.fin (-1) := by
    intro h
    have h1 := Fp.fin.inj h
    norm_num at h1
  have hsum : ¬ (sget [0, 0, 0, 0, 16, 32, 16, 0] 0 ≠ 0 ∧ sget [0, 0, 0, 0, 16, 32, 16, 0] 1 ≠ 0
      ∧ sget [0, 0, 0, 0, 16, 32, 16, 0] 2 ≠ 0 ∧ sget [0, 0, 0, 0, 16, 32, 16, 0] 3 ≠ 0) := by
    decide
  have hdeg : ¬ ((mget [Fp.fin 0, Fp.fin 1, Fp.fin 1, Fp.fin 1] 0).isZero = false
      ∧ (mget [Fp.fin 0, Fp.fin 1, Fp.fin 1, Fp.fin 1] 2).isZero = false) := by
    simp [mget, Fp.isZero]
  have hcam : scaleCamera 0 true [Fp.fin 0, Fp.fin 1, Fp.fin 1, Fp.fin 1] 0x94949494
      (List.replicate 64 0) [Fp.fin 2, Fp.fin 1, Fp.fin 3, Fp.fin 1]
      = ScaleOut.mk [Fp.fin 2, Fp.fin 1, Fp.fin 3, Fp.fin 1] true := by
    unfold scaleCamera
    rw [hs, if_pos ⟨rfl, hmode⟩, if_neg hsum, if_neg hdeg]
  have hauto : scaleAuto [] (4095 - 0) 0 false true [Fp.fin 0, Fp.fin 1, Fp.fin 1, Fp.fin 1] 0 0
      [Fp.fin 2, Fp.fin 1, Fp.fin 3, Fp.fin 1] = [Fp.fin 2, Fp.fin 1, Fp.fin 3, Fp.fin 1] := by
    unfold scaleAuto
    rw [if_neg]
    rintro (h | h)
    · exact Bool.noConfusion h
    · exact hmode h.2
  have hfour : scaleFourth 3 [Fp.fin 2, Fp.fin 1, Fp.fin 3, Fp.fin 1]
      = [Fp.fin 2, Fp.fin 1, Fp.fin 3, Fp.fin 1] := by
    unfold scaleFourth
    rw [if_neg (by simp [mget, Fp.isZero])]
  have hpre : scalePre [] 4095 0 false true [Fp.fin 0, Fp.fin 1, Fp.fin 1, Fp.fin 1] 0 0 3
      [Fp.fin 2, Fp.fin 1, Fp.fin 3, Fp.fin 1] 0x94949494 (List.replicate 64 0)
      = ScaleOut.mk [Fp.fin 2, Fp.fin 1, Fp.fin 3, Fp.fin 1] true := by
    unfold scalePre
    rw [hauto, hcam, hfour]
  have hm : min (min (min (min ((2 : ℚ) ^ 1024 - 2 ^ 971) 2) 1) 3) 1 = 1 := by norm_num
  have e1 : scaleNorm (Fp.fin 1) (Fp.fin 1) = Fp.fin 1 :=
    (scaleNorm_fin 1 1 (by norm_num) le_rfl).2.1 rfl
  have e2 : scaleNorm (Fp.fin 1) (Fp.fin 2) = Fp.fin 2 := by
    have := scaleNorm_one_int 2 (by norm_num) (by norm_num)
    exact_mod_cast this
  have e3 : scaleNorm (Fp.fin 1) (Fp.fin 3) = Fp.fin 3 := by
    have := scaleNorm_one_int 3 (by norm_num) (by norm_num)
    exact_mod_cast this
  unfold scale_colors_INDI
  simp only [hpre, true_and]
  rw [normalise_eq _ (by rfl), scaleDmin_four, hm]
  simp only [mget, List.getD_cons_zero, List.getD_cons_succ, e1, e2, e3]

/-- C19 (amended): when the camera mode (`use_camera_wb` set,
`cam_mul[0] != -1`, auto mode off) cannot use the calibration patch (some
plane's patch sum is zero) and `cam_mul[0]` or `cam_mul[2]` is zero,
`scale_colors_INDI` reports `DCRAW_NO_CAMERA_WB` and returns, for every
incoming `pre_mul`, the incoming multipliers (the fourth defaulted as in C20)
each divided by their minimum `dmin`; it does not reset them to 1. -/
theorem scale_colors_INDI_no_camera_wb (img : List Nat) (maximum black : Int)
    (cam_mul : List Fp) (height width colors : Nat) (pre_mul : List Fp) (filters : Nat)
    (white : List Nat)
    (hmode : mget cam_mul 0 ≠ Fp.fin (-1)) (hlen : pre_mul.length = 4)
    (hpatch : ∃ c, c < 4 ∧ patchTotal white filters black c = 0)
    (hdeg : (mget cam_mul 0).isZero = true ∨ (mget cam_mul 2).isZero = true) :
    (scale_colors_INDI img maximum black false true cam_mul height width colors pre_mul filters
        white).noCameraWb = true ∧
    ∀ c, c < 4 →
      mget (scale_colors_INDI img maximum black false true cam_mul height width colors pre_mul
          filters white).pre_mul c
        = scaleNorm (scaleDmin (scaleFourth colors pre_mul))
            (mget (scaleFourth colors pre_mul) c) := by
  have hauto : scaleAuto img (maximum - black) black false true cam_mul height width pre_mul
      = pre_mul := by
    unfold scaleAuto
    rw [if_neg]
    rintro (h | h)
    · exact Bool.noConfusion h
    · exact hmode h.2
  obtain ⟨_, hfall, _⟩ := scaleCamera_cases black true cam_mul filters white pre_mul rfl
    hmode hlen
  obtain ⟨hrep, hpm⟩ := (hfall hpatch).2 (by
    rintro ⟨h0, h2⟩
    rcases hdeg with h | h
    · rw [h0] at h
      exact Bool.noConfusion h
    · rw [h2] at h
      exact Bool.noConfusion h)
  have hfl : (scaleFourth colors pre_mul).length = 4 := by
    rw [scaleFourth_length]
    exact hlen
  unfold scale_colors_INDI scalePre
  simp only [hauto, hrep, hpm, true_and]
  intro c hc
  rw [normalise_eq _ hfl,
    mget_four (fun c => scaleNorm (scaleDmin (scaleFourth colors pre_mul))
      (mget (scaleFourth colors pre_mul) c)) c hc]

theorem scale_colors_INDI_no_camera_wb_witness :
    (scale_colors_INDI [] 4095 0 false true [Fp.fin 0, Fp.fin 1, Fp.fin 1, Fp.fin 1] 0 0 3
        [Fp.fin 2, Fp.fin 1, Fp.fin 3, Fp.fin 1] 0x94949494 (List.replicate 64 0)).noCameraWb
      = true ∧
    ∀ c, c < 4 →
      mget (scale_colors_INDI [] 4095 0 false true [Fp.fin 0, Fp.fin 1, Fp.fin 1, Fp.fin 1] 0 0 3
          [Fp.fin 2, Fp.fin 1, Fp.fin 3, Fp.fin 1] 0x94949494 (List.replicate 64 0)).pre_mul c
        = scaleNorm (scaleDmin (scaleFourth 3 [Fp.fin 2, Fp.fin 1, Fp.fin 3, Fp.fin 1]))
            (mget (scaleFourth 3 [Fp.fin 2, Fp.fin 1, Fp.fin 3, Fp.fin 1]) c) :=
  scale_colors_INDI_no_camera_wb [] 4095 0 [Fp.fin 0, Fp.fin 1, Fp.fin 1, Fp.fin 1] 0 0 3
    [Fp.fin 2, Fp.fin 1, Fp.fin 3, Fp.fin 1] 0x94949494 (List.replicate 64 0)
    (by
      intro h
      have h1 := Fp.fin.inj h
      norm_num at h1) (by decide)
    ⟨0, by decide, by
      have e : sget (whiteSums (List.replicate 64 0) 0x94949494 0) 0
          = patchTotal (List.replicate 64 0) 0x94949494 0 0 :=
        (whiteSums_tot (List.replicate 64 0) 0x94949494 0).2 0 (by decide)
      rw [← e]
      decide⟩
    (Or.inl (by simp [mget, Fp.isZero]))

/-- C20: in every mode, with `pm` the multipliers after the mode-specific
steps: if `pm[3]` is 0 then before the normalisation `pre_mul[3]` is `pm[1]`
when `colors < 4` and 1 when `colors ≥ 4`; if it is non-zero the multipliers
are left as they are; the first three multipliers are never changed by this
step; and for `colors < 4` with `pm[3] = 0` the returned `pre_mul[3]` equals
the returned `pre_mul[1]`. -/
theorem scaleFourth_default (img : List Nat) (maximum black : Int)
    (use_auto_wb use_camera_wb : Bool) (cam_mul : List Fp) (height width colors : Nat)
    (pre_mul : List Fp) (filters : Nat) (white : List Nat) (hlen : pre_mul.length = 4) :
    ((mget (scaleCamera black use_camera_wb cam_mul filters white
        (scaleAuto img (maximum - black) black use_auto_wb use_camera_wb cam_mul height width
          pre_mul)).pre_mul 3).isZero = true →
      mget (scalePre img maximum black use_auto_wb use_camera_wb cam_mul height width colors
          pre_mul filters white).pre_mul 3
        = if colors < 4 then
            mget (scaleCamera black use_camera_wb cam_mul filters white
              (scaleAuto img (maximum - black) black use_auto_wb use_camera_wb cam_mul height
                width pre_mul)).pre_mul 1
          else Fp.fin 1) ∧
    ((mget (scaleCamera black use_camera_wb cam_mul filters white
        (scaleAuto img (maximum - black) black use_auto_wb use_camera_wb cam_mul height width
          pre_mul)).pre_mul 3).isZero = false →
      (scalePre img maximum black use_auto_wb use_camera_wb cam_mul height width colors
          pre_mul filters white).pre_mul
        = (scaleCamera black use_camera_wb cam_mul filters white
            (scaleAuto img (maximum - black) black use_auto_wb use_camera_wb cam_mul height
              width pre_mul)).pre_mul) ∧
    (∀ c, c < 3 →
      mget (scalePre img maximum black use_auto_wb use_camera_wb cam_mul height width colors
          pre_mul filters white).pre_mul c
        = mget (scaleCamera black use_camera_wb cam_mul filters white
            (scaleAuto img (maximum - black) black use_auto_wb use_camera_wb cam_mul height
              width pre_mul)).pre_mul c) ∧
    (colors < 4 →
      (mget (scaleCamera black use_camera_wb cam_mul filters white
        (scaleAuto img (maximum - black) black use_auto_wb use_camera_wb cam_mul height width
          pre_mul)).pre_mul 3).isZero = true →
      mget (scale_colors_INDI img maximum black use_auto_wb use_camera_wb cam_mul height width
          colors pre_mul filters white).pre_mul 3
        = mget (scale_colors_INDI img maximum black use_auto_wb use_camera_wb cam_mul height
            width colors pre_mul filters white).pre_mul 1) := by
  have hl := scaleCamera_length black use_camera_wb cam_mul filters white
    (scaleAuto img (maximum - black) black use_auto_wb use_camera_wb cam_mul height width
      pre_mul) (by rw [scaleAuto_length]; exact hlen)
  generalize hpm : (scaleCamera black use_camera_wb cam_mul filters white
    (scaleAuto img (maximum - black) black use_auto_wb use_camera_wb cam_mul height width
      pre_mul)).pre_mul = pm at hl
  have hpre : (scalePre img maximum black use_auto_wb use_camera_wb cam_mul height width colors
      pre_mul filters white).pre_mul = scaleFourth colors pm := by
    rw [← hpm]
    rfl
  have hout : (scale_colors_INDI img maximum black use_auto_wb use_camera_wb cam_mul height
      width colors pre_mul filters white).pre_mul
      = [scaleNorm (scaleDmin (scaleFourth colors pm)) (mget (scaleFourth colors pm) 0),
          scaleNorm (scaleDmin (scaleFourth colors pm)) (mget (scaleFourth colors pm) 1),
          scaleNorm (scaleDmin (scaleFourth colors pm)) (mget (scaleFourth colors pm) 2),
          scaleNorm (scaleDmin (scaleFourth colors pm)) (mget (scaleFourth colors pm) 3)] := by
    rw [← normalise_eq _ (by rw [scaleFourth_length]; exact hl), ← hpre]
    rfl
  rw [hpre, hout]
  refine ⟨fun h3 => ?_, fun h3 => ?_, fun c hc => ?_, fun hcol h3 => ?_⟩
  · unfold scaleFourth
    rw [if_pos h3, mget_set, if_pos ⟨rfl, by omega⟩]
  · unfold scaleFourth
    rw [if_neg (by rw [h3]; exact Bool.noConfusion)]
  · unfold scaleFourth
    by_cases h3 : (mget pm 3).isZero = true
    · rw [if_pos h3, mget_set, if_neg (by omega)]
    · rw [if_neg h3]
  · have e3 : mget (scaleFourth colors pm) 3 = mget pm 1 := by
      unfold scaleFourth
      rw [if_pos h3, mget_set, if_pos ⟨rfl, by omega⟩, if_pos hcol]
    have e1 : mget (scaleFourth colors pm) 1 = mget pm 1 := by
      unfold scaleFourth
      rw [if_pos h3, mget_set, if_neg (by omega)]
    show scaleNorm _ (mget (scaleFourth colors pm) 3) = scaleNorm _ (mget (scaleFourth colors pm) 1)
    rw [e3, e1]

theorem scaleFourth_default_witness :
    ([Fp.fin 2, Fp.fin 1, Fp.fin 3, Fp.fin 0] : List Fp).length = 4 ∧
    mget (scale_colors_INDI [] 4095 0 false false [Fp.fin 1, Fp.fin 1, Fp.fin 1, Fp.fin 1] 0 0 3
        [Fp.fin 2, Fp.fin 1, Fp.fin 3, Fp.fin 0] 0x94949494 []).pre_mul 3
      = mget (scale_colors_INDI [] 4095 0 false false [Fp.fin 1, Fp.fin 1, Fp.fin 1, Fp.fin 1]
          0 0 3 [Fp.fin 2, Fp.fin 1, Fp.fin 3, Fp.fin 0] 0x94949494 []).pre_mul 1 :=
  ⟨by decide,
    (scaleFourth_default [] 4095 0 false false [Fp.fin 1, Fp.fin 1, Fp.fin 1, Fp.fin 1] 0 0 3
      [Fp.fin 2, Fp.fin 1, Fp.fin 3, Fp.fin 0] 0x94949494 []
      (by decide)).2.2.2 (by decide) (by
        simp [scaleCamera, scaleAuto, mget, Fp.isZero])⟩

/-! ## Camera mode without camera multipliers -/

theorem scalePre_camera_minus_one (img : List Nat) (maximum black : Int) (cam_mul cam_mul1 : List Fp)
    (height width colors : Nat) (pre_mul : List Fp) (filters : Nat) (white white1 : List Nat)
    (h : mget cam_mul 0 = Fp.fin (-1)) :
    scalePre img maximum black false true cam_mul height width colors pre_mul filters white
      = scalePre img maximum black true false cam_mul1 height width colors pre_mul filters white1 := by
  have a1 : scaleAuto img (maximum - black) black false true cam_mul height width pre_mul
      = autoMul (autoDsum img width height black (maximum - black)) pre_mul := by
    unfold scaleAuto
    rw [if_pos (Or.inr ⟨rfl, h⟩)]
  have a2 : scaleAuto img (maximum - black) black true false cam_mul1 height width pre_mul
      = autoMul (autoDsum img width height black (maximum - black)) pre_mul := by
    unfold scaleAuto
    rw [if_pos (Or.inl rfl)]
  have c1 : ∀ pm, scaleCamera black true cam_mul filters white pm = ScaleOut.mk pm false := by
    intro pm
    unfold scaleCamera
    rw [if_neg (fun hh => hh.2 h)]
  have c2 : ∀ pm, scaleCamera black false cam_mul1 filters white1 pm = ScaleOut.mk pm false := by
    intro pm
    unfold scaleCamera
    rw [if_neg (fun hh => Bool.noConfusion hh.1)]
  unfold scalePre
  rw [a1, a2, c1, c2]

/-- Claim C37. If `use_camera_wb` is set, `use_auto_wb` is clear and
`cam_mul[0] = -1`, `scale_colors_INDI` returns what it returns with
`use_auto_wb` set and `use_camera_wb` clear, for the same inputs and indeed
for any other calibration patch and camera multipliers: in this case the
patch `white` and the entries `cam_mul[1..3]` have no influence. -/
theorem scale_colors_INDI_camera_as_auto (img : List Nat) (maximum black : Int)
    (cam_mul : List Fp) (height width colors : Nat) (pre_mul : List Fp) (filters : Nat)
    (white : List Nat) (h : mget cam_mul 0 = Fp.fin (-1)) :
    scale_colors_INDI img maximum black false true cam_mul height width colors pre_mul filters
        white
      = scale_colors_INDI img maximum black true false cam_mul height width colors pre_mul
          filters white ∧
    ∀ (cam_mul1 : List Fp) (white1 : List Nat), mget cam_mul1 0 = Fp.fin (-1) →
      scale_colors_INDI img maximum black false true cam_mul1 height width colors pre_mul
          filters white1
        = scale_colors_INDI img maximum black false true cam_mul height width colors pre_mul
            filters white := by
  constructor
  · unfold scale_colors_INDI
    rw [scalePre_camera_minus_one img maximum black cam_mul cam_mul height width colors pre_mul
      filters white white h]
  · intro cam_mul1 white1 h1
    unfold scale_colors_INDI
    rw [scalePre_camera_minus_one img maximum black cam_mul1 cam_mul height width colors pre_mul
        filters white1 white h1,
      scalePre_camera_minus_one img maximum black cam_mul cam_mul height width colors pre_mul
        filters white white h]

theorem scale_colors_INDI_camera_as_auto_witness :
    scale_colors_INDI (List.replicate 256 100) 4095 0 false true [Fp.fin (-1), Fp.fin 2, Fp.fin 3, Fp.fin 4] 8 8 3
        [Fp.fin 1, Fp.fin 1, Fp.fin 1, Fp.fin 1] 0x94949494 (List.replicate 64 50)
      = scale_colors_INDI (List.replicate 256 100) 4095 0 true false [Fp.fin (-1), Fp.fin 2, Fp.fin 3, Fp.fin 4] 8 8 3
          [Fp.fin 1, Fp.fin 1, Fp.fin 1, Fp.fin 1] 0x94949494 (List.replicate 64 50) ∧
    ∀ (cam_mul1 : List Fp) (white1 : List Nat), mget cam_mul1 0 = Fp.fin (-1) →
      scale_colors_INDI (List.replicate 256 100) 4095 0 false true cam_mul1 8 8 3
          [Fp.fin 1, Fp.fin 1, Fp.fin 1, Fp.fin 1] 0x94949494 white1
        = scale_colors_INDI (List.replicate 256 100) 4095 0 false true [Fp.fin (-1), Fp.fin 2, Fp.fin 3, Fp.fin 4] 8 8 3
            [Fp.fin 1, Fp.fin 1, Fp.fin 1, Fp.fin 1] 0x94949494 (List.replicate 64 50) :=
  scale_colors_INDI_camera_as_auto (List.replicate 256 100) 4095 0 [Fp.fin (-1), Fp.fin 2, Fp.fin 3, Fp.fin 4] 8 8 3
    [Fp.fin 1, Fp.fin 1, Fp.fin 1, Fp.fin 1] 0x94949494 (List.replicate 64 50) (by decide)

/-! ## Fuji derotation: the rounded coordinates -/

theorem fuji_rotate_INDI_zero (s : FujiState) (colors : Nat) (step : Fp)
    (h : s.fuji_width = 0) : fuji_rotate_INDI s colors step = some s := by
  unfold fuji_rotate_INDI
  rw [if_pos h]

/-- C21: for every buffer, height, width, number of colours and step, a call
of `fuji_rotate_INDI` with `fuji_width = 0` returns at once: the buffer, the
height, the width and `fuji_width` are all unchanged. -/
theorem fuji_rotate_INDI_noop (s : FujiState) (colors : Nat) (step : Fp)
    (h : s.fuji_width = 0) : fuji_rotate_INDI s colors step = some s :=
  fuji_rotate_INDI_zero s colors step h

theorem fuji_rotate_INDI_noop_witness :
    fuji_rotate_INDI (FujiState.mk ([1, 2, 3, 4]) 1 1 0) 3 (Fp.fin (1 / 2))
      = some (FujiState.mk ([1, 2, 3, 4]) 1 1 0) :=
  fuji_rotate_INDI_noop (FujiState.mk ([1, 2, 3, 4]) 1 1 0) 3 (Fp.fin (1 / 2)) rfl

end DcrawIndi
